import Mathlib

/-! Slab allocator of the TightDB core (`src/src/tightdb/alloc_slab.cpp`)

A shallow embedding of `tightdb::SlabAlloc` and a verification of the
allocator's specification against it.

Modelling conventions.

* The allocator object is a record `SlabAlloc`; every member function takes the
  record and returns the new one.
* The two typed tables `m_slabs` and `m_freeSpace` / `m_freeReadOnly` are lists
  of rows.  Column values, refs, pointers and `size_t` locals are mathematical
  integers.  The two narrowing casts that `Alloc` writes explicitly, `(int)size`
  and `(unsigned int)size`, are modelled with their 32-bit wrap-around
  (`int_cast`, `uint_cast`).
* `Alloc` is embedded twice.  `Alloc` computes on the integers, without 64-bit
  wrap-around.  `Alloc64` reduces every `size_t` value modulo 2^64 (`size_t`) and
  stores table cells as 64-bit signed values (`int64_t`).  The two return the
  same on every state whose values lie in `[0, 2^61)` (`InRange`) and whose slab
  ends do not decrease, for every request below 2^61 (`Alloc64_eq_Alloc`);
  outside that range `Alloc64` is the one that follows the machine.  `Verify`
  compares `size_t` values, reduced modulo 2^64.
* A failing `TIGHTDB_ASSERT` aborts the call: the function returns `none`.
* `malloc` is the host allocator, passed as a function from the requested number
  of bytes to the returned address, `0` being `NULL`.
* `void* p` handed to `Free` is the memory it points to, a function from byte
  index to byte value.
* `mmap` is the host mapping call of `ReMap`, passed as a function from the
  requested length to the returned address; the branch of `ReMap` compiled when
  `_MSC_VER` is not defined is the one modelled.
* The contents of allocated blocks are not part of the state.  The `memcpy` of
  `ReAlloc` reaches the allocator through the header of the old block, which
  `Free` reads after the copy: `ReAlloc` takes the address held by `p` and hands
  `Free` the bytes behind `p` as the copy leaves them (`memcpy`).
* `to_ref`, whose definition is not part of the sources, converts a 64-bit value
  to `size_t`; on a 64-bit host it is taken as the identity.
* `*(uint64_t*)p` reads 8 bytes as a little-endian value (`read_u64`).
* `SetShared` is modelled in the branch compiled when `_MSC_VER` is not defined.
  The answers of the host to its system calls are a record `Host`; the static
  `default_header` and its length are parameters.
* `Verify` is a predicate: `true` when none of its assertions fires.
* `RefreshMapping` is modelled in the branch compiled when `_MSC_VER` is not
  defined; the answers of the host to `flock` and `fstat` are parameters.
* `ReAlloc.memcpy` gives the destination and the length of the `memcpy` of
  `ReAlloc`.
-/

namespace tightdb

/-! ## Data model -/

/-- Modelled from the spec: a row of the `FreeSpace` table, whose declaration
(`alloc_slab.hpp`) is not part of the sources: a free range `(ref, size)`, both
columns of the table's integer type. -/
structure FreeEntry where
  ref : Int
  size : Int
deriving DecidableEq

/-- Modelled from the spec: a row of the `Slabs` table, whose declaration
(`alloc_slab.hpp`) is not part of the sources: the cumulative end offset of the
slab and the address of its buffer. -/
structure Slab where
  offset : Int
  pointer : Int
deriving DecidableEq

/-- Modelled from the spec: the `MemRef` result pair of `alloc.hpp` (not part of
the sources): a host address, `0` for `NULL`, and the ref. -/
structure MemRef where
  pointer : Int
  ref : Int
deriving DecidableEq

/-- The members of `SlabAlloc` that the allocator logic reads or writes. -/
structure SlabAlloc where
  m_shared : Int
  m_owned : Bool
  m_baseline : Int
  m_slabs : List Slab
  m_freeSpace : List FreeEntry
  m_freeReadOnly : List FreeEntry
deriving DecidableEq

/-- Memory behind a `void*`: byte index to byte value (taken modulo 256). -/
abbrev Mem := Nat → Nat

/-- Read `header[i]` as a `uint8_t`. -/
def byteAt (p : Mem) (i : Nat) : Nat := p i % 256

/-! ## Table accessors -/

/-- Index of the first element of a list that satisfies `q`. -/
def firstIdx {α : Type} (q : α → Bool) : List α → Option Nat
  | [] => none
  | x :: xs => if q x then some 0 else (firstIdx q xs).map (· + 1)

/-- Modelled from the spec: `Column::find_first` (column code is not part of the
sources): the index of the first row whose value equals `v` (exact match), or
`none` for `not_found`. -/
def find_first (col : List Int) (v : Int) : Option Nat :=
  firstIdx (fun x => decide (x = v)) col

/-- Modelled from the spec: `Column::find_pos` (column code is not part of the
sources): the index of the first row whose value is greater than `v`, or `none`
for `not_found`. -/
def find_pos (col : List Int) (v : Int) : Option Nat :=
  firstIdx (fun x => decide (v < x)) col

/-- In-place write through a cursor: row `i` becomes `f` of itself. -/
def update (rows : List FreeEntry) (i : Nat) (f : FreeEntry → FreeEntry) : List FreeEntry :=
  match rows[i]? with
  | some e => rows.set i (f e)
  | none => rows

/-- The `offset` column of the slab table. -/
def offsets (slabs : List Slab) : List Int := slabs.map Slab.offset

/-- The `ref` column of a free-space table. -/
def refs (rows : List FreeEntry) : List Int := rows.map FreeEntry.ref

/-! ## Block headers -/

/-- `GetCapacityFromHeader`: the 24-bit capacity in header bytes 4..6. -/
def GetCapacityFromHeader (p : Mem) : Nat :=
  (byteAt p 4 <<< 16) + (byteAt p 5 <<< 8) + byteAt p 6

/-- `GetSizeFromHeader`: bytes used by the array, padded to 8, plus the header.
Width type 3 trips `TIGHTDB_ASSERT(false)`. -/
def GetSizeFromHeader (p : Mem) : Option Nat :=
  let width := (1 <<< (byteAt p 0 &&& 0x07)) >>> 1
  let count := (byteAt p 1 <<< 16) + (byteAt p 2 <<< 8) + byteAt p 3
  let wt := (byteAt p 0 &&& 0x18) >>> 3
  let bytes? : Option Nat :=
    if wt = 0 then
      let bits := count * width
      some (if bits &&& 0x7 ≠ 0 then bits / 8 + 1 else bits / 8)
    else if wt = 1 then some (count * width)
    else if wt = 2 then some count
    else none
  bytes?.map fun bytes =>
    -- `(~bytes & 0x7) + 1`: the complement of the low three bits, plus one
    let rest := (7 - bytes % 8) + 1
    (if rest < 8 then bytes + rest else bytes) + 8

/-! ## Construction and address translation -/

/-- `SlabAlloc::SlabAlloc()`: nothing mapped, baseline 8, empty tables. -/
def SlabAlloc.new : SlabAlloc :=
  { m_shared := 0, m_owned := false, m_baseline := 8,
    m_slabs := [], m_freeSpace := [], m_freeReadOnly := [] }

/-- `SlabAlloc::IsReadOnly`. -/
def IsReadOnly (a : SlabAlloc) (ref : Int) : Bool := decide (ref < a.m_baseline)

/-- `SlabAlloc::Translate`: the address a ref resolves to; `none` when the
`ndx != not_found` assertion fires. -/
def Translate (a : SlabAlloc) (ref : Int) : Option Int :=
  if ref < a.m_baseline then some (a.m_shared + ref)
  else
    match find_pos (offsets a.m_slabs) ref with
    | none => none
    | some ndx =>
      match a.m_slabs[ndx]? with
      | none => none
      | some s =>
        let offset : Int :=
          if ndx ≠ 0 then (a.m_slabs.getD (ndx - 1) ⟨0, 0⟩).offset else a.m_baseline
        some (s.pointer + (ref - offset))

/-! ## Alloc -/

/-- `(int)size`: the request truncated to a signed 32-bit integer. -/
def int_cast (size : Nat) : Int := ((size : Int) + 2 ^ 31) % 2 ^ 32 - 2 ^ 31

/-- `(unsigned int)size`: the request truncated to 32 bits. -/
def uint_cast (size : Nat) : Int := ((size % 2 ^ 32 : Nat) : Int)

/-- The first-fit loop of `Alloc` over the mutable ledger (source lines
130-153): at the first row with `r.size >= (int)size` it yields the row's ref
and the updated ledger (row removed when `rest == 0`, shrunk in place
otherwise); `none` when the loop falls through.  `rest` is computed on the
integers; `Alloc64.reuse` computes it modulo 2^64. -/
def Alloc.reuse (size : Nat) : List FreeEntry → Option (Int × List FreeEntry)
  | [] => none
  | r :: rs =>
    if int_cast size ≤ r.size then
      let location := r.ref
      let rest : Int := r.size - size
      if rest = 0 then some (location, rs)
      else some (location, { ref := r.ref + uint_cast size, size := rest } :: rs)
    else (Alloc.reuse size rs).map fun res => (res.1, r :: res.2)

/-- `slabsBack` of `Alloc`: the end of the address space. -/
def Alloc.slabsBack (a : SlabAlloc) : Int :=
  match a.m_slabs.getLast? with
  | none => a.m_baseline
  | some s => s.offset

/-- `doubleLast` of `Alloc`: twice the distance from the last slab's end offset
to the end offset before it, which the code takes as `0` when there is exactly
one slab.  Computed on the integers; `Alloc64.doubleLast` computes it modulo
2^64. -/
def Alloc.doubleLast (a : SlabAlloc) : Int :=
  if a.m_slabs.isEmpty then 0
  else
    (Alloc.slabsBack a -
      (if a.m_slabs.length = 1 then 0
       else (a.m_slabs.getD (a.m_slabs.length - 2) ⟨0, 0⟩).offset)) * 2

/-- `newsize` of `Alloc`: the size of the slab to create.  Computed on the
integers; `Alloc64.newsize` computes `multible` modulo 2^64. -/
def Alloc.newsize (a : SlabAlloc) (size : Nat) : Int :=
  let multible : Int := ((256 * (size / 256 + 1) : Nat) : Int)
  let doubleLast := Alloc.doubleLast a
  if multible > doubleLast then multible else doubleLast

/-- `SlabAlloc::Alloc`, computed on the integers.  `none` is an assertion failure
(size not a multiple of 8, or `Translate` not finding the reused ref); the null
`MemRef` is returned when the host allocation fails.  `Alloc64` is the same
function in 64-bit arithmetic; the two agree on states in range and requests
below 2^61 (`Alloc64_eq_Alloc`). -/
def Alloc (a : SlabAlloc) (malloc : Int → Int) (size : Nat) : Option (MemRef × SlabAlloc) :=
  if size &&& 0x7 ≠ 0 then none
  else
    match Alloc.reuse size a.m_freeSpace with
    | some (location, freeSpace) =>
      let a1 := { a with m_freeSpace := freeSpace }
      (Translate a1 location).map fun pointer => (⟨pointer, location⟩, a1)
    | none =>
      let slabsBack := Alloc.slabsBack a
      let newsize := Alloc.newsize a size
      let slab : Int := if newsize ≠ 0 then malloc newsize else 0
      if slab = 0 then some (⟨0, 0⟩, a)
      else
        let rest : Int := newsize - size
        some (⟨slab, slabsBack⟩,
          { a with
            m_slabs := a.m_slabs ++ [⟨slabsBack + newsize, slab⟩]
            m_freeSpace := a.m_freeSpace ++ [⟨slabsBack + size, rest⟩] })

/-! ## Alloc in 64-bit arithmetic -/

/-- A value held in a `size_t` on a 64-bit host: reduced modulo 2^64. -/
def size_t (x : Int) : Int := x % 2 ^ 64

/-- A value stored in a cell of a typed table, a 64-bit signed integer: reduced
modulo 2^64 to the range from -2^63 to 2^63 - 1. -/
def int64_t (x : Int) : Int := (x + 2 ^ 63) % 2 ^ 64 - 2 ^ 63

/-- The first-fit loop of `Alloc` (source lines 130-153) in 64-bit arithmetic:
`location = (size_t)r.ref`, `rest = (size_t)r.size - size` modulo 2^64, and the
two cells written back, `r.size = rest` and `r.ref += (unsigned int)size`,
stored as 64-bit signed values. -/
def Alloc64.reuse (size : Nat) : List FreeEntry → Option (Int × List FreeEntry)
  | [] => none
  | r :: rs =>
    if int_cast size ≤ r.size then
      let location := size_t r.ref
      let rest : Int := size_t (size_t r.size - size)
      if rest = 0 then some (location, rs)
      else
        some (location,
          { ref := int64_t (r.ref + uint_cast size), size := int64_t rest } :: rs)
    else (Alloc64.reuse size rs).map fun res => (res.1, r :: res.2)

/-- `slabsBack` of `Alloc` in 64-bit arithmetic: `m_baseline` without slabs,
`size_t(m_slabs.back().offset)` otherwise. -/
def Alloc64.slabsBack (a : SlabAlloc) : Int :=
  match a.m_slabs.getLast? with
  | none => a.m_baseline
  | some s => size_t s.offset

/-- `doubleLast` of `Alloc` in 64-bit arithmetic: the difference of the last two
slab ends, `size_t(0)` standing for the second when there is one slab, and its
double, both modulo 2^64. -/
def Alloc64.doubleLast (a : SlabAlloc) : Int :=
  if a.m_slabs.isEmpty then 0
  else
    size_t ((Alloc64.slabsBack a -
      (if a.m_slabs.length = 1 then 0
       else size_t (a.m_slabs.getD (a.m_slabs.length - 2) ⟨0, 0⟩).offset)) * 2)

/-- `newsize` of `Alloc` in 64-bit arithmetic: `multible = 256 * ((size / 256) + 1)`
modulo 2^64, or `doubleLast` when that is larger. -/
def Alloc64.newsize (a : SlabAlloc) (size : Nat) : Int :=
  let multible : Int := size_t ((256 * (size / 256 + 1) : Nat) : Int)
  let doubleLast := Alloc64.doubleLast a
  if multible > doubleLast then multible else doubleLast

/-- `SlabAlloc::Alloc` in 64-bit arithmetic, for a request `size` below 2^64:
every `size_t` local is reduced modulo 2^64 and every cell written to a table is
stored as a 64-bit signed value.  `none` and the null `MemRef` are as in
`Alloc`. -/
def Alloc64 (a : SlabAlloc) (malloc : Int → Int) (size : Nat) : Option (MemRef × SlabAlloc) :=
  if size &&& 0x7 ≠ 0 then none
  else
    match Alloc64.reuse size a.m_freeSpace with
    | some (location, freeSpace) =>
      let a1 := { a with m_freeSpace := freeSpace }
      (Translate a1 location).map fun pointer => (⟨pointer, location⟩, a1)
    | none =>
      let slabsBack := Alloc64.slabsBack a
      let newsize := Alloc64.newsize a size
      let slab : Int := if newsize ≠ 0 then malloc newsize else 0
      if slab = 0 then some (⟨0, 0⟩, a)
      else
        let rest : Int := size_t (newsize - size)
        some (⟨slab, slabsBack⟩,
          { a with
            m_slabs := a.m_slabs ++ [⟨int64_t (size_t (slabsBack + newsize)), slab⟩]
            m_freeSpace :=
              a.m_freeSpace ++ [⟨int64_t (size_t (slabsBack + size)), int64_t rest⟩] })

/-! ## Free -/

/-- The forward check of `Free` (source lines 203-212): the row `n` that starts
at `refEnd`, when there is one and `refEnd` is not a slab border; this is the
row that is merged, and `isMerged` is whether there is one. -/
def Free.forward (slabOffsets : List Int) (freeSpace : List FreeEntry) (refEnd : Int) :
    Option Nat :=
  match find_first (refs freeSpace) refEnd with
  | some n => if find_first slabOffsets refEnd = none then some n else none
  | none => none

/-- The ledger after the forward merge: row `n` now starts at `ref` and is
`size` bytes larger. -/
def Free.afterForward (freeSpace : List FreeEntry) (ref : Int) (size : Nat) :
    Option Nat → List FreeEntry
  | some n => update freeSpace n fun e => { ref := ref, size := e.size + size }
  | none => freeSpace

/-- The backward scan of `Free` (source lines 215-223): unless `ref` is a slab
border, the first row whose end is `ref`. -/
def Free.backward (slabOffsets : List Int) (freeSpace : List FreeEntry) (ref : Int) :
    Option Nat :=
  if find_first slabOffsets ref = none then
    firstIdx (fun c => decide (ref = c.ref + c.size)) freeSpace
  else none

/-- The body of `Free` on the selected ledger (source lines 194-236), given the
slab table's offset column, the block's ref and the size read from its header. -/
def Free.merge (slabOffsets : List Int) (freeSpace : List FreeEntry) (ref : Int) (size : Nat) :
    List FreeEntry :=
  let refEnd : Int := ref + size
  -- Check if we can merge with start of free block
  let merged := Free.forward slabOffsets freeSpace refEnd
  let freeSpace1 := Free.afterForward freeSpace ref size merged
  -- Check if we can merge with end of free block
  match Free.backward slabOffsets freeSpace1 ref, merged with
  | some i, some n =>
    (update freeSpace1 i fun c =>
      { c with size := c.size + (freeSpace1.getD n ⟨0, 0⟩).size }).eraseIdx n
  | some i, none => update freeSpace1 i fun c => { c with size := c.size + size }
  -- Else just add to freelist
  | none, some _ => freeSpace1
  | none, none => freeSpace1 ++ [⟨ref, size⟩]

/-- The size `Free` reads from the block: `GetSizeFromHeader` in the read-only
region, `GetCapacityFromHeader` otherwise. -/
def Free.size (a : SlabAlloc) (ref : Int) (p : Mem) : Option Nat :=
  if IsReadOnly a ref then GetSizeFromHeader p else some (GetCapacityFromHeader p)

/-- The ledger `Free` works on, `FreeSpace& freeSpace`: the read-only ledger for
a ref below baseline, the mutable ledger otherwise. -/
def Free.selected (a : SlabAlloc) (ref : Int) : List FreeEntry :=
  if IsReadOnly a ref then a.m_freeReadOnly else a.m_freeSpace

/-- Writing through `FreeSpace& freeSpace`: the selected ledger becomes `rows`. -/
def Free.store (a : SlabAlloc) (ref : Int) (rows : List FreeEntry) : SlabAlloc :=
  if IsReadOnly a ref then { a with m_freeReadOnly := rows } else { a with m_freeSpace := rows }

/-- `SlabAlloc::Free`.  `none` is the assertion failure of `GetSizeFromHeader`. -/
def Free (a : SlabAlloc) (ref : Int) (p : Mem) : Option SlabAlloc :=
  (Free.size a ref p).map fun size =>
    Free.store a ref (Free.merge (offsets a.m_slabs) (Free.selected a ref) ref size)

/-! ## Consistency check -/

/-- The loop of `IsAllFree`: walking the slabs from `ref`, every slab start must
be the ref of a ledger row (the first such row) whose size is the slab's span. -/
def IsAllFree.loop (freeSpace : List FreeEntry) : Int → List Slab → Bool
  | _, [] => true
  | ref, c :: cs =>
    let size := c.offset - ref
    match find_first (refs freeSpace) ref with
    | none => false
    | some r =>
      if size ≠ (freeSpace.getD r ⟨0, 0⟩).size then false
      else IsAllFree.loop freeSpace c.offset cs

/-- `SlabAlloc::IsAllFree`. -/
def IsAllFree (a : SlabAlloc) : Bool :=
  if a.m_freeSpace.length ≠ a.m_slabs.length then false
  else IsAllFree.loop a.m_freeSpace a.m_baseline a.m_slabs

/-! ## Histories of calls -/

/-- A host allocator that always succeeds: a request of `n` bytes is answered
with the address `4096 * n`, so that buffers of different sizes do not overlap. -/
def exMalloc : Int → Int := fun n => 4096 * n

/-- A live block: its ref and the size it was allocated with. -/
abbrev Block := Int × Nat

/-- One call of a replayed history, with what the host supplies to it: the
`malloc` behaviour for an `Alloc`, the memory behind `p` for a `Free`. -/
inductive Op where
  | alloc (size : Nat) (malloc : Int → Int)
  | free (ref : Int) (p : Mem)

/-- The outcome of replaying a history: the calls ran to completion (final state
and live blocks), a call aborted on an assertion, or a `Free` of the history was
not applied to a live block with the size it was allocated with. -/
inductive Replayed where
  | done (a : SlabAlloc) (live : List Block)
  | aborted
  | notLive
deriving DecidableEq

/-- Replays a history of `Alloc` and `Free` calls from state `a` with live blocks
`live`.  An `Alloc` that returns a non-null result makes the block `(ref, size)`
live.  A `Free` is accepted only when it is applied to a live block whose
capacity header holds the size it was allocated with, and ends that block's
life. -/
def replay : SlabAlloc → List Block → List Op → Replayed
  | a, live, [] => Replayed.done a live
  | a, live, Op.alloc size malloc :: ops =>
    match Alloc a malloc size with
    | none => Replayed.aborted
    | some (r, a1) =>
      replay a1 (if r.pointer = 0 then live else live ++ [(r.ref, size)]) ops
  | a, live, Op.free ref p :: ops =>
    if (ref, GetCapacityFromHeader p) ∈ live then
      match Free a ref p with
      | none => Replayed.aborted
      | some a1 => replay a1 (live.erase (ref, GetCapacityFromHeader p)) ops
    else Replayed.notLive

/-- Two byte ranges `[ref, ref + size)` share no byte. -/
def Block.disjoint (b c : Block) : Prop :=
  ∀ x : Int, ¬ ((b.1 ≤ x ∧ x < b.1 + b.2) ∧ (c.1 ≤ x ∧ x < c.1 + c.2))

/-- A block header whose capacity field (bytes 4..6) holds `cap`. -/
def capHeader (cap : Nat) : Mem := fun i =>
  if i = 4 then cap / 65536 else if i = 5 then cap / 256 else if i = 6 then cap else 0

/-! ## Vocabulary of the specification -/

/-- A free row spans the address `E`: it starts before `E` and ends after it. -/
def FreeEntry.spans (e : FreeEntry) (E : Int) : Prop := e.ref < E ∧ E < e.ref + e.size

/-- A free row contains the byte range of the block `(ref, size)`. -/
def FreeEntry.covers (e : FreeEntry) (ref : Int) (size : Nat) : Prop :=
  e.ref ≤ ref ∧ ref + size ≤ e.ref + e.size

/-- Every range described by a row of `L` lies inside a row of `M`. -/
def coveredBy (L M : List FreeEntry) : Prop :=
  ∀ e ∈ L, ∃ e' ∈ M, e'.ref ≤ e.ref ∧ e.ref + e.size ≤ e'.ref + e'.size

/-- Modelled from the spec: `round_up(n, m)`, which rounds `n` to the next
multiple of `m` and leaves exact multiples unchanged. -/
def round_up (n m : Nat) : Nat := (n + m - 1) / m * m

/-! ## Ownership of bytes -/

/-- The byte `x` lies in the free row `e`. -/
def FreeEntry.has (e : FreeEntry) (x : Int) : Bool := decide (e.ref ≤ x ∧ x < e.ref + e.size)

/-- The byte `x` lies in the block `b`. -/
def Block.has (b : Block) (x : Int) : Bool := decide (b.1 ≤ x ∧ x < b.1 + b.2)

/-- How many free rows and live blocks contain the byte `x`. -/
def owners (rows : List FreeEntry) (live : List Block) (x : Int) : Nat :=
  rows.countP (fun e => e.has x) + live.countP (fun b => b.has x)

/-- A free row lies in the slab chain `[lo, hi)` and has a non-negative size. -/
def FreeEntry.within (lo hi : Int) (e : FreeEntry) : Prop :=
  0 ≤ e.size ∧ lo ≤ e.ref ∧ e.ref < hi ∧ e.ref + e.size ≤ hi

/-- The state is sound for the live blocks: free rows and live blocks lie in the
slab chain and no byte belongs to two of them. -/
structure Sound (a : SlabAlloc) (live : List Block) : Prop where
  rows : ∀ e ∈ a.m_freeSpace, e.within a.m_baseline (Alloc.slabsBack a)
  blocks : ∀ b ∈ live, (FreeEntry.mk b.1 b.2).within a.m_baseline (Alloc.slabsBack a)
  once : ∀ x, owners a.m_freeSpace live x ≤ 1
  base : a.m_baseline ≤ Alloc.slabsBack a

/-- A call that `Alloc` serves without 32-bit truncation: the request is a
multiple of 8 below 2^31.  Nothing is asked of a `Free`. -/
def Op.small : Op → Prop
  | Op.alloc size _ => size % 8 = 0 ∧ size < 2 ^ 31
  | Op.free _ _ => True

/-- The state tiles the slab chain for the live blocks: it is sound, every byte
of the chain belongs to exactly one free row or live block, rows and blocks are
non-empty and cross no slab border, two adjacent free rows only meet at a slab
border, the slab end offsets increase from baseline, and slab addresses are
positive. -/
structure Tiled (a : SlabAlloc) (live : List Block) : Prop where
  sound : Sound a live
  full : ∀ x, a.m_baseline ≤ x → x < Alloc.slabsBack a → owners a.m_freeSpace live x = 1
  rows_pos : ∀ e ∈ a.m_freeSpace, 0 < e.size
  live_pos : ∀ b ∈ live, 0 < b.2
  rows_span : ∀ e ∈ a.m_freeSpace, ∀ o ∈ offsets a.m_slabs, ¬ e.spans o
  live_span : ∀ b ∈ live, ∀ o ∈ offsets a.m_slabs, ¬ (FreeEntry.mk b.1 b.2).spans o
  coalesced : ∀ e1 ∈ a.m_freeSpace, ∀ e2 ∈ a.m_freeSpace,
    e1.ref + e1.size = e2.ref → e2.ref ∈ offsets a.m_slabs
  sorted : (a.m_baseline :: offsets a.m_slabs).Pairwise (· < ·)
  pointers : ∀ s ∈ a.m_slabs, 0 < s.pointer

/-- A call of a history of non-empty requests: the request is a multiple of 8,
positive and below 2^31, and the host answers with non-negative addresses.
Nothing is asked of a `Free`. -/
def Op.positive : Op → Prop
  | Op.alloc size malloc => size % 8 = 0 ∧ 0 < size ∧ size < 2 ^ 31 ∧ ∀ n, 0 ≤ malloc n
  | Op.free _ _ => True

/-- The rows of a fully free allocator: one row per slab, from the end of the
slab before it (the baseline for the first) to the slab's own end offset.  This
is the rebuild loop of `FreeAll` (source lines 481-490), started at `ref`. -/
def slabRows : Int → List Slab → List FreeEntry
  | _, [] => []
  | ref, c :: cs => ⟨ref, c.offset - ref⟩ :: slabRows c.offset cs

/-- The end of a slab chain: the last slab's end offset, or `ref` without slabs. -/
def lastOffset (ref : Int) (cs : List Slab) : Int :=
  match cs.getLast? with
  | none => ref
  | some s => s.offset

/-! ## ReAlloc -/

/-- The bytes behind `p` after `memcpy(dest, p, n)`, `addr` being the address
that `p` holds: the byte of `p` at index `i`, whose address is `addr + i`, is
overwritten when that address lies in the destination range
`[dest, dest + n)`, by the source byte at index `addr + i - dest`.  Where source
and destination overlap, every source byte is taken as it was before the
call. -/
def memcpy (p : Mem) (addr dest : Int) (n : Nat) : Mem := fun i =>
  if dest ≤ addr + i ∧ addr + i < dest + n then p (addr + i - dest).toNat else p i

/-- `SlabAlloc::ReAlloc`; `addr` is the address that `p` holds and `p` the bytes
behind it.  `none` is an assertion failure, of `ReAlloc` itself (size not a
multiple of 8) or of the nested `Alloc` or `Free`.  When the nested `Alloc`
returns a null pointer, its result is returned as it is and nothing is freed.
Otherwise the old block is copied to the new address, and `Free` then reads the
header behind `p` as the copy left it. -/
def ReAlloc (a : SlabAlloc) (malloc : Int → Int) (ref : Int) (addr : Int) (p : Mem)
    (size : Nat) : Option (MemRef × SlabAlloc) :=
  if size &&& 0x7 ≠ 0 then none
  else
    match Alloc a malloc size with
    | none => none
    | some (space, a1) =>
      if space.pointer = 0 then some (space, a1)
      else
        -- Get size of old segment
        let oldsize := GetCapacityFromHeader p
        -- Copy existing segment
        let copied := memcpy p addr space.pointer oldsize
        -- Add old segment to freelist
        (Free a1 ref copied).map fun a2 => (space, a2)

/-- The specification's reading of `reallocate`, allocate-then-copy-then-free:
`Alloc(size)` followed by `Free(ref, p)` in the state `Alloc` left, returning
what `Alloc` returned. -/
def allocThenFree (a : SlabAlloc) (malloc : Int → Int) (ref : Int) (p : Mem) (size : Nat) :
    Option (MemRef × SlabAlloc) :=
  (Alloc a malloc size).bind fun res => (Free res.2 ref p).map fun a2 => (res.1, a2)

/-! ## FreeAll and ReMap -/

/-- `(size_t)-1` on a 64-bit host: the `filesize` for which `FreeAll` does not
remap. -/
def no_remap : Nat := 2 ^ 64 - 1

/-- The rebase loop of `ReMap` (source lines 522-530): row `i` of the mutable
ledger is moved to `new_offset`, which then advances by the row's size and
becomes the end offset of slab `i`.  The loop runs over the slabs; the size
assertion of `ReMap` gives every slab a row. -/
def ReMap.rebase : Int → List Slab → List FreeEntry → List Slab × List FreeEntry
  | _, [], rows => ([], rows)
  | _, slabs, [] => (slabs, [])
  | new_offset, s :: slabs, c :: rows =>
    let res := ReMap.rebase (new_offset + c.size) slabs rows
    ({ s with offset := new_offset + c.size } :: res.1, { c with ref := new_offset } :: res.2)

/-- `SlabAlloc::ReMap`, the branch compiled when `_MSC_VER` is not defined.
`mmap` is the host mapping call, from the requested length to the address it
returns.  `none` is an assertion failure: read-only ledger not empty, row count
different from slab count, `filesize` below baseline or not a multiple of 8, or
a null mapping. -/
def ReMap (a : SlabAlloc) (mmap : Int → Int) (filesize : Nat) : Option (Bool × SlabAlloc) :=
  if a.m_freeReadOnly ≠ [] then none
  else if a.m_slabs.length ≠ a.m_freeSpace.length then none
  else if (filesize : Int) = a.m_baseline then some (false, a)
  else if (filesize : Int) < a.m_baseline then none
  else if filesize &&& 0x7 ≠ 0 then none
  else
    let p := mmap filesize
    if p = 0 then none
    else
      let res := ReMap.rebase filesize a.m_slabs a.m_freeSpace
      some (true,
        { a with m_shared := p, m_baseline := filesize, m_slabs := res.1, m_freeSpace := res.2 })

/-- The state of `FreeAll` after both ledgers are cleared and the mutable ledger
is rebuilt from the slab table (source lines 477-490). -/
def FreeAll.rebuild (a : SlabAlloc) : SlabAlloc :=
  { a with m_freeReadOnly := [], m_freeSpace := slabRows a.m_baseline a.m_slabs }

/-- `SlabAlloc::FreeAll`.  `none` is an assertion failure: `filesize` below
baseline, `filesize` neither a multiple of 8 nor `(size_t)-1`, an assertion of
the nested `ReMap`, or the closing `IsAllFree`. -/
def FreeAll (a : SlabAlloc) (mmap : Int → Int) (filesize : Nat) : Option SlabAlloc :=
  if (filesize : Int) < a.m_baseline then none
  else if ¬ (filesize &&& 0x7 = 0 ∨ filesize = no_remap) then none
  else
    let a1 := FreeAll.rebuild a
    let remapped : Option SlabAlloc :=
      if filesize ≠ no_remap then (ReMap a1 mmap filesize).map fun res => res.2 else some a1
    remapped.bind fun a2 => if IsAllFree a2 then some a2 else none

/-- The logical address at which slab `i` starts: the end offset of the slab
before it, baseline for the first slab. -/
def slabStart (a : SlabAlloc) (i : Nat) : Int :=
  if i ≠ 0 then (a.m_slabs.getD (i - 1) ⟨0, 0⟩).offset else a.m_baseline

/-- The size of slab `i`: its end offset minus its start. -/
def slabSize (a : SlabAlloc) (i : Nat) : Int :=
  (a.m_slabs.getD i ⟨0, 0⟩).offset - slabStart a i

/-! ## Opening a database and reading its header -/

/-- `*(uint64_t*)(p + off)`: the 8 bytes at `off` read as one unsigned 64-bit
value on a little-endian host. -/
def read_u64 (mem : Mem) (off : Nat) : Nat :=
  byteAt mem off + byteAt mem (off + 1) * 2 ^ 8 + byteAt mem (off + 2) * 2 ^ 16 +
    byteAt mem (off + 3) * 2 ^ 24 + byteAt mem (off + 4) * 2 ^ 32 +
    byteAt mem (off + 5) * 2 ^ 40 + byteAt mem (off + 6) * 2 ^ 48 +
    byteAt mem (off + 7) * 2 ^ 56

/-- `SlabAlloc::SetSharedBuffer`: `buffer` is the address handed in and `mem` the
bytes behind it.  The only check is `ref > len` on the 8-byte value at offset 0. -/
def SetSharedBuffer (a : SlabAlloc) (buffer : Int) (mem : Mem) (len : Nat)
    (take_ownership : Bool) : Bool × SlabAlloc :=
  let ref := read_u64 mem 0
  if ref > len then (false, a)
  else (true, { a with m_shared := buffer, m_baseline := len, m_owned := take_ownership })

/-- `SlabAlloc::CanPersist`. -/
def CanPersist (a : SlabAlloc) : Bool := decide (a.m_shared ≠ 0)

/-- `SlabAlloc::GetTopRef`: `shared` is the memory behind `m_shared`.  `none` is
an assertion failure: nothing mapped, baseline zero, or the selected top ref not
below baseline. -/
def GetTopRef (a : SlabAlloc) (shared : Mem) : Option Nat :=
  if ¬ (a.m_shared ≠ 0 ∧ 0 < a.m_baseline) then none
  else
    -- Last bit in info block indicates which top_ref block is valid
    let valid_ref := byteAt shared 23 &&& 0x1
    let ref := read_u64 shared (8 * valid_ref)
    if ¬ ((ref : Int) < a.m_baseline) then none else some ref

/-- What the host answers to the system calls of `SetShared`, in the order they
are made: `open` (a negative descriptor is a failure), the first `fstat` (the
file length, `none` on failure), `flock(LOCK_EX)`, the second `fstat`, `write`
of the default header, `ftruncate`, `flock(LOCK_UN)` (each `true` on success),
`mmap` (`-1` is `MAP_FAILED`), and the bytes of the file as it is found. -/
structure Host where
  fd : Int
  st_size : Option Nat
  flock_ex : Bool
  st_size2 : Option Nat
  write : Bool
  ftruncate : Bool
  flock_un : Bool
  mmap : Int
  file : Mem

/-- What a call of `SetShared` leaves: the value returned, the allocator, the
member `m_fd`, whether the descriptor was closed, whether the file was given the
default header and a length of 1 MiB, and whether a mapping made by the call is
still mapped when it returns. -/
structure Opened where
  ok : Bool
  alloc : SlabAlloc
  m_fd : Int
  closed : Bool
  initialised : Bool
  mapped : Bool
deriving DecidableEq

/-- The block "Handle empty files" of `SetShared` (source lines 342-366), entered
with the length `len` of the first `fstat`: the value of `len` after the block,
`none` when the block is left through `goto error`. -/
def SetShared.len (h : Host) ( read_only : Bool) (len : Nat) : Option Nat :=
  if len = 0 then
    if read_only then none -- non-existing or empty file
    else if ¬ h.flock_ex then none
    else
      match h.st_size2 with
      | none => none
      | some len2 =>
        let created : Option Nat :=
          if len2 = 0 then
            if ¬ h.write then none
            else if ¬ h.ftruncate then none
            else some (1024 * 1024)
          else some len2
        created.bind fun len3 => if ¬ h.flock_un then none else some len3
  else some len

/-- Whether the call wrote the default header and gave the file its initial
length of 1 MiB: the file was found empty, also under the lock, it was not opened
read-only, and `write` and `ftruncate` succeeded. -/
def SetShared.initialised (h : Host) ( read_only : Bool) : Bool :=
  decide (0 ≤ h.fd) && decide (h.st_size = some 0) && !read_only && h.flock_ex &&
    decide (h.st_size2 = some 0) && h.write && h.ftruncate

/-- The bytes seen through the mapping: the default header followed by zeros when
the call has just initialised the file, the file as found otherwise. -/
def SetShared.file_header (h : Host) (default_header : Mem) (header_len : Nat)
    ( read_only : Bool) : Mem :=
  if SetShared.initialised h read_only then
    fun i => if i < header_len then default_header i else 0
  else h.file

/-- `SlabAlloc::SetShared`, the branch compiled when `_MSC_VER` is not defined.
`default_header` and `header_len` are constants declared outside the sources.
The `error` label closes the descriptor; the two format rejections return
without closing it and without unmapping. -/
def SetShared (a : SlabAlloc) (h : Host) (default_header : Mem) (header_len : Nat)
    ( read_only : Bool) : Opened :=
  let init := SetShared.initialised h read_only
  if h.fd < 0 then
    { ok := false, alloc := a, m_fd := h.fd, closed := false, initialised := false,
      mapped := false }
  else
    let error : Opened :=
      { ok := false, alloc := a, m_fd := h.fd, closed := true, initialised := init,
        mapped := false }
    let rejected : Opened :=
      { ok := false, alloc := a, m_fd := h.fd, closed := false, initialised := init,
        mapped := true }
    match h.st_size with
    | none => error
    | some len0 =>
      match SetShared.len h read_only len0 with
      | none => error
      | some len =>
        -- Verify that data is 64bit aligned
        if len &&& 0x7 ≠ 0 then error
        else if h.mmap = -1 then error
        else
          let file_header := SetShared.file_header h default_header header_len read_only
          -- First four bytes of info block is file format id ('T', '-', 'D', 'B')
          if ¬ (byteAt file_header 16 = 84 ∧ byteAt file_header 17 = 45 ∧
              byteAt file_header 18 = 68 ∧ byteAt file_header 19 = 66) then rejected
          else
            let valid_part := byteAt file_header 23 &&& 0x1
            if valid_part ≠ 0 ∧ valid_part ≠ 1 then rejected
            else
              let version := byteAt file_header (if valid_part ≠ 0 then 21 else 20)
              if version ≠ 0 then rejected
              else
                { ok := true, alloc := { a with m_shared := h.mmap, m_baseline := len },
                  m_fd := h.fd, closed := false, initialised := init, mapped := true }

/-! ## Verify -/

/-- The body of the loop of `Verify` for one free row: the slab found for the
row's ref must exist and the row must end at or before that slab's end.  `ref`,
`slab_end` and `free_end` are `size_t` values: the sum `ref + to_ref(c.size)` and
the comparison are taken modulo 2^64. -/
def Verify.row (a : SlabAlloc) (c : FreeEntry) : Bool :=
  let ref := size_t c.ref
  match find_pos (offsets a.m_slabs) ref with
  | none => false
  | some ndx =>
    let slab_end := size_t (a.m_slabs.getD ndx ⟨0, 0⟩).offset
    let free_end := size_t (ref + size_t c.size)
    decide (free_end ≤ slab_end)

/-- `SlabAlloc::Verify`: `true` when no assertion fires. -/
def Verify (a : SlabAlloc) : Bool := a.m_freeSpace.all (Verify.row a)
/-! ## Vocabulary of the block header -/

/-- Modelled from the spec: the element width of a block header: 0 when the
3-bit selector is 0, `2^(selector - 1)` otherwise. -/
def headerWidth (p : Mem) : Nat :=
  if byteAt p 0 % 8 = 0 then 0 else 2 ^ (byteAt p 0 % 8 - 1)

/-- Modelled from the spec: the 24-bit big-endian element count in header bytes
1..3. -/
def headerCount (p : Mem) : Nat := byteAt p 1 * 65536 + byteAt p 2 * 256 + byteAt p 3

/-- Modelled from the spec: the width type of a block header, bits 3 and 4 of
its first byte. -/
def headerWidthType (p : Mem) : Nat := byteAt p 0 / 8 % 4

/-- Modelled from the spec: the payload of a block in bytes:
`ceil(count * width / 8)` when bit-packed (width type 0), `count * width` when
byte-multiplied (width type 1), `count` otherwise (raw byte count). -/
def headerPayload (p : Mem) : Nat :=
  if headerWidthType p = 0 then (headerCount p * headerWidth p + 7) / 8
  else if headerWidthType p = 1 then headerCount p * headerWidth p
  else headerCount p

/-- Every slab end offset, baseline and every ref and size of both ledgers is a
multiple of 8. -/
structure Aligned (a : SlabAlloc) : Prop where
  baseline : a.m_baseline % 8 = 0
  slabs : ∀ s ∈ a.m_slabs, s.offset % 8 = 0
  rows : ∀ e ∈ a.m_freeSpace, e.ref % 8 = 0 ∧ e.size % 8 = 0
  readOnly : ∀ e ∈ a.m_freeReadOnly, e.ref % 8 = 0 ∧ e.size % 8 = 0

/-! ## Vocabulary of the invariants -/

/-- The range `[ref, ref + size)` lies inside a single slab, the way `Verify`
checks it: some slab ends above `ref`, and the range ends at or before the end of
the first such slab. -/
def inSlab (offs : List Int) (ref size : Int) : Prop :=
  ∃ k o, find_pos offs ref = some k ∧ offs[k]? = some o ∧ ref + size ≤ o

/-- The slab end offsets increase strictly, the first being above baseline. -/
def Ascending (a : SlabAlloc) : Prop := (a.m_baseline :: offsets a.m_slabs).Pairwise (· < ·)

/-- Every row of the mutable ledger lies inside a single slab. -/
def Fits (a : SlabAlloc) : Prop :=
  ∀ c ∈ a.m_freeSpace, inSlab (offsets a.m_slabs) c.ref c.size

/-- Every value of the state is in range: baseline, the slab end offsets and the
refs and sizes of the mutable ledger are at least 0 and below 2^61.  On such
values no `size_t` or 64-bit signed computation of `Alloc` and `Verify`
wraps. -/
structure InRange (a : SlabAlloc) : Prop where
  baseline : 0 ≤ a.m_baseline ∧ a.m_baseline < 2 ^ 61
  slabs : ∀ s ∈ a.m_slabs, 0 ≤ s.offset ∧ s.offset < 2 ^ 61
  rows : ∀ e ∈ a.m_freeSpace, (0 ≤ e.ref ∧ e.ref < 2 ^ 61) ∧ (0 ≤ e.size ∧ e.size < 2 ^ 61)

/-! ## Total size, the copy of `ReAlloc`, and refreshing the mapping -/

/-- `SlabAlloc::GetTotalSize`: baseline without slabs, the last slab's end offset
otherwise. -/
def GetTotalSize (a : SlabAlloc) : Int :=
  if a.m_slabs.isEmpty then a.m_baseline
  else (a.m_slabs.getLast?.getD ⟨0, 0⟩).offset

/-- The slab index and the offset inside that slab which `Translate` computes for
a ref that is not below baseline (source lines 273-277): `ndx`, the first slab
whose end offset is above `ref`, and `ref - offset`, where `offset` is the end of
the slab before it, or baseline for the first slab. -/
def Translate.slab (a : SlabAlloc) (ref : Int) : Option (Nat × Int) :=
  match find_pos (offsets a.m_slabs) ref with
  | none => none
  | some ndx =>
    let offset : Int :=
      if ndx ≠ 0 then (a.m_slabs.getD (ndx - 1) ⟨0, 0⟩).offset else a.m_baseline
    some (ndx, ref - offset)

/-- The `memcpy(space.pointer, p, oldsize)` of `ReAlloc` (source lines 251-255):
the destination address and the number of bytes copied, `oldsize` being
`GetCapacityFromHeader(p)`.  `none` when the call aborts on an assertion or
returns before the copy because the nested `Alloc` returned a null pointer. -/
def ReAlloc.memcpy (a : SlabAlloc) (malloc : Int → Int) (p : Mem) (size : Nat) :
    Option (Int × Nat) :=
  if size &&& 0x7 ≠ 0 then none
  else
    match Alloc a malloc size with
    | none => none
    | some (space, _) =>
      if space.pointer = 0 then none
      else
        let oldsize := GetCapacityFromHeader p
        some (space.pointer, oldsize)

/-- `SlabAlloc::RefreshMapping`, the branch compiled when `_MSC_VER` is not
defined.  The host answers `flock(LOCK_EX)`, `fstat` (the file length, `none` on
failure) and `flock(LOCK_UN)`; `mmap` is the mapping call of the nested `ReMap`.
`none` is an assertion failure of `ReMap`. -/
def RefreshMapping (a : SlabAlloc) (flock_ex : Bool) (st_size : Option Nat) (mmap : Int → Int)
    (flock_un : Bool) : Option (Bool × SlabAlloc) :=
  if ¬ flock_ex then some (false, a)
  else
    match st_size with
    | none => some (false, a)
    | some len =>
      -- Remap file if needed
      (ReMap a mmap len).map fun res => (flock_un, res.2)

/-! ## Ledger ranges, reachable states and accounting -/

/-- The ledger range predicate: every row of the read-only ledger has its ref
below baseline and every row of the mutable ledger has its ref at or above
baseline. -/
def Ranged (a : SlabAlloc) : Prop :=
  (∀ e ∈ a.m_freeReadOnly, e.ref < a.m_baseline) ∧ (∀ e ∈ a.m_freeSpace, a.m_baseline ≤ e.ref)

instance (a : SlabAlloc) : Decidable (Ranged a) :=
  inferInstanceAs (Decidable (_ ∧ _))

/-- The states reached from a fresh allocator by the calls that change the
allocator, with any arguments and any answers of the host: `Alloc`, `Free`,
`ReAlloc`, `FreeAll`, `SetSharedBuffer` and `SetShared`.  `ReMap` called on its
own, as `RefreshMapping` does, is not among them. -/
inductive Reachable : SlabAlloc → Prop where
  | fresh : Reachable SlabAlloc.new
  | alloc (a a1 : SlabAlloc) (malloc : Int → Int) (size : Nat) (r : MemRef) :
      Reachable a → Alloc a malloc size = some (r, a1) → Reachable a1
  | free (a a1 : SlabAlloc) (ref : Int) (p : Mem) :
      Reachable a → Free a ref p = some a1 → Reachable a1
  | realloc (a a1 : SlabAlloc) (malloc : Int → Int) (ref : Int) (addr : Int) (p : Mem)
      (size : Nat) (r : MemRef) :
      Reachable a → ReAlloc a malloc ref addr p size = some (r, a1) → Reachable a1
  | freeAll (a a1 : SlabAlloc) (mmap : Int → Int) (filesize : Nat) :
      Reachable a → FreeAll a mmap filesize = some a1 → Reachable a1
  | setSharedBuffer (a : SlabAlloc) (buffer : Int) (mem : Mem) (len : Nat) (own : Bool) :
      Reachable a → Reachable (SetSharedBuffer a buffer mem len own).2
  | setShared (a : SlabAlloc) (h : Host) (dh : Mem) (hl : Nat) (ro : Bool) :
      Reachable a → Reachable (SetShared a h dh hl ro).alloc

/-- The sum of the sizes of the rows of a ledger. -/
def freeBytes (rows : List FreeEntry) : Int := (rows.map FreeEntry.size).sum

/-- The sum of the sizes of the live blocks. -/
def liveBytes (live : List Block) : Int := (live.map fun b => (b.2 : Int)).sum

/-- A call for which the host allocator answers a request with an address that
is not negative, as addresses are.  Nothing is asked of a `Free`. -/
def Op.unsigned : Op → Prop
  | Op.alloc _ malloc => ∀ n, 0 ≤ n → 0 ≤ malloc n
  | Op.free _ _ => True

/-- The books balance for the live blocks: the free bytes of the mutable ledger
and the bytes of the live blocks add up to the span from baseline to the end of
the last slab; besides, the ledger range predicate holds, no live block starts
below baseline, the total size is not below baseline, and slab addresses are
positive. -/
structure Balanced (a : SlabAlloc) (live : List Block) : Prop where
  ranged : Ranged a
  base : a.m_baseline ≤ Alloc.slabsBack a
  blocks : ∀ b ∈ live, a.m_baseline ≤ b.1
  pointers : ∀ s ∈ a.m_slabs, 0 < s.pointer
  sum : freeBytes a.m_freeSpace + liveBytes live = Alloc.slabsBack a - a.m_baseline

/-! ## Example states -/

/-- Three allocations, the third of size 0 opening a second slab at 520, then
every block freed, the empty one first. -/
def exZeroHistory : List Op :=
  [Op.alloc 256 exMalloc, Op.alloc 256 exMalloc, Op.alloc 0 exMalloc,
   Op.free 520 (capHeader 0), Op.free 8 (capHeader 256), Op.free 264 (capHeader 256)]

/-- Three allocations, the second of 2 GiB. -/
def exHugeHistory : List Op :=
  [Op.alloc 8 exMalloc, Op.alloc 2147483648 exMalloc, Op.alloc 8 exMalloc]

/-- One 256-byte slab after baseline 8 and three free rows of sizes 16, 32, 8. -/
def exThreeRows : SlabAlloc :=
  { SlabAlloc.new with
    m_slabs := [⟨264, 4096⟩]
    m_freeSpace := [⟨8, 16⟩, ⟨24, 32⟩, ⟨56, 8⟩] }

/-- A ledger row that no slab covers: baseline 8, no slab, one free row at 8. -/
def exUncovered : SlabAlloc :=
  { SlabAlloc.new with m_freeSpace := [⟨8, 16⟩] }

/-- A 4 GiB slab with a 16-byte free row followed by a 2 GiB free row. -/
def exHugeRow : SlabAlloc :=
  { SlabAlloc.new with
    m_slabs := [⟨4294967304, 4096⟩]
    m_freeSpace := [⟨8, 16⟩, ⟨1024, 2147483648⟩] }

/-- One 256-byte slab after baseline 8 and the given mutable ledger. -/
def exLedger (rows : List FreeEntry) : SlabAlloc :=
  { SlabAlloc.new with m_slabs := [⟨264, exMalloc 256⟩], m_freeSpace := rows }

/-- Two 256-byte slabs after baseline 8, meeting at 264, and the given mutable
ledger. -/
def exTwoSlabs (rows : List FreeEntry) : SlabAlloc :=
  { SlabAlloc.new with m_slabs := [⟨264, 4096⟩, ⟨520, 8192⟩], m_freeSpace := rows }

/-- Fill the first slab up to its border with a 64-byte block at 200, open a
second slab with a 64-byte block at 264, take the rest of it, then free the two
64-byte blocks. -/
def exBorderHistory : List Op :=
  [Op.alloc 192 exMalloc, Op.alloc 64 exMalloc, Op.alloc 64 exMalloc, Op.alloc 464 exMalloc,
   Op.free 200 (capHeader 64), Op.free 264 (capHeader 64)]

/-- An 8-byte block at 8 and two empty blocks at 16; the first block and one
empty block are freed, then 8 bytes are allocated again at 8. -/
def exTwoStartsHistory : List Op :=
  [Op.alloc 8 exMalloc, Op.alloc 0 exMalloc, Op.alloc 0 exMalloc,
   Op.free 8 (capHeader 8), Op.free 16 (capHeader 0), Op.alloc 8 exMalloc]

/-- Blocks of 8 bytes at 8, 0 bytes at 16, 8 bytes at 16 and 240 bytes at 24 fill
the slab; the empty block and the last block are freed. -/
def exEmptyPredHistory : List Op :=
  [Op.alloc 8 exMalloc, Op.alloc 0 exMalloc, Op.alloc 8 exMalloc, Op.alloc 240 exMalloc,
   Op.free 16 (capHeader 0), Op.free 24 (capHeader 240)]

/-- A first slab of 256 bytes, then a request of 304 bytes that does not fit. -/
def exSecondSlabHistory : List Op := [Op.alloc 104 exMalloc, Op.alloc 304 exMalloc]

/-- A host mapping call that always succeeds. -/
def exMmap : Int → Int := fun n => 1048576 + n

/-- A mutable-ledger row at ref 0 in a fresh allocator: nothing is mapped, so
ref 0 resolves to the null address. -/
def exNullRow : SlabAlloc :=
  { SlabAlloc.new with m_freeSpace := [⟨0, 16⟩] }

/-- Blocks of 8 and 248 bytes fill the first slab. -/
def exFullHistory : List Op := [Op.alloc 8 exMalloc, Op.alloc 248 exMalloc]

/-- An 8-byte block at 8 and an empty block at 16. -/
def exEmptyBlockHistory : List Op := [Op.alloc 8 exMalloc, Op.alloc 0 exMalloc]

/-- Blocks of 8, 16 and 232 bytes fill the first slab; the 8-byte block at 8 is
freed, so that the free row `(8, 8)` lies just below the live block
`(16, 16)`. -/
def exOverlapHistory : List Op :=
  [Op.alloc 8 exMalloc, Op.alloc 16 exMalloc, Op.alloc 232 exMalloc, Op.free 8 (capHeader 8)]

/-- Two slabs ending at 264 and 792 with baseline moved up to 264, the end of
the first slab: the first slab is empty. -/
def exEmptySlab : SlabAlloc :=
  { SlabAlloc.new with
    m_baseline := 264
    m_slabs := [⟨264, exMalloc 256⟩, ⟨792, exMalloc 528⟩]
    m_freeSpace := [⟨16, 248⟩, ⟨520, 272⟩] }

/-- A header of 24 bytes: slot A holds `topA`, slot B holds `topB` (both below
2^8), bytes 16..19 hold `sig`, and bytes 20, 21 and 23 hold `v20`, `v21` and
`flag`. -/
def exHeader (topA topB : Nat) (sig : List Nat) (v20 v21 flag : Nat) : Mem := fun i =>
  if i = 0 then topA else if i = 8 then topB
  else if 16 ≤ i ∧ i < 20 then sig.getD (i - 16) 0
  else if i = 20 then v20 else if i = 21 then v21 else if i = 23 then flag else 0

/-- The signature bytes 'T', '-', 'D', 'B'. -/
def exSignature : List Nat := [84, 45, 68, 66]

/-- A host on which every call succeeds, serving a file of `len` bytes with the
given content, mapped at address 65536. -/
def exHost (len : Nat) (file : Mem) : Host :=
  { fd := 3, st_size := some len, flock_ex := true, st_size2 := some len, write := true,
    ftruncate := true, flock_un := true, mmap := 65536, file := file }

/-- Blocks of 16, 8 and 232 bytes fill the first slab; the 8-byte block at 24 is
freed, so that the free row `(24, 8)` lies between two live blocks. -/
def exShrinkHistory : List Op :=
  [Op.alloc 16 exMalloc, Op.alloc 8 exMalloc, Op.alloc 232 exMalloc, Op.free 24 (capHeader 8)]

/-- The state after `Alloc(8)` and `Alloc(248)` on a fresh allocator, followed by
`SetSharedBuffer` with a buffer of length 1000 at address 65536: the first slab,
ending at 264, is fully allocated and lies below the new baseline 1000. -/
def exRebound : SlabAlloc :=
  { m_shared := 65536, m_owned := false, m_baseline := 1000,
    m_slabs := [⟨264, exMalloc 256⟩], m_freeSpace := [], m_freeReadOnly := [] }

/-- The state that `exHugeHistory` leaves: two slabs, ending at 264 and 792, and
a first free row of negative size, left by the request of 2^31 bytes. -/
def exTruncated : SlabAlloc :=
  { SlabAlloc.new with
    m_slabs := [⟨264, exMalloc 256⟩, ⟨792, exMalloc 528⟩]
    m_freeSpace := [⟨2147483664, -2147483400⟩, ⟨272, 520⟩] }

/-- A fresh allocator bound by `SetShared` to a file of 24 bytes mapped at
65536. -/
def exBound : SlabAlloc := { SlabAlloc.new with m_shared := 65536, m_baseline := 24 }

/-- Two blocks of 256 bytes fill a first slab of 512 bytes; an empty block opens
a second slab at 536 and is freed again. -/
def exZeroRowHistory : List Op :=
  [Op.alloc 256 exMalloc, Op.alloc 256 exMalloc, Op.alloc 0 exMalloc, Op.free 536 (capHeader 0)]

/-- The state that `exZeroRowHistory` leaves when replayed from `exBound`: the
empty block freed at the slab border 536 is a row of size 0. -/
def exZeroRow : SlabAlloc :=
  { exBound with
    m_slabs := [⟨536, exMalloc 512⟩, ⟨1608, exMalloc 1072⟩]
    m_freeSpace := [⟨536, 1072⟩, ⟨536, 0⟩] }

/-- The first slab is filled and its first 8 bytes are freed; a block of nearly
2 GiB opens a second slab, two blocks of 16 bytes follow it and the first of
them is freed; then 2^31 + 16 bytes are requested. -/
def exAdjacentHistory : List Op :=
  [Op.alloc 8 exMalloc, Op.alloc 248 exMalloc, Op.free 8 (capHeader 8),
   Op.alloc 2147483392 exMalloc, Op.alloc 16 exMalloc, Op.alloc 16 exMalloc,
   Op.free 2147483656 (capHeader 16), Op.alloc 2147483664 exMalloc]

/-! ## Basic facts -/

theorem int_cast_of_lt {size : Nat} (h : size < 2 ^ 31) : int_cast size = size := by
  unfold int_cast; omega

theorem uint_cast_of_lt {size : Nat} (h : size < 2 ^ 31) : uint_cast size = size := by
  unfold uint_cast; omega

theorem and_seven_eq_zero {size : Nat} (h : size % 8 = 0) : size &&& 0x7 = 0 := by
  have := Nat.and_pow_two_sub_one_eq_mod size 3
  simpa [h] using this

/-- The first-fit loop stops at row `i` when that row passes the comparison and
no earlier row does. -/
theorem Alloc.reuse_at (size : Nat) :
    ∀ (l : List FreeEntry) (i : Nat) (e : FreeEntry), l[i]? = some e →
      int_cast size ≤ e.size →
      (∀ j e', j < i → l[j]? = some e' → e'.size < int_cast size) →
      Alloc.reuse size l =
        some (e.ref,
          if e.size - size = 0 then l.eraseIdx i
          else l.set i ⟨e.ref + uint_cast size, e.size - size⟩)
  | [], i, e, hi, _, _ => by simp at hi
  | r :: rs, 0, e, hi, hfit, _ => by
    simp at hi
    subst hi
    simp only [Alloc.reuse, hfit, if_true]
    split <;> simp
  | r :: rs, i + 1, e, hi, hfit, hfirst => by
    have h0 : r.size < int_cast size := hfirst 0 r (Nat.succ_pos i) (by simp)
    have hi' : rs[i]? = some e := by simpa using hi
    have ih := Alloc.reuse_at size rs i e hi' hfit (fun j e' hj he' =>
      hfirst (j + 1) e' (Nat.succ_lt_succ hj) (by simpa using he'))
    simp only [Alloc.reuse, not_le.mpr h0, if_false, ih]
    split <;> simp

/-- The first-fit loop falls through when no row passes the comparison. -/
theorem Alloc.reuse_none (size : Nat) :
    ∀ (l : List FreeEntry), (∀ e ∈ l, e.size < int_cast size) → Alloc.reuse size l = none
  | [], _ => rfl
  | r :: rs, h => by
    have h0 : r.size < int_cast size := h r (by simp)
    simp [Alloc.reuse, not_le.mpr h0, Alloc.reuse_none size rs (fun e he => h e (by simp [he]))]

/-- `firstIdx` finds nothing exactly when no element passes the test. -/
theorem firstIdx_eq_none {α : Type} (q : α → Bool) :
    ∀ (l : List α), firstIdx q l = none ↔ ∀ x ∈ l, q x = false
  | [] => by simp [firstIdx]
  | x :: xs => by
    have ih := firstIdx_eq_none q xs
    by_cases hx : q x = true
    · simp [firstIdx, hx]
    · simp only [Bool.not_eq_true] at hx
      simp [firstIdx, hx, ih]

/-- `firstIdx` yields `i` exactly when element `i` passes the test and no earlier one does. -/
theorem firstIdx_eq_some {α : Type} (q : α → Bool) :
    ∀ (l : List α) (i : Nat), firstIdx q l = some i ↔
      (∃ e, l[i]? = some e ∧ q e = true) ∧ ∀ j e', j < i → l[j]? = some e' → q e' = false
  | [], i => by simp [firstIdx]
  | x :: xs, i => by
    have ih := firstIdx_eq_some q xs
    by_cases hx : q x = true
    · simp only [firstIdx, hx, if_true, Option.some.injEq]
      constructor
      · intro h
        subst h
        exact ⟨⟨x, by simp, hx⟩, fun j e' hj => absurd hj (Nat.not_lt_zero j)⟩
      · rintro ⟨_, hfirst⟩
        by_contra hne
        have := hfirst 0 x (Nat.pos_of_ne_zero (Ne.symm hne)) (by simp)
        simp [hx] at this
    · simp only [Bool.not_eq_true] at hx
      simp only [firstIdx, hx, Bool.false_eq_true, if_false, Option.map_eq_some']
      constructor
      · rintro ⟨k, hk, rfl⟩
        obtain ⟨⟨e, he, hq⟩, hfirst⟩ := (ih k).1 hk
        refine ⟨⟨e, by simpa using he, hq⟩, ?_⟩
        intro j e' hj he'
        cases j with
        | zero => simp at he'; subst he'; exact hx
        | succ j => exact hfirst j e' (by omega) (by simpa using he')
      · rintro ⟨⟨e, he, hq⟩, hfirst⟩
        cases i with
        | zero => simp at he; subst he; simp [hx] at hq
        | succ k =>
          refine ⟨k, (ih k).2 ⟨⟨e, by simpa using he, hq⟩, ?_⟩, rfl⟩
          intro j e' hj he'
          exact hfirst (j + 1) e' (by omega) (by simpa using he')

/-- `firstIdx` over a mapped list tests the image of every element. -/
theorem firstIdx_map {α β : Type} (f : α → β) (q : β → Bool) :
    ∀ (l : List α), firstIdx q (l.map f) = firstIdx (fun x => q (f x)) l
  | [] => rfl
  | x :: xs => by simp [firstIdx, firstIdx_map f q xs]

/-- `find_first` is `not_found` exactly when the value is absent from the column. -/
theorem find_first_eq_none (col : List Int) (v : Int) :
    find_first col v = none ↔ v ∉ col := by
  unfold find_first
  rw [firstIdx_eq_none]
  constructor
  · intro h hv
    simpa using h v hv
  · intro h x hx
    simp only [decide_eq_false_iff_not]
    rintro rfl
    exact h hx

/-- `find_first` on the ref column is `none` exactly when no row starts at `v`. -/
theorem find_first_refs_eq_none (L : List FreeEntry) (v : Int) :
    find_first (refs L) v = none ↔ ∀ e ∈ L, e.ref ≠ v := by
  rw [find_first_eq_none]
  simp [refs]

/-- `find_first` on the ref column yields the first row that starts at `v`. -/
theorem find_first_refs_eq_some (L : List FreeEntry) (v : Int) (n : Nat) :
    find_first (refs L) v = some n ↔
      (∃ e, L[n]? = some e ∧ e.ref = v) ∧ ∀ j e', j < n → L[j]? = some e' → e'.ref ≠ v := by
  unfold find_first refs
  rw [firstIdx_map, firstIdx_eq_some]
  simp

/-- A cursor write at an existing row is `List.set`. -/
theorem update_eq_set {rows : List FreeEntry} {i : Nat} {e : FreeEntry} (h : rows[i]? = some e)
    (f : FreeEntry → FreeEntry) : update rows i f = rows.set i (f e) := by
  simp [update, h]

/-- An index that holds an element is within the list. -/
theorem lt_length_of_getElem? {α : Type} {l : List α} {i : Nat} {x : α} (h : l[i]? = some x) :
    i < l.length := by
  rcases Nat.lt_or_ge i l.length with h' | h'
  · exact h'
  · rw [List.getElem?_eq_none h'] at h; cases h

/-- The element written at an existing index is a member of the result. -/
theorem mem_set_self {α : Type} {l : List α} {i : Nat} {x : α} (y : α) (h : l[i]? = some x) :
    y ∈ l.set i y :=
  List.getElem?_mem (n := i) (by rw [List.getElem?_set]; simp [lt_length_of_getElem? h])

/-- Removing a row forgets what was written to it. -/
theorem eraseIdx_set_self {α : Type} (l : List α) (n : Nat) (x : α) :
    (l.set n x).eraseIdx n = l.eraseIdx n := by
  apply List.ext_getElem?
  intro j
  rw [List.getElem?_eraseIdx, List.getElem?_eraseIdx]
  split
  · rw [List.getElem?_set_ne (by omega)]
  · rw [List.getElem?_set_ne (by omega)]

/-- The forward check fails when no row starts at `v` or `v` is a slab border. -/
theorem Free.forward_eq_none (offs : List Int) (L : List FreeEntry) (v : Int)
    (h : (∀ e ∈ L, e.ref ≠ v) ∨ v ∈ offs) : Free.forward offs L v = none := by
  unfold Free.forward
  rcases h with h | h
  · rw [(find_first_refs_eq_none L v).2 h]
  · have : find_first offs v ≠ none := fun hn => (find_first_eq_none offs v).1 hn h
    cases find_first (refs L) v <;> simp [this]

/-- The forward check picks the first row that starts at `v`, when `v` is no slab border. -/
theorem Free.forward_eq_some (offs : List Int) (L : List FreeEntry) (v : Int) (n : Nat)
    (e : FreeEntry) (hn : L[n]? = some e) (hv : e.ref = v)
    (hfirst : ∀ j e', j < n → L[j]? = some e' → e'.ref ≠ v) (ho : v ∉ offs) :
    Free.forward offs L v = some n := by
  unfold Free.forward
  rw [(find_first_refs_eq_some L v n).2 ⟨⟨e, hn, hv⟩, hfirst⟩, (find_first_eq_none offs v).2 ho]
  simp

/-- What a successful forward check found. -/
theorem Free.forward_some {offs : List Int} {L : List FreeEntry} {v : Int} {n : Nat}
    (h : Free.forward offs L v = some n) :
    (∃ e, L[n]? = some e ∧ e.ref = v) ∧ v ∉ offs := by
  unfold Free.forward at h
  cases hf : find_first (refs L) v with
  | none => simp [hf] at h
  | some k =>
    rw [hf] at h
    by_cases ho : find_first offs v = none
    · simp only [ho, if_true, Option.some.injEq] at h
      subst h
      exact ⟨((find_first_refs_eq_some L v k).1 hf).1, (find_first_eq_none offs v).1 ho⟩
    · simp [ho] at h

/-- The backward scan fails when `ref` is a slab border or no row ends at `ref`. -/
theorem Free.backward_eq_none (offs : List Int) (L : List FreeEntry) (ref : Int)
    (h : ref ∈ offs ∨ ∀ e ∈ L, e.ref + e.size ≠ ref) : Free.backward offs L ref = none := by
  unfold Free.backward
  rcases h with h | h
  · have : find_first offs ref ≠ none := fun hn => (find_first_eq_none offs ref).1 hn h
    simp [this]
  · have : firstIdx (fun c : FreeEntry => decide (ref = c.ref + c.size)) L = none := by
      rw [firstIdx_eq_none]
      intro x hx
      simp only [decide_eq_false_iff_not]
      exact fun hc => h x hx hc.symm
    simp [this]

/-- The backward scan picks the first row that ends at `ref`, when `ref` is no slab border. -/
theorem Free.backward_eq_some (offs : List Int) (L : List FreeEntry) (ref : Int) (i : Nat)
    (e : FreeEntry) (hi : L[i]? = some e) (he : e.ref + e.size = ref)
    (hfirst : ∀ j e', j < i → L[j]? = some e' → e'.ref + e'.size ≠ ref) (ho : ref ∉ offs) :
    Free.backward offs L ref = some i := by
  unfold Free.backward
  rw [(find_first_eq_none offs ref).2 ho]
  simp only [if_true]
  rw [firstIdx_eq_some]
  refine ⟨⟨e, hi, by simp [he]⟩, ?_⟩
  intro j e' hj he'
  simp only [decide_eq_false_iff_not]
  exact fun hc => hfirst j e' hj he' hc.symm

/-- What a successful backward scan found. -/
theorem Free.backward_some {offs : List Int} {L : List FreeEntry} {ref : Int} {i : Nat}
    (h : Free.backward offs L ref = some i) :
    (∃ c, L[i]? = some c ∧ c.ref + c.size = ref) ∧ ref ∉ offs := by
  unfold Free.backward at h
  by_cases ho : find_first offs ref = none
  · simp only [ho, if_true] at h
    obtain ⟨⟨c, hc, hq⟩, _⟩ := (firstIdx_eq_some _ L i).1 h
    refine ⟨⟨c, hc, ?_⟩, (find_first_eq_none offs ref).1 ho⟩
    simp only [decide_eq_true_eq] at hq
    exact hq.symm
  · simp [ho] at h

/-- `Free` with no merge: the block is appended. -/
theorem Free.merge_append (offs : List Int) (L : List FreeEntry) (ref : Int) (s : Nat)
    (hf : Free.forward offs L (ref + s) = none) (hb : Free.backward offs L ref = none) :
    Free.merge offs L ref s = L ++ [⟨ref, s⟩] := by
  simp [Free.merge, hf, Free.afterForward, hb]

/-- `Free` with a backward merge only: the row found grows by `s`. -/
theorem Free.merge_backward (offs : List Int) (L : List FreeEntry) (ref : Int) (s i : Nat)
    (e : FreeEntry) (hf : Free.forward offs L (ref + s) = none)
    (hb : Free.backward offs L ref = some i) (hi : L[i]? = some e) :
    Free.merge offs L ref s = L.set i ⟨e.ref, e.size + s⟩ := by
  simp [Free.merge, hf, Free.afterForward, hb, update_eq_set hi]

/-- `Free` with a forward merge only: the row found starts at `ref` and grows by `s`. -/
theorem Free.merge_forward (offs : List Int) (L : List FreeEntry) (ref : Int) (s n : Nat)
    (e : FreeEntry) (hf : Free.forward offs L (ref + s) = some n) (hn : L[n]? = some e)
    (hb : Free.backward offs (L.set n ⟨ref, e.size + s⟩) ref = none) :
    Free.merge offs L ref s = L.set n ⟨ref, e.size + s⟩ := by
  simp [Free.merge, hf, Free.afterForward, update_eq_set hn, hb]

/-- `Free` with both merges: the row found by the backward scan absorbs the
forward row, which is removed. -/
theorem Free.merge_double (offs : List Int) (L : List FreeEntry) (ref : Int) (s n i : Nat)
    (e c : FreeEntry) (hf : Free.forward offs L (ref + s) = some n) (hn : L[n]? = some e)
    (hb : Free.backward offs (L.set n ⟨ref, e.size + s⟩) ref = some i)
    (hi : (L.set n ⟨ref, e.size + s⟩)[i]? = some c) :
    Free.merge offs L ref s =
      ((L.set n ⟨ref, e.size + s⟩).set i ⟨c.ref, c.size + (e.size + s)⟩).eraseIdx n := by
  have hlt : n < L.length := by
    rcases Nat.lt_or_ge n L.length with h | h
    · exact h
    · rw [List.getElem?_eq_none h] at hn; cases hn
  have hget : (L.set n ⟨ref, e.size + s⟩).getD n ⟨0, 0⟩ = ⟨ref, e.size + s⟩ := by
    simp [List.getD, List.getElem?_set, hlt]
  simp only [Free.merge, hf, Free.afterForward, update_eq_set hn, hb, update_eq_set hi, hget]

/-- The four outcomes of `Free` on the selected ledger. -/
theorem Free.merge_cases (offs : List Int) (L : List FreeEntry) (ref : Int) (s : Nat) :
    (Free.merge offs L ref s = L ++ [⟨ref, s⟩]) ∨
    (∃ i c, L[i]? = some c ∧ c.ref + c.size = ref ∧ ref ∉ offs ∧
      Free.merge offs L ref s = L.set i ⟨c.ref, c.size + s⟩) ∨
    (∃ n e, L[n]? = some e ∧ e.ref = ref + s ∧ ref + s ∉ offs ∧
      Free.merge offs L ref s = L.set n ⟨ref, e.size + s⟩) ∨
    (∃ n e i c, L[n]? = some e ∧ e.ref = ref + s ∧ ref + s ∉ offs ∧
      (L.set n ⟨ref, e.size + s⟩)[i]? = some c ∧ c.ref + c.size = ref ∧ ref ∉ offs ∧
      Free.merge offs L ref s =
        ((L.set n ⟨ref, e.size + s⟩).set i ⟨c.ref, c.size + (e.size + s)⟩).eraseIdx n) := by
  cases hf : Free.forward offs L (ref + s) with
  | none =>
    cases hb : Free.backward offs L ref with
    | none => exact Or.inl (Free.merge_append offs L ref s hf hb)
    | some i =>
      obtain ⟨⟨c, hc, he⟩, ho⟩ := Free.backward_some hb
      exact Or.inr (Or.inl ⟨i, c, hc, he, ho, Free.merge_backward offs L ref s i c hf hb hc⟩)
  | some n =>
    obtain ⟨⟨e, hn, hv⟩, ho2⟩ := Free.forward_some hf
    cases hb : Free.backward offs (L.set n ⟨ref, e.size + s⟩) ref with
    | none =>
      exact Or.inr (Or.inr (Or.inl ⟨n, e, hn, hv, ho2,
        Free.merge_forward offs L ref s n e hf hn hb⟩))
    | some i =>
      obtain ⟨⟨c, hc, he⟩, ho⟩ := Free.backward_some hb
      exact Or.inr (Or.inr (Or.inr ⟨n, e, i, c, hn, hv, ho2, hc, he, ho,
        Free.merge_double offs L ref s n i e c hf hn hb hc⟩))

/-- When the block ends at a slab border, every row of the result that spans the
border was already there. -/
theorem Free.merge_spans_of_end_border (offs : List Int) (L : List FreeEntry) (ref : Int)
    (s : Nat) (hE : ref + s ∈ offs) :
    ∀ e ∈ Free.merge offs L ref s, e.spans (ref + s) → e ∈ L := by
  intro e he hsp
  rcases Free.merge_cases offs L ref s with h | ⟨i, c, hc, hce, _, h⟩ | ⟨n, e', _, _, ho, _⟩ |
    ⟨n, e', i, c, _, _, ho, _⟩
  · rw [h] at he
    rcases List.mem_append.1 he with h1 | h1
    · exact h1
    · simp only [List.mem_singleton] at h1
      subst h1
      exact absurd hsp.2 (lt_irrefl _)
  · rw [h] at he
    rcases List.mem_or_eq_of_mem_set he with h1 | h1
    · exact h1
    · subst h1
      have := hsp.2
      simp only at this
      omega
  · exact absurd hE ho
  · exact absurd hE ho

/-- When the block starts at a slab border, every row of the result that spans
the border was already there. -/
theorem Free.merge_spans_of_start_border (offs : List Int) (L : List FreeEntry) (ref : Int)
    (s : Nat) (hE : ref ∈ offs) :
    ∀ e ∈ Free.merge offs L ref s, e.spans ref → e ∈ L := by
  intro e he hsp
  rcases Free.merge_cases offs L ref s with h | ⟨i, c, _, _, ho, _⟩ | ⟨n, e', _, _, _, h⟩ |
    ⟨n, e', i, c, _, _, _, _, _, ho, _⟩
  · rw [h] at he
    rcases List.mem_append.1 he with h1 | h1
    · exact h1
    · simp only [List.mem_singleton] at h1
      subst h1
      exact absurd hsp.1 (lt_irrefl _)
  · exact absurd hE ho
  · rw [h] at he
    rcases List.mem_or_eq_of_mem_set he with h1 | h1
    · exact h1
    · subst h1
      exact absurd hsp.1 (lt_irrefl _)
  · exact absurd hE ho

/-- `Free` keeps row sizes non-negative. -/
theorem Free.merge_size_nonneg (offs : List Int) (L : List FreeEntry) (ref : Int) (s : Nat)
    (hL : ∀ e ∈ L, 0 ≤ e.size) : ∀ e ∈ Free.merge offs L ref s, 0 ≤ e.size := by
  intro x hx
  rcases Free.merge_cases offs L ref s with h | ⟨i, c, hc, _, _, h⟩ | ⟨n, e, hn, _, _, h⟩ |
    ⟨n, e, i, c, hn, _, _, hc, _, _, h⟩
  · rw [h] at hx
    rcases List.mem_append.1 hx with h1 | h1
    · exact hL x h1
    · simp only [List.mem_singleton] at h1
      subst h1
      exact Int.ofNat_nonneg s
  · rw [h] at hx
    rcases List.mem_or_eq_of_mem_set hx with h1 | h1
    · exact hL x h1
    · subst h1
      have := hL c (List.getElem?_mem hc)
      show 0 ≤ c.size + (s : Int)
      omega
  · rw [h] at hx
    rcases List.mem_or_eq_of_mem_set hx with h1 | h1
    · exact hL x h1
    · subst h1
      have := hL e (List.getElem?_mem hn)
      show 0 ≤ e.size + (s : Int)
      omega
  · rw [h] at hx
    have he := hL e (List.getElem?_mem hn)
    have hc' : 0 ≤ c.size := by
      rcases List.mem_or_eq_of_mem_set (List.getElem?_mem hc) with h1 | h1
      · exact hL c h1
      · subst h1
        show 0 ≤ e.size + (s : Int)
        omega
    rcases List.mem_or_eq_of_mem_set (List.mem_of_mem_eraseIdx hx) with h1 | h1
    · rcases List.mem_or_eq_of_mem_set h1 with h2 | h2
      · exact hL x h2
      · subst h2
        show 0 ≤ e.size + (s : Int)
        omega
    · subst h1
      show 0 ≤ c.size + (e.size + (s : Int))
      omega

/-- Replacing a row by a row that contains it keeps every range covered. -/
theorem coveredBy_set (L : List FreeEntry) (i : Nat) (c y : FreeEntry) (hc : L[i]? = some c)
    (hy : y.ref ≤ c.ref ∧ c.ref + c.size ≤ y.ref + y.size) : coveredBy L (L.set i y) := by
  intro e he
  obtain ⟨j, hj⟩ := List.mem_iff_getElem?.1 he
  by_cases hji : i = j
  · subst hji
    rw [hc] at hj
    have := Option.some.inj hj
    subst this
    exact ⟨y, mem_set_self y hc, hy⟩
  · exact ⟨e, List.getElem?_mem (by rw [List.getElem?_set_ne hji]; exact hj), le_refl _, le_refl _⟩

/-- After `Free` of a non-empty block, the block and every row of the old ledger
lie inside rows of the new ledger. -/
theorem Free.merge_coveredBy (offs : List Int) (L : List FreeEntry) (ref : Int) (s : Nat)
    (hs : 0 < s) (hL : ∀ e ∈ L, 0 ≤ e.size) :
    coveredBy (L ++ [⟨ref, s⟩]) (Free.merge offs L ref s) := by
  rcases Free.merge_cases offs L ref s with h | ⟨i, c, hc, hce, _, h⟩ | ⟨n, e, hn, hne, _, h⟩ |
    ⟨n, e, i, c, hn, hne, _, hc, hce, _, h⟩
  · rw [h]
    intro e he
    exact ⟨e, he, le_refl _, le_refl _⟩
  · rw [h]
    have hc0 := hL c (List.getElem?_mem hc)
    intro e he
    rcases List.mem_append.1 he with h1 | h1
    · exact coveredBy_set L i c ⟨c.ref, c.size + s⟩ hc
        ⟨le_refl _, by show c.ref + c.size ≤ c.ref + (c.size + s); omega⟩ e h1
    · simp only [List.mem_singleton] at h1
      subst h1
      refine ⟨_, mem_set_self _ hc, ?_, ?_⟩
      · show c.ref ≤ ref
        omega
      · show ref + (s : Int) ≤ c.ref + (c.size + s)
        omega
  · rw [h]
    have he0 := hL e (List.getElem?_mem hn)
    intro x hx
    rcases List.mem_append.1 hx with h1 | h1
    · exact coveredBy_set L n e ⟨ref, e.size + s⟩ hn
        ⟨by show ref ≤ e.ref; omega, by show e.ref + e.size ≤ ref + (e.size + s); omega⟩ x h1
    · simp only [List.mem_singleton] at h1
      subst h1
      refine ⟨_, mem_set_self _ hn, le_refl _, ?_⟩
      show ref + (s : Int) ≤ ref + (e.size + s)
      omega
  · rw [h]
    have he0 := hL e (List.getElem?_mem hn)
    have hin : n ≠ i := by
      rintro rfl
      rw [List.getElem?_set] at hc
      simp only [if_true, lt_length_of_getElem? hn] at hc
      have := Option.some.inj hc
      subst this
      simp only at hce
      omega
    have hcL : L[i]? = some c := by rw [List.getElem?_set_ne hin] at hc; exact hc
    have hc0 := hL c (List.getElem?_mem hcL)
    -- the row that absorbs everything
    have hY : (⟨c.ref, c.size + (e.size + s)⟩ : FreeEntry) ∈
        ((L.set n ⟨ref, e.size + s⟩).set i ⟨c.ref, c.size + (e.size + s)⟩).eraseIdx n := by
      rw [List.mem_eraseIdx_iff_getElem?]
      refine ⟨i, Ne.symm hin, ?_⟩
      rw [List.getElem?_set]
      have := lt_length_of_getElem? hc
      simp only [List.length_set] at this
      simp [this]
    intro x hx
    rcases List.mem_append.1 hx with h1 | h1
    · obtain ⟨j, hj⟩ := List.mem_iff_getElem?.1 h1
      by_cases hjn : j = n
      · subst hjn
        rw [hn] at hj
        have := Option.some.inj hj
        subst this
        exact ⟨_, hY, by show c.ref ≤ e.ref; omega,
          by show e.ref + e.size ≤ c.ref + (c.size + (e.size + s)); omega⟩
      · by_cases hji : j = i
        · subst hji
          rw [hcL] at hj
          have := Option.some.inj hj
          subst this
          exact ⟨_, hY, le_refl _, by show c.ref + c.size ≤ c.ref + (c.size + (e.size + s)); omega⟩
        · refine ⟨x, ?_, le_refl _, le_refl _⟩
          rw [List.mem_eraseIdx_iff_getElem?]
          refine ⟨j, hjn, ?_⟩
          rw [List.getElem?_set_ne (Ne.symm hji), List.getElem?_set_ne (Ne.symm hjn)]
          exact hj
    · simp only [List.mem_singleton] at h1
      subst h1
      exact ⟨_, hY, by show c.ref ≤ ref; omega,
        by show ref + (s : Int) ≤ c.ref + (c.size + (e.size + s)); omega⟩

/-- `Free` returns once the size has been read from the header. -/
theorem Free_eq (a : SlabAlloc) (ref : Int) (p : Mem) (s : Nat) (hs : Free.size a ref p = some s) :
    Free a ref p =
      some (Free.store a ref (Free.merge (offsets a.m_slabs) (Free.selected a ref) ref s)) := by
  simp [Free, hs]

/-- `Free` of a ref at or above baseline works on the mutable ledger with the
header capacity. -/
theorem Free_mutable (a : SlabAlloc) (ref : Int) (p : Mem) (h : a.m_baseline ≤ ref) :
    Free a ref p =
      some { a with
        m_freeSpace :=
          Free.merge (offsets a.m_slabs) a.m_freeSpace ref (GetCapacityFromHeader p) } := by
  have hro : IsReadOnly a ref = false := by
    simp only [IsReadOnly, decide_eq_false_iff_not]; omega
  simp [Free, Free.size, Free.store, Free.selected, hro]

/-- A row that contains two non-empty blocks meeting at `E` spans `E`. -/
theorem covers_both_spans {e : FreeEntry} {refA E : Int} {sA sB : Nat} (hA : refA + sA = E)
    (h0A : 0 < sA) (h0B : 0 < sB) (h1 : e.covers refA sA) (h2 : e.covers E sB) : e.spans E := by
  unfold FreeEntry.covers at h1 h2
  unfold FreeEntry.spans
  omega

/-- `Alloc` when no row of the mutable ledger fits and the host allocation
succeeds: a slab of `newsize` bytes is appended at `slabsBack`, with its tail as
a new free row. -/
theorem Alloc_grow (a : SlabAlloc) (malloc : Int → Int) (size : Nat) (h8 : size % 8 = 0)
    (h31 : size < 2 ^ 31) (hfit : ∀ e ∈ a.m_freeSpace, e.size < (size : Int))
    (hm : malloc (Alloc.newsize a size) ≠ 0) :
    Alloc a malloc size =
      some (⟨malloc (Alloc.newsize a size), Alloc.slabsBack a⟩,
        { a with
          m_slabs := a.m_slabs ++
            [⟨Alloc.slabsBack a + Alloc.newsize a size, malloc (Alloc.newsize a size)⟩]
          m_freeSpace := a.m_freeSpace ++
            [⟨Alloc.slabsBack a + size, Alloc.newsize a size - size⟩] }) := by
  have hr : Alloc.reuse size a.m_freeSpace = none :=
    Alloc.reuse_none size _ (by rw [int_cast_of_lt h31]; exact hfit)
  have hn : Alloc.newsize a size ≠ 0 := by
    unfold Alloc.newsize
    simp only
    split <;> omega
  simp [Alloc, and_seven_eq_zero h8, hr, hn, hm]

/-! ## Soundness of the ledger along a history -/

/-- Counting after a write: the old row leaves the count, the new one enters it. -/
theorem countP_set_add {α : Type} (p : α → Bool) :
    ∀ (l : List α) (i : Nat) (c y : α), l[i]? = some c →
      (l.set i y).countP p + (if p c then 1 else 0) = l.countP p + (if p y then 1 else 0)
  | [], i, c, y, h => by simp at h
  | x :: xs, 0, c, y, h => by
    simp at h
    subst h
    simp only [List.set_cons_zero, List.countP_cons]
    omega
  | x :: xs, i + 1, c, y, h => by
    have h' : xs[i]? = some c := by simpa using h
    have ih := countP_set_add p xs i c y h'
    simp only [List.set_cons_succ, List.countP_cons]
    omega

/-- Counting after a removal: the removed row leaves the count. -/
theorem countP_eraseIdx_add {α : Type} (p : α → Bool) :
    ∀ (l : List α) (n : Nat) (e : α), l[n]? = some e →
      (l.eraseIdx n).countP p + (if p e then 1 else 0) = l.countP p
  | [], n, e, h => by simp at h
  | x :: xs, 0, e, h => by
    simp at h
    subst h
    simp only [List.eraseIdx_cons_zero, List.countP_cons]
  | x :: xs, n + 1, e, h => by
    have h' : xs[n]? = some e := by simpa using h
    have ih := countP_eraseIdx_add p xs n e h'
    simp only [List.eraseIdx_cons_succ, List.countP_cons]
    omega

/-- Counting after erasing a member: it leaves the count. -/
theorem countP_erase_add {α : Type} [BEq α] [LawfulBEq α] (p : α → Bool) (b : α) :
    ∀ (l : List α), b ∈ l → (l.erase b).countP p + (if p b then 1 else 0) = l.countP p
  | [], h => by simp at h
  | a :: l, h => by
    rw [List.erase_cons]
    by_cases hab : a == b
    · have : a = b := eq_of_beq hab
      subst this
      simp only [hab, if_true, List.countP_cons]
    · simp only [hab, Bool.false_eq_true, if_false, List.countP_cons]
      have hne : b ≠ a := fun h' => hab (by rw [h']; exact beq_self_eq_true a)
      have hmem : b ∈ l := by
        rcases List.mem_cons.1 h with h1 | h1
        · exact absurd h1 hne
        · exact h1
      have ih := countP_erase_add p b l hmem
      omega

/-- The byte count of a row that is the union of two adjacent ranges. -/
theorem has_union (r1 s1 s2 x : Int) (h1 : 0 ≤ s1) (h2 : 0 ≤ s2) :
    (if (FreeEntry.mk r1 (s1 + s2)).has x then 1 else 0) =
      (if (FreeEntry.mk r1 s1).has x then 1 else 0) +
        (if (FreeEntry.mk (r1 + s1) s2).has x then 1 else 0) := by
  simp only [FreeEntry.has, decide_eq_true_eq]
  split_ifs <;> omega

/-- `Free` adds the bytes of the block to the free rows and changes the ownership
of no other byte. -/
theorem Free.merge_countP (offs : List Int) (L : List FreeEntry) (ref : Int) (s : Nat)
    (hL : ∀ e ∈ L, 0 ≤ e.size) (x : Int) :
    (Free.merge offs L ref s).countP (fun e => e.has x) =
      L.countP (fun e => e.has x) + (if (FreeEntry.mk ref s).has x then 1 else 0) := by
  rcases Free.merge_cases offs L ref s with h | ⟨i, c, hc, hce, _, h⟩ | ⟨n, e, hn, hne, _, h⟩ |
    ⟨n, e, i, c, hn, hne, _, hc, hce, _, h⟩
  · rw [h, List.countP_append]
    simp [List.countP_cons]
  · rw [h]
    have hc0 := hL c (List.getElem?_mem hc)
    have h1 := countP_set_add (fun e : FreeEntry => e.has x) L i c ⟨c.ref, c.size + s⟩ hc
    have h2 := has_union c.ref c.size s x hc0 (Int.ofNat_nonneg s)
    rw [hce, show (⟨c.ref, c.size⟩ : FreeEntry) = c from rfl] at h2
    simp only at h1
    omega
  · rw [h]
    have he0 := hL e (List.getElem?_mem hn)
    have h1 := countP_set_add (fun e : FreeEntry => e.has x) L n e ⟨ref, e.size + s⟩ hn
    have h2 := has_union ref s e.size x (Int.ofNat_nonneg s) he0
    rw [← hne, add_comm (s : Int) e.size, show (⟨e.ref, e.size⟩ : FreeEntry) = e from rfl] at h2
    simp only at h1
    omega
  · rw [h]
    have he0 := hL e (List.getElem?_mem hn)
    have hX := countP_set_add (fun e : FreeEntry => e.has x) L n e ⟨ref, e.size + s⟩ hn
    have hu1 := has_union ref s e.size x (Int.ofNat_nonneg s) he0
    rw [← hne, add_comm (s : Int) e.size, show (⟨e.ref, e.size⟩ : FreeEntry) = e from rfl] at hu1
    simp only at hX
    by_cases hin : n = i
    · subst hin
      have hlt := lt_length_of_getElem? hn
      rw [List.getElem?_set] at hc
      simp only [if_true, hlt] at hc
      have hcX := Option.some.inj hc
      subst hcX
      simp only at hce
      have hs0 : (s : Int) = 0 := by omega
      have he00 : e.size = 0 := by omega
      rw [eraseIdx_set_self, eraseIdx_set_self]
      have h3 := countP_eraseIdx_add (fun e : FreeEntry => e.has x) L n e hn
      have hz1 : (if (FreeEntry.mk ref s).has x then 1 else 0) = 0 := by
        simp only [FreeEntry.has, decide_eq_true_eq]; split_ifs <;> omega
      have hz2 : (if e.has x then 1 else 0) = 0 := by
        simp only [FreeEntry.has, decide_eq_true_eq]; split_ifs <;> omega
      simp only at h3
      omega
    · have hcL : L[i]? = some c := by rw [List.getElem?_set_ne hin] at hc; exact hc
      have hc0 := hL c (List.getElem?_mem hcL)
      have hY := countP_set_add (fun e : FreeEntry => e.has x)
        (L.set n ⟨ref, e.size + s⟩) i c ⟨c.ref, c.size + (e.size + s)⟩ hc
      have hXn : ((L.set n ⟨ref, e.size + s⟩).set i ⟨c.ref, c.size + (e.size + s)⟩)[n]? =
          some ⟨ref, e.size + s⟩ := by
        rw [List.getElem?_set_ne (Ne.symm hin), List.getElem?_set]
        simp [lt_length_of_getElem? hn]
      have hE := countP_eraseIdx_add (fun e : FreeEntry => e.has x) _ n _ hXn
      have hu2 := has_union c.ref c.size (e.size + s) x hc0 (by omega)
      rw [hce, show (⟨c.ref, c.size⟩ : FreeEntry) = c from rfl] at hu2
      simp only at hY hE
      omega

/-- What the first-fit loop did when it stopped. -/
theorem Alloc.reuse_some (size : Nat) :
    ∀ (l : List FreeEntry) (loc : Int) (l' : List FreeEntry),
      Alloc.reuse size l = some (loc, l') →
      ∃ i e, l[i]? = some e ∧ int_cast size ≤ e.size ∧ loc = e.ref ∧
        l' = if e.size - (size : Int) = 0 then l.eraseIdx i
             else l.set i ⟨e.ref + uint_cast size, e.size - size⟩
  | [], loc, l', h => by simp [Alloc.reuse] at h
  | r :: rs, loc, l', h => by
    by_cases hfit : int_cast size ≤ r.size
    · refine ⟨0, r, by simp, hfit, ?_⟩
      simp only [Alloc.reuse, hfit, if_true] at h
      split at h
      · rename_i h0
        simp only [Option.some.injEq, Prod.mk.injEq] at h
        simp [h0, h.1.symm, h.2.symm]
      · rename_i h0
        simp only [Option.some.injEq, Prod.mk.injEq] at h
        simp [h0, h.1.symm, h.2.symm]
    · simp only [Alloc.reuse, hfit, if_false, Option.map_eq_some'] at h
      obtain ⟨⟨loc1, l1⟩, h1, h2⟩ := h
      simp only [Prod.mk.injEq] at h2
      obtain ⟨i, e, hi, hfit', hloc, hl⟩ := Alloc.reuse_some size rs loc1 l1 h1
      refine ⟨i + 1, e, by simpa using hi, hfit', by rw [← h2.1]; exact hloc, ?_⟩
      rw [← h2.2, hl]
      split <;> simp

/-- What it means when the first-fit loop falls through. -/
theorem Alloc.reuse_eq_none (size : Nat) :
    ∀ (l : List FreeEntry), Alloc.reuse size l = none → ∀ e ∈ l, e.size < int_cast size
  | [], _ => by simp
  | r :: rs, h => by
    by_cases hfit : int_cast size ≤ r.size
    · simp only [Alloc.reuse, hfit, if_true] at h
      split at h <;> cases h
    · simp only [Alloc.reuse, hfit, if_false, Option.map_eq_none'] at h
      intro e he
      rcases List.mem_cons.1 he with rfl | he'
      · omega
      · exact Alloc.reuse_eq_none size rs h e he'

/-- After a slab is appended the address space ends at its end offset. -/
theorem Alloc.slabsBack_append (a : SlabAlloc) (s : Slab) (rows : List FreeEntry) :
    Alloc.slabsBack { a with m_slabs := a.m_slabs ++ [s], m_freeSpace := rows } = s.offset := by
  simp [Alloc.slabsBack]

/-- `Translate` resolves every ref between baseline and the end of the last slab. -/
theorem Translate_isSome (a : SlabAlloc) (ref : Int) (h : ref < Alloc.slabsBack a) :
    ∃ pointer, Translate a ref = some pointer := by
  unfold Translate
  by_cases hb : ref < a.m_baseline
  · exact ⟨a.m_shared + ref, by simp [hb]⟩
  · simp only [hb, if_false]
    cases hl : a.m_slabs.getLast? with
    | none =>
      simp only [Alloc.slabsBack, hl] at h
      exact absurd h hb
    | some s =>
      simp only [Alloc.slabsBack, hl] at h
      have hmem : s ∈ a.m_slabs := List.mem_of_getLast?_eq_some hl
      cases hf : find_pos (offsets a.m_slabs) ref with
      | none =>
        unfold find_pos at hf
        rw [firstIdx_eq_none] at hf
        have := hf s.offset (by simp only [offsets]; exact List.mem_map_of_mem _ hmem)
        simp only [decide_eq_false_iff_not] at this
        exact absurd h this
      | some ndx =>
        unfold find_pos at hf
        obtain ⟨⟨o, ho, _⟩, _⟩ := (firstIdx_eq_some _ _ _).1 hf
        have hlt : ndx < a.m_slabs.length := by
          have := lt_length_of_getElem? ho
          simpa [offsets] using this
        simp only [List.getElem?_eq_getElem hlt]
        exact ⟨_, rfl⟩

/-- A block and the row of the same range contain the same bytes. -/
theorem Block.has_eq (ref : Int) (size : Nat) (x : Int) :
    Block.has (ref, size) x = (FreeEntry.mk ref size).has x := rfl

/-- `Free` of a block inside the slab chain keeps the rows inside it. -/
theorem Free.merge_within (offs : List Int) (L : List FreeEntry) (ref : Int) (s : Nat)
    (lo hi : Int) (hL : ∀ e ∈ L, e.within lo hi) (hb : (FreeEntry.mk ref s).within lo hi) :
    ∀ e ∈ Free.merge offs L ref s, e.within lo hi := by
  intro x hx
  unfold FreeEntry.within at hb
  simp only at hb
  rcases Free.merge_cases offs L ref s with h | ⟨i, c, hc, hce, _, h⟩ | ⟨n, e, hn, hne, _, h⟩ |
    ⟨n, e, i, c, hn, hne, _, hc, hce, _, h⟩
  · rw [h] at hx
    rcases List.mem_append.1 hx with h1 | h1
    · exact hL x h1
    · simp only [List.mem_singleton] at h1
      subst h1
      exact hb
  · rw [h] at hx
    rcases List.mem_or_eq_of_mem_set hx with h1 | h1
    · exact hL x h1
    · subst h1
      have := hL c (List.getElem?_mem hc)
      unfold FreeEntry.within at this ⊢
      simp only
      omega
  · rw [h] at hx
    rcases List.mem_or_eq_of_mem_set hx with h1 | h1
    · exact hL x h1
    · subst h1
      have := hL e (List.getElem?_mem hn)
      unfold FreeEntry.within at this ⊢
      simp only
      omega
  · rw [h] at hx
    have he := hL e (List.getElem?_mem hn)
    have hX : (FreeEntry.mk ref (e.size + s)).within lo hi := by
      unfold FreeEntry.within at he ⊢
      simp only
      omega
    have hc' : c.within lo hi := by
      rcases List.mem_or_eq_of_mem_set (List.getElem?_mem hc) with h1 | h1
      · exact hL c h1
      · subst h1; exact hX
    rcases List.mem_or_eq_of_mem_set (List.mem_of_mem_eraseIdx hx) with h1 | h1
    · rcases List.mem_or_eq_of_mem_set h1 with h2 | h2
      · exact hL x h2
      · subst h2; exact hX
    · subst h1
      unfold FreeEntry.within at he hc' ⊢
      simp only
      omega

/-- `Free` of a live block keeps the state sound. -/
theorem Free_sound (a : SlabAlloc) (live : List Block) (ref : Int) (p : Mem)
    (hs : Sound a live) (hb : (ref, GetCapacityFromHeader p) ∈ live) :
    ∃ a1, Free a ref p = some a1 ∧ Sound a1 (live.erase (ref, GetCapacityFromHeader p)) := by
  have hbw := hs.blocks _ hb
  have hbase : a.m_baseline ≤ ref := hbw.2.1
  refine ⟨_, Free_mutable a ref p hbase, ?_⟩
  refine ⟨?_, ?_, ?_, hs.base⟩
  · exact Free.merge_within _ _ _ _ _ _ hs.rows hbw
  · intro b hb'
    exact hs.blocks b (List.mem_of_mem_erase hb')
  · intro x
    have h1 := Free.merge_countP (offsets a.m_slabs) a.m_freeSpace ref (GetCapacityFromHeader p)
      (fun e he => (hs.rows e he).1) x
    have h2 : (live.erase (ref, GetCapacityFromHeader p)).countP (fun b => b.has x) +
        (if (FreeEntry.mk ref (GetCapacityFromHeader p)).has x then 1 else 0) =
        live.countP (fun b => b.has x) :=
      countP_erase_add (fun b : Block => b.has x) _ live hb
    have h3 := hs.once x
    simp only [owners] at h3 ⊢
    omega

/-- No row or block of the slab chain contains a byte at or past its end. -/
theorem owners_eq_zero (rows : List FreeEntry) (live : List Block) (lo hi x : Int)
    (hr : ∀ e ∈ rows, e.within lo hi) (hl : ∀ b ∈ live, (FreeEntry.mk b.1 b.2).within lo hi)
    (hx : hi ≤ x) : owners rows live x = 0 := by
  unfold owners
  have h1 : rows.countP (fun e => e.has x) = 0 := by
    rw [List.countP_eq_zero]
    intro e he
    have := hr e he
    unfold FreeEntry.within at this
    simp only [FreeEntry.has, decide_eq_true_eq]
    omega
  have h2 : live.countP (fun b => b.has x) = 0 := by
    rw [List.countP_eq_zero]
    intro b hb
    have := hl b hb
    unfold FreeEntry.within at this
    simp only [Block.has, decide_eq_true_eq]
    simp only at this
    omega
  omega

/-- The slab that `Alloc` creates is larger than the request. -/
theorem Alloc.newsize_gt (a : SlabAlloc) (size : Nat) : (size : Int) < Alloc.newsize a size := by
  unfold Alloc.newsize
  simp only
  split <;> omega

/-- Appending a slab of `N > size` bytes, its first `size` bytes as a live block
and its tail as a free row, keeps the state sound. -/
theorem Sound.grow (a : SlabAlloc) (live : List Block) (hs : Sound a live) (size : Nat)
    (N pointer : Int) (hN : (size : Int) < N) :
    Sound
      { a with
        m_slabs := a.m_slabs ++ [⟨Alloc.slabsBack a + N, pointer⟩]
        m_freeSpace := a.m_freeSpace ++ [⟨Alloc.slabsBack a + size, N - size⟩] }
      (live ++ [(Alloc.slabsBack a, size)]) := by
  have hback := Alloc.slabsBack_append a ⟨Alloc.slabsBack a + N, pointer⟩
    (a.m_freeSpace ++ [⟨Alloc.slabsBack a + size, N - size⟩])
  have hbase := hs.base
  refine ⟨?_, ?_, ?_, ?_⟩
  · intro e he
    rw [hback]
    show e.within a.m_baseline (Alloc.slabsBack a + N)
    rcases List.mem_append.1 he with h1 | h1
    · have := hs.rows e h1
      unfold FreeEntry.within at this ⊢
      omega
    · simp only [List.mem_singleton] at h1
      subst h1
      unfold FreeEntry.within
      simp only
      omega
  · intro b hb
    rw [hback]
    show (FreeEntry.mk b.1 b.2).within a.m_baseline (Alloc.slabsBack a + N)
    rcases List.mem_append.1 hb with h1 | h1
    · have := hs.blocks b h1
      unfold FreeEntry.within at this ⊢
      simp only at this ⊢
      omega
    · simp only [List.mem_singleton] at h1
      subst h1
      unfold FreeEntry.within
      simp only
      omega
  · intro x
    show owners (a.m_freeSpace ++ [⟨Alloc.slabsBack a + size, N - size⟩])
      (live ++ [(Alloc.slabsBack a, size)]) x ≤ 1
    have hb : (if Block.has (Alloc.slabsBack a, size) x then 1 else 0) =
        (if (FreeEntry.mk (Alloc.slabsBack a) size).has x then 1 else 0) := rfl
    simp only [owners, List.countP_append, List.countP_cons, List.countP_nil]
    by_cases hx : Alloc.slabsBack a ≤ x
    · have h0 := owners_eq_zero a.m_freeSpace live a.m_baseline (Alloc.slabsBack a) x
        hs.rows hs.blocks hx
      simp only [owners] at h0
      have hu := has_union (Alloc.slabsBack a) size (N - size) x
        (Int.ofNat_nonneg size) (by omega)
      have : (if (FreeEntry.mk (Alloc.slabsBack a)
          ((size : Int) + (N - size))).has x then 1 else 0) ≤ 1 := by
        split <;> omega
      omega
    · have h1 := hs.once x
      simp only [owners] at h1
      have hz1 : (if (FreeEntry.mk (Alloc.slabsBack a + size) (N - size)).has x
          then 1 else 0) = 0 := by
        simp only [FreeEntry.has, decide_eq_true_eq]; split_ifs <;> omega
      have hz2 : (if (FreeEntry.mk (Alloc.slabsBack a) size).has x then 1 else 0) = 0 := by
        simp only [FreeEntry.has, decide_eq_true_eq]; split_ifs <;> omega
      omega
  · rw [hback]
    show a.m_baseline ≤ Alloc.slabsBack a + N
    omega

/-- `Alloc` of a multiple of 8 below 2^31 returns and keeps the state sound. -/
theorem Alloc_sound (a : SlabAlloc) (live : List Block) (malloc : Int → Int) (size : Nat)
    (hs : Sound a live) (h8 : size % 8 = 0) (h31 : size < 2 ^ 31) :
    ∃ r a1, Alloc a malloc size = some (r, a1) ∧
      Sound a1 (if r.pointer = 0 then live else live ++ [(r.ref, size)]) := by
  cases hr : Alloc.reuse size a.m_freeSpace with
  | some res =>
    obtain ⟨loc, rows'⟩ := res
    obtain ⟨i, e, hi, hfit, hloc, hrows⟩ := Alloc.reuse_some size _ _ _ hr
    rw [int_cast_of_lt h31] at hfit
    rw [uint_cast_of_lt h31] at hrows
    have hew := hs.rows e (List.getElem?_mem hi)
    obtain ⟨pointer, hp⟩ := Translate_isSome a e.ref hew.2.2.1
    have hp' : Translate { a with m_freeSpace := rows' } loc = some pointer := by
      rw [hloc]; exact hp
    refine ⟨⟨pointer, loc⟩, { a with m_freeSpace := rows' }, ?_, ?_⟩
    · simp [Alloc, and_seven_eq_zero h8, hr, hp']
    · -- the rows after the call
      have hrw : ∀ e' ∈ rows', e'.within a.m_baseline (Alloc.slabsBack a) := by
        intro e' he'
        rw [hrows] at he'
        split at he'
        · exact hs.rows e' (List.mem_of_mem_eraseIdx he')
        · rename_i hne
          rcases List.mem_or_eq_of_mem_set he' with h1 | h1
          · exact hs.rows e' h1
          · subst h1
            unfold FreeEntry.within at hew ⊢
            simp only
            omega
      have hcount : ∀ x, rows'.countP (fun e => e.has x) +
          (if (FreeEntry.mk e.ref size).has x then 1 else 0) =
          a.m_freeSpace.countP (fun e => e.has x) := by
        intro x
        rw [hrows]
        have hu := has_union e.ref size (e.size - size) x (Int.ofNat_nonneg size) (by omega)
        rw [show (size : Int) + (e.size - size) = e.size by omega,
          show (⟨e.ref, e.size⟩ : FreeEntry) = e from rfl] at hu
        split
        · rename_i h0
          have h1 := countP_eraseIdx_add (fun e : FreeEntry => e.has x) _ i e hi
          have hz : (if (FreeEntry.mk (e.ref + size) (e.size - size)).has x then 1 else 0) = 0 := by
            simp only [FreeEntry.has, decide_eq_true_eq]; split_ifs <;> omega
          simp only at h1
          omega
        · have h1 := countP_set_add (fun e : FreeEntry => e.has x) _ i e
            ⟨e.ref + size, e.size - size⟩ hi
          simp only at h1
          omega
      by_cases hp0 : pointer = 0
      · simp only [hp0, if_true]
        refine ⟨hrw, hs.blocks, ?_, hs.base⟩
        intro x
        have := hcount x
        have := hs.once x
        simp only [owners] at this ⊢
        omega
      · simp only [hp0, if_false]
        refine ⟨hrw, ?_, ?_, hs.base⟩
        · intro b hb
          rcases List.mem_append.1 hb with h1 | h1
          · exact hs.blocks b h1
          · simp only [List.mem_singleton] at h1
            subst h1
            have hsb : Alloc.slabsBack { a with m_freeSpace := rows' } = Alloc.slabsBack a := rfl
            rw [hsb]
            unfold FreeEntry.within at hew ⊢
            simp only
            omega
        · intro x
          have h1 := hcount x
          have h2 := hs.once x
          have h3 : (if Block.has (loc, size) x then 1 else 0) =
              (if (FreeEntry.mk e.ref size).has x then 1 else 0) := by rw [hloc]; rfl
          simp only [owners, List.countP_append, List.countP_cons, List.countP_nil] at h2 ⊢
          omega
  | none =>
    have hn := Alloc.newsize_gt a size
    have hn0 : Alloc.newsize a size ≠ 0 := by omega
    by_cases hm : malloc (Alloc.newsize a size) = 0
    · refine ⟨⟨0, 0⟩, a, ?_, ?_⟩
      · simp [Alloc, and_seven_eq_zero h8, hr, hn0, hm]
      · simpa using hs
    · have hfit : ∀ e ∈ a.m_freeSpace, e.size < (size : Int) := by
        have := Alloc.reuse_eq_none size _ hr
        rw [int_cast_of_lt h31] at this
        exact this
      refine ⟨_, _, Alloc_grow a malloc size h8 h31 hfit hm, ?_⟩
      simp only [hm, if_false]
      exact Sound.grow a live hs size _ _ hn

/-- A fresh allocator is sound. -/
theorem Sound.new : Sound SlabAlloc.new [] := by
  refine ⟨?_, ?_, ?_, ?_⟩
  · intro e he; simp [SlabAlloc.new] at he
  · intro b hb; simp at hb
  · intro x; simp [owners, SlabAlloc.new]
  · simp [SlabAlloc.new, Alloc.slabsBack]

/-- A replayed history of small calls never aborts and ends in a sound state. -/
theorem replay_sound : ∀ (ops : List Op) (a : SlabAlloc) (live : List Block),
    Sound a live → (∀ op ∈ ops, op.small) →
    replay a live ops ≠ Replayed.aborted ∧
      ∀ a' live', replay a live ops = Replayed.done a' live' → Sound a' live'
  | [], a, live, hs, _ => by
    refine ⟨by simp [replay], ?_⟩
    intro a' live' h
    simp only [replay, Replayed.done.injEq] at h
    rw [← h.1, ← h.2]
    exact hs
  | Op.alloc size malloc :: ops, a, live, hs, hsmall => by
    have hsm : (Op.alloc size malloc).small := hsmall _ (List.mem_cons_self _ _)
    obtain ⟨r, a1, hA, hs1⟩ := Alloc_sound a live malloc size hs hsm.1 hsm.2
    have ih := replay_sound ops a1 _ hs1 (fun op hop => hsmall op (List.mem_cons_of_mem _ hop))
    simp only [replay, hA]
    exact ih
  | Op.free ref p :: ops, a, live, hs, hsmall => by
    by_cases hb : (ref, GetCapacityFromHeader p) ∈ live
    · obtain ⟨a1, hF, hs1⟩ := Free_sound a live ref p hs hb
      have ih := replay_sound ops a1 _ hs1 (fun op hop => hsmall op (List.mem_cons_of_mem _ hop))
      simp only [replay, hb, if_true, hF]
      exact ih
    · simp [replay, hb]

/-- Blocks of which no byte has two owners are pairwise disjoint. -/
theorem pairwise_of_countP_le_one :
    ∀ (live : List Block), (∀ x, live.countP (fun b => b.has x) ≤ 1) →
      live.Pairwise Block.disjoint
  | [], _ => List.Pairwise.nil
  | b :: t, h => by
    refine List.Pairwise.cons ?_ (pairwise_of_countP_le_one t ?_)
    · intro c hc x hx
      have h1 := h x
      have hbx : b.has x = true := by simp [Block.has, hx.1]
      have hcx : c.has x = true := by simp [Block.has, hx.2]
      have hpos : 0 < t.countP (fun b => b.has x) := List.countP_pos_iff.2 ⟨c, hc, hcx⟩
      rw [List.countP_cons, hbx] at h1
      simp only [if_true] at h1
      omega
    · intro x
      have h1 := h x
      rw [List.countP_cons] at h1
      omega

/-- In a sound state the live blocks are pairwise disjoint and disjoint from
every free row. -/
theorem Sound.disjoint {a : SlabAlloc} {live : List Block} (hs : Sound a live) :
    live.Pairwise Block.disjoint ∧
      ∀ b ∈ live, ∀ e ∈ a.m_freeSpace, Block.disjoint b (e.ref, e.size.toNat) := by
  constructor
  · apply pairwise_of_countP_le_one
    intro x
    have := hs.once x
    simp only [owners] at this
    omega
  · intro b hb e he x hx
    have h1 := hs.once x
    have he0 := (hs.rows e he).1
    have hbx : b.has x = true := by simp [Block.has, hx.1]
    have hex : e.has x = true := by
      have := hx.2
      simp only [Int.toNat_of_nonneg he0] at this
      simp [FreeEntry.has, this]
    have hp1 : 0 < live.countP (fun b => b.has x) := List.countP_pos_iff.2 ⟨b, hb, hbx⟩
    have hp2 : 0 < a.m_freeSpace.countP (fun e => e.has x) := List.countP_pos_iff.2 ⟨e, he, hex⟩
    simp only [owners] at h1
    omega

/-! ## Tiling: histories of non-empty requests -/

theorem Free.forward_none {offs : List Int} {L : List FreeEntry} {v : Int}
    (h : Free.forward offs L v = none) : ∀ e ∈ L, e.ref = v → v ∈ offs := by
  intro e he hev
  unfold Free.forward at h
  cases hf : find_first (refs L) v with
  | none => exact absurd hev ((find_first_refs_eq_none L v).1 hf e he)
  | some k =>
    rw [hf] at h
    by_contra hno
    simp [(find_first_eq_none offs v).2 hno] at h

theorem Free.backward_none {offs : List Int} {L : List FreeEntry} {ref : Int}
    (h : Free.backward offs L ref = none) : ∀ e ∈ L, e.ref + e.size = ref → ref ∈ offs := by
  intro e he hev
  unfold Free.backward at h
  by_contra hno
  simp only [(find_first_eq_none offs ref).2 hno, if_true] at h
  have := (firstIdx_eq_none _ L).1 h e he
  simp only [decide_eq_false_iff_not] at this
  exact this hev.symm

/-- The four outcomes of `Free` of a non-empty block on a ledger of non-empty
rows, with what the failed checks tell. -/
theorem Free.merge_cases_pos (offs : List Int) (L : List FreeEntry) (ref : Int) (s : Nat)
    (hs : 0 < s) (hL : ∀ e ∈ L, 0 < e.size) :
    ((∀ e ∈ L, e.ref = ref + s → ref + s ∈ offs) ∧ (∀ e ∈ L, e.ref + e.size = ref → ref ∈ offs) ∧
      Free.merge offs L ref s = L ++ [⟨ref, s⟩]) ∨
    (∃ i c, L[i]? = some c ∧ c.ref + c.size = ref ∧ ref ∉ offs ∧
      (∀ e ∈ L, e.ref = ref + s → ref + s ∈ offs) ∧
      Free.merge offs L ref s = L.set i ⟨c.ref, c.size + s⟩) ∨
    (∃ n e, L[n]? = some e ∧ e.ref = ref + s ∧ ref + s ∉ offs ∧
      (∀ j e', j ≠ n → L[j]? = some e' → e'.ref + e'.size = ref → ref ∈ offs) ∧
      Free.merge offs L ref s = L.set n ⟨ref, e.size + s⟩) ∨
    (∃ n e i c, i ≠ n ∧ L[n]? = some e ∧ e.ref = ref + s ∧ ref + s ∉ offs ∧
      L[i]? = some c ∧ c.ref + c.size = ref ∧ ref ∉ offs ∧
      Free.merge offs L ref s =
        ((L.set n ⟨ref, e.size + s⟩).set i ⟨c.ref, c.size + (e.size + s)⟩).eraseIdx n) := by
  cases hf : Free.forward offs L (ref + s) with
  | none =>
    cases hb : Free.backward offs L ref with
    | none =>
      exact Or.inl ⟨Free.forward_none hf, Free.backward_none hb,
        Free.merge_append offs L ref s hf hb⟩
    | some i =>
      obtain ⟨⟨c, hc, he⟩, ho⟩ := Free.backward_some hb
      exact Or.inr (Or.inl ⟨i, c, hc, he, ho, Free.forward_none hf,
        Free.merge_backward offs L ref s i c hf hb hc⟩)
  | some n =>
    obtain ⟨⟨e, hn, hv⟩, ho2⟩ := Free.forward_some hf
    have he0 := hL e (List.getElem?_mem hn)
    cases hb : Free.backward offs (L.set n ⟨ref, e.size + s⟩) ref with
    | none =>
      refine Or.inr (Or.inr (Or.inl ⟨n, e, hn, hv, ho2, ?_,
        Free.merge_forward offs L ref s n e hf hn hb⟩))
      intro j e' hjn hj hend
      refine Free.backward_none hb e' (List.getElem?_mem (n := j) ?_) hend
      rw [List.getElem?_set_ne (Ne.symm hjn)]
      exact hj
    | some i =>
      obtain ⟨⟨c, hc, he⟩, ho⟩ := Free.backward_some hb
      have hin : i ≠ n := by
        rintro rfl
        rw [List.getElem?_set] at hc
        simp only [if_true, lt_length_of_getElem? hn] at hc
        have := Option.some.inj hc
        subst this
        simp only at he
        omega
      have hcL : L[i]? = some c := by
        rw [List.getElem?_set_ne (Ne.symm hin)] at hc; exact hc
      exact Or.inr (Or.inr (Or.inr ⟨n, e, i, c, hin, hn, hv, ho2, hcL, he, ho,
        Free.merge_double offs L ref s n i e c hf hn hb hc⟩))

/-- Members of a list after a write at an existing index. -/
theorem mem_set_iff_getElem? {α : Type} {l : List α} {i : Nat} {c y x : α}
    (hc : l[i]? = some c) : x ∈ l.set i y ↔ x = y ∨ ∃ j, j ≠ i ∧ l[j]? = some x := by
  constructor
  · intro hx
    obtain ⟨j, hj⟩ := List.mem_iff_getElem?.1 hx
    by_cases hji : j = i
    · subst hji
      rw [List.getElem?_set] at hj
      simp only [if_true, lt_length_of_getElem? hc] at hj
      exact Or.inl (Option.some.inj hj).symm
    · rw [List.getElem?_set_ne (Ne.symm hji)] at hj
      exact Or.inr ⟨j, hji, hj⟩
  · rintro (rfl | ⟨j, hji, hj⟩)
    · exact mem_set_self _ hc
    · exact List.getElem?_mem (n := j) (by rw [List.getElem?_set_ne (Ne.symm hji)]; exact hj)

/-- Two rows at different indices that contain the same byte give it two owners. -/
theorem two_le_countP {α : Type} (p : α → Bool) (l : List α) (i j : Nat) (x y : α)
    (hij : i ≠ j) (hi : l[i]? = some x) (hj : l[j]? = some y) (hx : p x = true)
    (hy : p y = true) : 2 ≤ l.countP p := by
  have h1 := countP_eraseIdx_add p l i x hi
  have hmem : y ∈ l.eraseIdx i := List.mem_eraseIdx_iff_getElem?.2 ⟨j, Ne.symm hij, hj⟩
  have hpos : 0 < (l.eraseIdx i).countP p := List.countP_pos_iff.2 ⟨y, hmem, hy⟩
  rw [hx] at h1
  simp only [if_true] at h1
  omega

/-- Two different rows of a ledger that contain the same byte give it two owners. -/
theorem two_le_countP_of_ne (L : List FreeEntry) (e1 e2 : FreeEntry) (x : Int)
    (h1 : e1 ∈ L) (h2 : e2 ∈ L) (hne : e1 ≠ e2) (hx1 : e1.has x = true) (hx2 : e2.has x = true) :
    2 ≤ L.countP (fun e => e.has x) := by
  obtain ⟨i, hi⟩ := List.mem_iff_getElem?.1 h1
  obtain ⟨j, hj⟩ := List.mem_iff_getElem?.1 h2
  have hij : i ≠ j := by
    rintro rfl
    rw [hi] at hj
    exact hne (Option.some.inj hj)
  exact two_le_countP _ L i j e1 e2 hij hi hj hx1 hx2

/-- Members of the ledger after a double merge. -/
theorem mem_double_iff {L : List FreeEntry} {n i : Nat} {c X Y m : FreeEntry}
    (hin : i ≠ n) (hi : L[i]? = some c) :
    m ∈ ((L.set n X).set i Y).eraseIdx n ↔
      m = Y ∨ ∃ j, j ≠ n ∧ j ≠ i ∧ L[j]? = some m := by
  have hiX : (L.set n X)[i]? = some c := by rw [List.getElem?_set_ne (Ne.symm hin)]; exact hi
  rw [List.mem_eraseIdx_iff_getElem?]
  constructor
  · rintro ⟨j, hjn, hj⟩
    by_cases hji : j = i
    · subst hji
      rw [List.getElem?_set] at hj
      simp only [if_true, lt_length_of_getElem? hiX] at hj
      exact Or.inl (Option.some.inj hj).symm
    · rw [List.getElem?_set_ne (Ne.symm hji), List.getElem?_set_ne (Ne.symm hjn)] at hj
      exact Or.inr ⟨j, hjn, hji, hj⟩
  · rintro (rfl | ⟨j, hjn, hji, hj⟩)
    · refine ⟨i, hin, ?_⟩
      rw [List.getElem?_set]
      have := lt_length_of_getElem? hi
      simp [this]
    · refine ⟨j, hjn, ?_⟩
      rw [List.getElem?_set_ne (Ne.symm hji), List.getElem?_set_ne (Ne.symm hjn)]
      exact hj

/-- `Free` of a non-empty block keeps the rows non-empty. -/
theorem Free.merge_pos (offs : List Int) (L : List FreeEntry) (ref : Int) (s : Nat)
    (hs : 0 < s) (hL : ∀ e ∈ L, 0 < e.size) : ∀ e ∈ Free.merge offs L ref s, 0 < e.size := by
  intro x hx
  rcases Free.merge_cases_pos offs L ref s hs hL with ⟨_, _, h⟩ | ⟨i, c, hc, _, _, _, h⟩ |
    ⟨n, e, hn, _, _, _, h⟩ | ⟨n, e, i, c, hin, hn, _, _, hc, _, _, h⟩
  · rw [h] at hx
    rcases List.mem_append.1 hx with h1 | h1
    · exact hL x h1
    · simp only [List.mem_singleton] at h1
      subst h1
      show (0 : Int) < (s : Int)
      omega
  · rw [h] at hx
    rcases (mem_set_iff_getElem? hc).1 hx with h1 | ⟨j, _, hj⟩
    · subst h1
      have := hL c (List.getElem?_mem hc)
      show 0 < c.size + (s : Int)
      omega
    · exact hL x (List.getElem?_mem hj)
  · rw [h] at hx
    rcases (mem_set_iff_getElem? hn).1 hx with h1 | ⟨j, _, hj⟩
    · subst h1
      have := hL e (List.getElem?_mem hn)
      show 0 < e.size + (s : Int)
      omega
    · exact hL x (List.getElem?_mem hj)
  · rw [h] at hx
    rcases (mem_double_iff hin hc).1 hx with h1 | ⟨j, _, _, hj⟩
    · subst h1
      have := hL e (List.getElem?_mem hn)
      have := hL c (List.getElem?_mem hc)
      show 0 < c.size + (e.size + (s : Int))
      omega
    · exact hL x (List.getElem?_mem hj)

/-- `Free` of a block that crosses no slab border keeps the rows from crossing one. -/
theorem Free.merge_no_span (offs : List Int) (L : List FreeEntry) (ref : Int) (s : Nat)
    (hs : 0 < s) (hL : ∀ e ∈ L, 0 < e.size)
    (hsp : ∀ e ∈ L, ∀ o ∈ offs, ¬ e.spans o)
    (hb : ∀ o ∈ offs, ¬ (FreeEntry.mk ref s).spans o) :
    ∀ e ∈ Free.merge offs L ref s, ∀ o ∈ offs, ¬ e.spans o := by
  intro x hx o ho hxo
  have hbo := hb o ho
  unfold FreeEntry.spans at hbo hxo
  simp only at hbo
  rcases Free.merge_cases_pos offs L ref s hs hL with ⟨_, _, h⟩ | ⟨i, c, hc, hce, hno, _, h⟩ |
    ⟨n, e, hn, hne, hno, _, h⟩ | ⟨n, e, i, c, hin, hn, hne, hno2, hc, hce, hno, h⟩
  · rw [h] at hx
    rcases List.mem_append.1 hx with h1 | h1
    · exact hsp x h1 o ho hxo
    · simp only [List.mem_singleton] at h1
      subst h1
      exact hbo hxo
  · rw [h] at hx
    rcases (mem_set_iff_getElem? hc).1 hx with h1 | ⟨j, _, hj⟩
    · subst h1
      have hco := hsp c (List.getElem?_mem hc) o ho
      unfold FreeEntry.spans at hco
      simp only at hxo
      have : o ≠ ref := fun h' => hno (h' ▸ ho)
      omega
    · exact hsp x (List.getElem?_mem hj) o ho hxo
  · rw [h] at hx
    rcases (mem_set_iff_getElem? hn).1 hx with h1 | ⟨j, _, hj⟩
    · subst h1
      have heo := hsp e (List.getElem?_mem hn) o ho
      unfold FreeEntry.spans at heo
      simp only at hxo
      have : o ≠ ref + s := fun h' => hno (h' ▸ ho)
      omega
    · exact hsp x (List.getElem?_mem hj) o ho hxo
  · rw [h] at hx
    rcases (mem_double_iff hin hc).1 hx with h1 | ⟨j, _, _, hj⟩
    · subst h1
      have heo := hsp e (List.getElem?_mem hn) o ho
      have hco := hsp c (List.getElem?_mem hc) o ho
      unfold FreeEntry.spans at heo hco
      simp only at hxo
      have : o ≠ ref + s := fun h' => hno2 (h' ▸ ho)
      have : o ≠ ref := fun h' => hno (h' ▸ ho)
      omega
    · exact hsp x (List.getElem?_mem hj) o ho hxo

/-- `Free` of a non-empty block keeps the ledger coalesced: adjacent rows only
meet at a slab border. -/
theorem Free.merge_coalesced (offs : List Int) (L : List FreeEntry) (ref : Int) (s : Nat)
    (hs : 0 < s) (hL : ∀ e ∈ L, 0 < e.size)
    (hco : ∀ e1 ∈ L, ∀ e2 ∈ L, e1.ref + e1.size = e2.ref → e2.ref ∈ offs) :
    ∀ e1 ∈ Free.merge offs L ref s, ∀ e2 ∈ Free.merge offs L ref s,
      e1.ref + e1.size = e2.ref → e2.ref ∈ offs := by
  intro x hx y hy hxy
  rcases Free.merge_cases_pos offs L ref s hs hL with ⟨hn1, hn2, h⟩ |
    ⟨i, c, hc, hce, _, hn1, h⟩ | ⟨n, e, hn, hne, _, hn2, h⟩ |
    ⟨n, e, i, c, hin, hn, hne, _, hc, hce, _, h⟩
  · rw [h] at hx hy
    rcases List.mem_append.1 hx with h1 | h1 <;> rcases List.mem_append.1 hy with h2 | h2
    · exact hco x h1 y h2 hxy
    · simp only [List.mem_singleton] at h2
      subst h2
      exact hn2 x h1 hxy
    · simp only [List.mem_singleton] at h1
      subst h1
      have := hn1 y h2 hxy.symm
      simp only at hxy
      rw [← hxy]
      exact this
    · simp only [List.mem_singleton] at h1 h2
      subst h1 h2
      simp only at hxy
      omega
  · rw [h] at hx hy
    have hc0 := hL c (List.getElem?_mem hc)
    rcases (mem_set_iff_getElem? hc).1 hx with h1 | ⟨j, _, hj⟩ <;>
      rcases (mem_set_iff_getElem? hc).1 hy with h2 | ⟨k, _, hk⟩
    · subst h1 h2
      simp only at hxy
      omega
    · subst h1
      simp only at hxy
      have := hn1 y (List.getElem?_mem hk) (by omega)
      rw [show y.ref = ref + s by omega]
      exact this
    · subst h2
      exact hco x (List.getElem?_mem hj) c (List.getElem?_mem hc) hxy
    · exact hco x (List.getElem?_mem hj) y (List.getElem?_mem hk) hxy
  · rw [h] at hx hy
    have he0 := hL e (List.getElem?_mem hn)
    rcases (mem_set_iff_getElem? hn).1 hx with h1 | ⟨j, hjn, hj⟩ <;>
      rcases (mem_set_iff_getElem? hn).1 hy with h2 | ⟨k, _, hk⟩
    · subst h1 h2
      simp only at hxy
      omega
    · subst h1
      simp only at hxy
      exact hco e (List.getElem?_mem hn) y (List.getElem?_mem hk) (by omega)
    · subst h2
      exact hn2 j x hjn hj hxy
    · exact hco x (List.getElem?_mem hj) y (List.getElem?_mem hk) hxy
  · rw [h] at hx hy
    have he0 := hL e (List.getElem?_mem hn)
    have hc0 := hL c (List.getElem?_mem hc)
    rcases (mem_double_iff hin hc).1 hx with h1 | ⟨j, _, _, hj⟩ <;>
      rcases (mem_double_iff hin hc).1 hy with h2 | ⟨k, _, _, hk⟩
    · subst h1 h2
      simp only at hxy
      omega
    · subst h1
      simp only at hxy
      exact hco e (List.getElem?_mem hn) y (List.getElem?_mem hk) (by omega)
    · subst h2
      exact hco x (List.getElem?_mem hj) c (List.getElem?_mem hc) hxy
    · exact hco x (List.getElem?_mem hj) y (List.getElem?_mem hk) hxy

/-- `Free` of a live block keeps the state tiled. -/
theorem Free_tiled (a : SlabAlloc) (live : List Block) (ref : Int) (p : Mem)
    (ht : Tiled a live) (hb : (ref, GetCapacityFromHeader p) ∈ live) :
    ∃ a1, Free a ref p = some a1 ∧ Tiled a1 (live.erase (ref, GetCapacityFromHeader p)) := by
  have hbw := ht.sound.blocks _ hb
  have hbase : a.m_baseline ≤ ref := hbw.2.1
  have hs : 0 < GetCapacityFromHeader p := ht.live_pos _ hb
  obtain ⟨a1, hF, hs1⟩ := Free_sound a live ref p ht.sound hb
  have hF' := Free_mutable a ref p hbase
  rw [hF'] at hF
  have ha1 := (Option.some.inj hF).symm
  subst ha1
  refine ⟨_, hF', ⟨hs1, ?_, ?_, ?_, ?_, ?_, ?_, ht.sorted, ht.pointers⟩⟩
  · intro x hx1 hx2
    have h1 := Free.merge_countP (offsets a.m_slabs) a.m_freeSpace ref (GetCapacityFromHeader p)
      (fun e he => (ht.sound.rows e he).1) x
    have h2 : (live.erase (ref, GetCapacityFromHeader p)).countP (fun b => b.has x) +
        (if (FreeEntry.mk ref (GetCapacityFromHeader p)).has x then 1 else 0) =
        live.countP (fun b => b.has x) :=
      countP_erase_add (fun b : Block => b.has x) _ live hb
    have h3 := ht.full x hx1 hx2
    simp only [owners] at h3 ⊢
    omega
  · exact Free.merge_pos _ _ _ _ hs ht.rows_pos
  · intro b hb'
    exact ht.live_pos b (List.mem_of_mem_erase hb')
  · exact Free.merge_no_span _ _ _ _ hs ht.rows_pos ht.rows_span (ht.live_span _ hb)
  · intro b hb'
    exact ht.live_span b (List.mem_of_mem_erase hb')
  · exact Free.merge_coalesced _ _ _ _ hs ht.rows_pos ht.coalesced

/-- `Translate` resolves a ref of the slab chain to a positive address when the
slab addresses are positive. -/
theorem Translate_pos (a : SlabAlloc) (ref : Int) (hlo : a.m_baseline ≤ ref)
    (hhi : ref < Alloc.slabsBack a) (hp : ∀ s ∈ a.m_slabs, 0 < s.pointer) :
    ∃ pointer, Translate a ref = some pointer ∧ 0 < pointer := by
  obtain ⟨pointer, h⟩ := Translate_isSome a ref hhi
  refine ⟨pointer, h, ?_⟩
  unfold Translate at h
  have hb : ¬ ref < a.m_baseline := by omega
  simp only [hb, if_false] at h
  cases hf : find_pos (offsets a.m_slabs) ref with
  | none => simp [hf] at h
  | some ndx =>
    rw [hf] at h
    simp only at h
    cases hs : a.m_slabs[ndx]? with
    | none => simp [hs] at h
    | some s =>
      rw [hs] at h
      simp only [Option.some.injEq] at h
      have hsp := hp s (List.getElem?_mem hs)
      unfold find_pos at hf
      obtain ⟨_, hfirst⟩ := (firstIdx_eq_some _ _ _).1 hf
      by_cases h0 : ndx = 0
      · simp only [h0, ne_eq, not_true_eq_false, if_false] at h
        omega
      · simp only [h0, ne_eq, not_false_eq_true, if_true] at h
        have hlt : ndx - 1 < a.m_slabs.length := by
          have := lt_length_of_getElem? hs
          omega
        have hget : a.m_slabs[ndx - 1]? = some (a.m_slabs.getD (ndx - 1) ⟨0, 0⟩) := by
          simp [List.getD, List.getElem?_eq_getElem hlt]
        have hprev := hfirst (ndx - 1) (a.m_slabs.getD (ndx - 1) ⟨0, 0⟩).offset (by omega)
          (by rw [offsets, List.getElem?_map, hget]; rfl)
        simp only [decide_eq_false_iff_not] at hprev
        omega

/-- The reuse path of `Alloc`. -/
theorem Alloc_reuse (a : SlabAlloc) (malloc : Int → Int) (size : Nat) (loc pointer : Int)
    (rows' : List FreeEntry) (h8 : size % 8 = 0)
    (hr : Alloc.reuse size a.m_freeSpace = some (loc, rows'))
    (hp : Translate a loc = some pointer) :
    Alloc a malloc size = some (⟨pointer, loc⟩, { a with m_freeSpace := rows' }) := by
  have hp' : Translate { a with m_freeSpace := rows' } loc = some pointer := hp
  simp [Alloc, and_seven_eq_zero h8, hr, hp']

/-- Taking the first `size` bytes of row `i` moves them from the rows to the new
block and changes the ownership of no other byte. -/
theorem Alloc.reuse_countP (L : List FreeEntry) (i : Nat) (e : FreeEntry) (size : Nat)
    (hi : L[i]? = some e) (hfit : (size : Int) ≤ e.size) (x : Int) :
    (if e.size - (size : Int) = 0 then L.eraseIdx i
      else L.set i ⟨e.ref + size, e.size - size⟩).countP (fun e => e.has x) +
        (if (FreeEntry.mk e.ref size).has x then 1 else 0) =
      L.countP (fun e => e.has x) := by
  have hu := has_union e.ref size (e.size - size) x (Int.ofNat_nonneg size) (by omega)
  rw [show (size : Int) + (e.size - size) = e.size by omega,
    show (⟨e.ref, e.size⟩ : FreeEntry) = e from rfl] at hu
  split
  · rename_i h0
    have h1 := countP_eraseIdx_add (fun e : FreeEntry => e.has x) _ i e hi
    have hz : (if (FreeEntry.mk (e.ref + size) (e.size - size)).has x then 1 else 0) = 0 := by
      simp only [FreeEntry.has, decide_eq_true_eq]; split_ifs <;> omega
    simp only at h1
    omega
  · have h1 := countP_set_add (fun e : FreeEntry => e.has x) _ i e
      ⟨e.ref + size, e.size - size⟩ hi
    simp only at h1
    omega

/-- Every slab end offset is at most the end of the address space. -/
theorem offsets_le_slabsBack (a : SlabAlloc)
    (hs : (a.m_baseline :: offsets a.m_slabs).Pairwise (· < ·)) :
    ∀ o ∈ offsets a.m_slabs, o ≤ Alloc.slabsBack a := by
  intro o ho
  unfold Alloc.slabsBack
  cases hl : a.m_slabs.getLast? with
  | none =>
    rw [List.getLast?_eq_none_iff] at hl
    simp [offsets, hl] at ho
  | some s =>
    obtain ⟨ys, hys⟩ := List.getLast?_eq_some_iff.1 hl
    simp only
    rw [hys] at hs ho
    simp only [offsets, List.map_append, List.map_cons, List.map_nil] at hs ho
    rw [List.pairwise_cons] at hs
    have h2 := (List.pairwise_append.1 hs.2).2.2
    rcases List.mem_append.1 ho with h1 | h1
    · exact le_of_lt (h2 o h1 s.offset (by simp))
    · simp only [List.mem_singleton] at h1
      omega

/-- Serving a request from row `i` keeps the state tiled. -/
theorem Tiled.reuse (a : SlabAlloc) (live : List Block) (ht : Tiled a live) (size i : Nat)
    (e : FreeEntry) (h0 : 0 < size) (hi : a.m_freeSpace[i]? = some e)
    (hfit : (size : Int) ≤ e.size)
    (hs1 : Sound { a with m_freeSpace :=
        if e.size - (size : Int) = 0 then a.m_freeSpace.eraseIdx i
        else a.m_freeSpace.set i ⟨e.ref + size, e.size - size⟩ } (live ++ [(e.ref, size)])) :
    Tiled { a with m_freeSpace :=
        if e.size - (size : Int) = 0 then a.m_freeSpace.eraseIdx i
        else a.m_freeSpace.set i ⟨e.ref + size, e.size - size⟩ } (live ++ [(e.ref, size)]) := by
  have hemem := List.getElem?_mem hi
  have hepos := ht.rows_pos e hemem
  have hmem : ∀ m ∈ (if e.size - (size : Int) = 0 then a.m_freeSpace.eraseIdx i
      else a.m_freeSpace.set i ⟨e.ref + size, e.size - size⟩),
      (m = ⟨e.ref + size, e.size - size⟩ ∧ e.size - (size : Int) ≠ 0) ∨
        ∃ j, j ≠ i ∧ a.m_freeSpace[j]? = some m := by
    intro m hm
    split at hm
    · obtain ⟨j, hji, hj⟩ := List.mem_eraseIdx_iff_getElem?.1 hm
      exact Or.inr ⟨j, hji, hj⟩
    · rename_i hne
      rcases (mem_set_iff_getElem? hi).1 hm with h1 | h1
      · exact Or.inl ⟨h1, hne⟩
      · exact Or.inr h1
  refine ⟨hs1, ?_, ?_, ?_, ?_, ?_, ?_, ht.sorted, ht.pointers⟩
  · intro x hx1 hx2
    have h1 := Alloc.reuse_countP a.m_freeSpace i e size hi hfit x
    have h2 := ht.full x hx1 hx2
    have h3 : (if Block.has (e.ref, size) x then 1 else 0) =
        (if (FreeEntry.mk e.ref size).has x then 1 else 0) := rfl
    simp only [owners, List.countP_append, List.countP_cons, List.countP_nil] at h2 ⊢
    omega
  · intro m hm
    rcases hmem m hm with ⟨h1, hne⟩ | ⟨j, _, hj⟩
    · subst h1
      show 0 < e.size - (size : Int)
      omega
    · exact ht.rows_pos m (List.getElem?_mem hj)
  · intro b hb
    rcases List.mem_append.1 hb with h1 | h1
    · exact ht.live_pos b h1
    · simp only [List.mem_singleton] at h1
      subst h1
      exact h0
  · intro m hm o ho hsp
    rcases hmem m hm with ⟨h1, hne⟩ | ⟨j, _, hj⟩
    · subst h1
      have := ht.rows_span e hemem o ho
      unfold FreeEntry.spans at this hsp
      simp only at hsp
      omega
    · exact ht.rows_span m (List.getElem?_mem hj) o ho hsp
  · intro b hb o ho hsp
    rcases List.mem_append.1 hb with h1 | h1
    · exact ht.live_span b h1 o ho hsp
    · simp only [List.mem_singleton] at h1
      subst h1
      have := ht.rows_span e hemem o ho
      unfold FreeEntry.spans at this hsp
      simp only at hsp
      omega
  · intro m1 hm1 m2 hm2 h12
    rcases hmem m1 hm1 with ⟨h1, hne⟩ | ⟨j, hji, hj⟩ <;>
      rcases hmem m2 hm2 with ⟨h2, hne2⟩ | ⟨k, hki, hk⟩
    · subst h1 h2
      simp only at h12
      omega
    · subst h1
      simp only at h12
      exact ht.coalesced e hemem m2 (List.getElem?_mem hk) (by omega)
    · subst h2
      simp only at h12
      exfalso
      have hm1pos := ht.rows_pos m1 (List.getElem?_mem hj)
      have hx1 : m1.has (e.ref + size - 1) = true := by
        simp only [FreeEntry.has, decide_eq_true_eq]; omega
      have hx2 : e.has (e.ref + size - 1) = true := by
        simp only [FreeEntry.has, decide_eq_true_eq]; omega
      have h2 := two_le_countP (fun m : FreeEntry => m.has (e.ref + size - 1))
        a.m_freeSpace j i m1 e hji hj hi hx1 hx2
      have h1 := ht.sound.once (e.ref + size - 1)
      simp only [owners] at h1
      omega
    · exact ht.coalesced m1 (List.getElem?_mem hj) m2 (List.getElem?_mem hk) h12

/-- Appending a slab for a non-empty request keeps the state tiled. -/
theorem Tiled.of_grow (a : SlabAlloc) (live : List Block) (ht : Tiled a live) (size : Nat)
    (N pointer : Int) (h0 : 0 < size) (hN : (size : Int) < N) (hp : 0 < pointer) :
    Tiled
      { a with
        m_slabs := a.m_slabs ++ [⟨Alloc.slabsBack a + N, pointer⟩]
        m_freeSpace := a.m_freeSpace ++ [⟨Alloc.slabsBack a + size, N - size⟩] }
      (live ++ [(Alloc.slabsBack a, size)]) := by
  have hback := Alloc.slabsBack_append a ⟨Alloc.slabsBack a + N, pointer⟩
    (a.m_freeSpace ++ [⟨Alloc.slabsBack a + size, N - size⟩])
  simp only at hback
  have hbase := ht.sound.base
  have hle := offsets_le_slabsBack a ht.sorted
  have hoffs : offsets (a.m_slabs ++ [⟨Alloc.slabsBack a + N, pointer⟩]) =
      offsets a.m_slabs ++ [Alloc.slabsBack a + N] := by simp [offsets]
  have hmo : ∀ o, o ∈ offsets (a.m_slabs ++ [⟨Alloc.slabsBack a + N, pointer⟩]) →
      o ∈ offsets a.m_slabs ∨ o = Alloc.slabsBack a + N := by
    intro o ho
    rw [hoffs] at ho
    rcases List.mem_append.1 ho with h | h
    · exact Or.inl h
    · exact Or.inr (by simpa using h)
  refine ⟨Sound.grow a live ht.sound size N pointer hN, ?_, ?_, ?_, ?_, ?_, ?_, ?_, ?_⟩
  · intro x hx1 hx2
    rw [hback] at hx2
    have hx1 : a.m_baseline ≤ x := hx1
    show owners (a.m_freeSpace ++ [⟨Alloc.slabsBack a + size, N - size⟩])
      (live ++ [(Alloc.slabsBack a, size)]) x = 1
    have hb : (if Block.has (Alloc.slabsBack a, size) x then 1 else 0) =
        (if (FreeEntry.mk (Alloc.slabsBack a) size).has x then 1 else 0) := rfl
    simp only [owners, List.countP_append, List.countP_cons, List.countP_nil]
    have hu := has_union (Alloc.slabsBack a) size (N - size) x
      (Int.ofNat_nonneg size) (by omega)
    by_cases hx : Alloc.slabsBack a ≤ x
    · have h0' := owners_eq_zero a.m_freeSpace live a.m_baseline (Alloc.slabsBack a) x
        ht.sound.rows ht.sound.blocks hx
      simp only [owners] at h0'
      have : (if (FreeEntry.mk (Alloc.slabsBack a)
          ((size : Int) + (N - size))).has x then 1 else 0) = 1 := by
        simp only [FreeEntry.has, decide_eq_true_eq]
        rw [if_pos]
        constructor <;> omega
      omega
    · have h1 := ht.full x hx1 (by omega)
      simp only [owners] at h1
      have hz1 : (if (FreeEntry.mk (Alloc.slabsBack a + size) (N - size)).has x
          then 1 else 0) = 0 := by
        simp only [FreeEntry.has, decide_eq_true_eq]; split_ifs <;> omega
      have hz2 : (if (FreeEntry.mk (Alloc.slabsBack a) size).has x then 1 else 0) = 0 := by
        simp only [FreeEntry.has, decide_eq_true_eq]; split_ifs <;> omega
      omega
  · intro e he
    rcases List.mem_append.1 he with h1 | h1
    · exact ht.rows_pos e h1
    · simp only [List.mem_singleton] at h1
      subst h1
      show 0 < N - (size : Int)
      omega
  · intro b hb
    rcases List.mem_append.1 hb with h1 | h1
    · exact ht.live_pos b h1
    · simp only [List.mem_singleton] at h1
      subst h1
      exact h0
  · intro e he o ho hsp
    unfold FreeEntry.spans at hsp
    rcases List.mem_append.1 he with h1 | h1
    · have hw := ht.sound.rows e h1
      unfold FreeEntry.within at hw
      rcases hmo o ho with h2 | h2
      · exact ht.rows_span e h1 o h2 hsp
      · omega
    · simp only [List.mem_singleton] at h1
      subst h1
      simp only at hsp
      rcases hmo o ho with h2 | h2
      · have := hle o h2
        omega
      · omega
  · intro b hb o ho hsp
    unfold FreeEntry.spans at hsp
    simp only at hsp
    rcases List.mem_append.1 hb with h1 | h1
    · have hw := ht.sound.blocks b h1
      unfold FreeEntry.within at hw
      simp only at hw
      rcases hmo o ho with h2 | h2
      · exact ht.live_span b h1 o h2 hsp
      · omega
    · simp only [List.mem_singleton] at h1
      subst h1
      simp only at hsp
      rcases hmo o ho with h2 | h2
      · have := hle o h2
        omega
      · omega
  · intro e1 he1 e2 he2 h12
    show e2.ref ∈ offsets (a.m_slabs ++ [⟨Alloc.slabsBack a + N, pointer⟩])
    rw [hoffs]
    rcases List.mem_append.1 he1 with h1 | h1 <;> rcases List.mem_append.1 he2 with h2 | h2
    · exact List.mem_append_left _ (ht.coalesced e1 h1 e2 h2 h12)
    · simp only [List.mem_singleton] at h2
      subst h2
      have hw := ht.sound.rows e1 h1
      unfold FreeEntry.within at hw
      simp only at h12
      omega
    · simp only [List.mem_singleton] at h1
      subst h1
      have hw := ht.sound.rows e2 h2
      unfold FreeEntry.within at hw
      simp only at h12
      omega
    · simp only [List.mem_singleton] at h1 h2
      subst h1 h2
      simp only at h12
      omega
  · show (a.m_baseline :: offsets (a.m_slabs ++ [⟨Alloc.slabsBack a + N, pointer⟩])).Pairwise
      (· < ·)
    rw [hoffs, ← List.cons_append, List.pairwise_append]
    refine ⟨ht.sorted, by simp, ?_⟩
    intro x hx y hy
    simp only [List.mem_singleton] at hy
    subst hy
    rcases List.mem_cons.1 hx with h | h
    · omega
    · have := hle x h
      omega
  · intro s hs
    rcases List.mem_append.1 hs with h1 | h1
    · exact ht.pointers s h1
    · simp only [List.mem_singleton] at h1
      subst h1
      exact hp

/-- `Alloc` of a non-empty request below 2^31 returns and keeps the state tiled. -/
theorem Alloc_tiled (a : SlabAlloc) (live : List Block) (malloc : Int → Int) (size : Nat)
    (ht : Tiled a live) (h8 : size % 8 = 0) (h0 : 0 < size) (h31 : size < 2 ^ 31)
    (hm : ∀ n, 0 ≤ malloc n) :
    ∃ r a1, Alloc a malloc size = some (r, a1) ∧
      Tiled a1 (if r.pointer = 0 then live else live ++ [(r.ref, size)]) := by
  obtain ⟨r0, a0, hA0, hs0⟩ := Alloc_sound a live malloc size ht.sound h8 h31
  cases hr : Alloc.reuse size a.m_freeSpace with
  | some res =>
    obtain ⟨loc, rows'⟩ := res
    obtain ⟨i, e, hi, hfit, hloc, hrows⟩ := Alloc.reuse_some size _ _ _ hr
    rw [int_cast_of_lt h31] at hfit
    rw [uint_cast_of_lt h31] at hrows
    have hew := ht.sound.rows e (List.getElem?_mem hi)
    obtain ⟨pointer, hp, hpos⟩ := Translate_pos a e.ref hew.2.1 hew.2.2.1 ht.pointers
    have hA := Alloc_reuse a malloc size loc pointer rows' h8 hr (by rw [hloc]; exact hp)
    rw [hA] at hA0
    have h1 := Option.some.inj hA0
    simp only [Prod.mk.injEq] at h1
    obtain ⟨hr0, ha0⟩ := h1
    subst hr0 ha0
    have hp0 : pointer ≠ 0 := by omega
    refine ⟨_, _, hA, ?_⟩
    subst hloc hrows
    rw [if_neg (show (MemRef.mk pointer e.ref).pointer ≠ 0 from hp0)] at hs0 ⊢
    exact Tiled.reuse a live ht size i e h0 hi hfit hs0
  | none =>
    have hn := Alloc.newsize_gt a size
    have hn0 : Alloc.newsize a size ≠ 0 := by omega
    by_cases hmz : malloc (Alloc.newsize a size) = 0
    · refine ⟨⟨0, 0⟩, a, ?_, ?_⟩
      · simp [Alloc, and_seven_eq_zero h8, hr, hn0, hmz]
      · simpa using ht
    · have hfit : ∀ e ∈ a.m_freeSpace, e.size < (size : Int) := by
        have := Alloc.reuse_eq_none size _ hr
        rw [int_cast_of_lt h31] at this
        exact this
      refine ⟨_, _, Alloc_grow a malloc size h8 h31 hfit hmz, ?_⟩
      simp only [hmz, if_false]
      have := hm (Alloc.newsize a size)
      exact Tiled.of_grow a live ht size _ _ h0 hn (by omega)

theorem Tiled.fresh : Tiled SlabAlloc.new [] := by
  refine ⟨Sound.new, ?_, ?_, ?_, ?_, ?_, ?_, ?_, ?_⟩
  · intro x h1 h2
    simp only [SlabAlloc.new, Alloc.slabsBack, List.getLast?_nil] at h1 h2
    omega
  · intro e he; simp [SlabAlloc.new] at he
  · intro b hb; simp at hb
  · intro e he; simp [SlabAlloc.new] at he
  · intro b hb; simp at hb
  · intro e he; simp [SlabAlloc.new] at he
  · simp [SlabAlloc.new, offsets]
  · intro s hs; simp [SlabAlloc.new] at hs

/-- A replayed history of non-empty requests never aborts and ends in a tiled
state. -/
theorem replay_tiled : ∀ (ops : List Op) (a : SlabAlloc) (live : List Block),
    Tiled a live → (∀ op ∈ ops, op.positive) →
    replay a live ops ≠ Replayed.aborted ∧
      ∀ a' live', replay a live ops = Replayed.done a' live' → Tiled a' live'
  | [], a, live, ht, _ => by
    refine ⟨by simp [replay], ?_⟩
    intro a' live' h
    simp only [replay, Replayed.done.injEq] at h
    rw [← h.1, ← h.2]
    exact ht
  | Op.alloc size malloc :: ops, a, live, ht, hpos => by
    have hp : (Op.alloc size malloc).positive := hpos _ (List.mem_cons_self _ _)
    obtain ⟨r, a1, hA, ht1⟩ := Alloc_tiled a live malloc size ht hp.1 hp.2.1 hp.2.2.1 hp.2.2.2
    have ih := replay_tiled ops a1 _ ht1 (fun op hop => hpos op (List.mem_cons_of_mem _ hop))
    simp only [replay, hA]
    exact ih
  | Op.free ref p :: ops, a, live, ht, hpos => by
    by_cases hb : (ref, GetCapacityFromHeader p) ∈ live
    · obtain ⟨a1, hF, ht1⟩ := Free_tiled a live ref p ht hb
      have ih := replay_tiled ops a1 _ ht1 (fun op hop => hpos op (List.mem_cons_of_mem _ hop))
      simp only [replay, hb, if_true, hF]
      exact ih
    · simp [replay, hb]

/-- In a tiled state without live blocks, the stretch between two consecutive
slab borders is one free row. -/
theorem row_of_slab (a : SlabAlloc) (ht : Tiled a []) (start o : Int)
    (h1 : a.m_baseline ≤ start) (h2 : start < o) (ho : o ∈ offsets a.m_slabs)
    (hs : start = a.m_baseline ∨ start ∈ offsets a.m_slabs)
    (hbetween : ∀ o' ∈ offsets a.m_slabs, ¬ (start < o' ∧ o' < o)) :
    (⟨start, o - start⟩ : FreeEntry) ∈ a.m_freeSpace := by
  have hback := offsets_le_slabsBack a ht.sorted o ho
  have hfull : ∀ x, a.m_baseline ≤ x → x < Alloc.slabsBack a →
      a.m_freeSpace.countP (fun e => e.has x) = 1 := by
    intro x hx1 hx2
    have := ht.full x hx1 hx2
    simpa [owners] using this
  obtain ⟨e, he, hex⟩ : ∃ e ∈ a.m_freeSpace, e.has start = true :=
    List.countP_pos_iff.1 (by rw [hfull start h1 (by omega)]; omega)
  have hex1 : e.ref ≤ start ∧ start < e.ref + e.size := by simpa [FreeEntry.has] using hex
  have hew := ht.sound.rows e he
  unfold FreeEntry.within at hew
  have hpos := ht.rows_pos e he
  have href : e.ref = start := by
    by_contra hne
    have hlt : e.ref < start := by omega
    rcases hs with hs | hs
    · omega
    · exact ht.rows_span e he start hs ⟨hlt, hex1.2⟩
  have hend1 : e.ref + e.size ≤ o := by
    by_contra hgt
    exact ht.rows_span e he o ho ⟨by omega, by omega⟩
  have hend : e.ref + e.size = o := by
    by_contra hne
    have hlt : e.ref + e.size < o := by omega
    obtain ⟨e2, he2, he2x⟩ : ∃ e2 ∈ a.m_freeSpace, e2.has (e.ref + e.size) = true :=
      List.countP_pos_iff.1 (by rw [hfull _ (by omega) (by omega)]; omega)
    have he2x1 : e2.ref ≤ e.ref + e.size ∧ e.ref + e.size < e2.ref + e2.size := by
      simpa [FreeEntry.has] using he2x
    by_cases hr2 : e2.ref = e.ref + e.size
    · have := ht.coalesced e he e2 he2 hr2.symm
      exact hbetween e2.ref this ⟨by omega, by omega⟩
    · have hne2 : e ≠ e2 := by
        rintro rfl
        omega
      have h2 := two_le_countP_of_ne a.m_freeSpace e e2 (e.ref + e.size - 1) he he2 hne2
        (by simp only [FreeEntry.has, decide_eq_true_eq]; omega)
        (by simp only [FreeEntry.has, decide_eq_true_eq]; omega)
      have := hfull (e.ref + e.size - 1) (by omega) (by omega)
      omega
  have hee : e = ⟨start, o - start⟩ := by
    cases e with
    | mk r s =>
      simp only at href hend
      simp only [FreeEntry.mk.injEq]
      exact ⟨href, by omega⟩
  rw [← hee]
  exact he

/-- Looking a row up by its start finds that very row when rows are non-empty
and no byte belongs to two of them. -/
theorem find_row (rows : List FreeEntry) (hpos : ∀ e ∈ rows, 0 < e.size)
    (honce : ∀ x, rows.countP (fun e => e.has x) ≤ 1) (start sz : Int)
    (hmem : (⟨start, sz⟩ : FreeEntry) ∈ rows) :
    ∃ r, find_first (refs rows) start = some r ∧ (rows.getD r ⟨0, 0⟩).size = sz := by
  obtain ⟨j, hj⟩ := List.mem_iff_getElem?.1 hmem
  cases hf : find_first (refs rows) start with
  | none =>
    have := (find_first_refs_eq_none rows start).1 hf _ hmem
    exact absurd rfl this
  | some r =>
    obtain ⟨⟨e1, hr, href⟩, _⟩ := (find_first_refs_eq_some rows start r).1 hf
    refine ⟨r, rfl, ?_⟩
    have hrj : r = j := by
      by_contra hne
      have hp1 := hpos e1 (List.getElem?_mem hr)
      have hp2 := hpos _ hmem
      have h2 := two_le_countP (fun e : FreeEntry => e.has start) rows r j e1 ⟨start, sz⟩ hne hr hj
        (by simp only [FreeEntry.has, decide_eq_true_eq]; omega)
        (by simp only [FreeEntry.has, decide_eq_true_eq]; simp only at hp2; omega)
      have := honce start
      omega
    subst hrj
    simp [List.getD, hj]

theorem offsets_cons (c : Slab) (cs : List Slab) :
    offsets (c :: cs) = c.offset :: offsets cs := rfl

/-- In a tiled state without live blocks every slab row is in the free table. -/
theorem slabRows_mem (a : SlabAlloc) (ht : Tiled a []) :
    ∀ (cs : List Slab) (ref : Int), a.m_baseline ≤ ref →
      (ref = a.m_baseline ∨ ref ∈ offsets a.m_slabs) →
      (ref :: offsets cs).Pairwise (· < ·) →
      (∀ o ∈ offsets a.m_slabs, o ≤ ref ∨ o ∈ offsets cs) →
      (∀ o ∈ offsets cs, o ∈ offsets a.m_slabs) →
      ∀ e ∈ slabRows ref cs, e ∈ a.m_freeSpace
  | [], _, _, _, _, _, _ => by
    intro e he
    simp [slabRows] at he
  | c :: cs, ref, h1, h2, hsorted, hcov, hsub => by
    intro e he
    rw [offsets_cons] at hsorted hcov hsub
    rw [List.pairwise_cons] at hsorted
    obtain ⟨hgt, hrest⟩ := hsorted
    have hlt : ref < c.offset := hgt _ (List.mem_cons_self _ _)
    have hc : c.offset ∈ offsets a.m_slabs := hsub _ (List.mem_cons_self _ _)
    have hrest2 := hrest
    rw [List.pairwise_cons] at hrest2
    simp only [slabRows, List.mem_cons] at he
    rcases he with rfl | he
    · apply row_of_slab a ht ref c.offset h1 hlt hc h2
      intro o1 ho1 hb
      rcases hcov o1 ho1 with h | h
      · omega
      · rcases List.mem_cons.1 h with h | h
        · omega
        · have := hrest2.1 o1 h
          omega
    · apply slabRows_mem a ht cs c.offset (by omega) (Or.inr hc) hrest ?_ ?_ e he
      · intro o1 ho1
        rcases hcov o1 ho1 with h | h
        · left; omega
        · rcases List.mem_cons.1 h with h | h
          · left; omega
          · right; exact h
      · intro o1 ho1
        exact hsub o1 (List.mem_cons_of_mem _ ho1)

/-- The loop of `IsAllFree` succeeds when every slab row is in the table. -/
theorem IsAllFree.loop_true (rows : List FreeEntry) (hpos : ∀ e ∈ rows, 0 < e.size)
    (honce : ∀ x, rows.countP (fun e => e.has x) ≤ 1) :
    ∀ (cs : List Slab) (ref : Int), (∀ e ∈ slabRows ref cs, e ∈ rows) →
      IsAllFree.loop rows ref cs = true
  | [], _, _ => rfl
  | c :: cs, ref, hmem => by
    obtain ⟨r, hf, hsz⟩ := find_row rows hpos honce ref (c.offset - ref)
      (hmem _ (by simp [slabRows]))
    simp only [IsAllFree.loop, hf, hsz, ne_eq, not_true_eq_false, if_false]
    exact IsAllFree.loop_true rows hpos honce cs c.offset
      (fun e he => hmem e (by simp [slabRows, he]))

theorem slabRows_length : ∀ (cs : List Slab) (ref : Int), (slabRows ref cs).length = cs.length
  | [], _ => rfl
  | c :: cs, ref => by simp [slabRows, slabRows_length cs c.offset]

theorem slabRows_ref_ge : ∀ (cs : List Slab) (ref : Int),
    (ref :: offsets cs).Pairwise (· < ·) → ∀ e ∈ slabRows ref cs, ref ≤ e.ref
  | [], _, _ => by
    intro e he
    simp [slabRows] at he
  | c :: cs, ref, hsorted => by
    intro e he
    rw [offsets_cons, List.pairwise_cons] at hsorted
    have hlt : ref < c.offset := hsorted.1 _ (List.mem_cons_self _ _)
    simp only [slabRows, List.mem_cons] at he
    rcases he with rfl | he
    · exact le_refl _
    · have := slabRows_ref_ge cs c.offset hsorted.2 e he
      omega

theorem slabRows_nodup : ∀ (cs : List Slab) (ref : Int),
    (ref :: offsets cs).Pairwise (· < ·) → (slabRows ref cs).Nodup
  | [], _, _ => by simp [slabRows]
  | c :: cs, ref, hsorted => by
    rw [offsets_cons, List.pairwise_cons] at hsorted
    have hlt : ref < c.offset := hsorted.1 _ (List.mem_cons_self _ _)
    simp only [slabRows, List.nodup_cons]
    refine ⟨?_, slabRows_nodup cs c.offset hsorted.2⟩
    intro hmem
    have := slabRows_ref_ge cs c.offset hsorted.2 _ hmem
    simp only at this
    omega

theorem slabsBack_eq (a : SlabAlloc) : Alloc.slabsBack a = lastOffset a.m_baseline a.m_slabs := rfl

theorem lastOffset_cons (ref : Int) (c : Slab) (cs : List Slab) :
    lastOffset ref (c :: cs) = lastOffset c.offset cs := by
  cases cs with
  | nil => rfl
  | cons d ds =>
    simp only [lastOffset, List.getLast?_cons_cons]
    cases h : (d :: ds).getLast? with
    | none => simp at h
    | some s => rfl

/-- Every byte of the slab chain lies in a slab row. -/
theorem slabRows_cover : ∀ (cs : List Slab) (ref : Int),
    (ref :: offsets cs).Pairwise (· < ·) → ∀ x, ref ≤ x → x < lastOffset ref cs →
      ∃ sr ∈ slabRows ref cs, sr.has x = true
  | [], ref, _ => by
    intro x h1 h2
    simp [lastOffset] at h2
    omega
  | c :: cs, ref, hsorted => by
    intro x h1 h2
    rw [offsets_cons, List.pairwise_cons] at hsorted
    rw [lastOffset_cons] at h2
    by_cases hx : x < c.offset
    · refine ⟨⟨ref, c.offset - ref⟩, by simp [slabRows], ?_⟩
      simp only [FreeEntry.has, decide_eq_true_eq]
      omega
    · obtain ⟨sr, hsr, hhas⟩ := slabRows_cover cs c.offset hsorted.2 x (by omega) h2
      exact ⟨sr, by simp [slabRows, hsr], hhas⟩

theorem nodup_of_countP_le_one : ∀ (rows : List FreeEntry), (∀ e ∈ rows, 0 < e.size) →
    (∀ x, rows.countP (fun e => e.has x) ≤ 1) → rows.Nodup
  | [], _, _ => List.nodup_nil
  | e :: t, hpos, honce => by
    rw [List.nodup_cons]
    constructor
    · intro hmem
      have hp := hpos e (List.mem_cons_self _ _)
      have hex : e.has e.ref = true := by
        simp only [FreeEntry.has, decide_eq_true_eq]
        omega
      have h1 := honce e.ref
      have h2 : 0 < t.countP (fun m => m.has e.ref) := List.countP_pos_iff.2 ⟨e, hmem, hex⟩
      rw [List.countP_cons, hex] at h1
      simp only [if_true] at h1
      omega
    · apply nodup_of_countP_le_one t (fun m hm => hpos m (List.mem_cons_of_mem _ hm))
      intro x
      have h1 := honce x
      rw [List.countP_cons] at h1
      omega

/-- A tiled state without live blocks is all free: the table is, up to order, one
row per slab spanning the whole slab, which is what `IsAllFree` tests. -/
theorem Tiled.all_free (a : SlabAlloc) (ht : Tiled a []) : IsAllFree a = true := by
  have hpos := ht.rows_pos
  have honce : ∀ x, a.m_freeSpace.countP (fun e => e.has x) ≤ 1 := by
    intro x
    have := ht.sound.once x
    simpa [owners] using this
  have hsub : ∀ e ∈ slabRows a.m_baseline a.m_slabs, e ∈ a.m_freeSpace :=
    slabRows_mem a ht a.m_slabs a.m_baseline (le_refl _) (Or.inl rfl) ht.sorted
      (fun o ho => Or.inr ho) (fun o ho => ho)
  have hsup : ∀ e ∈ a.m_freeSpace, e ∈ slabRows a.m_baseline a.m_slabs := by
    intro e he
    have hew := ht.sound.rows e he
    unfold FreeEntry.within at hew
    have hp := hpos e he
    obtain ⟨sr, hsr, hhas⟩ := slabRows_cover a.m_slabs a.m_baseline ht.sorted e.ref hew.2.1
      (by rw [← slabsBack_eq]; exact hew.2.2.1)
    by_cases hee : sr = e
    · rw [← hee]
      exact hsr
    · have h2 := two_le_countP_of_ne a.m_freeSpace sr e e.ref (hsub sr hsr) he hee hhas
        (by simp only [FreeEntry.has, decide_eq_true_eq]; omega)
      have := honce e.ref
      omega
  have hperm : a.m_freeSpace.Perm (slabRows a.m_baseline a.m_slabs) :=
    (List.perm_ext_iff_of_nodup (nodup_of_countP_le_one _ hpos honce)
      (slabRows_nodup _ _ ht.sorted)).2 (fun e => ⟨hsup e, hsub e⟩)
  have hlen : a.m_freeSpace.length = a.m_slabs.length := by
    rw [hperm.length_eq, slabRows_length]
  simp only [IsAllFree, hlen, ne_eq, not_true_eq_false, if_false]
  exact IsAllFree.loop_true _ hpos honce _ _ hsub

/-! ## Failure and results of `Alloc` -/

/-- `Alloc` returns only for sizes that pass its alignment assertion. -/
theorem Alloc_aligned (a a1 : SlabAlloc) (malloc : Int → Int) (size : Nat) (r : MemRef)
    (h : Alloc a malloc size = some (r, a1)) : size &&& 0x7 = 0 := by
  by_contra hne
  simp [Alloc, hne] at h

/-- Where `Alloc` returns: either the first-fit scan chose a row, whose ref is
returned with its translated address, or the scan fell through and the host was
asked for `newsize` bytes: on a null answer the null result is returned and the
state is unchanged, otherwise the slab's address is returned with ref
`slabsBack`. -/
theorem Alloc_cases (a a1 : SlabAlloc) (malloc : Int → Int) (size : Nat) (r : MemRef)
    (h : Alloc a malloc size = some (r, a1)) :
    (∃ e ∈ a.m_freeSpace, r.ref = e.ref ∧ Translate a e.ref = some r.pointer) ∨
    (Alloc.reuse size a.m_freeSpace = none ∧ malloc (Alloc.newsize a size) = 0 ∧
      r = ⟨0, 0⟩ ∧ a1 = a) ∨
    (Alloc.reuse size a.m_freeSpace = none ∧ r.pointer = malloc (Alloc.newsize a size) ∧
      r.pointer ≠ 0 ∧ r.ref = Alloc.slabsBack a) := by
  have hn := Alloc.newsize_gt a size
  have hn0 : Alloc.newsize a size ≠ 0 := by omega
  have h7 := Alloc_aligned a a1 malloc size r h
  unfold Alloc at h
  simp only [h7, ne_eq, not_true_eq_false, if_false] at h
  cases hr : Alloc.reuse size a.m_freeSpace with
  | some res =>
    obtain ⟨loc, rows⟩ := res
    left
    simp only [hr, Option.map_eq_some'] at h
    obtain ⟨pointer, hT, hp⟩ := h
    simp only [Prod.mk.injEq] at hp
    obtain ⟨i, e, hi, _, hloc, _⟩ := Alloc.reuse_some size _ _ _ hr
    refine ⟨e, List.getElem?_mem hi, ?_, ?_⟩
    · rw [← hp.1, hloc]
    · rw [← hp.1, ← hloc]
      exact hT
  | none =>
    right
    simp only [hr, hn0, not_false_eq_true, if_true] at h
    split at h
    · rename_i hm
      simp only [Option.some.injEq, Prod.mk.injEq] at h
      exact Or.inl ⟨rfl, hm, h.1.symm, h.2.symm⟩
    · rename_i hm
      simp only [Option.some.injEq, Prod.mk.injEq] at h
      refine Or.inr ⟨rfl, ?_, ?_, ?_⟩
      · rw [← h.1]
      · rw [← h.1]
        exact hm
      · rw [← h.1]

/-- When no free ref resolves to the null address, a null pointer returned by
`Alloc` comes from the failure path only: the first-fit scan fell through, the
host returned null, the result is `MemRef(NULL, 0)` and the state is unchanged. -/
theorem Alloc_null (a a1 : SlabAlloc) (malloc : Int → Int) (size : Nat) (r : MemRef)
    (h : Alloc a malloc size = some (r, a1)) (hp : r.pointer = 0)
    (hnull : ∀ e ∈ a.m_freeSpace, Translate a e.ref ≠ some 0) :
    Alloc.reuse size a.m_freeSpace = none ∧ malloc (Alloc.newsize a size) = 0 ∧
      r = ⟨0, 0⟩ ∧ a1 = a := by
  rcases Alloc_cases a a1 malloc size r h with ⟨e, he, _, hT⟩ | h2 | ⟨_, _, hne, _⟩
  · rw [hp] at hT
    exact absurd hT (hnull e he)
  · exact h2
  · exact absurd hp hne

/-- In a tiled state no free ref resolves to the null address. -/
theorem Tiled.no_null {a : SlabAlloc} {live : List Block} (ht : Tiled a live) :
    ∀ e ∈ a.m_freeSpace, Translate a e.ref ≠ some 0 := by
  intro e he hT
  have hw := ht.sound.rows e he
  obtain ⟨pointer, hp, hpos⟩ := Translate_pos a e.ref hw.2.1 hw.2.2.1 ht.pointers
  rw [hT] at hp
  have := Option.some.inj hp
  omega

/-! ## FreeAll and ReMap: the rebuilt tiling -/

/-- Row `i` of the rebuilt ledger describes slab `i`: it starts where the slab
before it ends (at `ref` for the first slab) and ends where slab `i` ends. -/
theorem slabRows_getElem? : ∀ (cs : List Slab) (ref : Int) (i : Nat),
    (slabRows ref cs)[i]? = (cs[i]?).map fun s =>
      (⟨if i ≠ 0 then (cs.getD (i - 1) ⟨0, 0⟩).offset else ref,
        s.offset - (if i ≠ 0 then (cs.getD (i - 1) ⟨0, 0⟩).offset else ref)⟩ : FreeEntry)
  | [], _, _ => by simp [slabRows]
  | c :: cs, ref, 0 => by simp [slabRows]
  | c :: cs, ref, i + 1 => by
    have ih := slabRows_getElem? cs c.offset i
    simp only [slabRows, List.getElem?_cons_succ, ih]
    cases hi : cs[i]? with
    | none => rfl
    | some s =>
      simp only [Option.map_some', Option.some.injEq, Nat.add_sub_cancel, ne_eq,
        Nat.add_one_ne_zero, not_false_eq_true, if_true]
      cases i with
      | zero => simp
      | succ j => simp

/-- The rebase loop of `ReMap`, run on a rebuilt ledger from `n`, shifts every
slab end offset and every row by `n - b`. -/
theorem ReMap.rebase_slabRows : ∀ (cs : List Slab) (b n : Int),
    ReMap.rebase n cs (slabRows b cs) =
      (cs.map (fun s => { s with offset := s.offset + (n - b) }),
       (slabRows b cs).map (fun e => { e with ref := e.ref + (n - b) }))
  | [], _, _ => rfl
  | c :: cs, b, n => by
    have ih := ReMap.rebase_slabRows cs c.offset (n + (c.offset - b))
    have hd : n + (c.offset - b) - c.offset = n - b := by omega
    rw [hd] at ih
    simp only [slabRows, ReMap.rebase, ih, List.map_cons, Prod.mk.injEq, List.cons.injEq,
      and_true, Slab.mk.injEq, FreeEntry.mk.injEq]
    constructor <;> omega

/-- Shifting a rebuilt ledger is rebuilding from the shifted slab table. -/
theorem slabRows_shift (d : Int) : ∀ (cs : List Slab) (b : Int),
    (slabRows b cs).map (fun e => { e with ref := e.ref + d }) =
      slabRows (b + d) (cs.map (fun s => { s with offset := s.offset + d }))
  | [], _ => rfl
  | c :: cs, b => by
    have ih := slabRows_shift d cs c.offset
    simp only [slabRows, List.map_cons, ih, List.cons.injEq, FreeEntry.mk.injEq, true_and,
      and_true]
    omega

/-- The loop of `IsAllFree` succeeds on a rebuilt ledger when the slab end
offsets increase from the start of the walk. -/
theorem IsAllFree.loop_slabRows : ∀ (cs : List Slab) (ref : Int) (pre : List FreeEntry),
    (ref :: offsets cs).Pairwise (· < ·) → (∀ e ∈ pre, e.ref < ref) →
      IsAllFree.loop (pre ++ slabRows ref cs) ref cs = true
  | [], _, _, _, _ => rfl
  | c :: cs, ref, pre, hsorted, hpre => by
    rw [offsets_cons, List.pairwise_cons] at hsorted
    have hlt : ref < c.offset := hsorted.1 _ (List.mem_cons_self _ _)
    have hrow : (pre ++ slabRows ref (c :: cs))[pre.length]? = some ⟨ref, c.offset - ref⟩ := by
      rw [List.getElem?_append_right (le_refl _)]
      simp [slabRows]
    have hf : find_first (refs (pre ++ slabRows ref (c :: cs))) ref = some pre.length := by
      rw [find_first_refs_eq_some]
      refine ⟨⟨_, hrow, rfl⟩, ?_⟩
      intro j e1 hj he1
      rw [List.getElem?_append_left hj] at he1
      have := hpre e1 (List.getElem?_mem he1)
      omega
    have hget : ((pre ++ slabRows ref (c :: cs)).getD pre.length ⟨0, 0⟩).size = c.offset - ref := by
      simp [List.getD, hrow]
    rw [IsAllFree.loop]
    simp only [hf, hget, ne_eq, not_true_eq_false, if_false]
    have happ : pre ++ slabRows ref (c :: cs) =
        (pre ++ [⟨ref, c.offset - ref⟩]) ++ slabRows c.offset cs := by
      simp [slabRows]
    rw [happ]
    apply IsAllFree.loop_slabRows cs c.offset _ hsorted.2
    intro e he
    rcases List.mem_append.1 he with h | h
    · have := hpre e h
      omega
    · have he2 : e = ⟨ref, c.offset - ref⟩ := by simpa using h
      rw [he2]
      exact hlt

/-- A state whose mutable ledger is the rebuilt one is all free when the slab end
offsets increase from baseline. -/
theorem IsAllFree_slabRows (a : SlabAlloc)
    (hrows : a.m_freeSpace = slabRows a.m_baseline a.m_slabs)
    (hsorted : (a.m_baseline :: offsets a.m_slabs).Pairwise (· < ·)) : IsAllFree a = true := by
  have hlen : a.m_freeSpace.length = a.m_slabs.length := by rw [hrows, slabRows_length]
  have hloop := IsAllFree.loop_slabRows a.m_slabs a.m_baseline [] hsorted (by simp)
  simp only [List.nil_append] at hloop
  unfold IsAllFree
  rw [if_neg (by simp [hlen]), hrows]
  exact hloop

/-- Shifting baseline and every slab end offset by `d` keeps them increasing. -/
theorem pairwise_shift (d b : Int) (cs : List Slab)
    (h : (b :: offsets cs).Pairwise (· < ·)) :
    ((b + d) :: offsets (cs.map (fun s => { s with offset := s.offset + d }))).Pairwise
      (· < ·) := by
  have hmap : (b + d) :: offsets (cs.map (fun s => { s with offset := s.offset + d })) =
      (b :: offsets cs).map (· + d) := by
    simp [offsets, List.map_map, Function.comp]
  rw [hmap, List.pairwise_map]
  exact h.imp (fun hab => by omega)

/-- What `ReMap` does on the state `FreeAll` has rebuilt: nothing when `filesize`
is baseline; otherwise, for an aligned `filesize` above baseline and a non-null
mapping, baseline becomes `filesize` and every slab end offset and every row
moves up by `filesize - baseline`. -/
theorem ReMap_rebuild (a : SlabAlloc) (mmap : Int → Int) (filesize : Nat) :
    ReMap (FreeAll.rebuild a) mmap filesize =
      if (filesize : Int) = a.m_baseline then some (false, FreeAll.rebuild a)
      else if (filesize : Int) < a.m_baseline then none
      else if filesize &&& 0x7 ≠ 0 then none
      else if mmap filesize = 0 then none
      else some (true,
        { a with
          m_shared := mmap filesize
          m_baseline := filesize
          m_slabs := a.m_slabs.map
            (fun s => { s with offset := s.offset + ((filesize : Int) - a.m_baseline) })
          m_freeSpace := slabRows filesize (a.m_slabs.map
            (fun s => { s with offset := s.offset + ((filesize : Int) - a.m_baseline) }))
          m_freeReadOnly := [] }) := by
  have hlen : (FreeAll.rebuild a).m_slabs.length = (FreeAll.rebuild a).m_freeSpace.length := by
    simp [FreeAll.rebuild, slabRows_length]
  have hro : (FreeAll.rebuild a).m_freeReadOnly = [] := rfl
  have hb : (FreeAll.rebuild a).m_baseline = a.m_baseline := rfl
  have hreb := ReMap.rebase_slabRows a.m_slabs a.m_baseline filesize
  have hsh := slabRows_shift ((filesize : Int) - a.m_baseline) a.m_slabs a.m_baseline
  have hbd : a.m_baseline + ((filesize : Int) - a.m_baseline) = filesize := by omega
  rw [hbd] at hsh
  unfold ReMap
  simp only [hro, hlen, hb, ne_eq, not_true_eq_false, if_false]
  split
  · rfl
  · split
    · rfl
    · split
      · rfl
      · split
        · rfl
        · simp only [FreeAll.rebuild, hreb, hsh]

/-- Shifting by zero changes no slab. -/
theorem map_shift_zero (cs : List Slab) :
    cs.map (fun s => { s with offset := s.offset + 0 }) = cs := by
  induction cs with
  | nil => rfl
  | cons c cs ih => simp [ih]

/-- What a returning `FreeAll` leaves: the read-only ledger is empty, the mutable
ledger is the one rebuilt from the final slab table and baseline, the closing
`IsAllFree` held, and baseline and every slab end offset have moved up by the
same amount `d` (`0` unless `ReMap` remapped, `filesize - baseline` then). -/
theorem FreeAll_some (a a1 : SlabAlloc) (mmap : Int → Int) (filesize : Nat)
    (h : FreeAll a mmap filesize = some a1) :
    a.m_baseline ≤ (filesize : Int) ∧ (filesize &&& 0x7 = 0 ∨ filesize = no_remap) ∧
    a1.m_freeReadOnly = [] ∧ a1.m_freeSpace = slabRows a1.m_baseline a1.m_slabs ∧
    IsAllFree a1 = true ∧
    (filesize ≠ no_remap → a1.m_baseline = filesize) ∧
    (filesize = no_remap → a1.m_baseline = a.m_baseline) ∧
    (∃ d : Int, a1.m_baseline = a.m_baseline + d ∧
      a1.m_slabs = a.m_slabs.map (fun s => { s with offset := s.offset + d })) := by
  unfold FreeAll at h
  split at h
  · cases h
  · rename_i hlo
    split at h
    · cases h
    · rename_i hal
      simp only [not_not] at hal
      refine ⟨by omega, hal, ?_⟩
      simp only [Option.bind_eq_some] at h
      obtain ⟨a2, hre, hfree⟩ := h
      split at hfree
      · rename_i hall
        cases hfree
        split at hre
        · rename_i hnr
          rw [ReMap_rebuild] at hre
          have h7 : filesize &&& 0x7 = 0 := by
            rcases hal with h | h
            · exact h
            · exact absurd h hnr
          by_cases heq : (filesize : Int) = a.m_baseline
          · simp only [heq, if_true, Option.map_some', Option.some.injEq] at hre
            subst hre
            exact ⟨rfl, rfl, hall, fun _ => heq.symm, fun h => absurd h hnr, 0,
              by simp [FreeAll.rebuild], by simp [FreeAll.rebuild, map_shift_zero]⟩
          · by_cases hm : mmap filesize = 0
            · simp [heq, hlo, h7, hm] at hre
            · simp only [heq, hlo, h7, hm, if_false, ne_eq, not_true_eq_false,
                Option.map_some', Option.some.injEq] at hre
              subst hre
              exact ⟨rfl, rfl, hall, fun _ => rfl, fun h => absurd h hnr,
                (filesize : Int) - a.m_baseline, by simp, rfl⟩
        · rename_i hnr
          simp only [ne_eq, not_not] at hnr
          simp only [Option.some.injEq] at hre
          subst hre
          exact ⟨rfl, rfl, hall, fun h => absurd hnr h, fun _ => rfl, 0,
            by simp [FreeAll.rebuild], by simp [FreeAll.rebuild, map_shift_zero]⟩
      · cases hfree

/-- `FreeAll` returns when the slab end offsets increase from baseline, `filesize`
is at least baseline and is `(size_t)-1` or a multiple of 8, and the mapping
that a remap asks of the host is not null. -/
theorem FreeAll_isSome (a : SlabAlloc) (mmap : Int → Int) (filesize : Nat)
    (hsorted : (a.m_baseline :: offsets a.m_slabs).Pairwise (· < ·))
    (hlo : a.m_baseline ≤ (filesize : Int))
    (hal : filesize = no_remap ∨ filesize % 8 = 0)
    (hmap : filesize ≠ no_remap → (filesize : Int) ≠ a.m_baseline → mmap filesize ≠ 0) :
    ∃ a1, FreeAll a mmap filesize = some a1 := by
  have hlo2 : ¬ (filesize : Int) < a.m_baseline := by omega
  have hal2 : filesize &&& 0x7 = 0 ∨ filesize = no_remap := by
    rcases hal with h | h
    · exact Or.inr h
    · exact Or.inl (and_seven_eq_zero h)
  have hkeep : IsAllFree (FreeAll.rebuild a) = true :=
    IsAllFree_slabRows (FreeAll.rebuild a) rfl hsorted
  unfold FreeAll
  simp only [hlo2, if_false, hal2, not_true_eq_false]
  by_cases hnr : filesize = no_remap
  · simp [hnr, hkeep]
  · have h7 : filesize &&& 0x7 = 0 := by
      rcases hal2 with h | h
      · exact h
      · exact absurd h hnr
    simp only [ne_eq, hnr, not_false_eq_true, if_true, ReMap_rebuild]
    by_cases heq : (filesize : Int) = a.m_baseline
    · simp [heq, hkeep]
    · have hm := hmap hnr heq
      have hshift := pairwise_shift ((filesize : Int) - a.m_baseline) a.m_baseline a.m_slabs hsorted
      have hbd : a.m_baseline + ((filesize : Int) - a.m_baseline) = filesize := by omega
      rw [hbd] at hshift
      have hall := IsAllFree_slabRows
        { a with
          m_shared := mmap filesize
          m_baseline := filesize
          m_slabs := a.m_slabs.map
            (fun s => { s with offset := s.offset + ((filesize : Int) - a.m_baseline) })
          m_freeSpace := slabRows filesize (a.m_slabs.map
            (fun s => { s with offset := s.offset + ((filesize : Int) - a.m_baseline) }))
          m_freeReadOnly := [] } rfl hshift
      simp [heq, hlo2, h7, hm, hall]

/-- After a shift of baseline and of every slab end offset by `d`, every slab
has the size it had. -/
theorem slabSize_shift (a a1 : SlabAlloc) (d : Int) (hb : a1.m_baseline = a.m_baseline + d)
    (hs : a1.m_slabs = a.m_slabs.map (fun s => { s with offset := s.offset + d })) (i : Nat)
    (hi : i < a.m_slabs.length) : slabSize a1 i = slabSize a i := by
  have hget : ∀ j, j < a.m_slabs.length →
      (a1.m_slabs.getD j ⟨0, 0⟩).offset = (a.m_slabs.getD j ⟨0, 0⟩).offset + d := by
    intro j hj
    rw [hs]
    simp [List.getD, List.getElem?_map, List.getElem?_eq_getElem hj]
  unfold slabSize slabStart
  rw [hget i hi]
  by_cases h0 : i = 0
  · simp only [h0, ne_eq, not_true_eq_false, if_false, hb]
    omega
  · simp only [ne_eq, h0, not_false_eq_true, if_true]
    rw [hget (i - 1) (by omega)]
    omega

/-! ## Opening: basic facts -/

/-- The 8-byte value at `off` depends on the 8 bytes at `off` only. -/
theorem read_u64_congr (mem mem2 : Mem) (off : Nat)
    (h : ∀ i, i < 8 → byteAt mem2 (off + i) = byteAt mem (off + i)) :
    read_u64 mem2 off = read_u64 mem off := by
  have h0 := h 0 (by omega)
  simp only [Nat.add_zero] at h0
  simp only [read_u64, h0, h 1 (by omega), h 2 (by omega), h 3 (by omega), h 4 (by omega),
    h 5 (by omega), h 6 (by omega), h 7 (by omega)]

/-- `SetSharedBuffer` succeeds exactly when the 8-byte value at offset 0 is at
most `len`; it then installs the buffer, and otherwise leaves the state as it
was. -/
theorem SetSharedBuffer_eq (a : SlabAlloc) (buffer : Int) (mem : Mem) (len : Nat)
    (own : Bool) :
    SetSharedBuffer a buffer mem len own =
      if read_u64 mem 0 ≤ len then
        (true, { a with m_shared := buffer, m_baseline := len, m_owned := own })
      else (false, a) := by
  unfold SetSharedBuffer
  by_cases h : read_u64 mem 0 ≤ len
  · have h2 : ¬ read_u64 mem 0 > len := by omega
    simp [h, h2]
  · have h2 : read_u64 mem 0 > len := by omega
    simp [h, h2]

/-- The three ways `SetShared` returns: through `goto error`, through one of the
format rejections, or with success, which needs a length that is a multiple of
8, the signature, and a zero version byte. -/
theorem SetShared_cases (a : SlabAlloc) (h : Host) (dh : Mem) (hl : Nat) (ro : Bool) :
    ((SetShared a h dh hl ro).ok = false ∧ (SetShared a h dh hl ro).alloc = a ∧
      (SetShared a h dh hl ro).mapped = false) ∨
    ((SetShared a h dh hl ro).ok = false ∧ (SetShared a h dh hl ro).alloc = a ∧
      (SetShared a h dh hl ro).mapped = true ∧ (SetShared a h dh hl ro).closed = false ∧
      ¬ (byteAt (SetShared.file_header h dh hl ro) 16 = 84 ∧
        byteAt (SetShared.file_header h dh hl ro) 17 = 45 ∧
        byteAt (SetShared.file_header h dh hl ro) 18 = 68 ∧
        byteAt (SetShared.file_header h dh hl ro) 19 = 66 ∧
        byteAt (SetShared.file_header h dh hl ro)
          (if byteAt (SetShared.file_header h dh hl ro) 23 % 2 = 1 then 21 else 20) = 0)) ∨
    ((SetShared a h dh hl ro).ok = true ∧
      ∃ len0 len, h.st_size = some len0 ∧ SetShared.len h ro len0 = some len ∧ len % 8 = 0 ∧
        (SetShared a h dh hl ro).alloc = { a with m_shared := h.mmap, m_baseline := len } ∧
        byteAt (SetShared.file_header h dh hl ro) 16 = 84 ∧
        byteAt (SetShared.file_header h dh hl ro) 17 = 45 ∧
        byteAt (SetShared.file_header h dh hl ro) 18 = 68 ∧
        byteAt (SetShared.file_header h dh hl ro) 19 = 66 ∧
        byteAt (SetShared.file_header h dh hl ro)
          (if byteAt (SetShared.file_header h dh hl ro) 23 % 2 = 1 then 21 else 20) = 0) := by
  have hbit : byteAt (SetShared.file_header h dh hl ro) 23 &&& 1 =
      byteAt (SetShared.file_header h dh hl ro) 23 % 2 := by
    exact Nat.and_pow_two_sub_one_eq_mod (byteAt (SetShared.file_header h dh hl ro) 23) 1
  have hlt : byteAt (SetShared.file_header h dh hl ro) 23 % 2 < 2 := Nat.mod_lt _ (by omega)
  unfold SetShared
  simp only [hbit]
  by_cases h1 : h.fd < 0
  · simp [h1]
  · simp only [h1, if_false]
    cases hs : h.st_size with
    | none => simp
    | some len0 =>
      simp only []
      cases hlen : SetShared.len h ro len0 with
      | none => simp
      | some len =>
        simp only []
        by_cases h7 : len &&& 0x7 ≠ 0
        · simp [h7]
        · by_cases hm : h.mmap = -1
          · simp [h7, hm]
          · simp only [h7, hm, if_false]
            have hmod : len % 8 = 0 := by
              have := Nat.and_pow_two_sub_one_eq_mod len 3
              simp only [Nat.reducePow, Nat.add_one_sub_one] at this
              simp only [not_not] at h7
              omega
            by_cases hsig : byteAt (SetShared.file_header h dh hl ro) 16 = 84 ∧
                byteAt (SetShared.file_header h dh hl ro) 17 = 45 ∧
                byteAt (SetShared.file_header h dh hl ro) 18 = 68 ∧
                byteAt (SetShared.file_header h dh hl ro) 19 = 66
            · have hvp : ¬ (byteAt (SetShared.file_header h dh hl ro) 23 % 2 ≠ 0 ∧
                  byteAt (SetShared.file_header h dh hl ro) 23 % 2 ≠ 1) := by omega
              simp only [hsig, and_self, not_true_eq_false, if_false, hvp]
              by_cases hb : byteAt (SetShared.file_header h dh hl ro) 23 % 2 = 1
              · simp only [hb, ne_eq, Nat.succ_ne_zero, not_false_eq_true, if_true]
                by_cases hv : byteAt (SetShared.file_header h dh hl ro) 21 = 0
                · right; right
                  simp [hv, hmod, hlen, hsig]
                · right; left
                  simp [hv]
              · have hb0 : byteAt (SetShared.file_header h dh hl ro) 23 % 2 = 0 := by omega
                simp only [hb0, ne_eq, not_true_eq_false, if_false, Nat.zero_ne_one]
                by_cases hv : byteAt (SetShared.file_header h dh hl ro) 20 = 0
                · right; right
                  simp [hv, hmod, hlen, hsig]
                · right; left
                  simp [hv]
            · right; left
              simp only [hsig, not_false_eq_true, if_true, true_and]
              intro h2
              exact hsig ⟨h2.1, h2.2.1, h2.2.2.1, h2.2.2.2.1⟩

/-- Whenever `SetShared` returns false, the allocator is the one before the
call. -/
theorem SetShared_false (a : SlabAlloc) (h : Host) (dh : Mem) (hl : Nat) (ro : Bool)
    (hf : (SetShared a h dh hl ro).ok = false) : (SetShared a h dh hl ro).alloc = a := by
  rcases SetShared_cases a h dh hl ro with ⟨_, h2, _⟩ | ⟨_, h2, _⟩ | ⟨h2, _⟩
  · exact h2
  · exact h2
  · rw [hf] at h2
    cases h2

/-! ## Block headers: bit fields -/

set_option maxRecDepth 100000 in
/-- The bit operations of `GetSizeFromHeader` on the first header byte: the
shifted width is 0 for selector 0 and `2^(selector - 1)` otherwise, and the width
type is bits 3 and 4. -/
theorem header_byte_fields : ∀ b, b < 256 →
    ((1 <<< (b &&& 0x07)) >>> 1 = if b % 8 = 0 then 0 else 2 ^ (b % 8 - 1)) ∧
    (b &&& 0x18) >>> 3 = b / 8 % 4 := by
  decide

/-- Shifting a byte into place is multiplying it. -/
theorem header_count_eq (p : Mem) :
    (byteAt p 1 <<< 16) + (byteAt p 2 <<< 8) + byteAt p 3 = headerCount p := by
  simp only [headerCount, Nat.shiftLeft_eq]

/-- The padding of `GetSizeFromHeader` rounds up to the next multiple of 8. -/
theorem pad_eq_round_up (bytes : Nat) :
    (if (7 - bytes % 8) + 1 < 8 then bytes + ((7 - bytes % 8) + 1) else bytes) =
      round_up bytes 8 := by
  unfold round_up
  split <;> omega

/-! ## Verify: rows inside one slab -/

/-- `find_pos` yields `k` exactly when entry `k` is above `v` and no earlier
entry is. -/
theorem find_pos_eq_some (offs : List Int) (v : Int) (k : Nat) :
    find_pos offs v = some k ↔
      (∃ o, offs[k]? = some o ∧ v < o) ∧ ∀ j o1, j < k → offs[j]? = some o1 → o1 ≤ v := by
  unfold find_pos
  rw [firstIdx_eq_some]
  simp only [decide_eq_true_eq, decide_eq_false_iff_not, not_lt]

/-- A value in `[0, 2^64)` is its own `size_t`. -/
theorem size_t_of_lt {x : Int} (h0 : 0 ≤ x) (h : x < 2 ^ 64) : size_t x = x := by
  unfold size_t
  omega

/-- A value in `[-2^63, 2^63)` is its own `int64_t`. -/
theorem int64_t_of_lt {x : Int} (h0 : -2 ^ 63 ≤ x) (h : x < 2 ^ 63) : int64_t x = x := by
  unfold int64_t
  omega

/-- When the slab ends, the row's ref and the row's end are in `[0, 2^64)`, the
check of `Verify` on the row says that the row lies inside one slab. -/
theorem Verify.row_iff (a : SlabAlloc) (c : FreeEntry)
    (hslabs : ∀ s ∈ a.m_slabs, 0 ≤ s.offset ∧ s.offset < 2 ^ 64)
    (href : 0 ≤ c.ref ∧ c.ref < 2 ^ 64)
    (hend : 0 ≤ c.ref + c.size ∧ c.ref + c.size < 2 ^ 64) :
    Verify.row a c = true ↔ inSlab (offsets a.m_slabs) c.ref c.size := by
  unfold Verify.row inSlab
  have hr : size_t c.ref = c.ref := size_t_of_lt href.1 href.2
  have he : size_t (c.ref + size_t c.size) = c.ref + c.size := by
    unfold size_t
    omega
  simp only [hr, he]
  cases hf : find_pos (offsets a.m_slabs) c.ref with
  | none => simp
  | some k =>
    obtain ⟨⟨o, ho, _⟩, _⟩ := (find_pos_eq_some _ _ _).1 hf
    have hget : size_t (a.m_slabs.getD k ⟨0, 0⟩).offset = o := by
      rw [offsets, List.getElem?_map] at ho
      cases hs : a.m_slabs[k]? with
      | none => simp [hs] at ho
      | some s =>
        rw [hs] at ho
        simp only [Option.map_some', Option.some.injEq] at ho
        have hm := hslabs s (List.getElem?_mem hs)
        have hgd : a.m_slabs.getD k ⟨0, 0⟩ = s := by simp [List.getD, hs]
        rw [hgd, size_t_of_lt hm.1 hm.2, ho]
    simp only [hget, decide_eq_true_eq, Option.some.injEq]
    constructor
    · intro h
      exact ⟨k, o, rfl, ho, h⟩
    · rintro ⟨k2, o2, hk, ho2, h⟩
      subst hk
      rw [ho] at ho2
      have := Option.some.inj ho2
      omega

/-- On a state whose values are in range, `Verify` passes exactly when every row
of the mutable ledger lies inside one slab. -/
theorem Verify_iff (a : SlabAlloc) (hr : InRange a) : Verify a = true ↔ Fits a := by
  have hslabs : ∀ s ∈ a.m_slabs, 0 ≤ s.offset ∧ s.offset < 2 ^ 64 := by
    intro s hs
    have := hr.slabs s hs
    omega
  have hrow : ∀ c ∈ a.m_freeSpace,
      (Verify.row a c = true ↔ inSlab (offsets a.m_slabs) c.ref c.size) := by
    intro c hc
    have := hr.rows c hc
    exact Verify.row_iff a c hslabs (by omega) (by omega)
  unfold Verify Fits
  rw [List.all_eq_true]
  constructor
  · intro h c hc
    exact (hrow c hc).1 (h c hc)
  · intro h c hc
    exact (hrow c hc).2 (h c hc)

/-- A ref further up in the same slab is found in the same slab. -/
theorem find_pos_up (offs : List Int) (r r2 : Int) (k : Nat) (o : Int)
    (hf : find_pos offs r = some k) (ho : offs[k]? = some o) (hle : r ≤ r2) (hlt : r2 < o) :
    find_pos offs r2 = some k := by
  obtain ⟨_, hfirst⟩ := (find_pos_eq_some _ _ _).1 hf
  rw [find_pos_eq_some]
  refine ⟨⟨o, ho, hlt⟩, ?_⟩
  intro j o1 hj ho1
  have := hfirst j o1 hj ho1
  omega

/-- In an increasing list an earlier entry is at most a later one. -/
theorem pairwise_getElem?_le (offs : List Int) (hs : offs.Pairwise (· < ·)) (j k : Nat)
    (x y : Int) (hj : offs[j]? = some x) (hk : offs[k]? = some y) (hjk : j ≤ k) : x ≤ y := by
  have hjl := lt_length_of_getElem? hj
  have hkl := lt_length_of_getElem? hk
  rw [List.getElem?_eq_getElem hjl] at hj
  rw [List.getElem?_eq_getElem hkl] at hk
  have hx := Option.some.inj hj
  have hy := Option.some.inj hk
  rcases Nat.lt_or_ge j k with h | h
  · have := List.pairwise_iff_getElem.1 hs j k hjl hkl h
    omega
  · have hjk2 : j = k := by omega
    subst hjk2
    omega

/-- With increasing slab ends, a larger ref is found in a slab that ends no
earlier. -/
theorem find_pos_mono (offs : List Int) (hs : offs.Pairwise (· < ·)) (r r2 : Int)
    (k k2 : Nat) (o o2 : Int) (hf : find_pos offs r = some k) (ho : offs[k]? = some o)
    (hf2 : find_pos offs r2 = some k2) (ho2 : offs[k2]? = some o2) (hle : r ≤ r2) : o ≤ o2 := by
  obtain ⟨_, hfirst⟩ := (find_pos_eq_some _ _ _).1 hf
  obtain ⟨⟨o3, ho3, hlt⟩, _⟩ := (find_pos_eq_some _ _ _).1 hf2
  rw [ho2] at ho3
  have h3 := Option.some.inj ho3
  have hkk : k ≤ k2 := by
    by_contra hgt
    have := hfirst k2 o2 (by omega) ho2
    omega
  exact pairwise_getElem?_le offs hs k k2 o o2 ho ho2 hkk

/-- A slab found for a ref stays the slab found after slabs are appended. -/
theorem inSlab_append (offs t : List Int) (ref size : Int) (h : inSlab offs ref size) :
    inSlab (offs ++ t) ref size := by
  obtain ⟨k, o, hf, ho, hle⟩ := h
  obtain ⟨⟨o1, ho1, hlt⟩, hfirst⟩ := (find_pos_eq_some _ _ _).1 hf
  have hk := lt_length_of_getElem? ho
  refine ⟨k, o, ?_, ?_, hle⟩
  · rw [find_pos_eq_some]
    refine ⟨⟨o1, by rw [List.getElem?_append_left hk]; exact ho1, hlt⟩, ?_⟩
    intro j o2 hj ho2
    rw [List.getElem?_append_left (by omega)] at ho2
    exact hfirst j o2 hj ho2
  · rw [List.getElem?_append_left hk]
    exact ho

/-- A ref at or above every slab end is found in a slab appended above it. -/
theorem find_pos_append_new (offs : List Int) (r x : Int) (hle : ∀ o ∈ offs, o ≤ r)
    (hlt : r < x) : find_pos (offs ++ [x]) r = some offs.length := by
  rw [find_pos_eq_some]
  refine ⟨⟨x, by simp, hlt⟩, ?_⟩
  intro j o1 hj ho1
  rw [List.getElem?_append_left hj] at ho1
  exact hle o1 (List.getElem?_mem ho1)

/-- A property of rows that the four outcomes of `Free` respect holds of every
row of the resulting ledger. -/
theorem Free.merge_forall (P : FreeEntry → Prop) (offs : List Int) (L : List FreeEntry)
    (ref : Int) (s : Nat) (hL : ∀ e ∈ L, P e) (hnew : P ⟨ref, s⟩)
    (hfwd : ∀ e, P e → e.ref = ref + s → ref + s ∉ offs → P ⟨ref, e.size + s⟩)
    (hback : ∀ c, P c → c.ref + c.size = ref → ref ∉ offs → P ⟨c.ref, c.size + s⟩)
    (hboth : ∀ e c, P e → P c → e.ref = ref + s → ref + s ∉ offs → c.ref + c.size = ref →
      ref ∉ offs → P ⟨c.ref, c.size + (e.size + s)⟩) :
    ∀ x ∈ Free.merge offs L ref s, P x := by
  intro x hx
  rcases Free.merge_cases offs L ref s with h | ⟨i, c, hc, hce, hco, h⟩ |
    ⟨n, e, hn, hne, heo, h⟩ | ⟨n, e, i, c, hn, hne, heo, hc, hce, hco, h⟩
  · rw [h] at hx
    rcases List.mem_append.1 hx with h1 | h1
    · exact hL x h1
    · simp only [List.mem_singleton] at h1
      subst h1
      exact hnew
  · rw [h] at hx
    rcases List.mem_or_eq_of_mem_set hx with h1 | h1
    · exact hL x h1
    · subst h1
      exact hback c (hL c (List.getElem?_mem hc)) hce hco
  · rw [h] at hx
    rcases List.mem_or_eq_of_mem_set hx with h1 | h1
    · exact hL x h1
    · subst h1
      exact hfwd e (hL e (List.getElem?_mem hn)) hne heo
  · rw [h] at hx
    have hPe := hL e (List.getElem?_mem hn)
    have hX : P ⟨ref, e.size + s⟩ := hfwd e hPe hne heo
    have hmid : ∀ y ∈ L.set n ⟨ref, e.size + s⟩, P y := by
      intro y hy
      rcases List.mem_or_eq_of_mem_set hy with h1 | h1
      · exact hL y h1
      · subst h1
        exact hX
    rcases List.mem_or_eq_of_mem_set (List.mem_of_mem_eraseIdx hx) with h1 | h1
    · exact hmid x h1
    · subst h1
      exact hboth e c hPe (hmid c (List.getElem?_mem hc)) hne heo hce hco

/-- With increasing slab ends, `Free` of a block that lies inside one slab
leaves every row inside one slab. -/
theorem Free.merge_inSlab (offs : List Int) (hs : offs.Pairwise (· < ·)) (L : List FreeEntry)
    (ref : Int) (s : Nat) (hL : ∀ e ∈ L, inSlab offs e.ref e.size)
    (hb : inSlab offs ref s) :
    ∀ x ∈ Free.merge offs L ref s, inSlab offs x.ref x.size := by
  obtain ⟨kb, ob, hfb, hob, hbe⟩ := hb
  have hobm : ob ∈ offs := List.getElem?_mem hob
  -- a row that starts at the block's end is in the block's slab
  have hsucc : ∀ e : FreeEntry, inSlab offs e.ref e.size → e.ref = ref + s → ref + s ∉ offs →
      e.ref + e.size ≤ ob := by
    intro e ⟨ke, oe, hfe, hoe, hee⟩ her hno
    have hne : ob ≠ ref + s := fun h => hno (h ▸ hobm)
    have hf2 := find_pos_up offs ref (ref + s) kb ob hfb hob (by omega) (by omega)
    rw [her, hf2] at hfe
    have hk := Option.some.inj hfe
    subst hk
    rw [hob] at hoe
    have := Option.some.inj hoe
    omega
  -- a row that ends at the block's start is in a slab that ends no earlier
  have hpred : ∀ c : FreeEntry, inSlab offs c.ref c.size → c.ref + c.size = ref → ref ∉ offs →
      ∃ kc oc, find_pos offs c.ref = some kc ∧ offs[kc]? = some oc ∧ ob ≤ oc := by
    intro c ⟨kc, oc, hfc, hoc, hce⟩ hcr hno
    refine ⟨kc, oc, hfc, hoc, ?_⟩
    rcases Int.lt_or_le ref c.ref with hlt | hle
    · exact find_pos_mono offs hs ref c.ref kb kc ob oc hfb hob hfc hoc (by omega)
    · have hocm : oc ∈ offs := List.getElem?_mem hoc
      have hne : oc ≠ ref := fun h => hno (h ▸ hocm)
      have hf2 := find_pos_up offs c.ref ref kc oc hfc hoc hle (by omega)
      rw [hf2] at hfb
      have hk := Option.some.inj hfb
      subst hk
      rw [hob] at hoc
      have := Option.some.inj hoc
      omega
  apply Free.merge_forall (fun x => inSlab offs x.ref x.size) offs L ref s hL
  · exact ⟨kb, ob, hfb, hob, hbe⟩
  · intro e he her hno
    have := hsucc e he her hno
    exact ⟨kb, ob, hfb, hob, by simp only; omega⟩
  · intro c hc hcr hno
    obtain ⟨kc, oc, hfc, hoc, hle⟩ := hpred c hc hcr hno
    exact ⟨kc, oc, hfc, hoc, by simp only; omega⟩
  · intro e c he hc her hno hcr hno2
    have h1 := hsucc e he her hno
    obtain ⟨kc, oc, hfc, hoc, hle⟩ := hpred c hc hcr hno2
    exact ⟨kc, oc, hfc, hoc, by simp only; omega⟩

/-- The state `Alloc` leaves: the ledger with the chosen row removed or shrunk,
the state as it was (null result), or one more slab and one more row. -/
theorem Alloc_state (a a1 : SlabAlloc) (malloc : Int → Int) (size : Nat) (r : MemRef)
    (h : Alloc a malloc size = some (r, a1)) :
    (∃ i e, a.m_freeSpace[i]? = some e ∧ int_cast size ≤ e.size ∧ r.ref = e.ref ∧
      a1 = { a with
        m_freeSpace :=
          if e.size - (size : Int) = 0 then a.m_freeSpace.eraseIdx i
          else a.m_freeSpace.set i ⟨e.ref + uint_cast size, e.size - size⟩ }) ∨
    (r = ⟨0, 0⟩ ∧ a1 = a) ∨
    (r.ref = Alloc.slabsBack a ∧
      a1 = { a with
        m_slabs := a.m_slabs ++
          [⟨Alloc.slabsBack a + Alloc.newsize a size, malloc (Alloc.newsize a size)⟩]
        m_freeSpace := a.m_freeSpace ++
          [⟨Alloc.slabsBack a + size, Alloc.newsize a size - size⟩] }) := by
  have hn := Alloc.newsize_gt a size
  have hn0 : Alloc.newsize a size ≠ 0 := by omega
  have h7 := Alloc_aligned a a1 malloc size r h
  unfold Alloc at h
  simp only [h7, ne_eq, not_true_eq_false, if_false] at h
  cases hr : Alloc.reuse size a.m_freeSpace with
  | some res =>
    obtain ⟨loc, rows⟩ := res
    left
    simp only [hr, Option.map_eq_some'] at h
    obtain ⟨pointer, _, hp⟩ := h
    simp only [Prod.mk.injEq] at hp
    obtain ⟨i, e, hi, hfit, hloc, hrows⟩ := Alloc.reuse_some size _ _ _ hr
    refine ⟨i, e, hi, hfit, ?_, ?_⟩
    · rw [← hp.1, hloc]
    · rw [← hp.2, hrows]
  | none =>
    right
    simp only [hr, hn0, not_false_eq_true, if_true] at h
    split at h
    · simp only [Option.some.injEq, Prod.mk.injEq] at h
      exact Or.inl ⟨h.1.symm, h.2.symm⟩
    · simp only [Option.some.injEq, Prod.mk.injEq] at h
      refine Or.inr ⟨?_, h.2.symm⟩
      rw [← h.1]

/-- With increasing slab ends, baseline is at most the end of the address
space. -/
theorem Ascending.base_le {a : SlabAlloc} (h : Ascending a) :
    a.m_baseline ≤ Alloc.slabsBack a := by
  unfold Alloc.slabsBack
  cases hl : a.m_slabs.getLast? with
  | none => exact le_refl _
  | some s =>
    have hm : s.offset ∈ offsets a.m_slabs := by
      simp only [offsets, List.mem_map]
      exact ⟨s, List.mem_of_getLast?_eq_some hl, rfl⟩
    have := (List.pairwise_cons.1 h).1 s.offset hm
    simp only
    omega

/-- Appending a slab that ends above the end of the address space keeps the
slab ends increasing. -/
theorem Ascending.append {a : SlabAlloc} (h : Ascending a) (N pointer : Int) (hN : 0 < N)
    (rows : List FreeEntry) :
    Ascending { a with
      m_slabs := a.m_slabs ++ [⟨Alloc.slabsBack a + N, pointer⟩], m_freeSpace := rows } := by
  unfold Ascending at h ⊢
  have hb := Ascending.base_le h
  have hle := offsets_le_slabsBack a h
  have hoff : offsets (a.m_slabs ++ [⟨Alloc.slabsBack a + N, pointer⟩]) =
      offsets a.m_slabs ++ [Alloc.slabsBack a + N] := by
    simp [offsets]
  simp only [hoff]
  rw [← List.cons_append, List.pairwise_append]
  refine ⟨h, by simp, ?_⟩
  intro x hx y hy
  simp only [List.mem_singleton] at hy
  subst hy
  rcases List.mem_cons.1 hx with h1 | h1
  · omega
  · have := hle x h1
    omega

/-- The rows rebuilt by `FreeAll` lie inside one slab each when the slab ends
increase from the start of the walk. -/
theorem slabRows_inSlab : ∀ (cs : List Slab) (ref : Int) (pre : List Int),
    (∀ o ∈ pre, o ≤ ref) → (ref :: offsets cs).Pairwise (· < ·) →
      ∀ row ∈ slabRows ref cs, inSlab (pre ++ offsets cs) row.ref row.size
  | [], _, _, _, _ => by
    intro row hrow
    simp [slabRows] at hrow
  | c :: cs, ref, pre, hpre, hsorted => by
    intro row hrow
    rw [offsets_cons] at hsorted ⊢
    rw [List.pairwise_cons] at hsorted
    have hlt : ref < c.offset := hsorted.1 _ (List.mem_cons_self _ _)
    simp only [slabRows, List.mem_cons] at hrow
    rcases hrow with rfl | hrow
    · refine ⟨pre.length, c.offset, ?_, ?_, by simp⟩
      · rw [find_pos_eq_some]
        refine ⟨⟨c.offset, by rw [List.getElem?_append_right (le_refl _)]; simp, hlt⟩, ?_⟩
        intro j o1 hj ho1
        rw [List.getElem?_append_left hj] at ho1
        exact hpre o1 (List.getElem?_mem ho1)
      · rw [List.getElem?_append_right (le_refl _)]
        simp
    · have ih := slabRows_inSlab cs c.offset (pre ++ [c.offset])
        (by
          intro o ho
          rcases List.mem_append.1 ho with h1 | h1
          · have := hpre o h1
            omega
          · simp only [List.mem_singleton] at h1
            omega)
        hsorted.2 row hrow
      simpa using ih

/-- In a state whose mutable ledger is the rebuilt one every row lies inside
one slab when the slab ends increase from baseline. -/
theorem Fits_slabRows (a : SlabAlloc)
    (hrows : a.m_freeSpace = slabRows a.m_baseline a.m_slabs) (hs : Ascending a) :
    Fits a := by
  unfold Fits
  rw [hrows]
  intro c hc
  have := slabRows_inSlab a.m_slabs a.m_baseline [] (by simp) hs c hc
  simpa using this

/-- `Alloc` of a request below 2^31 keeps every row inside one slab and the slab
ends increasing. -/
theorem Alloc_fits (a a1 : SlabAlloc) (malloc : Int → Int) (size : Nat) (r : MemRef)
    (hs : Ascending a) (hv : Fits a) (h31 : size < 2 ^ 31)
    (h : Alloc a malloc size = some (r, a1)) : Fits a1 ∧ Ascending a1 := by
  unfold Fits at hv
  rcases Alloc_state a a1 malloc size r h with ⟨i, e, hi, hfit, _, ha⟩ | ⟨_, ha⟩ | ⟨_, ha⟩
  · rw [int_cast_of_lt h31] at hfit
    rw [uint_cast_of_lt h31] at ha
    subst ha
    refine ⟨?_, hs⟩
    unfold Fits
    intro c hc
    simp only at hc ⊢
    split at hc
    · exact hv c (List.mem_of_mem_eraseIdx hc)
    · rename_i hne
      rcases List.mem_or_eq_of_mem_set hc with h1 | h1
      · exact hv c h1
      · subst h1
        obtain ⟨k, o, hf, ho, hle⟩ := hv e (List.getElem?_mem hi)
        exact ⟨k, o, find_pos_up _ e.ref _ k o hf ho (by simp only; omega)
          (by simp only; omega), ho, by simp only; omega⟩
  · subst ha
    exact ⟨hv, hs⟩
  · have hn := Alloc.newsize_gt a size
    subst ha
    refine ⟨?_, Ascending.append hs _ _ (by omega) _⟩
    unfold Fits
    have hoff : offsets (a.m_slabs ++
        [⟨Alloc.slabsBack a + Alloc.newsize a size, malloc (Alloc.newsize a size)⟩]) =
        offsets a.m_slabs ++ [Alloc.slabsBack a + Alloc.newsize a size] := by
      simp [offsets]
    intro c hc
    simp only [hoff] at hc ⊢
    rcases List.mem_append.1 hc with h1 | h1
    · exact inSlab_append _ _ _ _ (hv c h1)
    · simp only [List.mem_singleton] at h1
      subst h1
      have hle := offsets_le_slabsBack a hs
      refine ⟨(offsets a.m_slabs).length, Alloc.slabsBack a + Alloc.newsize a size, ?_, by simp,
        by simp only; omega⟩
      apply find_pos_append_new
      · intro o ho
        have := hle o ho
        simp only
        omega
      · simp only
        omega

/-- `Free` of a block that lies inside one slab keeps every row inside one slab
when the slab ends increase; it does not touch the slab table. -/
theorem Free_fits (a a1 : SlabAlloc) (ref : Int) (p : Mem) (hs : Ascending a)
    (hv : Fits a) (hb : inSlab (offsets a.m_slabs) ref (GetCapacityFromHeader p))
    (h : Free a ref p = some a1) : Fits a1 ∧ Ascending a1 := by
  unfold Fits at hv
  by_cases hro : ref < a.m_baseline
  · have h1 : IsReadOnly a ref = true := by simp [IsReadOnly, hro]
    simp only [Free, Free.size, Free.store, Free.selected, h1, if_true,
      Option.map_eq_some'] at h
    obtain ⟨sz, _, ha⟩ := h
    subst ha
    exact ⟨hv, hs⟩
  · rw [Free_mutable a ref p (by omega)] at h
    have ha := Option.some.inj h
    subst ha
    refine ⟨?_, hs⟩
    unfold Fits
    exact Free.merge_inSlab (offsets a.m_slabs) (List.pairwise_cons.1 hs).2 a.m_freeSpace ref
      (GetCapacityFromHeader p) hv hb

/-- In the state a returning `FreeAll` leaves every row lies inside one slab, and
its slab ends increase if they did before. -/
theorem FreeAll_fits (a a1 : SlabAlloc) (mmap : Int → Int) (filesize : Nat)
    (hs : Ascending a) (h : FreeAll a mmap filesize = some a1) :
    Fits a1 ∧ Ascending a1 := by
  obtain ⟨_, _, _, hrows, _, _, _, d, hb, hsl⟩ := FreeAll_some a a1 mmap filesize h
  have hasc : Ascending a1 := by
    unfold Ascending
    rw [hb, hsl]
    exact pairwise_shift d a.m_baseline a.m_slabs hs
  exact ⟨Fits_slabRows a1 hrows hasc, hasc⟩

/-- In the state the `ReMap` invoked by `FreeAll` leaves every row lies inside one
slab, and its slab ends increase if they did before. -/
theorem ReMap_fits (a a1 : SlabAlloc) (mmap : Int → Int) (filesize : Nat) (b : Bool)
    (hs : Ascending a) (h : ReMap (FreeAll.rebuild a) mmap filesize = some (b, a1)) :
    Fits a1 ∧ Ascending a1 := by
  rw [ReMap_rebuild] at h
  by_cases heq : (filesize : Int) = a.m_baseline
  · simp only [heq, if_true, Option.some.injEq, Prod.mk.injEq] at h
    have ha := h.2
    subst ha
    have hasc : Ascending (FreeAll.rebuild a) := hs
    exact ⟨Fits_slabRows _ rfl hasc, hasc⟩
  · simp only [heq, if_false] at h
    split at h
    · cases h
    · split at h
      · cases h
      · split at h
        · cases h
        · simp only [Option.some.injEq, Prod.mk.injEq] at h
          have ha := h.2
          subst ha
          have hsh := pairwise_shift ((filesize : Int) - a.m_baseline) a.m_baseline a.m_slabs hs
          have hbd : a.m_baseline + ((filesize : Int) - a.m_baseline) = filesize := by omega
          rw [hbd] at hsh
          exact ⟨Fits_slabRows _ rfl hsh, hsh⟩

/-- The end of the address space of an aligned state is a multiple of 8. -/
theorem Aligned.slabsBack_mod {a : SlabAlloc} (h : Aligned a) : Alloc.slabsBack a % 8 = 0 := by
  unfold Alloc.slabsBack
  cases hl : a.m_slabs.getLast? with
  | none => exact h.baseline
  | some s => exact h.slabs s (List.mem_of_getLast?_eq_some hl)

/-- The size of the slab `Alloc` creates in an aligned state is a multiple of
8. -/
theorem Aligned.newsize_mod {a : SlabAlloc} (h : Aligned a) (size : Nat) :
    Alloc.newsize a size % 8 = 0 := by
  have hb := Aligned.slabsBack_mod h
  have hd : Alloc.doubleLast a % 8 = 0 := by
    unfold Alloc.doubleLast
    split
    · rfl
    · split
      · omega
      · rename_i hne h1
        have hlen : a.m_slabs.length - 2 < a.m_slabs.length := by
          cases hs : a.m_slabs with
          | nil => simp [hs] at hne
          | cons x xs => simp only [List.length_cons]; omega
        have hm : a.m_slabs.getD (a.m_slabs.length - 2) ⟨0, 0⟩ ∈ a.m_slabs := by
          rw [List.getD_eq_getElem _ _ hlen]
          exact List.getElem_mem hlen
        have := h.slabs _ hm
        omega
  unfold Alloc.newsize
  simp only
  split
  · omega
  · exact hd

/-- `Alloc` keeps an aligned state aligned and returns a ref that is a multiple
of 8. -/
theorem Alloc_keeps_aligned (a a1 : SlabAlloc) (malloc : Int → Int) (size : Nat) (r : MemRef)
    (ha : Aligned a) (h : Alloc a malloc size = some (r, a1)) :
    Aligned a1 ∧ r.ref % 8 = 0 := by
  have h7 := Alloc_aligned a a1 malloc size r h
  have hsz : size % 8 = 0 := by
    have := Nat.and_pow_two_sub_one_eq_mod size 3
    simp only [Nat.reducePow, Nat.add_one_sub_one] at this
    omega
  have hu : uint_cast size % 8 = 0 := by unfold uint_cast; omega
  rcases Alloc_state a a1 malloc size r h with ⟨i, e, hi, _, hr, h1⟩ | ⟨hr, h1⟩ | ⟨hr, h1⟩
  · have he := ha.rows e (List.getElem?_mem hi)
    subst h1
    refine ⟨⟨ha.baseline, ha.slabs, ?_, ha.readOnly⟩, by rw [hr]; exact he.1⟩
    intro c hc
    simp only at hc
    split at hc
    · exact ha.rows c (List.mem_of_mem_eraseIdx hc)
    · rcases List.mem_or_eq_of_mem_set hc with h2 | h2
      · exact ha.rows c h2
      · subst h2
        simp only
        omega
  · subst h1
    exact ⟨ha, by rw [hr]; rfl⟩
  · have hb := Aligned.slabsBack_mod ha
    have hn := Aligned.newsize_mod ha size
    subst h1
    refine ⟨⟨ha.baseline, ?_, ?_, ha.readOnly⟩, by rw [hr]; exact hb⟩
    · intro s hs
      simp only at hs
      rcases List.mem_append.1 hs with h2 | h2
      · exact ha.slabs s h2
      · simp only [List.mem_singleton] at h2
        subst h2
        simp only
        omega
    · intro c hc
      simp only at hc
      rcases List.mem_append.1 hc with h2 | h2
      · exact ha.rows c h2
      · simp only [List.mem_singleton] at h2
        subst h2
        simp only
        omega

/-- The merge of `Free` keeps refs and sizes multiples of 8 when the block's ref
and size are. -/
theorem Free.merge_aligned (offs : List Int) (L : List FreeEntry) (ref : Int) (s : Nat)
    (hL : ∀ e ∈ L, e.ref % 8 = 0 ∧ e.size % 8 = 0) (hr : ref % 8 = 0) (hs : s % 8 = 0) :
    ∀ x ∈ Free.merge offs L ref s, x.ref % 8 = 0 ∧ x.size % 8 = 0 := by
  apply Free.merge_forall (fun e => e.ref % 8 = 0 ∧ e.size % 8 = 0) offs L ref s hL
  · simp only
    omega
  · intro e he _ _
    simp only
    omega
  · intro c hc _ _
    simp only
    omega
  · intro e c he hc _ _ _ _
    simp only
    omega

/-- `Free` of a block whose ref and header-derived size are multiples of 8 keeps
an aligned state aligned. -/
theorem Free_keeps_aligned (a a1 : SlabAlloc) (ref : Int) (p : Mem) (s : Nat) (ha : Aligned a)
    (hr : ref % 8 = 0) (hsz : Free.size a ref p = some s) (hs : s % 8 = 0)
    (h : Free a ref p = some a1) : Aligned a1 := by
  rw [Free_eq a ref p s hsz] at h
  have h1 := Option.some.inj h
  subst h1
  by_cases hro : IsReadOnly a ref = true
  · simp only [Free.store, Free.selected, hro, if_true]
    exact ⟨ha.baseline, ha.slabs, ha.rows,
      Free.merge_aligned _ _ ref s ha.readOnly hr hs⟩
  · simp only [Free.store, Free.selected, hro, if_false]
    exact ⟨ha.baseline, ha.slabs,
      Free.merge_aligned _ _ ref s ha.rows hr hs, ha.readOnly⟩

/-- The rebuilt rows have refs and sizes that are multiples of 8 when the start
and the slab ends are. -/
theorem slabRows_aligned : ∀ (cs : List Slab) (ref : Int), ref % 8 = 0 →
    (∀ s ∈ cs, s.offset % 8 = 0) →
      ∀ e ∈ slabRows ref cs, e.ref % 8 = 0 ∧ e.size % 8 = 0
  | [], _, _, _ => by
    intro e he
    simp [slabRows] at he
  | c :: cs, ref, hr, hcs => by
    intro e he
    have hc := hcs c (List.mem_cons_self _ _)
    simp only [slabRows, List.mem_cons] at he
    rcases he with rfl | he
    · simp only
      omega
    · exact slabRows_aligned cs c.offset hc
        (fun s hs => hcs s (List.mem_cons_of_mem _ hs)) e he

/-- The rebase loop of `ReMap` keeps slab ends and rows multiples of 8 when it
starts at a multiple of 8. -/
theorem ReMap.rebase_aligned : ∀ (slabs : List Slab) (rows : List FreeEntry) (n : Int),
    n % 8 = 0 → (∀ s ∈ slabs, s.offset % 8 = 0) →
    (∀ e ∈ rows, e.ref % 8 = 0 ∧ e.size % 8 = 0) →
      (∀ s ∈ (ReMap.rebase n slabs rows).1, s.offset % 8 = 0) ∧
      (∀ e ∈ (ReMap.rebase n slabs rows).2, e.ref % 8 = 0 ∧ e.size % 8 = 0)
  | [], rows, n, _, _, hrows => by
    simp only [ReMap.rebase]
    exact ⟨by simp, hrows⟩
  | s :: slabs, [], n, _, hslabs, _ => by
    simp only [ReMap.rebase]
    exact ⟨hslabs, by simp⟩
  | s :: slabs, c :: rows, n, hn, hslabs, hrows => by
    have hc := hrows c (List.mem_cons_self _ _)
    have ih := ReMap.rebase_aligned slabs rows (n + c.size) (by omega)
      (fun s hs => hslabs s (List.mem_cons_of_mem _ hs))
      (fun e he => hrows e (List.mem_cons_of_mem _ he))
    simp only [ReMap.rebase]
    refine ⟨?_, ?_⟩
    · intro x hx
      rcases List.mem_cons.1 hx with rfl | hx
      · simp only
        omega
      · exact ih.1 x hx
    · intro x hx
      rcases List.mem_cons.1 hx with rfl | hx
      · simp only
        omega
      · exact ih.2 x hx

/-- `ReMap` keeps an aligned state aligned. -/
theorem ReMap_keeps_aligned (a a1 : SlabAlloc) (mmap : Int → Int) (filesize : Nat) (b : Bool)
    (ha : Aligned a) (h : ReMap a mmap filesize = some (b, a1)) : Aligned a1 := by
  unfold ReMap at h
  by_cases h1 : a.m_freeReadOnly ≠ []
  · simp [h1] at h
  by_cases h2 : a.m_slabs.length ≠ a.m_freeSpace.length
  · simp [h1, h2] at h
  by_cases h3 : (filesize : Int) = a.m_baseline
  · simp only [h1, h2, h3, if_true, if_false, Option.some.injEq, Prod.mk.injEq] at h
    rw [← h.2]
    exact ha
  by_cases h4 : (filesize : Int) < a.m_baseline
  · simp [h1, h2, h3, h4] at h
  by_cases h7 : filesize &&& 0x7 ≠ 0
  · simp [h1, h2, h3, h4, h7] at h
  by_cases hp : mmap filesize = 0
  · simp [h1, h2, h3, h4, h7, hp] at h
  simp only [h1, h2, h3, h4, h7, hp, if_false, Option.some.injEq, Prod.mk.injEq] at h
  have hf : filesize % 8 = 0 := by
    have := Nat.and_pow_two_sub_one_eq_mod filesize 3
    simp only [Nat.reducePow, Nat.add_one_sub_one] at this
    simp only [ne_eq, Decidable.not_not] at h7
    omega
  have hreb := ReMap.rebase_aligned a.m_slabs a.m_freeSpace filesize (by omega)
    ha.slabs ha.rows
  rw [← h.2]
  exact ⟨by simp only; omega, hreb.1, hreb.2, ha.readOnly⟩

/-- `FreeAll` keeps an aligned state aligned. -/
theorem FreeAll_keeps_aligned (a a1 : SlabAlloc) (mmap : Int → Int) (filesize : Nat)
    (ha : Aligned a) (h : FreeAll a mmap filesize = some a1) : Aligned a1 := by
  obtain ⟨_, h7, hro, hrows, _, hne, heq, d, hb, hsl⟩ := FreeAll_some a a1 mmap filesize h
  have hbase := ha.baseline
  have hb1 : a1.m_baseline % 8 = 0 := by
    by_cases hnr : filesize = no_remap
    · rw [heq hnr]
      exact hbase
    · rw [hne hnr]
      rcases h7 with h7 | h7
      · have := Nat.and_pow_two_sub_one_eq_mod filesize 3
        simp only [Nat.reducePow, Nat.add_one_sub_one] at this
        omega
      · exact absurd h7 hnr
  have hd : d % 8 = 0 := by omega
  have hs1 : ∀ s ∈ a1.m_slabs, s.offset % 8 = 0 := by
    intro s hs
    rw [hsl] at hs
    obtain ⟨s0, hs0, rfl⟩ := List.mem_map.1 hs
    have := ha.slabs s0 hs0
    simp only
    omega
  refine ⟨hb1, hs1, ?_, ?_⟩
  · rw [hrows]
    exact slabRows_aligned a1.m_slabs a1.m_baseline hb1 hs1
  · rw [hro]
    simp

/-! ## Outcomes of `Alloc`, total size and translation -/

/-- The three ways `Alloc` returns, with the result and the state it leaves: a
row of the mutable ledger is taken (the state after is the state before with the
row removed or shrunk, and the address is the translation of the row's ref), the
host allocation fails (null result, state unchanged), or a slab is appended. -/
theorem Alloc_outcome (a a1 : SlabAlloc) (malloc : Int → Int) (size : Nat) (r : MemRef)
    (h : Alloc a malloc size = some (r, a1)) :
    (∃ i e, a.m_freeSpace[i]? = some e ∧ int_cast size ≤ e.size ∧ r.ref = e.ref ∧
      Translate a e.ref = some r.pointer ∧
      a1 = { a with
        m_freeSpace :=
          if e.size - (size : Int) = 0 then a.m_freeSpace.eraseIdx i
          else a.m_freeSpace.set i ⟨e.ref + uint_cast size, e.size - size⟩ }) ∨
    (Alloc.reuse size a.m_freeSpace = none ∧ malloc (Alloc.newsize a size) = 0 ∧
      r = ⟨0, 0⟩ ∧ a1 = a) ∨
    (Alloc.reuse size a.m_freeSpace = none ∧ r.pointer = malloc (Alloc.newsize a size) ∧
      r.pointer ≠ 0 ∧ r.ref = Alloc.slabsBack a ∧
      a1 = { a with
        m_slabs := a.m_slabs ++
          [⟨Alloc.slabsBack a + Alloc.newsize a size, malloc (Alloc.newsize a size)⟩]
        m_freeSpace := a.m_freeSpace ++
          [⟨Alloc.slabsBack a + size, Alloc.newsize a size - size⟩] }) := by
  have hn := Alloc.newsize_gt a size
  have hn0 : Alloc.newsize a size ≠ 0 := by omega
  have h7 := Alloc_aligned a a1 malloc size r h
  unfold Alloc at h
  simp only [h7, ne_eq, not_true_eq_false, if_false] at h
  cases hr : Alloc.reuse size a.m_freeSpace with
  | some res =>
    obtain ⟨loc, rows⟩ := res
    left
    simp only [hr, Option.map_eq_some'] at h
    obtain ⟨pointer, hT, hp⟩ := h
    simp only [Prod.mk.injEq] at hp
    obtain ⟨i, e, hi, hfit, hloc, hrows⟩ := Alloc.reuse_some size _ _ _ hr
    refine ⟨i, e, hi, hfit, ?_, ?_, ?_⟩
    · rw [← hp.1, hloc]
    · rw [← hp.1, ← hloc]
      exact hT
    · rw [← hp.2, hrows]
  | none =>
    right
    simp only [hr, hn0, not_false_eq_true, if_true] at h
    split at h
    · rename_i hm
      simp only [Option.some.injEq, Prod.mk.injEq] at h
      exact Or.inl ⟨rfl, hm, h.1.symm, h.2.symm⟩
    · rename_i hm
      simp only [Option.some.injEq, Prod.mk.injEq] at h
      refine Or.inr ⟨rfl, ?_, ?_, ?_, h.2.symm⟩
      · rw [← h.1]
      · rw [← h.1]
        exact hm
      · rw [← h.1]

/-- `GetTotalSize` is the `slabsBack` that `Alloc` computes. -/
theorem GetTotalSize_eq (a : SlabAlloc) : GetTotalSize a = Alloc.slabsBack a := by
  unfold GetTotalSize Alloc.slabsBack
  cases hs : a.m_slabs with
  | nil => simp
  | cons x xs =>
    cases hl : (x :: xs).getLast? with
    | none => simp at hl
    | some s => simp [hl]

/-- With increasing slab end offsets no slab ends above the last one. -/
theorem offsets_le_last (a : SlabAlloc) (hs : (offsets a.m_slabs).Pairwise (· < ·)) :
    ∀ o ∈ offsets a.m_slabs, o ≤ Alloc.slabsBack a := by
  intro o ho
  unfold Alloc.slabsBack
  cases hl : a.m_slabs.getLast? with
  | none =>
    rw [List.getLast?_eq_none_iff] at hl
    simp [offsets, hl] at ho
  | some s =>
    obtain ⟨ys, hys⟩ := List.getLast?_eq_some_iff.1 hl
    simp only
    rw [hys] at hs ho
    simp only [offsets, List.map_append, List.map_cons, List.map_nil] at hs ho
    have h2 := (List.pairwise_append.1 hs).2.2
    rcases List.mem_append.1 ho with h1 | h1
    · exact le_of_lt (h2 o h1 s.offset (by simp))
    · simp only [List.mem_singleton] at h1
      omega

/-- `Translate` at or above baseline is the base of the slab that
`Translate.slab` names plus the offset it names. -/
theorem Translate_eq_slab (a : SlabAlloc) (ref : Int) (h : a.m_baseline ≤ ref) :
    Translate a ref =
      (Translate.slab a ref).bind fun res => (a.m_slabs[res.1]?).map fun s => s.pointer + res.2 := by
  have hb : ¬ ref < a.m_baseline := by omega
  unfold Translate Translate.slab
  simp only [hb, if_false]
  cases hf : find_pos (offsets a.m_slabs) ref with
  | none => simp
  | some ndx =>
    simp only [Option.some_bind]
    cases hs : a.m_slabs[ndx]? with
    | none => simp
    | some s => simp

/-- The start of the end of the address space in the slab appended there: slab
number `length`, offset 0. -/
theorem Translate.slab_new (a : SlabAlloc) (N pointer : Int) (rows : List FreeEntry)
    (hs : (offsets a.m_slabs).Pairwise (· < ·)) (hN : 0 < N) :
    Translate.slab
      { a with m_slabs := a.m_slabs ++ [⟨Alloc.slabsBack a + N, pointer⟩], m_freeSpace := rows }
      (Alloc.slabsBack a) = some (a.m_slabs.length, 0) := by
  have hle := offsets_le_last a hs
  have hoff : offsets (a.m_slabs ++ [⟨Alloc.slabsBack a + N, pointer⟩]) =
      offsets a.m_slabs ++ [Alloc.slabsBack a + N] := by
    simp [offsets]
  have hf : find_pos (offsets a.m_slabs ++ [Alloc.slabsBack a + N]) (Alloc.slabsBack a) =
      some (offsets a.m_slabs).length :=
    find_pos_append_new _ _ _ hle (by omega)
  have hlen : (offsets a.m_slabs).length = a.m_slabs.length := by simp [offsets]
  unfold Translate.slab
  simp only [hoff, hf, hlen]
  by_cases h0 : a.m_slabs.length = 0
  · have hnil : a.m_slabs = [] := List.length_eq_zero.1 h0
    simp [hnil, Alloc.slabsBack]
  · have hlt : a.m_slabs.length - 1 < a.m_slabs.length := by omega
    have hback : (a.m_slabs[a.m_slabs.length - 1]?.getD ⟨0, 0⟩).offset = Alloc.slabsBack a := by
      unfold Alloc.slabsBack
      rw [List.getLast?_eq_getElem?]
      cases hg : a.m_slabs[a.m_slabs.length - 1]? with
      | none =>
        rw [List.getElem?_eq_none_iff] at hg
        omega
      | some s => rfl
    simp only [h0, ne_eq, not_false_eq_true, if_true, List.getD_eq_getElem?_getD,
      List.getElem?_append_left hlt, hback, sub_self]

/-- A block that `Alloc` places at the start of a new slab translates to the
slab's base. -/
theorem Translate_new_slab (a : SlabAlloc) (N pointer : Int) (rows : List FreeEntry)
    (hs : (offsets a.m_slabs).Pairwise (· < ·)) (hb : a.m_baseline ≤ Alloc.slabsBack a)
    (hN : 0 < N) :
    Translate
      { a with m_slabs := a.m_slabs ++ [⟨Alloc.slabsBack a + N, pointer⟩], m_freeSpace := rows }
      (Alloc.slabsBack a) = some pointer := by
  have h1 := Translate_eq_slab
    { a with m_slabs := a.m_slabs ++ [⟨Alloc.slabsBack a + N, pointer⟩], m_freeSpace := rows }
    (Alloc.slabsBack a) hb
  rw [h1, Translate.slab_new a N pointer rows hs hN]
  simp

/-! ## Translation after a shift of the address space -/

/-- Shifting a column and the value looked up by the same amount does not change
the position `find_pos` returns. -/
theorem find_pos_shift (col : List Int) (v d : Int) :
    find_pos (col.map (· + d)) (v + d) = find_pos col v := by
  unfold find_pos
  rw [firstIdx_map]
  congr 1
  funext x
  simp

/-- After a shift of baseline and of every slab end offset by `d`, a ref moved
by `d` lies in the same slab at the same offset. -/
theorem Translate.slab_shift (a a1 : SlabAlloc) (d : Int) (ref : Int)
    (hb : a1.m_baseline = a.m_baseline + d)
    (hs : a1.m_slabs = a.m_slabs.map (fun s => { s with offset := s.offset + d })) :
    Translate.slab a1 (ref + d) = Translate.slab a ref := by
  have hoff : offsets a1.m_slabs = (offsets a.m_slabs).map (· + d) := by
    rw [hs]
    simp [offsets, List.map_map, Function.comp]
  unfold Translate.slab
  rw [hoff, find_pos_shift]
  cases hf : find_pos (offsets a.m_slabs) ref with
  | none => rfl
  | some ndx =>
    simp only
    by_cases h0 : ndx = 0
    · simp only [h0, ne_eq, not_true_eq_false, if_false, hb]
      congr 2
      omega
    · have hlt : ndx < (offsets a.m_slabs).length := by
        obtain ⟨⟨o, ho, _⟩, _⟩ := (find_pos_eq_some _ _ _).1 hf
        exact lt_length_of_getElem? ho
      have hlen : (offsets a.m_slabs).length = a.m_slabs.length := by simp [offsets]
      have hj : ndx - 1 < a.m_slabs.length := by omega
      have hget : (a1.m_slabs.getD (ndx - 1) ⟨0, 0⟩).offset =
          (a.m_slabs.getD (ndx - 1) ⟨0, 0⟩).offset + d := by
        rw [hs]
        simp [List.getD, List.getElem?_map, List.getElem?_eq_getElem hj]
      simp only [ne_eq, h0, not_false_eq_true, if_true, hget]
      congr 2
      omega

/-- After a shift of baseline and of every slab end offset by `d`, a ref at or
above baseline, moved by `d`, translates to the address it had. -/
theorem Translate_shift (a a1 : SlabAlloc) (d : Int) (ref : Int)
    (hb : a1.m_baseline = a.m_baseline + d)
    (hs : a1.m_slabs = a.m_slabs.map (fun s => { s with offset := s.offset + d }))
    (hlo : a.m_baseline ≤ ref) : Translate a1 (ref + d) = Translate a ref := by
  rw [Translate_eq_slab a1 (ref + d) (by omega), Translate_eq_slab a ref hlo,
    Translate.slab_shift a a1 d ref hb hs]
  cases hsl : Translate.slab a ref with
  | none => rfl
  | some res =>
    simp only [Option.some_bind, hs, List.getElem?_map]
    cases hg : a.m_slabs[res.1]? with
    | none => rfl
    | some s => rfl

/-- After a shift of baseline and of every slab end offset by `d` the total size
has grown by `d`. -/
theorem GetTotalSize_shift (a a1 : SlabAlloc) (d : Int)
    (hb : a1.m_baseline = a.m_baseline + d)
    (hs : a1.m_slabs = a.m_slabs.map (fun s => { s with offset := s.offset + d })) :
    GetTotalSize a1 = GetTotalSize a + d := by
  unfold GetTotalSize
  rw [hs, List.getLast?_map]
  cases hsl : a.m_slabs with
  | nil => simp [hb]
  | cons x xs =>
    cases hl : (x :: xs).getLast? with
    | none => simp at hl
    | some s => simp

/-- A ref below the total size lies in some slab. -/
theorem Translate.slab_isSome (a : SlabAlloc) (ref : Int) (hhi : ref < GetTotalSize a)
    (hlo : a.m_baseline ≤ ref) : ∃ i o, Translate.slab a ref = some (i, o) := by
  rw [GetTotalSize_eq] at hhi
  obtain ⟨pointer, hT⟩ := Translate_isSome a ref hhi
  rw [Translate_eq_slab a ref hlo] at hT
  cases hsl : Translate.slab a ref with
  | none => simp [hsl] at hT
  | some res => exact ⟨res.1, res.2, rfl⟩

/-- With the no-remap sentinel `FreeAll` moves nothing: baseline and the slab
table are the ones before the call. -/
theorem FreeAll_no_remap (a a1 : SlabAlloc) (mmap : Int → Int)
    (h : FreeAll a mmap no_remap = some a1) :
    a1.m_baseline = a.m_baseline ∧ a1.m_slabs = a.m_slabs := by
  obtain ⟨_, _, _, _, _, _, heq, d, hb, hs⟩ := FreeAll_some a a1 mmap no_remap h
  have h0 : d = 0 := by
    have := heq rfl
    omega
  subst h0
  exact ⟨heq rfl, by rw [hs, map_shift_zero]⟩

/-! ## The ledger range predicate -/

/-- What `Free` leaves untouched: the slab table, baseline and the shared base. -/
theorem Free_frame (a a1 : SlabAlloc) (ref : Int) (p : Mem) (h : Free a ref p = some a1) :
    a1.m_slabs = a.m_slabs ∧ a1.m_baseline = a.m_baseline ∧ a1.m_shared = a.m_shared := by
  simp only [Free, Option.map_eq_some'] at h
  obtain ⟨s, _, ha⟩ := h
  subst ha
  unfold Free.store
  split <;> exact ⟨rfl, rfl, rfl⟩

/-- `Alloc` keeps the slab end offsets increasing from baseline, whatever the
request size. -/
theorem Alloc_ascending (a a1 : SlabAlloc) (malloc : Int → Int) (size : Nat) (r : MemRef)
    (hs : Ascending a) (h : Alloc a malloc size = some (r, a1)) : Ascending a1 := by
  have hn := Alloc.newsize_gt a size
  rcases Alloc_outcome a a1 malloc size r h with ⟨i, e, _, _, _, _, ha⟩ | ⟨_, _, _, ha⟩ |
    ⟨_, _, _, _, ha⟩
  · subst ha
    exact hs
  · subst ha
    exact hs
  · subst ha
    exact Ascending.append hs _ _ (by omega) _

/-- `Free` keeps the slab end offsets increasing from baseline. -/
theorem Free_ascending (a a1 : SlabAlloc) (ref : Int) (p : Mem) (hs : Ascending a)
    (h : Free a ref p = some a1) : Ascending a1 := by
  obtain ⟨h1, h2, _⟩ := Free_frame a a1 ref p h
  unfold Ascending at hs ⊢
  rw [h1, h2]
  exact hs

/-- A fresh allocator satisfies the ledger range predicate. -/
theorem Ranged.fresh_ok : Ranged SlabAlloc.new := by
  decide

/-- `Alloc` keeps the ledger range predicate when the end of the address space is
not below baseline, and the ref it returns with a non-null pointer is then at or
above baseline. -/
theorem Alloc_ranged (a a1 : SlabAlloc) (malloc : Int → Int) (size : Nat) (r : MemRef)
    (hr : Ranged a) (hb : a.m_baseline ≤ Alloc.slabsBack a)
    (h : Alloc a malloc size = some (r, a1)) :
    Ranged a1 ∧ (r.pointer ≠ 0 → a.m_baseline ≤ r.ref) := by
  have hu : 0 ≤ uint_cast size := by unfold uint_cast; omega
  rcases Alloc_outcome a a1 malloc size r h with ⟨i, e, hi, _, hre, _, ha⟩ | ⟨_, _, hre, ha⟩ |
    ⟨_, _, _, hre, ha⟩
  · have he := hr.2 e (List.getElem?_mem hi)
    subst ha
    refine ⟨⟨hr.1, ?_⟩, fun _ => by rw [hre]; exact he⟩
    intro c hc
    simp only at hc ⊢
    split at hc
    · exact hr.2 c (List.mem_of_mem_eraseIdx hc)
    · rcases List.mem_or_eq_of_mem_set hc with h1 | h1
      · exact hr.2 c h1
      · subst h1
        simp only
        omega
  · subst ha
    refine ⟨hr, fun hp => ?_⟩
    rw [hre] at hp
    exact absurd rfl hp
  · subst ha
    refine ⟨⟨hr.1, ?_⟩, fun _ => by rw [hre]; exact hb⟩
    intro c hc
    simp only at hc ⊢
    rcases List.mem_append.1 hc with h1 | h1
    · exact hr.2 c h1
    · simp only [List.mem_singleton] at h1
      subst h1
      simp only
      omega

/-- `Free` keeps the ledger range predicate, in every state. -/
theorem Free_ranged (a a1 : SlabAlloc) (ref : Int) (p : Mem) (hr : Ranged a)
    (h : Free a ref p = some a1) : Ranged a1 := by
  simp only [Free, Option.map_eq_some'] at h
  obtain ⟨s, _, ha⟩ := h
  subst ha
  by_cases hro : ref < a.m_baseline
  · have h1 : IsReadOnly a ref = true := by simp [IsReadOnly, hro]
    simp only [Free.store, Free.selected, h1, if_true]
    refine ⟨?_, hr.2⟩
    apply Free.merge_forall (fun e => e.ref < a.m_baseline) _ _ ref s hr.1
    · exact hro
    · intro e _ _ _
      exact hro
    · intro c hc _ _
      exact hc
    · intro e c _ hc _ _ _ _
      exact hc
  · have h1 : IsReadOnly a ref = false := by
      simp only [IsReadOnly, decide_eq_false_iff_not]; exact hro
    simp only [Free.store, Free.selected, h1, Bool.false_eq_true, if_false]
    refine ⟨hr.1, ?_⟩
    apply Free.merge_forall (fun e => a.m_baseline ≤ e.ref) _ _ ref s hr.2
    · simp only
      omega
    · intro e _ _ _
      simp only
      omega
    · intro c hc _ _
      exact hc
    · intro e c _ hc _ _ _ _
      exact hc

/-- The state a returning `FreeAll` leaves satisfies the ledger range predicate
when the slab end offsets increased from baseline. -/
theorem FreeAll_ranged (a a1 : SlabAlloc) (mmap : Int → Int) (filesize : Nat)
    (hs : Ascending a) (h : FreeAll a mmap filesize = some a1) : Ranged a1 := by
  have hasc := (FreeAll_fits a a1 mmap filesize hs h).2
  obtain ⟨_, _, hro, hrows, _⟩ := FreeAll_some a a1 mmap filesize h
  refine ⟨by rw [hro]; simp, ?_⟩
  rw [hrows]
  exact slabRows_ref_ge a1.m_slabs a1.m_baseline hasc

/-- The rebase loop of `ReMap`, given one row per slab and no row of negative
size, leaves every row at or above the offset it starts from. -/
theorem ReMap.rebase_ref_ge : ∀ (slabs : List Slab) (rows : List FreeEntry) (n : Int),
    slabs.length = rows.length → (∀ e ∈ rows, 0 ≤ e.size) →
      ∀ e ∈ (ReMap.rebase n slabs rows).2, n ≤ e.ref
  | [], [], _, _, _ => by
    intro e he
    simp [ReMap.rebase] at he
  | [], _ :: _, _, hlen, _ => by simp at hlen
  | _ :: _, [], _, hlen, _ => by simp at hlen
  | s :: slabs, c :: rows, n, hlen, hpos => by
    intro e he
    have hc := hpos c (List.mem_cons_self _ _)
    have ih := ReMap.rebase_ref_ge slabs rows (n + c.size) (by simpa using hlen)
      (fun e he => hpos e (List.mem_cons_of_mem _ he))
    simp only [ReMap.rebase, List.mem_cons] at he
    rcases he with rfl | he
    · exact le_refl _
    · have := ih e he
      omega

/-- `ReMap` keeps the ledger range predicate when no row of the mutable ledger
has a negative size. -/
theorem ReMap_ranged (a a1 : SlabAlloc) (mmap : Int → Int) (filesize : Nat) (b : Bool)
    (hr : Ranged a) (hpos : ∀ e ∈ a.m_freeSpace, 0 ≤ e.size)
    (h : ReMap a mmap filesize = some (b, a1)) : Ranged a1 := by
  unfold ReMap at h
  by_cases h1 : a.m_freeReadOnly ≠ []
  · simp [h1] at h
  by_cases h2 : a.m_slabs.length ≠ a.m_freeSpace.length
  · simp [h1, h2] at h
  by_cases h3 : (filesize : Int) = a.m_baseline
  · simp only [h1, h2, h3, if_true, if_false, Option.some.injEq, Prod.mk.injEq] at h
    rw [← h.2]
    exact hr
  by_cases h4 : (filesize : Int) < a.m_baseline
  · simp [h1, h2, h3, h4] at h
  by_cases h7 : filesize &&& 0x7 ≠ 0
  · simp [h1, h2, h3, h4, h7] at h
  by_cases hp : mmap filesize = 0
  · simp [h1, h2, h3, h4, h7, hp] at h
  simp only [h1, h2, h3, h4, h7, hp, if_false, Option.some.injEq, Prod.mk.injEq] at h
  simp only [ne_eq, Decidable.not_not] at h1 h2
  rw [← h.2]
  refine ⟨?_, ?_⟩
  · intro e he
    simp only [h1] at he
    simp at he
  · exact ReMap.rebase_ref_ge a.m_slabs a.m_freeSpace filesize h2 hpos

/-- The read-only ledger is no input of `Alloc`: with another read-only ledger
the call returns the same result and leaves the same state, the read-only ledger
apart, which it does not touch. -/
theorem Alloc_readOnly_independent (a : SlabAlloc) (L : List FreeEntry) (malloc : Int → Int)
    (size : Nat) :
    Alloc { a with m_freeReadOnly := L } malloc size =
      (Alloc a malloc size).map fun res => (res.1, { res.2 with m_freeReadOnly := L }) := by
  unfold Alloc
  by_cases h7 : size &&& 0x7 ≠ 0
  · simp [h7]
  · simp only [h7, if_false]
    cases hr : Alloc.reuse size a.m_freeSpace with
    | some res =>
      obtain ⟨loc, rows⟩ := res
      have hT : Translate { { a with m_freeReadOnly := L } with m_freeSpace := rows } loc =
          Translate { a with m_freeSpace := rows } loc := rfl
      simp only [Option.map_map]
      rw [hT]
      cases Translate { a with m_freeSpace := rows } loc <;> rfl
    | none =>
      have hb : Alloc.slabsBack { a with m_freeReadOnly := L } = Alloc.slabsBack a := rfl
      have hn : Alloc.newsize { a with m_freeReadOnly := L } size = Alloc.newsize a size := rfl
      simp only [hb, hn]
      have hgt := Alloc.newsize_gt a size
      have hn0 : ¬ Alloc.newsize a size = 0 := by omega
      by_cases hm : malloc (Alloc.newsize a size) = 0
      · simp [hn0, hm]
      · simp [hn0, hm]

/-! ## The slab table under the calls -/

/-- `Alloc` leaves the slab table as it is or appends one slab. -/
theorem Alloc_slabs (a a1 : SlabAlloc) (malloc : Int → Int) (size : Nat) (r : MemRef)
    (h : Alloc a malloc size = some (r, a1)) :
    a1.m_slabs = a.m_slabs ∨ ∃ s, a1.m_slabs = a.m_slabs ++ [s] := by
  rcases Alloc_outcome a a1 malloc size r h with ⟨i, e, _, _, _, _, ha⟩ | ⟨_, _, _, ha⟩ |
    ⟨_, _, _, _, ha⟩
  · subst ha
    exact Or.inl rfl
  · subst ha
    exact Or.inl rfl
  · subst ha
    exact Or.inr ⟨_, rfl⟩

/-- `Alloc` keeps the slab end offsets increasing, whatever the request size and
wherever baseline lies. -/
theorem Alloc_sorted (a a1 : SlabAlloc) (malloc : Int → Int) (size : Nat) (r : MemRef)
    (hs : (offsets a.m_slabs).Pairwise (· < ·)) (h : Alloc a malloc size = some (r, a1)) :
    (offsets a1.m_slabs).Pairwise (· < ·) := by
  have hn := Alloc.newsize_gt a size
  have hle := offsets_le_last a hs
  rcases Alloc_outcome a a1 malloc size r h with ⟨i, e, _, _, _, _, ha⟩ | ⟨_, _, _, ha⟩ |
    ⟨_, _, _, _, ha⟩
  · subst ha
    exact hs
  · subst ha
    exact hs
  · subst ha
    have hoff : offsets (a.m_slabs ++
        [⟨Alloc.slabsBack a + Alloc.newsize a size, malloc (Alloc.newsize a size)⟩]) =
        offsets a.m_slabs ++ [Alloc.slabsBack a + Alloc.newsize a size] := by
      simp [offsets]
    simp only [hoff]
    rw [List.pairwise_append]
    refine ⟨hs, by simp, ?_⟩
    intro x hx y hy
    simp only [List.mem_singleton] at hy
    subst hy
    have := hle x hx
    omega

/-- A returning `ReAlloc` is its nested `Alloc`, followed by `Free` unless the
pointer returned is null. -/
theorem ReAlloc_steps (a a2 : SlabAlloc) (malloc : Int → Int) (ref : Int) (addr : Int) (p : Mem)
    (size : Nat) (r : MemRef) (h : ReAlloc a malloc ref addr p size = some (r, a2)) :
    ∃ a1, Alloc a malloc size = some (r, a1) ∧ (a2 = a1 ∨ ∃ q, Free a1 ref q = some a2) := by
  unfold ReAlloc at h
  by_cases h7 : size &&& 0x7 ≠ 0
  · simp [h7] at h
  · simp only [h7, if_false] at h
    cases hA : Alloc a malloc size with
    | none => simp [hA] at h
    | some res =>
      obtain ⟨space, a1⟩ := res
      simp only [hA] at h
      by_cases hp : space.pointer = 0
      · simp only [hp, if_true, Option.some.injEq, Prod.mk.injEq] at h
        exact ⟨a1, by rw [h.1], Or.inl h.2.symm⟩
      · simp only [hp, if_false, Option.map_eq_some', Prod.mk.injEq] at h
        obtain ⟨a3, hF, h1, h2⟩ := h
        subst h2
        exact ⟨a1, by rw [h1], Or.inr ⟨_, hF⟩⟩

/-- The rebase loop of `ReMap` keeps the number of slabs, their order and their
base pointers. -/
theorem ReMap.rebase_pointers : ∀ (slabs : List Slab) (rows : List FreeEntry) (n : Int),
    (ReMap.rebase n slabs rows).1.map Slab.pointer = slabs.map Slab.pointer
  | [], _, _ => by simp [ReMap.rebase]
  | _ :: _, [], _ => by simp [ReMap.rebase]
  | s :: slabs, c :: rows, n => by
    simp [ReMap.rebase, ReMap.rebase_pointers slabs rows (n + c.size)]

/-- `ReMap` keeps the number of slabs, their order and their base pointers. -/
theorem ReMap_pointers (a a1 : SlabAlloc) (mmap : Int → Int) (filesize : Nat) (b : Bool)
    (h : ReMap a mmap filesize = some (b, a1)) :
    a1.m_slabs.length = a.m_slabs.length ∧
      a1.m_slabs.map Slab.pointer = a.m_slabs.map Slab.pointer := by
  have hmap : a1.m_slabs.map Slab.pointer = a.m_slabs.map Slab.pointer := by
    unfold ReMap at h
    by_cases h1 : a.m_freeReadOnly ≠ []
    · simp [h1] at h
    by_cases h2 : a.m_slabs.length ≠ a.m_freeSpace.length
    · simp [h1, h2] at h
    by_cases h3 : (filesize : Int) = a.m_baseline
    · simp only [h1, h2, h3, if_true, if_false, Option.some.injEq, Prod.mk.injEq] at h
      rw [← h.2]
    by_cases h4 : (filesize : Int) < a.m_baseline
    · simp [h1, h2, h3, h4] at h
    by_cases h7 : filesize &&& 0x7 ≠ 0
    · simp [h1, h2, h3, h4, h7] at h
    by_cases hp : mmap filesize = 0
    · simp [h1, h2, h3, h4, h7, hp] at h
    simp only [h1, h2, h3, h4, h7, hp, if_false, Option.some.injEq, Prod.mk.injEq] at h
    rw [← h.2]
    exact ReMap.rebase_pointers a.m_slabs a.m_freeSpace filesize
  refine ⟨?_, hmap⟩
  have := congrArg List.length hmap
  simpa using this

/-- `FreeAll` keeps the number of slabs, their order and their base pointers. -/
theorem FreeAll_pointers (a a1 : SlabAlloc) (mmap : Int → Int) (filesize : Nat)
    (h : FreeAll a mmap filesize = some a1) :
    a1.m_slabs.length = a.m_slabs.length ∧
      a1.m_slabs.map Slab.pointer = a.m_slabs.map Slab.pointer := by
  obtain ⟨_, _, _, _, _, _, _, d, _, hs⟩ := FreeAll_some a a1 mmap filesize h
  rw [hs]
  refine ⟨by simp, ?_⟩
  simp [List.map_map, Function.comp]

/-- `FreeAll` keeps the slab end offsets increasing. -/
theorem FreeAll_sorted (a a1 : SlabAlloc) (mmap : Int → Int) (filesize : Nat)
    (hs : (offsets a.m_slabs).Pairwise (· < ·)) (h : FreeAll a mmap filesize = some a1) :
    (offsets a1.m_slabs).Pairwise (· < ·) := by
  obtain ⟨_, _, _, _, _, _, _, d, _, hsl⟩ := FreeAll_some a a1 mmap filesize h
  have hmap : offsets a1.m_slabs = (offsets a.m_slabs).map (· + d) := by
    rw [hsl]
    simp [offsets, List.map_map, Function.comp]
  rw [hmap, List.pairwise_map]
  exact hs.imp (fun hab => by omega)

/-- Neither `SetSharedBuffer` nor `SetShared` touches the slab table. -/
theorem open_keeps_slabs (a : SlabAlloc) (buffer : Int) (mem : Mem) (len : Nat) (own : Bool)
    (h : Host) (dh : Mem) (hl : Nat) (ro : Bool) :
    (SetSharedBuffer a buffer mem len own).2.m_slabs = a.m_slabs ∧
      (SetShared a h dh hl ro).alloc.m_slabs = a.m_slabs := by
  constructor
  · rw [SetSharedBuffer_eq]
    split <;> rfl
  · rcases SetShared_cases a h dh hl ro with ⟨_, h2, _⟩ | ⟨_, h2, _⟩ | ⟨_, _, _, _, _, _, h2, _⟩
    · rw [h2]
    · rw [h2]
    · rw [h2]

/-- In every reachable state the slab end offsets increase strictly. -/
theorem Reachable.sorted {a : SlabAlloc} (h : Reachable a) :
    (offsets a.m_slabs).Pairwise (· < ·) := by
  induction h with
  | fresh => simp [SlabAlloc.new, offsets]
  | alloc a a1 malloc size r _ hA ih => exact Alloc_sorted a a1 malloc size r ih hA
  | free a a1 ref p _ hF ih =>
    rw [(Free_frame a a1 ref p hF).1]
    exact ih
  | realloc a a2 malloc ref addr p size r _ hR ih =>
    obtain ⟨a1, hA, h2⟩ := ReAlloc_steps a a2 malloc ref addr p size r hR
    have h1 := Alloc_sorted a a1 malloc size r ih hA
    rcases h2 with h2 | ⟨q, h2⟩
    · rw [h2]
      exact h1
    · rw [(Free_frame a1 a2 ref q h2).1]
      exact h1
  | freeAll a a1 mmap filesize _ hF ih => exact FreeAll_sorted a a1 mmap filesize ih hF
  | setSharedBuffer a buffer mem len own _ ih =>
    rw [(open_keeps_slabs a buffer mem len own (exHost 0 mem) mem 0 false).1]
    exact ih
  | setShared a h dh hl ro _ ih =>
    rw [(open_keeps_slabs a 0 dh 0 false h dh hl ro).2]
    exact ih

/-- The rebase loop of `ReMap`, given one row per slab and rows of positive size,
leaves the slab end offsets increasing from the offset it starts from. -/
theorem ReMap.rebase_sorted : ∀ (slabs : List Slab) (rows : List FreeEntry) (n : Int),
    slabs.length = rows.length → (∀ e ∈ rows, 0 < e.size) →
      (n :: offsets (ReMap.rebase n slabs rows).1).Pairwise (· < ·)
  | [], [], _, _, _ => by simp [ReMap.rebase, offsets]
  | [], _ :: _, _, hlen, _ => by simp at hlen
  | _ :: _, [], _, hlen, _ => by simp at hlen
  | s :: slabs, c :: rows, n, hlen, hpos => by
    have hc := hpos c (List.mem_cons_self _ _)
    have ih := ReMap.rebase_sorted slabs rows (n + c.size) (by simpa using hlen)
      (fun e he => hpos e (List.mem_cons_of_mem _ he))
    simp only [ReMap.rebase, offsets_cons]
    rw [List.pairwise_cons] at ih ⊢
    refine ⟨?_, List.pairwise_cons.2 ih⟩
    intro x hx
    rcases List.mem_cons.1 hx with rfl | hx
    · omega
    · have := ih.1 x hx
      omega

/-- `ReMap` keeps the slab end offsets increasing when every row of the mutable
ledger has a positive size. -/
theorem ReMap_sorted (a a1 : SlabAlloc) (mmap : Int → Int) (filesize : Nat) (b : Bool)
    (hs : (offsets a.m_slabs).Pairwise (· < ·)) (hpos : ∀ e ∈ a.m_freeSpace, 0 < e.size)
    (h : ReMap a mmap filesize = some (b, a1)) : (offsets a1.m_slabs).Pairwise (· < ·) := by
  unfold ReMap at h
  by_cases h1 : a.m_freeReadOnly ≠ []
  · simp [h1] at h
  by_cases h2 : a.m_slabs.length ≠ a.m_freeSpace.length
  · simp [h1, h2] at h
  by_cases h3 : (filesize : Int) = a.m_baseline
  · simp only [h1, h2, h3, if_true, if_false, Option.some.injEq, Prod.mk.injEq] at h
    rw [← h.2]
    exact hs
  by_cases h4 : (filesize : Int) < a.m_baseline
  · simp [h1, h2, h3, h4] at h
  by_cases h7 : filesize &&& 0x7 ≠ 0
  · simp [h1, h2, h3, h4, h7] at h
  by_cases hp : mmap filesize = 0
  · simp [h1, h2, h3, h4, h7, hp] at h
  simp only [h1, h2, h3, h4, h7, hp, if_false, Option.some.injEq, Prod.mk.injEq] at h
  simp only [ne_eq, Decidable.not_not] at h2
  rw [← h.2]
  exact (List.pairwise_cons.1 (ReMap.rebase_sorted a.m_slabs a.m_freeSpace filesize h2 hpos)).2

/-! ## Free-space accounting -/

theorem freeBytes_append (L M : List FreeEntry) :
    freeBytes (L ++ M) = freeBytes L + freeBytes M := by
  simp [freeBytes]

theorem freeBytes_set : ∀ (L : List FreeEntry) (i : Nat) (e x : FreeEntry),
    L[i]? = some e → freeBytes (L.set i x) = freeBytes L - e.size + x.size
  | [], i, e, x, h => by simp at h
  | c :: cs, 0, e, x, h => by
    simp only [List.getElem?_cons_zero, Option.some.injEq] at h
    subst h
    simp only [freeBytes, List.set_cons_zero, List.map_cons, List.sum_cons]
    omega
  | c :: cs, i + 1, e, x, h => by
    simp only [List.getElem?_cons_succ] at h
    have ih := freeBytes_set cs i e x h
    simp only [freeBytes, List.set_cons_succ, List.map_cons, List.sum_cons] at ih ⊢
    omega

theorem freeBytes_eraseIdx : ∀ (L : List FreeEntry) (i : Nat) (e : FreeEntry),
    L[i]? = some e → freeBytes (L.eraseIdx i) = freeBytes L - e.size
  | [], i, e, h => by simp at h
  | c :: cs, 0, e, h => by
    simp only [List.getElem?_cons_zero, Option.some.injEq] at h
    subst h
    simp only [freeBytes, List.eraseIdx_cons_zero, List.map_cons, List.sum_cons]
    omega
  | c :: cs, i + 1, e, h => by
    simp only [List.getElem?_cons_succ] at h
    have ih := freeBytes_eraseIdx cs i e h
    simp only [freeBytes, List.eraseIdx_cons_succ, List.map_cons, List.sum_cons] at ih ⊢
    omega

theorem liveBytes_append (L M : List Block) : liveBytes (L ++ M) = liveBytes L + liveBytes M := by
  simp [liveBytes]

theorem liveBytes_erase : ∀ (L : List Block) (b : Block), b ∈ L →
    liveBytes (L.erase b) = liveBytes L - b.2
  | [], b, h => by simp at h
  | c :: cs, b, h => by
    by_cases hcb : c = b
    · subst hcb
      simp only [List.erase_cons_head, liveBytes, List.map_cons, List.sum_cons]
      omega
    · have hmem : b ∈ cs := by
        rcases List.mem_cons.1 h with h1 | h1
        · exact absurd h1.symm hcb
        · exact h1
      have ih := liveBytes_erase cs b hmem
      have hne : (c == b) = false := by simpa using hcb
      simp only [List.erase_cons, hne, liveBytes, List.map_cons, List.sum_cons,
        Bool.false_eq_true, if_false] at ih ⊢
      omega

/-- The four branches of `Free` on a ledger: the sum of the row sizes grows by
the size of the block, and the number of rows changes by +1 (append), 0 (one
merge) or -1 (double merge). -/
theorem Free.merge_bytes (offs : List Int) (L : List FreeEntry) (ref : Int) (s : Nat) :
    freeBytes (Free.merge offs L ref s) = freeBytes L + s ∧
    ((Free.merge offs L ref s).length = L.length + 1 ∨
      (Free.merge offs L ref s).length = L.length ∨
      (Free.merge offs L ref s).length + 1 = L.length) := by
  rcases Free.merge_cases offs L ref s with h | ⟨i, c, hc, _, _, h⟩ | ⟨n, e, hn, _, _, h⟩ |
    ⟨n, e, i, c, hn, _, _, hc, hce, _, h⟩
  · rw [h]
    refine ⟨?_, Or.inl (by simp)⟩
    rw [freeBytes_append]
    simp [freeBytes]
  · rw [h]
    refine ⟨?_, Or.inr (Or.inl (by simp))⟩
    rw [freeBytes_set L i c _ hc]
    simp only
    omega
  · rw [h]
    refine ⟨?_, Or.inr (Or.inl (by simp))⟩
    rw [freeBytes_set L n e _ hn]
    simp only
    omega
  · rw [h]
    have hnlt := lt_length_of_getElem? hn
    have hilt : i < L.length := by
      have := lt_length_of_getElem? hc
      simpa using this
    refine ⟨?_, Or.inr (Or.inr ?_)⟩
    · have h1 : freeBytes (L.set n ⟨ref, e.size + s⟩) = freeBytes L + s := by
        rw [freeBytes_set L n e _ hn]
        simp only
        omega
      have h2 := freeBytes_set (L.set n ⟨ref, e.size + s⟩) i c ⟨c.ref, c.size + (e.size + s)⟩ hc
      simp only at h2
      by_cases hin : i = n
      · subst hin
        have hc2 : c = ⟨ref, e.size + s⟩ := by
          rw [List.getElem?_set_self hnlt] at hc
          exact (Option.some.inj hc).symm
        have hx : ((L.set i ⟨ref, e.size + s⟩).set i ⟨c.ref, c.size + (e.size + s)⟩)[i]? =
            some ⟨c.ref, c.size + (e.size + s)⟩ := by
          rw [List.getElem?_set_self (by simpa using hnlt)]
        rw [freeBytes_eraseIdx _ i _ hx, h2, h1]
        subst hc2
        simp only at hce ⊢
        omega
      · have hx : ((L.set n ⟨ref, e.size + s⟩).set i ⟨c.ref, c.size + (e.size + s)⟩)[n]? =
            some ⟨ref, e.size + s⟩ := by
          rw [List.getElem?_set_ne hin, List.getElem?_set_self hnlt]
        rw [freeBytes_eraseIdx _ n _ hx, h2, h1]
        simp only
        omega
    · rw [List.length_eraseIdx]
      simp only [List.length_set, hnlt, if_true]
      omega

/-- The sum of the spans of the slabs is the span from the start of the first
slab to the end of the last one. -/
theorem slabRows_bytes : ∀ (cs : List Slab) (ref : Int),
    freeBytes (slabRows ref cs) = lastOffset ref cs - ref
  | [], ref => by simp [slabRows, freeBytes, lastOffset]
  | c :: cs, ref => by
    have ih := slabRows_bytes cs c.offset
    rw [lastOffset_cons]
    simp only [slabRows, freeBytes, List.map_cons, List.sum_cons] at ih ⊢
    omega

/-- What `Alloc` does to the sum of the row sizes of the mutable ledger: served
from the ledger, the sum decreases by the request size; served by a new slab, it
grows by `newsize - size`. -/
theorem Alloc_bytes (a a1 : SlabAlloc) (malloc : Int → Int) (size : Nat) (r : MemRef)
    (h : Alloc a malloc size = some (r, a1)) :
    (Alloc.reuse size a.m_freeSpace ≠ none →
      freeBytes a1.m_freeSpace = freeBytes a.m_freeSpace - size) ∧
    (Alloc.reuse size a.m_freeSpace = none → r.pointer ≠ 0 →
      freeBytes a1.m_freeSpace = freeBytes a.m_freeSpace + (Alloc.newsize a size - size) ∧
      Alloc.slabsBack a1 = Alloc.slabsBack a + Alloc.newsize a size) := by
  rcases Alloc_outcome a a1 malloc size r h with ⟨i, e, hi, _, _, hT, ha⟩ | ⟨hn, _, hr, ha⟩ |
    ⟨hn, _, _, _, ha⟩
  · have hsome : Alloc.reuse size a.m_freeSpace ≠ none := by
      intro hnone
      have := Alloc.reuse_eq_none size a.m_freeSpace hnone e (List.getElem?_mem hi)
      omega
    refine ⟨fun _ => ?_, fun hnone => absurd hnone hsome⟩
    subst ha
    simp only
    split
    · rename_i h0
      rw [freeBytes_eraseIdx _ i e hi]
      omega
    · rw [freeBytes_set _ i e _ hi]
      simp only
      omega
  · refine ⟨fun hne => absurd hn hne, fun _ hp => ?_⟩
    rw [hr] at hp
    exact absurd rfl hp
  · refine ⟨fun hne => absurd hn hne, fun _ _ => ?_⟩
    subst ha
    refine ⟨?_, Alloc.slabsBack_append a _ _⟩
    simp only
    rw [freeBytes_append]
    simp [freeBytes]

/-- A ref at or above baseline that `Translate` resolves has a positive address
when the slab addresses are positive. -/
theorem Translate_pos_of_some (a : SlabAlloc) (ref pointer : Int) (hlo : a.m_baseline ≤ ref)
    (hp : ∀ s ∈ a.m_slabs, 0 < s.pointer) (h : Translate a ref = some pointer) :
    0 < pointer := by
  unfold Translate at h
  have hb : ¬ ref < a.m_baseline := by omega
  simp only [hb, if_false] at h
  cases hf : find_pos (offsets a.m_slabs) ref with
  | none => simp [hf] at h
  | some ndx =>
    rw [hf] at h
    simp only at h
    cases hs : a.m_slabs[ndx]? with
    | none => simp [hs] at h
    | some s =>
      rw [hs] at h
      simp only [Option.some.injEq] at h
      have hsp := hp s (List.getElem?_mem hs)
      unfold find_pos at hf
      obtain ⟨_, hfirst⟩ := (firstIdx_eq_some _ _ _).1 hf
      by_cases h0 : ndx = 0
      · simp only [h0, ne_eq, not_true_eq_false, if_false] at h
        omega
      · simp only [h0, ne_eq, not_false_eq_true, if_true] at h
        have hlt : ndx - 1 < a.m_slabs.length := by
          have := lt_length_of_getElem? hs
          omega
        have hget : a.m_slabs[ndx - 1]? = some (a.m_slabs.getD (ndx - 1) ⟨0, 0⟩) := by
          simp [List.getD, List.getElem?_eq_getElem hlt]
        have hprev := hfirst (ndx - 1) (a.m_slabs.getD (ndx - 1) ⟨0, 0⟩).offset (by omega)
          (by rw [offsets, List.getElem?_map, hget]; rfl)
        simp only [decide_eq_false_iff_not] at hprev
        omega

/-- The books of a fresh allocator balance. -/
theorem Balanced.initial : Balanced SlabAlloc.new [] := by
  refine ⟨Ranged.fresh_ok, ?_, ?_, ?_, ?_⟩
  · simp [SlabAlloc.new, Alloc.slabsBack]
  · intro b hb; simp at hb
  · intro s hs; simp [SlabAlloc.new] at hs
  · simp [SlabAlloc.new, Alloc.slabsBack, freeBytes, liveBytes]

/-- `Alloc` keeps the books balanced, the block it returns with a non-null
pointer becoming live. -/
theorem Alloc_balanced (a a1 : SlabAlloc) (live : List Block) (malloc : Int → Int) (size : Nat)
    (r : MemRef) (hb : Balanced a live) (hm : ∀ n, 0 ≤ n → 0 ≤ malloc n)
    (h : Alloc a malloc size = some (r, a1)) :
    Balanced a1 (if r.pointer = 0 then live else live ++ [(r.ref, size)]) := by
  have hrg := Alloc_ranged a a1 malloc size r hb.ranged hb.base h
  have hby := Alloc_bytes a a1 malloc size r h
  have hn := Alloc.newsize_gt a size
  rcases Alloc_outcome a a1 malloc size r h with ⟨i, e, hi, _, hre, hT, ha⟩ | ⟨_, _, hr, ha⟩ |
    ⟨hnone, hptr, hne, hre, ha⟩
  · have he := hb.ranged.2 e (List.getElem?_mem hi)
    have hpos := Translate_pos_of_some a e.ref r.pointer he hb.pointers hT
    have hp0 : r.pointer ≠ 0 := by omega
    have hsome : Alloc.reuse size a.m_freeSpace ≠ none := by
      intro hnone
      have := Alloc.reuse_eq_none size a.m_freeSpace hnone e (List.getElem?_mem hi)
      omega
    have hsum := hby.1 hsome
    have hsl : a1.m_slabs = a.m_slabs := by rw [ha]
    have hbl : a1.m_baseline = a.m_baseline := by rw [ha]
    have hback : Alloc.slabsBack a1 = Alloc.slabsBack a := by
      unfold Alloc.slabsBack
      rw [hsl, hbl]
    simp only [hp0, if_false]
    refine ⟨hrg.1, by rw [hback, hbl]; exact hb.base, ?_, by rw [hsl]; exact hb.pointers, ?_⟩
    · intro b hbm
      rw [hbl]
      rcases List.mem_append.1 hbm with h1 | h1
      · exact hb.blocks b h1
      · simp only [List.mem_singleton] at h1
        subst h1
        simp only
        omega
    · rw [hsum, hback, hbl, liveBytes_append]
      have := hb.sum
      simp only [liveBytes, List.map_cons, List.map_nil, List.sum_cons, List.sum_nil] at this ⊢
      omega
  · subst ha
    rw [hr]
    simp only [if_true]
    exact hb
  · have hsum := hby.2 hnone hne
    have hbl : a1.m_baseline = a.m_baseline := by rw [ha]
    simp only [hne, if_false]
    refine ⟨hrg.1, by rw [hsum.2, hbl]; have := hb.base; omega, ?_, ?_, ?_⟩
    · intro b hbm
      rw [hbl]
      rcases List.mem_append.1 hbm with h1 | h1
      · exact hb.blocks b h1
      · simp only [List.mem_singleton] at h1
        subst h1
        simp only
        have := hb.base
        omega
    · intro s hs
      rw [ha] at hs
      simp only at hs
      rcases List.mem_append.1 hs with h1 | h1
      · exact hb.pointers s h1
      · simp only [List.mem_singleton] at h1
        subst h1
        simp only
        have := hm (Alloc.newsize a size) (by omega)
        rw [hptr] at hne
        omega
    · rw [hsum.1, hsum.2, hbl, liveBytes_append]
      have := hb.sum
      simp only [liveBytes, List.map_cons, List.map_nil, List.sum_cons, List.sum_nil] at this ⊢
      omega

/-- `Free` of a live block keeps the books balanced, the block ending its
life. -/
theorem Free_balanced (a a1 : SlabAlloc) (live : List Block) (ref : Int) (p : Mem)
    (hb : Balanced a live) (hl : (ref, GetCapacityFromHeader p) ∈ live)
    (h : Free a ref p = some a1) :
    Balanced a1 (live.erase (ref, GetCapacityFromHeader p)) := by
  have hlo : a.m_baseline ≤ ref := hb.blocks _ hl
  have hrg := Free_ranged a a1 ref p hb.ranged h
  obtain ⟨hsl, hbl, _⟩ := Free_frame a a1 ref p h
  have hback : Alloc.slabsBack a1 = Alloc.slabsBack a := by
    unfold Alloc.slabsBack
    rw [hsl, hbl]
  rw [Free_mutable a ref p hlo] at h
  have ha := (Option.some.inj h).symm
  refine ⟨hrg, by rw [hback, hbl]; exact hb.base, ?_, by rw [hsl]; exact hb.pointers, ?_⟩
  · intro b hbm
    rw [hbl]
    exact hb.blocks b (List.mem_of_mem_erase hbm)
  · rw [hback, hbl, liveBytes_erase live _ hl, ha]
    simp only
    rw [(Free.merge_bytes _ _ _ _).1]
    have := hb.sum
    omega

/-- A replayed history keeps the books balanced when the host answers with
non-negative addresses. -/
theorem replay_balanced : ∀ (ops : List Op) (a : SlabAlloc) (live : List Block),
    Balanced a live → (∀ op ∈ ops, op.unsigned) →
      ∀ a' live', replay a live ops = Replayed.done a' live' → Balanced a' live'
  | [], a, live, hb, _ => by
    intro a' live' h
    simp only [replay, Replayed.done.injEq] at h
    rw [← h.1, ← h.2]
    exact hb
  | Op.alloc size malloc :: ops, a, live, hb, hu => by
    intro a' live' h
    have hm : (Op.alloc size malloc).unsigned := hu _ (List.mem_cons_self _ _)
    cases hA : Alloc a malloc size with
    | none => simp [replay, hA] at h
    | some res =>
      obtain ⟨r, a1⟩ := res
      simp only [replay, hA] at h
      exact replay_balanced ops a1 _ (Alloc_balanced a a1 live malloc size r hb hm hA)
        (fun op hop => hu op (List.mem_cons_of_mem _ hop)) a' live' h
  | Op.free ref p :: ops, a, live, hb, hu => by
    intro a' live' h
    by_cases hl : (ref, GetCapacityFromHeader p) ∈ live
    · cases hF : Free a ref p with
      | none => simp [replay, hl, hF] at h
      | some a1 =>
        simp only [replay, hl, if_true, hF] at h
        exact replay_balanced ops a1 _ (Free_balanced a a1 live ref p hb hl hF)
          (fun op hop => hu op (List.mem_cons_of_mem _ hop)) a' live' h
    · simp [replay, hl] at h

/-- For requests below 2^31 the coalescing property holds: a history of `Alloc`
and `Free` calls on a fresh allocator, all request sizes positive multiples of 8
below 2^31, every `Free` applied to a live block with its allocated size and the
host answering with non-negative addresses, never aborts, and in the state it
leaves two rows of the mutable ledger are adjacent only at a slab end offset. -/
theorem replay_positive_coalesced (ops : List Op) (hpos : ∀ op ∈ ops, op.positive) :
    replay SlabAlloc.new [] ops ≠ Replayed.aborted ∧
      ∀ a live, replay SlabAlloc.new [] ops = Replayed.done a live →
        ∀ e1 ∈ a.m_freeSpace, ∀ e2 ∈ a.m_freeSpace,
          e1.ref + e1.size = e2.ref → e2.ref ∈ offsets a.m_slabs := by
  obtain ⟨h1, h2⟩ := replay_tiled ops SlabAlloc.new [] Tiled.fresh hpos
  exact ⟨h1, fun a live ha => (h2 a live ha).coalesced⟩

/-! ## `Alloc` in 64-bit arithmetic and on the integers -/

/-- The 32-bit unsigned cast lies in `[0, 2^32)`. -/
theorem uint_cast_range (size : Nat) : 0 ≤ uint_cast size ∧ uint_cast size < 2 ^ 32 := by
  unfold uint_cast
  omega

/-- On rows whose values are in range and a request below 2^61, the first-fit
loop in 64-bit arithmetic is the first-fit loop on the integers. -/
theorem Alloc64.reuse_agrees (size : Nat) (h61 : size < 2 ^ 61) :
    ∀ rows : List FreeEntry,
      (∀ e ∈ rows, (0 ≤ e.ref ∧ e.ref < 2 ^ 61) ∧ (0 ≤ e.size ∧ e.size < 2 ^ 61)) →
      Alloc64.reuse size rows = Alloc.reuse size rows
  | [], _ => rfl
  | r :: rs, h => by
    have hr := h r (List.mem_cons_self _ _)
    have ih := Alloc64.reuse_agrees size h61 rs (fun e he => h e (List.mem_cons_of_mem _ he))
    have hu := uint_cast_range size
    have h1 : size_t r.ref = r.ref := size_t_of_lt hr.1.1 (by omega)
    have h2 : size_t (size_t r.size - size) = (r.size - size) % 2 ^ 64 := by
      unfold size_t
      omega
    have h3 : int64_t ((r.size - size) % 2 ^ 64) = r.size - size := by
      unfold int64_t
      omega
    have h4 : int64_t (r.ref + uint_cast size) = r.ref + uint_cast size :=
      int64_t_of_lt (by omega) (by omega)
    have h5 : ((r.size - size) % 2 ^ 64 = 0) ↔ (r.size - size = 0) := by omega
    simp only [Alloc64.reuse, Alloc.reuse, h1, h2, h3, h4, h5, ih]

/-- On a state whose values are in range, `slabsBack` in 64-bit arithmetic is
`slabsBack` on the integers, and it is in range. -/
theorem Alloc64.slabsBack_agrees (a : SlabAlloc) (hr : InRange a) :
    Alloc64.slabsBack a = Alloc.slabsBack a ∧
      0 ≤ Alloc.slabsBack a ∧ Alloc.slabsBack a < 2 ^ 61 := by
  unfold Alloc64.slabsBack Alloc.slabsBack
  cases hl : a.m_slabs.getLast? with
  | none => exact ⟨rfl, hr.baseline⟩
  | some s =>
    have hm := hr.slabs s (List.mem_of_getLast?_eq_some hl)
    exact ⟨size_t_of_lt hm.1 (by omega), hm⟩

/-- In a list in non-decreasing order the element before the last is at most the
last. -/
theorem getD_le_getLast (l : List Slab) (hs : (offsets l).Pairwise (· ≤ ·)) (s : Slab)
    (hl : l.getLast? = some s) (h2 : 2 ≤ l.length) :
    (l.getD (l.length - 2) ⟨0, 0⟩).offset ≤ s.offset := by
  rw [List.getLast?_eq_getElem?] at hl
  have h1 : l.length - 2 < l.length := by omega
  have h3 : l.length - 1 < l.length := by omega
  rw [List.getElem?_eq_getElem h3] at hl
  have hs1 := Option.some.inj hl
  have hg : l.getD (l.length - 2) ⟨0, 0⟩ = l[l.length - 2] := by
    rw [List.getD_eq_getElem?_getD, List.getElem?_eq_getElem h1]
    rfl
  rw [hg, ← hs1]
  unfold offsets at hs
  rw [List.pairwise_map] at hs
  exact (List.pairwise_iff_getElem.1 hs) (l.length - 2) (l.length - 1) h1 h3 (by omega)

/-- On a state whose values are in range and whose slab ends do not decrease,
`doubleLast` in 64-bit arithmetic is `doubleLast` on the integers, and it lies in
`[0, 2^62)`. -/
theorem Alloc64.doubleLast_agrees (a : SlabAlloc) (hr : InRange a)
    (hs : (offsets a.m_slabs).Pairwise (· ≤ ·)) :
    Alloc64.doubleLast a = Alloc.doubleLast a ∧
      0 ≤ Alloc.doubleLast a ∧ Alloc.doubleLast a < 2 ^ 62 := by
  obtain ⟨hsb, hsb0, hsb1⟩ := Alloc64.slabsBack_agrees a hr
  unfold Alloc64.doubleLast Alloc.doubleLast
  rw [hsb]
  by_cases he : a.m_slabs.isEmpty
  · simp [he]
  · simp only [he, Bool.false_eq_true, if_false]
    by_cases h1 : a.m_slabs.length = 1
    · simp only [h1, if_true]
      refine ⟨?_, by omega, by omega⟩
      unfold size_t
      omega
    · simp only [h1, if_false]
      have hlen : 2 ≤ a.m_slabs.length := by
        cases hl : a.m_slabs with
        | nil => simp [hl] at he
        | cons x xs =>
          rw [hl] at h1
          simp only [List.length_cons] at h1 ⊢
          omega
      have hmem : a.m_slabs.getD (a.m_slabs.length - 2) ⟨0, 0⟩ ∈ a.m_slabs := by
        have h1 : a.m_slabs.length - 2 < a.m_slabs.length := by omega
        rw [List.getD_eq_getElem?_getD, List.getElem?_eq_getElem h1]
        exact List.getElem_mem _
      have hp := hr.slabs _ hmem
      have hps : size_t (a.m_slabs.getD (a.m_slabs.length - 2) ⟨0, 0⟩).offset =
          (a.m_slabs.getD (a.m_slabs.length - 2) ⟨0, 0⟩).offset :=
        size_t_of_lt hp.1 (by omega)
      rw [hps]
      have hle : (a.m_slabs.getD (a.m_slabs.length - 2) ⟨0, 0⟩).offset ≤ Alloc.slabsBack a := by
        unfold Alloc.slabsBack
        cases hl : a.m_slabs.getLast? with
        | none =>
          rw [List.getLast?_eq_none_iff] at hl
          simp [hl] at he
        | some s => exact getD_le_getLast a.m_slabs hs s hl hlen
      refine ⟨?_, by omega, by omega⟩
      unfold size_t
      omega

/-- On a state whose values are in range and whose slab ends do not decrease,
and for a request below 2^61, `newsize` in 64-bit arithmetic is `newsize` on the
integers, and it lies below 2^62. -/
theorem Alloc64.newsize_agrees (a : SlabAlloc) (size : Nat) (hr : InRange a)
    (hs : (offsets a.m_slabs).Pairwise (· ≤ ·)) (h61 : size < 2 ^ 61) :
    Alloc64.newsize a size = Alloc.newsize a size ∧ Alloc.newsize a size < 2 ^ 62 := by
  obtain ⟨hd, hd0, hd1⟩ := Alloc64.doubleLast_agrees a hr hs
  have hm : size_t ((256 * (size / 256 + 1) : Nat) : Int) = ((256 * (size / 256 + 1) : Nat) : Int) :=
    size_t_of_lt (by omega) (by omega)
  unfold Alloc64.newsize Alloc.newsize
  simp only [hm, hd]
  refine ⟨trivial, ?_⟩
  split
  · omega
  · omega

/-- `Alloc` in 64-bit arithmetic and `Alloc` on the integers return the same, on
every state whose values are in range and whose slab ends do not decrease, for
every request below 2^61. -/
theorem Alloc64_eq_Alloc (a : SlabAlloc) (malloc : Int → Int) (size : Nat) (hr : InRange a)
    (hs : (offsets a.m_slabs).Pairwise (· ≤ ·)) (h61 : size < 2 ^ 61) :
    Alloc64 a malloc size = Alloc a malloc size := by
  obtain ⟨hsb, hsb0, hsb1⟩ := Alloc64.slabsBack_agrees a hr
  obtain ⟨hn, hn1⟩ := Alloc64.newsize_agrees a size hr hs h61
  have hgt := Alloc.newsize_gt a size
  have hre := Alloc64.reuse_agrees size h61 a.m_freeSpace hr.rows
  have h1 : int64_t (size_t (Alloc.slabsBack a + Alloc.newsize a size)) =
      Alloc.slabsBack a + Alloc.newsize a size := by
    unfold int64_t size_t
    omega
  have h2 : int64_t (size_t (Alloc.slabsBack a + size)) = Alloc.slabsBack a + size := by
    unfold int64_t size_t
    omega
  have h3 : int64_t (size_t (Alloc.newsize a size - size)) = Alloc.newsize a size - size := by
    unfold int64_t size_t
    omega
  unfold Alloc64 Alloc
  simp only [hre, hsb, hn, h1, h2, h3]

/-! ## C1: first-fit reuse -/

/-- C1, as stated, fails on the code at two inputs.  In `exUncovered` the only
free row has size 16 and is the first fit for a request of 16, yet `Alloc`
returns nothing: the row's ref is covered by no slab and `Translate`'s assertion
fires.  In `exHugeRow` the request 2^31 is satisfied by the second row only
(sizes 16 and 2^31), yet `Alloc` returns ref 8 of the first row, because the
comparison is made against `(int)size = -2^31`. -/
theorem Alloc_first_fit_counterexample :
    (exUncovered.m_freeSpace[0]? = some ⟨8, 16⟩ ∧ Alloc exUncovered exMalloc 16 = none) ∧
    (exHugeRow.m_freeSpace[0]? = some ⟨8, 16⟩ ∧
      exHugeRow.m_freeSpace[1]? = some ⟨1024, 2147483648⟩ ∧
      (Alloc exHugeRow exMalloc 2147483648).map (fun r => r.1.ref) = some 8) := by
  decide

/-- C1 (amended): for every allocator state and every request size that is a
multiple of 8 below 2^31, if row `i` of the mutable free ledger is the first row
in ledger order with size >= the request and `Translate` resolves that row's
ref, then `Alloc` returns that row's ref (with the translated address); the row
is removed when its size equals the request and otherwise replaced in place by
`(ref + size, size_of_row - size)`; all other rows of the mutable ledger, the
read-only ledger, the slab table and baseline are unchanged. -/
theorem Alloc_first_fit (a : SlabAlloc) (malloc : Int → Int) (size i : Nat) (e : FreeEntry)
    (pointer : Int) (h8 : size % 8 = 0) (h31 : size < 2 ^ 31)
    (hi : a.m_freeSpace[i]? = some e) (hfit : (size : Int) ≤ e.size)
    (hfirst : ∀ j e', j < i → a.m_freeSpace[j]? = some e' → e'.size < (size : Int))
    (htr : Translate a e.ref = some pointer) :
    Alloc a malloc size =
      some (⟨pointer, e.ref⟩,
        { a with
          m_freeSpace :=
            if e.size = size then a.m_freeSpace.eraseIdx i
            else a.m_freeSpace.set i ⟨e.ref + size, e.size - size⟩ }) := by
  have hr := Alloc.reuse_at size a.m_freeSpace i e hi (by rw [int_cast_of_lt h31]; exact hfit)
    (by rw [int_cast_of_lt h31]; exact hfirst)
  rw [uint_cast_of_lt h31] at hr
  have htr' : ∀ l, Translate { a with m_freeSpace := l } e.ref = some pointer := fun _ => htr
  have hz : (e.size - (size : Int) = 0) ↔ e.size = size := by omega
  simp only [Alloc, and_seven_eq_zero h8, hr, htr', hz]
  simp

/-- C1 (witness): with free rows of sizes 16, 32, 8, a request of 16 reuses the
first row (ref 8) and leaves sizes 32, 8; a request of 24 skips the 16-byte row
and shrinks the 32-byte row in place. -/
theorem Alloc_first_fit_witness :
    Alloc exThreeRows exMalloc 16 =
      some (⟨4096, 8⟩, { exThreeRows with m_freeSpace := [⟨24, 32⟩, ⟨56, 8⟩] }) ∧
    Alloc exThreeRows exMalloc 24 =
      some (⟨4112, 24⟩, { exThreeRows with m_freeSpace := [⟨8, 16⟩, ⟨48, 8⟩, ⟨56, 8⟩] }) :=
  ⟨Alloc_first_fit exThreeRows exMalloc 16 0 ⟨8, 16⟩ 4096 (by decide) (by decide) (by decide)
      (by decide) (by intro j e' hj; omega) (by decide),
   Alloc_first_fit exThreeRows exMalloc 24 1 ⟨24, 32⟩ 4112 (by decide) (by decide) (by decide)
      (by decide)
      (by
        intro j e' hj he'
        have hj0 : j = 0 := by omega
        subst hj0
        have : e' = ⟨8, 16⟩ := by
          have h0 : exThreeRows.m_freeSpace[0]? = some ⟨8, 16⟩ := by decide
          rw [h0] at he'
          exact (Option.some.inj he').symm
        subst this
        decide)
      (by decide)⟩

/-! ## C2: round trip, all free -/

/-- C2 fails on the code at `exZeroHistory`: from a fresh allocator, `Alloc(256)`
(ref 8), `Alloc(256)` (ref 264), `Alloc(0)` (ref 520, opening a second slab),
then `Free` of the three blocks, each with the size it was allocated with.  The
history is accepted and leaves no live block, yet `IsAllFree` is false: the
ledger holds three rows, `(520, 1040)`, `(520, 0)`, `(8, 512)`, for two slabs. -/
theorem replay_zero_size_not_all_free :
    replay SlabAlloc.new [] exZeroHistory =
      Replayed.done
        { SlabAlloc.new with
          m_slabs := [⟨520, exMalloc 512⟩, ⟨1560, exMalloc 1040⟩]
          m_freeSpace := [⟨520, 1040⟩, ⟨520, 0⟩, ⟨8, 512⟩] } [] ∧
    IsAllFree { SlabAlloc.new with
                m_slabs := [⟨520, exMalloc 512⟩, ⟨1560, exMalloc 1040⟩]
                m_freeSpace := [⟨520, 1040⟩, ⟨520, 0⟩, ⟨8, 512⟩] } = false := by
  decide

/-- For non-empty requests below 2^31 the all-free property of C2 holds: a history
of `Alloc` and `Free` calls on a fresh allocator, all request sizes positive
multiples of 8 below 2^31, the host answering with non-negative addresses and
every `Free` applied to a live block with its allocated size, never aborts, and
whenever it leaves no live block `IsAllFree` answers true. -/
theorem replay_positive_all_free (ops : List Op) (hpos : ∀ op ∈ ops, op.positive) :
    replay SlabAlloc.new [] ops ≠ Replayed.aborted ∧
      ∀ a, replay SlabAlloc.new [] ops = Replayed.done a [] → IsAllFree a = true := by
  obtain ⟨h1, h2⟩ := replay_tiled ops SlabAlloc.new [] Tiled.fresh hpos
  exact ⟨h1, fun a ha => Tiled.all_free a (h2 a [] ha)⟩

/-! ## C3: round trip, no overlap -/

/-- C3 fails on the code at `exHugeHistory`: from a fresh allocator, `Alloc(8)`,
`Alloc(2^31)`, `Alloc(8)`.  The second call is served from the 248-byte free row
at ref 16 (the comparison is against `(int)size = -2^31`), so the live block
`[16, 16 + 2^31)` contains byte 264 of the third block `[264, 272)`. -/
theorem replay_huge_size_overlap :
    replay SlabAlloc.new [] exHugeHistory =
      Replayed.done
        { SlabAlloc.new with
          m_slabs := [⟨264, exMalloc 256⟩, ⟨792, exMalloc 528⟩]
          m_freeSpace := [⟨2147483664, -2147483400⟩, ⟨272, 520⟩] }
        [(8, 8), (16, 2147483648), (264, 8)] ∧
    ¬ Block.disjoint (16, 2147483648) (264, 8) := by
  refine ⟨by decide, ?_⟩
  intro h
  exact h 264 (by decide)

/-- For requests below 2^31 the no-overlap property of C3 holds: a history of
`Alloc` and `Free` calls on a fresh allocator, all request sizes multiples of 8
below 2^31 and every `Free` applied to a live block with its allocated size,
never aborts, and after it the live blocks are pairwise disjoint and disjoint
from every row of the mutable free ledger. -/
theorem replay_small_no_overlap (ops : List Op) (hsmall : ∀ op ∈ ops, op.small) :
    replay SlabAlloc.new [] ops ≠ Replayed.aborted ∧
      ∀ a' live', replay SlabAlloc.new [] ops = Replayed.done a' live' →
        live'.Pairwise Block.disjoint ∧
          ∀ b ∈ live', ∀ e ∈ a'.m_freeSpace, Block.disjoint b (e.ref, e.size.toNat) := by
  have h := replay_sound ops SlabAlloc.new [] Sound.new hsmall
  exact ⟨h.1, fun a' live' hd => (h.2 a' live' hd).disjoint⟩

/-! ## C4: no merge across a slab border -/

/-- C4: no cross-slab merge.  For every state in which `E` is a recorded slab end
offset, every block A in the mutable region that ends at `E` and every block B
that starts at `E`: freeing A then B, and freeing B then A, both return, and
every row of the resulting mutable ledger with `ref < E < ref + size` was a row
of the ledger before the two calls, so the frees produce no row spanning the
border: when the ledger had none before, it has none afterwards.  When both blocks are non-empty and the ledger before has non-negative
sizes and no row spanning `E`, A and B end up in different rows: the resulting
ledger has a row containing A and a different row containing B. -/
theorem Free_no_cross_slab_merge (a : SlabAlloc) (refA E : Int) (pA pB : Mem)
    (hE : E ∈ offsets a.m_slabs) (hbase : a.m_baseline ≤ refA)
    (hA : refA + GetCapacityFromHeader pA = E) :
    ∃ ab ba : SlabAlloc,
      (Free a refA pA).bind (fun a1 => Free a1 E pB) = some ab ∧
      (Free a E pB).bind (fun a1 => Free a1 refA pA) = some ba ∧
      (∀ e ∈ ab.m_freeSpace, e.spans E → e ∈ a.m_freeSpace) ∧
      (∀ e ∈ ba.m_freeSpace, e.spans E → e ∈ a.m_freeSpace) ∧
      ((∀ e ∈ a.m_freeSpace, ¬ e.spans E) →
        (∀ e ∈ ab.m_freeSpace, ¬ e.spans E) ∧ (∀ e ∈ ba.m_freeSpace, ¬ e.spans E)) ∧
      (0 < GetCapacityFromHeader pA → 0 < GetCapacityFromHeader pB →
        (∀ e ∈ a.m_freeSpace, 0 ≤ e.size ∧ ¬ e.spans E) →
        (∃ eA ∈ ab.m_freeSpace, ∃ eB ∈ ab.m_freeSpace,
          eA.covers refA (GetCapacityFromHeader pA) ∧ eB.covers E (GetCapacityFromHeader pB) ∧
          eA ≠ eB) ∧
        (∃ eA ∈ ba.m_freeSpace, ∃ eB ∈ ba.m_freeSpace,
          eA.covers refA (GetCapacityFromHeader pA) ∧ eB.covers E (GetCapacityFromHeader pB) ∧
          eA ≠ eB)) := by
  have hbaseE : a.m_baseline ≤ E := by omega
  -- abbreviations
  generalize hsA : GetCapacityFromHeader pA = sA at *
  generalize hsB : GetCapacityFromHeader pB = sB at *
  set offs := offsets a.m_slabs with hoffs
  set L := a.m_freeSpace with hL
  have hEA : refA + (sA : Int) ∈ offs := by rw [hA]; exact hE
  refine ⟨{ a with m_freeSpace := Free.merge offs (Free.merge offs L refA sA) E sB },
    { a with m_freeSpace := Free.merge offs (Free.merge offs L E sB) refA sA }, ?_, ?_, ?_, ?_, ?_, ?_⟩
  · rw [Free_mutable a refA pA hbase, Option.some_bind, Free_mutable]
    · simp [hsA, hsB, hoffs, hL]
    · exact hbaseE
  · rw [Free_mutable a E pB hbaseE, Option.some_bind, Free_mutable]
    · simp [hsA, hsB, hoffs, hL]
    · exact hbase
  · intro e he hsp
    have h1 := Free.merge_spans_of_start_border offs _ E sB hE e he hsp
    have hsp' : e.spans (refA + sA) := by rw [hA]; exact hsp
    exact Free.merge_spans_of_end_border offs L refA sA hEA e h1 hsp'
  · intro e he hsp
    have hsp' : e.spans (refA + sA) := by rw [hA]; exact hsp
    have h1 := Free.merge_spans_of_end_border offs _ refA sA hEA e he hsp'
    exact Free.merge_spans_of_start_border offs L E sB hE e h1 hsp
  · intro hnone
    constructor
    · intro e he hsp
      have h1 := Free.merge_spans_of_start_border offs _ E sB hE e he hsp
      have hsp' : e.spans (refA + sA) := by rw [hA]; exact hsp
      exact hnone e (Free.merge_spans_of_end_border offs L refA sA hEA e h1 hsp') hsp
    · intro e he hsp
      have hsp' : e.spans (refA + sA) := by rw [hA]; exact hsp
      have h1 := Free.merge_spans_of_end_border offs _ refA sA hEA e he hsp'
      exact hnone e (Free.merge_spans_of_start_border offs L E sB hE e h1 hsp) hsp
  · intro h0A h0B hwf
    have hnn : ∀ e ∈ L, 0 ≤ e.size := fun e he => (hwf e he).1
    constructor
    · -- A first, then B
      have hnn1 := Free.merge_size_nonneg offs L refA sA hnn
      have hc1 := Free.merge_coveredBy offs L refA sA h0A hnn
      have hc2 := Free.merge_coveredBy offs (Free.merge offs L refA sA) E sB h0B hnn1
      obtain ⟨e1, he1, h1a, h1b⟩ := hc1 ⟨refA, sA⟩ (by simp)
      obtain ⟨eA, heA, hA1, hA2⟩ := hc2 e1 (List.mem_append_left _ he1)
      obtain ⟨eB, heB, hB1, hB2⟩ := hc2 ⟨E, sB⟩ (by simp)
      refine ⟨eA, heA, eB, heB, ⟨by simp only at h1a; omega, by simp only at h1b; omega⟩,
        ⟨hB1, hB2⟩, ?_⟩
      rintro rfl
      have hsp : eA.spans E :=
        covers_both_spans hA h0A h0B ⟨by simp only at h1a; omega, by simp only at h1b; omega⟩
          ⟨hB1, hB2⟩
      have h1 := Free.merge_spans_of_start_border offs _ E sB hE eA heA hsp
      have hsp' : eA.spans (refA + sA) := by rw [hA]; exact hsp
      exact (hwf eA (Free.merge_spans_of_end_border offs L refA sA hEA eA h1 hsp')).2 hsp
    · -- B first, then A
      have hnn1 := Free.merge_size_nonneg offs L E sB hnn
      have hc1 := Free.merge_coveredBy offs L E sB h0B hnn
      have hc2 := Free.merge_coveredBy offs (Free.merge offs L E sB) refA sA h0A hnn1
      obtain ⟨e1, he1, h1a, h1b⟩ := hc1 ⟨E, sB⟩ (by simp)
      obtain ⟨eB, heB, hB1, hB2⟩ := hc2 e1 (List.mem_append_left _ he1)
      obtain ⟨eA, heA, hA1, hA2⟩ := hc2 ⟨refA, sA⟩ (by simp)
      refine ⟨eA, heA, eB, heB, ⟨hA1, hA2⟩,
        ⟨by simp only at h1a; omega, by simp only at h1b; omega⟩, ?_⟩
      rintro rfl
      have hsp : eA.spans E :=
        covers_both_spans hA h0A h0B ⟨hA1, hA2⟩
          ⟨by simp only at h1a; omega, by simp only at h1b; omega⟩
      have hsp' : eA.spans (refA + sA) := by rw [hA]; exact hsp
      have h1 := Free.merge_spans_of_end_border offs _ refA sA hEA eA heA hsp'
      exact (hwf eA (Free.merge_spans_of_start_border offs L E sB hE eA h1 hsp)).2 hsp

/-- C4 (witness): two slabs meeting at 264, a free row ending at 200 and a free
row starting at 328.  Freeing the 64-byte blocks at 200 and at 264, in either
order, merges each with its neighbour inside its own slab and leaves the two
rows `(100, 164)` and `(264, 128)` on either side of the border. -/
theorem Free_no_cross_slab_merge_witness :
    ((Free (exTwoSlabs [⟨100, 100⟩, ⟨328, 64⟩]) 200 (capHeader 64)).bind
        (fun a1 => Free a1 264 (capHeader 64)) =
      some (exTwoSlabs [⟨100, 164⟩, ⟨264, 128⟩]) ∧
     (Free (exTwoSlabs [⟨100, 100⟩, ⟨328, 64⟩]) 264 (capHeader 64)).bind
        (fun a1 => Free a1 200 (capHeader 64)) =
      some (exTwoSlabs [⟨100, 164⟩, ⟨264, 128⟩])) ∧
    ∃ ab ba : SlabAlloc,
      (Free (exTwoSlabs [⟨100, 100⟩, ⟨328, 64⟩]) 200 (capHeader 64)).bind
        (fun a1 => Free a1 264 (capHeader 64)) = some ab ∧
      (Free (exTwoSlabs [⟨100, 100⟩, ⟨328, 64⟩]) 264 (capHeader 64)).bind
        (fun a1 => Free a1 200 (capHeader 64)) = some ba ∧
      (∀ e ∈ ab.m_freeSpace, e.spans 264 → e ∈ (exTwoSlabs [⟨100, 100⟩, ⟨328, 64⟩]).m_freeSpace) ∧
      (∀ e ∈ ba.m_freeSpace, e.spans 264 → e ∈ (exTwoSlabs [⟨100, 100⟩, ⟨328, 64⟩]).m_freeSpace) ∧
      ((∀ e ∈ (exTwoSlabs [⟨100, 100⟩, ⟨328, 64⟩]).m_freeSpace, ¬ e.spans 264) →
        (∀ e ∈ ab.m_freeSpace, ¬ e.spans 264) ∧ (∀ e ∈ ba.m_freeSpace, ¬ e.spans 264)) ∧
      (0 < GetCapacityFromHeader (capHeader 64) → 0 < GetCapacityFromHeader (capHeader 64) →
        (∀ e ∈ (exTwoSlabs [⟨100, 100⟩, ⟨328, 64⟩]).m_freeSpace, 0 ≤ e.size ∧ ¬ e.spans 264) →
        (∃ eA ∈ ab.m_freeSpace, ∃ eB ∈ ab.m_freeSpace,
          eA.covers 200 (GetCapacityFromHeader (capHeader 64)) ∧
          eB.covers 264 (GetCapacityFromHeader (capHeader 64)) ∧ eA ≠ eB) ∧
        (∃ eA ∈ ba.m_freeSpace, ∃ eB ∈ ba.m_freeSpace,
          eA.covers 200 (GetCapacityFromHeader (capHeader 64)) ∧
          eB.covers 264 (GetCapacityFromHeader (capHeader 64)) ∧ eA ≠ eB)) :=
  ⟨by decide,
   Free_no_cross_slab_merge (exTwoSlabs [⟨100, 100⟩, ⟨328, 64⟩]) 200 264 (capHeader 64)
     (capHeader 64) (by decide) (by decide) (by decide)⟩

/-! ## C5: backward merge -/

/-- C5, as stated, fails on the code at two inputs.  With the ledger
`(8, 16), (24, 0)` both rows end at 24; `Free` of the 8-byte block at 24 extends
the first of them only, so the row `(24, 0)` is not `(24, 8)` afterwards.  In
`exBorderHistory` the two 64-byte blocks at R1 = 200 and R2 = 264 = R1 + 64 are
freed with no free row adjacent to them, yet the ledger ends with the two rows
`(200, 64)` and `(264, 64)` and not with one row `(200, 128)`: R2 is the border
between the two slabs. -/
theorem Free_backward_merge_counterexample :
    ((exLedger [⟨8, 16⟩, ⟨24, 0⟩]).m_freeSpace[1]? = some ⟨24, 0⟩ ∧
      (24 : Int) ∉ offsets (exLedger [⟨8, 16⟩, ⟨24, 0⟩]).m_slabs ∧
      (∀ e ∈ (exLedger [⟨8, 16⟩, ⟨24, 0⟩]).m_freeSpace, e.ref ≠ 24 + 8) ∧
      Free (exLedger [⟨8, 16⟩, ⟨24, 0⟩]) 24 (capHeader 8) =
        some (exLedger [⟨8, 24⟩, ⟨24, 0⟩])) ∧
    replay SlabAlloc.new [] exBorderHistory =
      Replayed.done
        { SlabAlloc.new with
          m_slabs := [⟨264, exMalloc 256⟩, ⟨792, exMalloc 528⟩]
          m_freeSpace := [⟨200, 64⟩, ⟨264, 64⟩] }
        [(8, 192), (328, 464)] := by
  decide

/-- C5 (amended): for every state and every `Free` of a block `(ref, s)`, if the
first row of the selected ledger, in ledger order, that ends at `ref` is
`(r0, s0)`, `ref` is not a recorded slab end offset, and no row starts at
`ref + s`, then after `Free` that row is `(r0, s0 + s)`, no row is appended and
all other rows are unchanged.  Consequently, for two 64-byte blocks at R1 and
R2 = R1 + 64 in the mutable region, where R2 is not a recorded slab end offset
and no free row is adjacent to the two blocks, free R1 then free R2 adds exactly
one row to the ledger, the merged row `(R1, 128)`. -/
theorem Free_backward_merge :
    (∀ (a : SlabAlloc) (ref : Int) (p : Mem) (s i : Nat) (r0 s0 : Int),
      Free.size a ref p = some s →
      (Free.selected a ref)[i]? = some ⟨r0, s0⟩ → r0 + s0 = ref →
      (∀ j e', j < i → (Free.selected a ref)[j]? = some e' → e'.ref + e'.size ≠ ref) →
      ref ∉ offsets a.m_slabs →
      (∀ e ∈ Free.selected a ref, e.ref ≠ ref + s) →
      Free a ref p = some (Free.store a ref ((Free.selected a ref).set i ⟨r0, s0 + s⟩))) ∧
    (∀ (a : SlabAlloc) (R1 : Int) (p1 p2 : Mem),
      a.m_baseline ≤ R1 →
      GetCapacityFromHeader p1 = 64 → GetCapacityFromHeader p2 = 64 →
      R1 + 64 ∉ offsets a.m_slabs →
      (∀ e ∈ a.m_freeSpace,
        e.ref ≠ R1 + 64 ∧ e.ref ≠ R1 + 128 ∧ e.ref + e.size ≠ R1 ∧ e.ref + e.size ≠ R1 + 64) →
      (Free a R1 p1).bind (fun a1 => Free a1 (R1 + 64) p2) =
        some { a with m_freeSpace := a.m_freeSpace ++ [⟨R1, 128⟩] }) := by
  constructor
  · intro a ref p s i r0 s0 hs hi he hfirst hoff hstart
    have hf := Free.forward_eq_none (offsets a.m_slabs) _ (ref + s) (Or.inl hstart)
    have hb := Free.backward_eq_some (offsets a.m_slabs) _ ref i _ hi he hfirst hoff
    rw [Free_eq a ref p s hs, Free.merge_backward _ _ _ _ i _ hf hb hi]
  · intro a R1 p1 p2 hbase h1 h2 hoff hadj
    have hf1 := Free.forward_eq_none (offsets a.m_slabs) a.m_freeSpace (R1 + (64 : Nat))
      (Or.inl fun e he => by have := hadj e he; push_cast; omega)
    have hb1 := Free.backward_eq_none (offsets a.m_slabs) a.m_freeSpace R1
      (Or.inr fun e he => (hadj e he).2.2.1)
    have hlast : (a.m_freeSpace ++ [(⟨R1, (64 : Nat)⟩ : FreeEntry)])[a.m_freeSpace.length]? =
        some ⟨R1, (64 : Nat)⟩ := by
      rw [List.getElem?_append_right (le_refl _)]; simp
    have hf2 := Free.forward_eq_none (offsets a.m_slabs)
      (a.m_freeSpace ++ [⟨R1, (64 : Nat)⟩]) (R1 + 64 + (64 : Nat))
      (Or.inl fun e he => by
        rcases List.mem_append.1 he with h | h
        · have := hadj e h; push_cast; omega
        · simp only [List.mem_singleton] at h
          subst h
          show R1 ≠ R1 + 64 + ((64 : Nat) : Int)
          push_cast; omega)
    have hb2 := Free.backward_eq_some (offsets a.m_slabs)
      (a.m_freeSpace ++ [⟨R1, (64 : Nat)⟩]) (R1 + 64) a.m_freeSpace.length _ hlast
      (by show R1 + ((64 : Nat) : Int) = R1 + 64; push_cast; rfl)
      (fun j e' hj he' => by
        rw [List.getElem?_append_left hj] at he'
        exact (hadj e' (List.getElem?_mem he')).2.2.2)
      hoff
    rw [Free_mutable a R1 p1 hbase, Option.some_bind, Free_mutable]
    · simp only [h1, h2]
      rw [Free.merge_append _ _ _ _ hf1 hb1, Free.merge_backward _ _ _ _ _ _ hf2 hb2 hlast]
      simp
    · show a.m_baseline ≤ R1 + 64
      omega

/-- C5 (witness): in a 256-byte slab with the free row `(8, 64)`, freeing the
64-byte block at 72 extends that row to `(8, 128)`; with an empty ledger,
freeing the 64-byte blocks at 8 and at 72 leaves the single row `(8, 128)`. -/
theorem Free_backward_merge_witness :
    Free (exLedger [⟨8, 64⟩]) 72 (capHeader 64) = some (exLedger [⟨8, 128⟩]) ∧
    (Free (exLedger []) 8 (capHeader 64)).bind (fun a1 => Free a1 72 (capHeader 64)) =
      some (exLedger [⟨8, 128⟩]) :=
  ⟨(Free_backward_merge.1 (exLedger [⟨8, 64⟩]) 72 (capHeader 64) 64 0 8 64 (by decide)
      (by decide) (by decide) (by intro j e' hj; omega) (by decide) (by decide)).trans
      (by decide),
   (Free_backward_merge.2 (exLedger []) 8 (capHeader 64) (capHeader 64) (by decide)
      (by decide) (by decide) (by decide) (by decide)).trans (by decide)⟩

/-! ## C6: forward merge -/

/-- C6, as stated, fails on the code.  `exTwoStartsHistory` leads a fresh
allocator to the ledger `(16, 248), (16, 0)` with the 8-byte block at 8 live.
`Free` of that block finds the row `(16, 0)` in the ledger, 16 is no slab border
and no row ends at 8, yet afterwards that row is unchanged, not `(8, 8)`, and
another row, the first one that starts at 16, has changed. -/
theorem Free_forward_merge_counterexample :
    replay SlabAlloc.new [] exTwoStartsHistory =
      Replayed.done (exLedger [⟨16, 248⟩, ⟨16, 0⟩]) [(16, 0), (8, 8)] ∧
    (exLedger [⟨16, 248⟩, ⟨16, 0⟩]).m_freeSpace[1]? = some ⟨8 + 8, 0⟩ ∧
    (8 + 8 : Int) ∉ offsets (exLedger [⟨16, 248⟩, ⟨16, 0⟩]).m_slabs ∧
    (∀ e ∈ (exLedger [⟨16, 248⟩, ⟨16, 0⟩]).m_freeSpace, e.ref + e.size ≠ 8) ∧
    Free (exLedger [⟨16, 248⟩, ⟨16, 0⟩]) 8 (capHeader 8) =
      some (exLedger [⟨8, 256⟩, ⟨16, 0⟩]) := by
  decide

/-- C6 (amended): for every state and every `Free` of a block `(ref, s)`, if the
first row of the selected ledger, in ledger order, that starts at `ref + s` is
`(ref + s, s1)`, `ref + s` is not a recorded slab end offset, and no row ends at
`ref`, then after `Free` that row is replaced in place by `(ref, s + s1)`, no row
is appended and all other rows are unchanged. -/
theorem Free_forward_merge (a : SlabAlloc) (ref : Int) (p : Mem) (s n : Nat) (s1 : Int)
    (hs : Free.size a ref p = some s)
    (hn : (Free.selected a ref)[n]? = some ⟨ref + s, s1⟩)
    (hfirst : ∀ j e', j < n → (Free.selected a ref)[j]? = some e' → e'.ref ≠ ref + s)
    (hoff : ref + s ∉ offsets a.m_slabs)
    (hend : ∀ e ∈ Free.selected a ref, e.ref + e.size ≠ ref) :
    Free a ref p = some (Free.store a ref ((Free.selected a ref).set n ⟨ref, s + s1⟩)) := by
  have hf := Free.forward_eq_some (offsets a.m_slabs) _ (ref + s) n _ hn rfl hfirst hoff
  have hne : (ref + s) + s1 ≠ ref := hend _ (List.getElem?_mem hn)
  have hb : Free.backward (offsets a.m_slabs) ((Free.selected a ref).set n ⟨ref, s1 + s⟩) ref
      = none := by
    apply Free.backward_eq_none
    right
    intro e he
    rcases List.mem_or_eq_of_mem_set he with h | h
    · exact hend e h
    · subst h
      show ref + (s1 + s) ≠ ref
      omega
  rw [Free_eq a ref p s hs, Free.merge_forward _ _ _ _ n _ hf hn hb]
  simp [add_comm]

/-- C6 (witness): with the free rows `(40, 8), (24, 8)`, freeing the 8-byte block
at 16 replaces the second row in place by `(16, 16)`. -/
theorem Free_forward_merge_witness :
    Free (exLedger [⟨40, 8⟩, ⟨24, 8⟩]) 16 (capHeader 8) =
      some (exLedger [⟨40, 8⟩, ⟨16, 16⟩]) :=
  (Free_forward_merge (exLedger [⟨40, 8⟩, ⟨24, 8⟩]) 16 (capHeader 8) 8 1 8 (by decide)
    (by decide)
    (by
      intro j e' hj he'
      have hj0 : j = 0 := by omega
      subst hj0
      have h0 : (Free.selected (exLedger [⟨40, 8⟩, ⟨24, 8⟩]) 16)[0]? = some ⟨40, 8⟩ := by decide
      rw [h0] at he'
      rw [← Option.some.inj he']
      decide)
    (by decide) (by decide)).trans (by decide)

/-! ## C7: double merge -/

/-- C7, as stated, fails on the code.  `exEmptyPredHistory` leads a fresh
allocator to the ledger `(16, 0), (24, 240)` with the 8-byte block at 16 live.
`Free` of that block has the predecessor `(16, 0)` (it ends at 16) and the
successor `(24, 240)`, and neither 16 nor 24 is a slab border; the result is the
single row `(16, 248)`, a row that starts at `ref`. -/
theorem Free_double_merge_counterexample :
    replay SlabAlloc.new [] exEmptyPredHistory =
      Replayed.done (exLedger [⟨16, 0⟩, ⟨24, 240⟩]) [(8, 8), (16, 8)] ∧
    (exLedger [⟨16, 0⟩, ⟨24, 240⟩]).m_freeSpace[0]? = some ⟨16, 0⟩ ∧
    (exLedger [⟨16, 0⟩, ⟨24, 240⟩]).m_freeSpace[1]? = some ⟨16 + 8, 240⟩ ∧
    (16 : Int) ∉ offsets (exLedger [⟨16, 0⟩, ⟨24, 240⟩]).m_slabs ∧
    (16 + 8 : Int) ∉ offsets (exLedger [⟨16, 0⟩, ⟨24, 240⟩]).m_slabs ∧
    Free (exLedger [⟨16, 0⟩, ⟨24, 240⟩]) 16 (capHeader 8) = some (exLedger [⟨16, 248⟩]) := by
  decide

/-- C7 (amended): for every state and every `Free` of a block `(ref, s)` with
`s > 0`, if the first row of the selected ledger that ends at `ref` is a
predecessor `(r0, s0)` and the first row that starts at `ref + s` is a successor
`(ref + s, s1)` with `s1 >= 0`, and neither `ref` nor `ref + s` is a recorded slab
end offset, then after `Free` the ledger has exactly one row fewer: the
predecessor is replaced in place by `(r0, s0 + s + s1)`, the successor is removed
and every other row is unchanged.  If moreover no row started at `ref` before and
the successor was the only row starting at `ref + s`, the ledger then contains no
row starting at `ref` or at `ref + s`. -/
theorem Free_double_merge (a : SlabAlloc) (ref : Int) (p : Mem) (s n i : Nat)
    (r0 s0 s1 : Int) (hs : Free.size a ref p = some s) (hpos : 0 < s)
    (hn : (Free.selected a ref)[n]? = some ⟨ref + s, s1⟩)
    (hnfirst : ∀ j e', j < n → (Free.selected a ref)[j]? = some e' → e'.ref ≠ ref + s)
    (hs1 : 0 ≤ s1)
    (hi : (Free.selected a ref)[i]? = some ⟨r0, s0⟩) (he : r0 + s0 = ref)
    (hifirst : ∀ j e', j < i → (Free.selected a ref)[j]? = some e' → e'.ref + e'.size ≠ ref)
    (ho1 : ref ∉ offsets a.m_slabs) (ho2 : ref + s ∉ offsets a.m_slabs) :
    Free a ref p =
        some (Free.store a ref
          (((Free.selected a ref).set i ⟨r0, s0 + s + s1⟩).eraseIdx n)) ∧
      (((Free.selected a ref).set i ⟨r0, s0 + s + s1⟩).eraseIdx n).length + 1 =
        (Free.selected a ref).length ∧
      ((∀ e ∈ Free.selected a ref, e.ref ≠ ref) →
        (∀ j e', j ≠ n → (Free.selected a ref)[j]? = some e' → e'.ref ≠ ref + s) →
        ∀ e ∈ ((Free.selected a ref).set i ⟨r0, s0 + s + s1⟩).eraseIdx n,
          e.ref ≠ ref ∧ e.ref ≠ ref + s) := by
  have hmain : Free a ref p =
      some (Free.store a ref
        (((Free.selected a ref).set i ⟨r0, s0 + s + s1⟩).eraseIdx n)) := by
    have hf := Free.forward_eq_some (offsets a.m_slabs) _ (ref + s) n _ hn rfl hnfirst ho2
    have hin : i ≠ n := by
      rintro rfl
      rw [hi] at hn
      have := Option.some.inj hn
      simp only [FreeEntry.mk.injEq] at this
      omega
    have hi1 : ((Free.selected a ref).set n ⟨ref, s1 + s⟩)[i]? = some ⟨r0, s0⟩ := by
      rw [List.getElem?_set_ne (Ne.symm hin)]; exact hi
    have hb : Free.backward (offsets a.m_slabs) ((Free.selected a ref).set n ⟨ref, s1 + s⟩) ref
        = some i := by
      apply Free.backward_eq_some _ _ _ _ _ hi1 he _ ho1
      intro j e' hj he'
      by_cases hjn : j = n
      · subst hjn
        rw [List.getElem?_set] at he'
        simp only [if_true] at he'
        split at he'
        · have := Option.some.inj he'
          subst this
          show ref + (s1 + s) ≠ ref
          omega
        · cases he'
      · rw [List.getElem?_set_ne (Ne.symm hjn)] at he'
        exact hifirst j e' hj he'
    rw [Free_eq a ref p s hs, Free.merge_double _ _ _ _ n i _ _ hf hn hb hi1]
    congr 2
    rw [List.set_comm _ _ _ (Ne.symm hin), eraseIdx_set_self]
    congr 2
    simp only [FreeEntry.mk.injEq, true_and]
    omega
  have hin : i ≠ n := by
    rintro rfl
    rw [hi] at hn
    have := Option.some.inj hn
    simp only [FreeEntry.mk.injEq] at this
    omega
  refine ⟨hmain, ?_, ?_⟩
  · have hlt : n < ((Free.selected a ref).set i ⟨r0, s0 + s + s1⟩).length := by
      simpa using lt_length_of_getElem? hn
    rw [List.length_eraseIdx_of_lt hlt, List.length_set]
    have := lt_length_of_getElem? hn
    omega
  · intro hnoref hunique e hmem
    obtain ⟨j, hjn, hj⟩ := List.mem_eraseIdx_iff_getElem?.1 hmem
    by_cases hji : j = i
    · subst hji
      rw [List.getElem?_set] at hj
      simp only [if_true, lt_length_of_getElem? hi] at hj
      rw [← Option.some.inj hj]
      exact ⟨hnoref ⟨r0, s0⟩ (List.getElem?_mem hi), hunique j ⟨r0, s0⟩ hjn hi⟩
    · rw [List.getElem?_set_ne (Ne.symm hji)] at hj
      exact ⟨hnoref e (List.getElem?_mem hj), hunique j e hjn hj⟩

/-- C7 (witness): with the free rows `(8, 8), (24, 8)`, freeing the 8-byte block
at 16 leaves the single row `(8, 24)`, and no row starts at 16 or at 24. -/
theorem Free_double_merge_witness :
    Free (exLedger [⟨8, 8⟩, ⟨24, 8⟩]) 16 (capHeader 8) = some (exLedger [⟨8, 24⟩]) ∧
    ∀ e ∈ ((Free.selected (exLedger [⟨8, 8⟩, ⟨24, 8⟩]) 16).set 0 ⟨8, 8 + (8 : Nat) + 8⟩).eraseIdx 1,
      e.ref ≠ 16 ∧ e.ref ≠ 16 + (8 : Nat) :=
  ⟨(Free_double_merge (exLedger [⟨8, 8⟩, ⟨24, 8⟩]) 16 (capHeader 8) 8 1 0 8 8 8 (by decide)
      (by decide) (by decide)
      (by
        intro j e' hj he'
        have hj0 : j = 0 := by omega
        subst hj0
        have h0 : (Free.selected (exLedger [⟨8, 8⟩, ⟨24, 8⟩]) 16)[0]? = some ⟨8, 8⟩ := by decide
        rw [h0] at he'
        rw [← Option.some.inj he']
        decide)
      (by decide) (by decide) (by decide) (by intro j e' hj; omega) (by decide)
      (by decide)).1.trans (by decide),
   (Free_double_merge (exLedger [⟨8, 8⟩, ⟨24, 8⟩]) 16 (capHeader 8) 8 1 0 8 8 8 (by decide)
      (by decide) (by decide)
      (by
        intro j e' hj he'
        have hj0 : j = 0 := by omega
        subst hj0
        have h0 : (Free.selected (exLedger [⟨8, 8⟩, ⟨24, 8⟩]) 16)[0]? = some ⟨8, 8⟩ := by decide
        rw [h0] at he'
        rw [← Option.some.inj he']
        decide)
      (by decide) (by decide) (by decide) (by intro j e' hj; omega) (by decide)
      (by decide)).2.2 (by decide)
      (by
        intro j e' hj he'
        have hj0 : j = 0 := by
          rcases Nat.lt_or_ge j 2 with h | h
          · omega
          · have : (Free.selected (exLedger [⟨8, 8⟩, ⟨24, 8⟩]) 16)[j]? = none :=
              List.getElem?_eq_none (by simpa [Free.selected, exLedger, IsReadOnly] using h)
            rw [this] at he'; cases he'
        subst hj0
        have h0 : (Free.selected (exLedger [⟨8, 8⟩, ⟨24, 8⟩]) 16)[0]? = some ⟨8, 8⟩ := by decide
        rw [h0] at he'
        rw [← Option.some.inj he']
        decide)⟩

/-! ## C8: free without neighbours -/

/-- C8: for every state and every `Free` of a block `(ref, s)`, if the selected
ledger has no row starting at `ref + s` and no row ending at `ref`, the ledger
after `Free` is the ledger before with the single row `(ref, s)` appended at the
end (and nothing else in the state changes). -/
theorem Free_without_neighbours (a : SlabAlloc) (ref : Int) (p : Mem) (s : Nat)
    (hs : Free.size a ref p = some s)
    (hstart : ∀ e ∈ Free.selected a ref, e.ref ≠ ref + s)
    (hend : ∀ e ∈ Free.selected a ref, e.ref + e.size ≠ ref) :
    Free a ref p = some (Free.store a ref (Free.selected a ref ++ [⟨ref, s⟩])) := by
  rw [Free_eq a ref p s hs,
    Free.merge_append _ _ _ _ (Free.forward_eq_none _ _ _ (Or.inl hstart))
      (Free.backward_eq_none _ _ _ (Or.inr hend))]

/-- C8 (witness): with the free row `(8, 16)`, freeing the 8-byte block at 40
appends the row `(40, 8)`. -/
theorem Free_without_neighbours_witness :
    Free (exLedger [⟨8, 16⟩]) 40 (capHeader 8) = some (exLedger [⟨8, 16⟩, ⟨40, 8⟩]) :=
  (Free_without_neighbours (exLedger [⟨8, 16⟩]) 40 (capHeader 8) 8 (by decide) (by decide)
    (by decide)).trans (by decide)

/-! ## C9: size of the first slab -/

/-- C9, as stated, fails on the code at two inputs.  On a fresh allocator a
request of 256 bytes, an exact multiple of 256, creates a slab of 512 bytes (end
offset 8 + 512), not of `round_up 256 256 = 256` bytes.  The request of 100
bytes of the example is not a multiple of 8: it trips the assertion of `Alloc`
and creates no slab. -/
theorem Alloc_growth_rounding_counterexample :
    (Alloc SlabAlloc.new exMalloc 256 =
        some (⟨exMalloc 512, 8⟩,
          { SlabAlloc.new with
            m_slabs := [⟨8 + 512, exMalloc 512⟩], m_freeSpace := [⟨264, 256⟩] }) ∧
      round_up 256 256 = 256) ∧
    Alloc SlabAlloc.new exMalloc 100 = none := by
  decide

/-- C9 (amended): for every request size that is a multiple of 8 below 2^31, made
when the slab table is empty and no free row fits, and for which the host
allocation succeeds, `Alloc` creates a slab of exactly `256 * (size / 256 + 1)`
bytes (requested from the host, recorded with end offset baseline plus that
size), the smallest multiple of 256 above `size`: this is `round_up size 256`
when `size` is not a multiple of 256, and `size + 256` when it is. -/
theorem Alloc_growth_rounding (a : SlabAlloc) (malloc : Int → Int) (size : Nat)
    (h8 : size % 8 = 0) (h31 : size < 2 ^ 31) (hslabs : a.m_slabs = [])
    (hfit : ∀ e ∈ a.m_freeSpace, e.size < (size : Int))
    (hm : malloc ((256 * (size / 256 + 1) : Nat) : Int) ≠ 0) :
    Alloc a malloc size =
      some (⟨malloc ((256 * (size / 256 + 1) : Nat) : Int), a.m_baseline⟩,
        { a with
          m_slabs :=
            [⟨a.m_baseline + ((256 * (size / 256 + 1) : Nat) : Int),
              malloc ((256 * (size / 256 + 1) : Nat) : Int)⟩]
          m_freeSpace := a.m_freeSpace ++
            [⟨a.m_baseline + size, ((256 * (size / 256 + 1) : Nat) : Int) - size⟩] }) ∧
      (size % 256 ≠ 0 → 256 * (size / 256 + 1) = round_up size 256) ∧
      (size % 256 = 0 → 256 * (size / 256 + 1) = size + 256 ∧ round_up size 256 = size) := by
  have hns : Alloc.newsize a size = ((256 * (size / 256 + 1) : Nat) : Int) := by
    simp only [Alloc.newsize, Alloc.doubleLast, hslabs, List.isEmpty_nil, if_true]
    split
    · rfl
    · omega
  have hsb : Alloc.slabsBack a = a.m_baseline := by
    simp [Alloc.slabsBack, hslabs]
  refine ⟨?_, ?_, ?_⟩
  · have := Alloc_grow a malloc size h8 h31 hfit (by rw [hns]; exact hm)
    rw [hns, hsb, hslabs] at this
    simpa using this
  · intro h
    unfold round_up
    omega
  · intro h
    unfold round_up
    omega

/-- C9 (witness): on a fresh allocator a request of 104 bytes creates a slab of
`round_up 104 256 = 256` bytes, with end offset 8 + 256. -/
theorem Alloc_growth_rounding_witness :
    Alloc SlabAlloc.new exMalloc 104 =
      some (⟨exMalloc 256, 8⟩,
        { SlabAlloc.new with
          m_slabs := [⟨8 + 256, exMalloc 256⟩], m_freeSpace := [⟨112, 152⟩] }) ∧
    256 * (104 / 256 + 1) = round_up 104 256 :=
  ⟨(Alloc_growth_rounding SlabAlloc.new exMalloc 104 (by decide) (by decide) (by decide)
      (by decide) (by decide)).1.trans (by decide),
   (Alloc_growth_rounding SlabAlloc.new exMalloc 104 (by decide) (by decide) (by decide)
      (by decide) (by decide)).2.1 (by decide)⟩

/-! ## C10: doubling growth -/

/-- C10, as stated, fails on the code at three inputs.  After a first slab of 256
bytes on a fresh allocator (baseline 8, end offset 264) a request of 304 bytes
creates a slab of 792 - 264 = 528 bytes, not of `max 512 (2 * 256) = 512`: with
one slab the code doubles the slab's end offset, not its size.  With two
256-byte slabs a request of 512 bytes creates a slab of 768 bytes, not of
`max (round_up 512 256) (2 * 256) = 512`.  The request of 300 bytes of the
example is not a multiple of 8 and trips the assertion of `Alloc`. -/
theorem Alloc_growth_doubling_counterexample :
    (replay SlabAlloc.new [] exSecondSlabHistory =
        Replayed.done
          { SlabAlloc.new with
            m_slabs := [⟨8 + 256, exMalloc 256⟩, ⟨264 + 528, exMalloc 528⟩]
            m_freeSpace := [⟨112, 152⟩, ⟨568, 224⟩] }
          [(8, 104), (264, 304)] ∧
      max (round_up 304 256) (2 * 256) = 512) ∧
    (Alloc (exTwoSlabs []) exMalloc 512 =
        some (⟨exMalloc 768, 520⟩, { exTwoSlabs [] with
          m_slabs := [⟨264, 4096⟩, ⟨520, 8192⟩, ⟨520 + 768, exMalloc 768⟩]
          m_freeSpace := [⟨1032, 256⟩] }) ∧
      max (round_up 512 256) (2 * (520 - 264)) = 512) ∧
    Alloc (exLedger [⟨112, 152⟩]) exMalloc 300 = none := by
  decide

/-- C10 (amended): for every state with at least two slabs (any baseline) and
every request, a multiple of 8 below 2^31, that no free row satisfies and for
which the host allocation succeeds, the new slab's size equals
`max (256 * (size / 256 + 1)) (2 * (size of the last existing slab))`, where the
size of the last slab is its end offset minus the previous slab's end offset: the
host is asked for that many bytes, the slab is recorded with the last end offset
plus that size, and its tail after the block becomes a new free row. -/
theorem Alloc_growth_doubling (a : SlabAlloc) (malloc : Int → Int) (size : Nat)
    (pre : List Slab) (s1 s2 : Slab) (N : Int) (h8 : size % 8 = 0) (h31 : size < 2 ^ 31)
    (hslabs : a.m_slabs = pre ++ [s1, s2])
    (hfit : ∀ e ∈ a.m_freeSpace, e.size < (size : Int))
    (hN : N = max ((256 * (size / 256 + 1) : Nat) : Int) (2 * (s2.offset - s1.offset)))
    (hm : malloc N ≠ 0) :
    Alloc a malloc size =
      some (⟨malloc N, s2.offset⟩,
        { a with
          m_slabs := a.m_slabs ++ [⟨s2.offset + N, malloc N⟩]
          m_freeSpace := a.m_freeSpace ++ [⟨s2.offset + size, N - size⟩] }) := by
  have hsb : Alloc.slabsBack a = s2.offset := by
    simp [Alloc.slabsBack, hslabs, List.getLast?_append]
  have hlen : a.m_slabs.length = pre.length + 2 := by simp [hslabs]
  have hprev : (a.m_slabs.getD (a.m_slabs.length - 2) ⟨0, 0⟩) = s1 := by
    have h1 : (pre ++ [s1, s2])[pre.length]? = some s1 := by
      rw [List.getElem?_append_right (le_refl _)]; simp
    rw [hlen, hslabs]
    simp [List.getD, h1]
  have hdl : Alloc.doubleLast a = 2 * (s2.offset - s1.offset) := by
    have hne : a.m_slabs.isEmpty = false := by simp [hslabs]
    have hl1 : a.m_slabs.length ≠ 1 := by omega
    simp only [Alloc.doubleLast, hne, hsb, hprev, hl1, if_false, Bool.false_eq_true]
    ring
  have hns : Alloc.newsize a size = N := by
    simp only [Alloc.newsize, hdl, hN]
    split
    · rw [max_eq_left]; omega
    · rw [max_eq_right]; omega
  have := Alloc_grow a malloc size h8 h31 hfit (by rw [hns]; exact hm)
  rw [hns, hsb] at this
  exact this

/-- C10 (witness): with two 256-byte slabs ending at 264 and 520, a request of
304 bytes creates a slab of `max 512 (2 * 256) = 512` bytes ending at 1032. -/
theorem Alloc_growth_doubling_witness :
    Alloc (exTwoSlabs []) exMalloc 304 =
      some (⟨exMalloc 512, 520⟩, { exTwoSlabs [] with
        m_slabs := [⟨264, 4096⟩, ⟨520, 8192⟩, ⟨520 + 512, exMalloc 512⟩]
        m_freeSpace := [⟨824, 208⟩] }) :=
  (Alloc_growth_doubling (exTwoSlabs []) exMalloc 304 [] ⟨264, 4096⟩ ⟨520, 8192⟩ 512
    (by decide) (by decide) (by decide) (by decide) (by decide) (by decide)).trans (by decide)

/-! ## C11: growth bookkeeping -/

/-- Growth bookkeeping on the integers: for every state and request size for
which `Alloc` grows the heap (it returns and the slab table is no longer the one
before the call), with `P` the last slab's end offset (baseline without slabs)
and `newsize` the size asked of the host: no free row passed the first-fit test,
the host returned a non-null address, `Alloc` returns that address with ref `P`,
the slab table is the old one followed by the single row
`(P + newsize, address)`, the mutable ledger is the old one followed by the
single row `(P + size, newsize - size)`, everything else is unchanged, and
`newsize > size`: the registered tail is never empty. -/
theorem Alloc_growth_bookkeeping (a a1 : SlabAlloc) (malloc : Int → Int) (size : Nat)
    (r : MemRef) (h : Alloc a malloc size = some (r, a1)) (hg : a1.m_slabs ≠ a.m_slabs) :
    Alloc.reuse size a.m_freeSpace = none ∧
    malloc (Alloc.newsize a size) ≠ 0 ∧
    r = ⟨malloc (Alloc.newsize a size), Alloc.slabsBack a⟩ ∧
    a1 = { a with
      m_slabs := a.m_slabs ++
        [⟨Alloc.slabsBack a + Alloc.newsize a size, malloc (Alloc.newsize a size)⟩]
      m_freeSpace := a.m_freeSpace ++
        [⟨Alloc.slabsBack a + size, Alloc.newsize a size - size⟩] } ∧
    (size : Int) < Alloc.newsize a size := by
  have hn := Alloc.newsize_gt a size
  have hn0 : Alloc.newsize a size ≠ 0 := by omega
  unfold Alloc at h
  split at h
  · cases h
  · cases hr : Alloc.reuse size a.m_freeSpace with
    | some res =>
      obtain ⟨loc, rows⟩ := res
      simp only [hr, Option.map_eq_some'] at h
      obtain ⟨pointer, _, hp⟩ := h
      simp only [Prod.mk.injEq] at hp
      exact absurd (by rw [← hp.2]) hg
    | none =>
      simp only [hr, hn0, ne_eq, not_false_eq_true, if_true] at h
      split at h
      · simp only [Option.some.injEq, Prod.mk.injEq] at h
        exact absurd (by rw [← h.2]) hg
      · rename_i hm
        simp only [Option.some.injEq, Prod.mk.injEq] at h
        exact ⟨rfl, hm, h.1.symm, h.2.symm, hn⟩

/-- Growth bookkeeping in 64-bit arithmetic: on every state whose values are in
range and whose slab ends do not decrease, for every request below 2^61 for
which `Alloc` grows the heap (it returns and the slab table is no longer the one
before the call), with `P` the last slab's end offset (baseline without slabs)
and `newsize` the size asked of the host: no free row passed the first-fit test,
the host returned a non-null address, `Alloc` returns that address with ref `P`,
the slab table is the old one followed by the single row
`(P + newsize, address)`, the mutable ledger is the old one followed by the
single row `(P + size, newsize - size)`, everything else is unchanged, and
`newsize > size`. -/
theorem Alloc64_growth_bookkeeping (a a1 : SlabAlloc) (malloc : Int → Int) (size : Nat)
    (r : MemRef) (hr : InRange a) (hs : (offsets a.m_slabs).Pairwise (· ≤ ·))
    (h61 : size < 2 ^ 61) (h : Alloc64 a malloc size = some (r, a1))
    (hg : a1.m_slabs ≠ a.m_slabs) :
    Alloc64.reuse size a.m_freeSpace = none ∧
    malloc (Alloc64.newsize a size) ≠ 0 ∧
    r = ⟨malloc (Alloc64.newsize a size), Alloc64.slabsBack a⟩ ∧
    a1 = { a with
      m_slabs := a.m_slabs ++
        [⟨Alloc64.slabsBack a + Alloc64.newsize a size, malloc (Alloc64.newsize a size)⟩]
      m_freeSpace := a.m_freeSpace ++
        [⟨Alloc64.slabsBack a + size, Alloc64.newsize a size - size⟩] } ∧
    (size : Int) < Alloc64.newsize a size := by
  rw [Alloc64_eq_Alloc a malloc size hr hs h61] at h
  rw [Alloc64.reuse_agrees size h61 a.m_freeSpace hr.rows, (Alloc64.newsize_agrees a size hr hs h61).1,
    (Alloc64.slabsBack_agrees a hr).1]
  exact Alloc_growth_bookkeeping a a1 malloc size r h hg

/-- C11 fails on the code when `256 * ((size / 256) + 1)` overflows.  After
`Alloc(8)` and `Alloc(248)` on a fresh allocator the only slab, of 256 bytes, is
full.  A request of 2^64 - 8 bytes then finds no free row; `multible` wraps to 0,
so `newsize` is `doubleLast`, 528, far below the request, and the host is asked
for 528 bytes.  `Alloc` returns ref 264 as a block of 2^64 - 8 bytes, appends the
slab row `(792, address)` and the free row `(256, 536)`, which starts below the
new slab and overlaps the block `(16, 248)`: the row is neither
`(264 + size, 528 - size)` nor the tail of the new slab, and `newsize > size`
does not hold. -/
theorem Alloc64_growth_wraps :
    replay SlabAlloc.new [] exFullHistory = Replayed.done (exLedger []) [(8, 8), (16, 248)] ∧
    Alloc64.reuse 18446744073709551608 (exLedger []).m_freeSpace = none ∧
    Alloc64.newsize (exLedger []) 18446744073709551608 = 528 ∧
    Alloc64 (exLedger []) exMalloc 18446744073709551608 =
      some (⟨exMalloc 528, 264⟩,
        { exLedger [⟨256, 536⟩] with
          m_slabs := [⟨264, exMalloc 256⟩, ⟨792, exMalloc 528⟩] }) := by
  decide

/-! ## C12: address translation -/

/-- C12: for every state and every ref, `Translate(ref)` resolves to the immutable
region at offset `ref` (the address `m_shared + ref`) when `ref < baseline`;
otherwise, when `baseline <= ref < last slab end offset`, it resolves to the
first slab `i` whose end offset is above `ref` (every slab before it ends at or
below `ref`), at offset `ref - prev_end_i` from that slab's base, where
`prev_end_i` is the end offset of the slab before it and baseline for the first
slab; that offset is not negative and is strictly smaller than slab `i`'s size.
The strict increase of the slab end offsets that the claim assumes is not
needed. -/
theorem Translate_resolves (a : SlabAlloc) (ref : Int) :
    (ref < a.m_baseline → Translate a ref = some (a.m_shared + ref)) ∧
    (a.m_baseline ≤ ref → ref < Alloc.slabsBack a →
      ∃ i s, a.m_slabs[i]? = some s ∧ ref < s.offset ∧
        (∀ j t, j < i → a.m_slabs[j]? = some t → t.offset ≤ ref) ∧
        Translate a ref = some (s.pointer + (ref - slabStart a i)) ∧
        0 ≤ ref - slabStart a i ∧ ref - slabStart a i < slabSize a i) := by
  constructor
  · intro h
    simp [Translate, h]
  · intro hlo hhi
    have hb : ¬ ref < a.m_baseline := by omega
    obtain ⟨pointer, hT⟩ := Translate_isSome a ref hhi
    unfold Translate at hT ⊢
    simp only [hb, if_false] at hT ⊢
    cases hf : find_pos (offsets a.m_slabs) ref with
    | none => simp [hf] at hT
    | some i =>
      simp only [hf] at hT ⊢
      cases hs : a.m_slabs[i]? with
      | none => simp [hs] at hT
      | some s =>
        have hfi := (firstIdx_eq_some _ (offsets a.m_slabs) i).1 hf
        obtain ⟨⟨o, ho, hgt⟩, hfirst⟩ := hfi
        have hos : o = s.offset := by
          rw [offsets, List.getElem?_map, hs] at ho
          exact (Option.some.inj ho).symm
        simp only [decide_eq_true_eq] at hgt
        have hprev : ∀ j t, j < i → a.m_slabs[j]? = some t → t.offset ≤ ref := by
          intro j t hj ht
          have := hfirst j t.offset hj (by rw [offsets, List.getElem?_map, ht]; rfl)
          simp only [decide_eq_false_iff_not, not_lt] at this
          exact this
        have hstart : slabStart a i ≤ ref := by
          unfold slabStart
          split
          · rename_i hi0
            have hlt : i - 1 < a.m_slabs.length := by
              have := lt_length_of_getElem? hs
              omega
            have hget : a.m_slabs[i - 1]? = some (a.m_slabs.getD (i - 1) ⟨0, 0⟩) := by
              simp [List.getD, List.getElem?_eq_getElem hlt]
            exact hprev (i - 1) _ (by omega) hget
          · exact hlo
        have hsize : slabSize a i = s.offset - slabStart a i := by
          simp [slabSize, List.getD, hs]
        exact ⟨i, s, hs, by omega, hprev, rfl, by omega, by omega⟩

/-- C12 (witness): with two 256-byte slabs ending at 264 and 520 after baseline
8, ref 300 resolves to the second slab at offset 36, and ref 4 to the immutable
region at offset 4. -/
theorem Translate_resolves_witness :
    Translate (exTwoSlabs []) 4 = some ((exTwoSlabs []).m_shared + 4) ∧
    ∃ i s, (exTwoSlabs []).m_slabs[i]? = some s ∧ (300 : Int) < s.offset ∧
      (∀ j t, j < i → (exTwoSlabs []).m_slabs[j]? = some t → t.offset ≤ 300) ∧
      Translate (exTwoSlabs []) 300 = some (s.pointer + (300 - slabStart (exTwoSlabs []) i)) ∧
      0 ≤ 300 - slabStart (exTwoSlabs []) i ∧
      300 - slabStart (exTwoSlabs []) i < slabSize (exTwoSlabs []) i :=
  ⟨(Translate_resolves (exTwoSlabs []) 4).1 (by decide),
   (Translate_resolves (exTwoSlabs []) 300).2 (by decide) (by decide)⟩

/-! ## C13: translation failure -/

/-- C13: for every state and ref, `Translate` fails (its not-found assertion
fires) exactly when `ref >= baseline` and no slab has an end offset above `ref`,
which is the case of every `ref >= baseline` when the slab table is empty. -/
theorem Translate_fails_iff (a : SlabAlloc) (ref : Int) :
    Translate a ref = none ↔ a.m_baseline ≤ ref ∧ ∀ s ∈ a.m_slabs, s.offset ≤ ref := by
  unfold Translate
  by_cases hb : ref < a.m_baseline
  · simp only [hb, if_true]
    constructor
    · intro h
      cases h
    · intro h
      omega
  · simp only [hb, if_false]
    cases hf : find_pos (offsets a.m_slabs) ref with
    | none =>
      have hnone := (firstIdx_eq_none _ (offsets a.m_slabs)).1 hf
      simp only [true_iff]
      refine ⟨by omega, ?_⟩
      intro s hs
      have := hnone s.offset (by simp only [offsets, List.mem_map]; exact ⟨s, hs, rfl⟩)
      simp only [decide_eq_false_iff_not, not_lt] at this
      exact this
    | some i =>
      dsimp only
      obtain ⟨⟨o, ho, hgt⟩, _⟩ := (firstIdx_eq_some _ (offsets a.m_slabs) i).1 hf
      simp only [decide_eq_true_eq] at hgt
      rw [offsets, List.getElem?_map] at ho
      cases hs : a.m_slabs[i]? with
      | none => simp [hs] at ho
      | some s =>
        rw [hs] at ho
        have hos : s.offset = o := Option.some.inj ho
        constructor
        · intro h
          cases h
        · intro h
          have := h.2 s (List.getElem?_mem hs)
          omega

/-! ## C14: the sole failure path of `Alloc` -/

/-- C14, as stated, fails on the code at two inputs.  On a fresh allocator with a
failing host, no ledger row fits a request of 4 bytes and the host allocation
would fail, yet `Alloc` does not return the null result: its alignment assertion
fires.  In `exNullRow` the row `(0, 16)` fits a request of 16 bytes and the host
never fails, yet `Alloc` returns `MemRef(NULL, 0)`: it takes the row, whose ref 0
resolves to the null address. -/
theorem Alloc_sole_failure_counterexample :
    (SlabAlloc.new.m_freeSpace = [] ∧ Alloc SlabAlloc.new (fun _ => 0) 4 = none) ∧
    (exNullRow.m_freeSpace = [⟨0, 16⟩] ∧
      exMalloc (Alloc.newsize exNullRow 16) ≠ 0 ∧
      Alloc exNullRow exMalloc 16 = some (⟨0, 0⟩, { exNullRow with m_freeSpace := [] })) := by
  decide

/-- C14 (amended): for every state in which no mutable-ledger ref resolves to the
null address and every request size that is a multiple of 8 below 2^31, `Alloc`
returns the null result `MemRef(NULL, 0)` if and only if no row of the mutable
free ledger has size >= the request and the host allocation of the new slab
(`newsize` bytes) fails. -/
theorem Alloc_sole_failure (a : SlabAlloc) (malloc : Int → Int) (size : Nat)
    (h8 : size % 8 = 0) (h31 : size < 2 ^ 31)
    (hnull : ∀ e ∈ a.m_freeSpace, Translate a e.ref ≠ some 0) :
    (∃ a1, Alloc a malloc size = some (⟨0, 0⟩, a1)) ↔
      ((∀ e ∈ a.m_freeSpace, e.size < (size : Int)) ∧ malloc (Alloc.newsize a size) = 0) := by
  constructor
  · rintro ⟨a1, h⟩
    obtain ⟨hr, hm, _, _⟩ := Alloc_null a a1 malloc size ⟨0, 0⟩ h rfl hnull
    have hfit := Alloc.reuse_eq_none size _ hr
    rw [int_cast_of_lt h31] at hfit
    exact ⟨hfit, hm⟩
  · rintro ⟨hfit, hm⟩
    have hr : Alloc.reuse size a.m_freeSpace = none :=
      Alloc.reuse_none size _ (by rw [int_cast_of_lt h31]; exact hfit)
    have hn := Alloc.newsize_gt a size
    have hn0 : Alloc.newsize a size ≠ 0 := by omega
    exact ⟨a, by simp [Alloc, and_seven_eq_zero h8, hr, hn0, hm]⟩

/-- C14 (witness): with one slab and the free row `(16, 8)`, a request of 16
bytes against a failing host returns the null result, and a request of 8 bytes
does not. -/
theorem Alloc_sole_failure_witness :
    ((∃ a1, Alloc (exLedger [⟨16, 8⟩]) (fun _ => 0) 16 = some (⟨0, 0⟩, a1)) ↔
      ((∀ e ∈ (exLedger [⟨16, 8⟩]).m_freeSpace, e.size < ((16 : Nat) : Int)) ∧
        (fun _ => 0) (Alloc.newsize (exLedger [⟨16, 8⟩]) 16) = (0 : Int))) ∧
    (∃ a1, Alloc (exLedger [⟨16, 8⟩]) (fun _ => 0) 16 = some (⟨0, 0⟩, a1)) ∧
    ¬ ∃ a1, Alloc (exLedger [⟨16, 8⟩]) (fun _ => 0) 8 = some (⟨0, 0⟩, a1) :=
  ⟨Alloc_sole_failure (exLedger [⟨16, 8⟩]) (fun _ => 0) 16 (by decide) (by decide) (by decide),
   ⟨exLedger [⟨16, 8⟩], by decide⟩,
   fun h => by
     have h2 := (Alloc_sole_failure (exLedger [⟨16, 8⟩]) (fun _ => 0) 8 (by decide) (by decide)
       (by decide)).1 h
     have h3 := h2.1 ⟨16, 8⟩ (by decide)
     exact absurd h3 (by decide)⟩

/-! ## C15: atomic failure of `Alloc` -/

/-- In every state that a history of `Alloc` and `Free` calls reaches from a
fresh allocator, the host answering with non-negative addresses, no ref of the
mutable ledger resolves to the null address. -/
theorem replay_no_null (ops : List Op) (a : SlabAlloc) (live : List Block)
    (hu : ∀ op ∈ ops, op.unsigned) (h : replay SlabAlloc.new [] ops = Replayed.done a live) :
    ∀ e ∈ a.m_freeSpace, Translate a e.ref ≠ some 0 := by
  have hb := replay_balanced ops SlabAlloc.new [] Balanced.initial hu a live h
  intro e he h0
  have := Translate_pos_of_some a e.ref 0 (hb.ranged.2 e he) hb.pointers h0
  omega

/-- C15: for every state in which no ref of the mutable ledger resolves to the
null address and every request size, if `Alloc` returns the null result
`MemRef(NULL, 0)` then the state after the call is the state before it: slab
table, both ledgers and baseline are unchanged.  The condition on the state
holds in every state that `Alloc` and `Free` calls reach from a fresh allocator
(`replay_no_null`, `Tiled.no_null`): a ref of the mutable ledger lies in a slab,
and slab addresses are not null. -/
theorem Alloc_null_atomic (a a1 : SlabAlloc) (malloc : Int → Int) (size : Nat)
    (h : Alloc a malloc size = some (⟨0, 0⟩, a1))
    (hnull : ∀ e ∈ a.m_freeSpace, Translate a e.ref ≠ some 0) :
    a1 = a ∧ a1.m_slabs = a.m_slabs ∧ a1.m_freeSpace = a.m_freeSpace ∧
      a1.m_freeReadOnly = a.m_freeReadOnly ∧ a1.m_baseline = a.m_baseline := by
  obtain ⟨_, _, _, ha⟩ := Alloc_null a a1 malloc size ⟨0, 0⟩ h rfl hnull
  subst ha
  exact ⟨rfl, rfl, rfl, rfl, rfl⟩

/-- C15 (witness): with one slab and the free row `(16, 8)`, a request of 16
bytes against a failing host returns the null result and leaves the state as it
was. -/
theorem Alloc_null_atomic_witness :
    Alloc (exLedger [⟨16, 8⟩]) (fun _ => 0) 16 = some (⟨0, 0⟩, exLedger [⟨16, 8⟩]) ∧
    (exLedger [⟨16, 8⟩] = exLedger [⟨16, 8⟩] ∧
      (exLedger [⟨16, 8⟩]).m_slabs = (exLedger [⟨16, 8⟩]).m_slabs ∧
      (exLedger [⟨16, 8⟩]).m_freeSpace = (exLedger [⟨16, 8⟩]).m_freeSpace ∧
      (exLedger [⟨16, 8⟩]).m_freeReadOnly = (exLedger [⟨16, 8⟩]).m_freeReadOnly ∧
      (exLedger [⟨16, 8⟩]).m_baseline = (exLedger [⟨16, 8⟩]).m_baseline) :=
  ⟨by decide,
   Alloc_null_atomic (exLedger [⟨16, 8⟩]) (exLedger [⟨16, 8⟩]) (fun _ => 0) 16 (by decide)
     (by decide)⟩

/-! ## C16: failure of `ReAlloc` -/

/-- C16: for every state in which no ref of the mutable ledger resolves to the
null address, if the allocation nested in `ReAlloc(ref, p, size)` fails (it
returns a null pointer), `ReAlloc` returns the null result `MemRef(NULL, 0)` and
the state after the call is the state before it: the original block is added to
no free ledger, and the slab table and both ledgers are unchanged.  The
condition on the state holds in every state that `Alloc` and `Free` calls reach
from a fresh allocator (`replay_no_null`, `Tiled.no_null`). -/
theorem ReAlloc_failure (a a1 : SlabAlloc) (malloc : Int → Int) (ref : Int) (addr : Int)
    (p : Mem) (size : Nat) (space : MemRef) (hA : Alloc a malloc size = some (space, a1))
    (hfail : space.pointer = 0)
    (hnull : ∀ e ∈ a.m_freeSpace, Translate a e.ref ≠ some 0) :
    ReAlloc a malloc ref addr p size = some (⟨0, 0⟩, a) := by
  have h7 := Alloc_aligned a a1 malloc size space hA
  obtain ⟨_, _, hs, ha⟩ := Alloc_null a a1 malloc size space hA hfail hnull
  subst hs ha
  simp [ReAlloc, h7, hA]

/-- C16 (witness): with one slab and the free row `(16, 8)`, `ReAlloc` of the
block at 8 to 16 bytes against a failing host returns the null result and leaves
the state as it was. -/
theorem ReAlloc_failure_witness :
    Alloc (exLedger [⟨16, 8⟩]) (fun _ => 0) 16 = some (⟨0, 0⟩, exLedger [⟨16, 8⟩]) ∧
    ReAlloc (exLedger [⟨16, 8⟩]) (fun _ => 0) 8 (exMalloc 256) (capHeader 8) 16 =
      some (⟨0, 0⟩, exLedger [⟨16, 8⟩]) :=
  ⟨by decide,
   ReAlloc_failure (exLedger [⟨16, 8⟩]) (exLedger [⟨16, 8⟩]) (fun _ => 0) 8 (exMalloc 256)
     (capHeader 8) 16 ⟨0, 0⟩ (by decide) rfl (by decide)⟩

/-! ## C17: `ReAlloc` is allocate-then-free -/

/-- `Free` reads the memory behind `p` through its first 8 bytes only. -/
theorem Free_congr (a : SlabAlloc) (ref : Int) (p q : Mem)
    (h : ∀ i : Nat, i < 8 → byteAt q i = byteAt p i) : Free a ref q = Free a ref p := by
  have hc : GetCapacityFromHeader q = GetCapacityFromHeader p := by
    unfold GetCapacityFromHeader
    rw [h 4 (by omega), h 5 (by omega), h 6 (by omega)]
  have hs : GetSizeFromHeader q = GetSizeFromHeader p := by
    unfold GetSizeFromHeader
    rw [h 0 (by omega), h 1 (by omega), h 2 (by omega), h 3 (by omega)]
  unfold Free Free.size
  rw [hc, hs]

/-- A copy whose destination range holds none of the first 8 addresses of `p`
leaves the header behind `p` as it was. -/
theorem memcpy_header (p : Mem) (addr dest : Int) (n : Nat)
    (h : ∀ i : Nat, i < 8 → ¬ (dest ≤ addr + i ∧ addr + i < dest + n)) :
    ∀ i : Nat, i < 8 → byteAt (memcpy p addr dest n) i = byteAt p i := by
  intro i hi
  unfold byteAt memcpy
  rw [if_neg (h i hi)]

/-- C17, as stated, fails on the code in two ways.  After `Alloc(8)` (ref 8) and
`Alloc(0)` (ref 16) on a fresh allocator, the empty block at 16 is live and
shares no byte with the only free row `(16, 248)`; `ReAlloc` of that block to 8
bytes succeeds and returns ref 16, the ref it was given.  After blocks of 8, 16
and 232 bytes are allocated at 8, 16 and 24 and the first is freed, the block
`(16, 16)` is live and shares no byte with the only free row `(8, 8)`;
`ReAlloc(16, p, 8)` is served that row, 8 bytes below `p`, and its `memcpy` of
the 16 bytes of old capacity runs over the header behind `p`, which then holds
the first payload bytes of the block, here 0: `Free` reads capacity 0 and leaves
the row `(16, 0)`, where `Alloc(8)` followed by `Free(16, p)` leaves
`(16, 16)`. -/
theorem ReAlloc_alloc_then_free_counterexample :
    (replay SlabAlloc.new [] exEmptyBlockHistory =
        Replayed.done (exLedger [⟨16, 248⟩]) [(8, 8), (16, 0)] ∧
      (∀ e ∈ (exLedger [⟨16, 248⟩]).m_freeSpace,
        Block.disjoint (16, 0) (e.ref, e.size.toNat)) ∧
      Translate (exLedger [⟨16, 248⟩]) 16 = some (exMalloc 256 + 8) ∧
      ReAlloc (exLedger [⟨16, 248⟩]) exMalloc 16 (exMalloc 256 + 8) (capHeader 0) 8 =
        some (⟨exMalloc 256 + 8, 16⟩, exLedger [⟨24, 240⟩, ⟨16, 0⟩])) ∧
    (replay SlabAlloc.new [] exOverlapHistory =
        Replayed.done (exLedger [⟨8, 8⟩]) [(16, 16), (32, 232)] ∧
      (∀ e ∈ (exLedger [⟨8, 8⟩]).m_freeSpace,
        Block.disjoint (16, 16) (e.ref, e.size.toNat)) ∧
      Translate (exLedger [⟨8, 8⟩]) 16 = some (exMalloc 256 + 8) ∧
      ReAlloc (exLedger [⟨8, 8⟩]) exMalloc 16 (exMalloc 256 + 8) (capHeader 16) 8 =
        some (⟨exMalloc 256, 8⟩, exLedger [⟨16, 0⟩]) ∧
      allocThenFree (exLedger [⟨8, 8⟩]) exMalloc 16 (capHeader 16) 8 =
        some (⟨exMalloc 256, 8⟩, exLedger [⟨16, 16⟩])) := by
  refine ⟨⟨by decide, ?_, by decide, by decide⟩, by decide, ?_, by decide, by decide, by decide⟩
  · intro e _ x hx
    have := hx.1
    simp only [Nat.cast_zero] at this
    omega
  · intro e he x hx
    have he2 : e = ⟨8, 8⟩ := by simpa [exLedger] using he
    subst he2
    have h1 := hx.1
    have h2 := hx.2
    have h3 : (((8 : Int).toNat : Nat) : Int) = 8 := by decide
    simp only [Nat.cast_ofNat] at h1
    simp only [h3] at h2
    omega

/-- C17 (amended): for every state and every `ReAlloc(ref, p, size)` whose nested
allocation succeeds (`Alloc(size)` returns a non-null pointer) and whose copy of
the old block, `GetCapacityFromHeader(p)` bytes written at the address that
`Alloc` returned, reaches none of the 8 header bytes behind `p`, `ReAlloc` is
`Alloc(size)` followed by `Free(ref, p)`: it returns what `Alloc` returned, with
the ledgers and the slab table that `Free` leaves.  The returned ref is different
from `ref` when the block at `ref` is not empty (`s > 0` bytes), ends inside the
address space, and shares no byte with any row of the mutable ledger, none of
which is empty. -/
theorem ReAlloc_alloc_then_free (a a1 : SlabAlloc) (malloc : Int → Int) (ref : Int)
    (addr : Int) (p : Mem) (size : Nat) (space : MemRef)
    (hA : Alloc a malloc size = some (space, a1)) (hp : space.pointer ≠ 0)
    (hcopy : ∀ i : Nat, i < 8 →
      ¬ (space.pointer ≤ addr + i ∧ addr + i < space.pointer + GetCapacityFromHeader p)) :
    ReAlloc a malloc ref addr p size = allocThenFree a malloc ref p size ∧
    ReAlloc a malloc ref addr p size = (Free a1 ref p).map (fun a2 => (space, a2)) ∧
    ∀ s : Nat, 0 < s → ref + s ≤ Alloc.slabsBack a →
      (∀ e ∈ a.m_freeSpace, 0 < e.size ∧ Block.disjoint (ref, s) (e.ref, e.size.toNat)) →
      space.ref ≠ ref := by
  have h7 := Alloc_aligned a a1 malloc size space hA
  have hF : Free a1 ref (memcpy p addr space.pointer (GetCapacityFromHeader p)) =
      Free a1 ref p :=
    Free_congr a1 ref p _ (memcpy_header p addr space.pointer _ hcopy)
  refine ⟨?_, ?_, ?_⟩
  · simp [ReAlloc, allocThenFree, h7, hA, hp, hF]
  · simp [ReAlloc, h7, hA, hp, hF]
  · intro s hs hend hfree heq
    rcases Alloc_cases a a1 malloc size space hA with ⟨e, he, href, _⟩ | ⟨_, _, hnullres, _⟩ |
      ⟨_, _, _, hback⟩
    · obtain ⟨hpos, hdis⟩ := hfree e he
      apply hdis ref
      simp only
      have : ((e.size.toNat : Nat) : Int) = e.size := Int.toNat_of_nonneg (le_of_lt hpos)
      omega
    · rw [hnullres] at hp
      exact hp rfl
    · omega

/-- C17 (witness): with one slab, the block `(8, 8)` live at the slab's address
and the free row `(16, 248)`, `ReAlloc` of that block to 16 bytes copies 8 bytes
to the address 8 bytes above `p`, past its header; it is `Alloc(16)` (ref 16)
followed by `Free(8, p)`, and returns ref 16, which is not 8. -/
theorem ReAlloc_alloc_then_free_witness :
    ReAlloc (exLedger [⟨16, 248⟩]) exMalloc 8 (exMalloc 256) (capHeader 8) 16 =
      some (⟨exMalloc 256 + 8, 16⟩, exLedger [⟨32, 232⟩, ⟨8, 8⟩]) ∧
    ReAlloc (exLedger [⟨16, 248⟩]) exMalloc 8 (exMalloc 256) (capHeader 8) 16 =
      allocThenFree (exLedger [⟨16, 248⟩]) exMalloc 8 (capHeader 8) 16 ∧
    ReAlloc (exLedger [⟨16, 248⟩]) exMalloc 8 (exMalloc 256) (capHeader 8) 16 =
      (Free (exLedger [⟨32, 232⟩]) 8 (capHeader 8)).map
        (fun a2 => ((⟨exMalloc 256 + 8, 16⟩ : MemRef), a2)) ∧
    (⟨exMalloc 256 + 8, 16⟩ : MemRef).ref ≠ 8 :=
  have hcopy : ∀ i : Nat, i < 8 →
      ¬ ((⟨exMalloc 256 + 8, 16⟩ : MemRef).pointer ≤ exMalloc 256 + i ∧
        exMalloc 256 + i <
          (⟨exMalloc 256 + 8, 16⟩ : MemRef).pointer + GetCapacityFromHeader (capHeader 8)) := by
    intro i hi h
    have h1 := h.1
    simp only at h1
    omega
  ⟨by decide,
   (ReAlloc_alloc_then_free (exLedger [⟨16, 248⟩]) (exLedger [⟨32, 232⟩]) exMalloc 8
     (exMalloc 256) (capHeader 8) 16 ⟨exMalloc 256 + 8, 16⟩ (by decide) (by decide) hcopy).1,
   (ReAlloc_alloc_then_free (exLedger [⟨16, 248⟩]) (exLedger [⟨32, 232⟩]) exMalloc 8
     (exMalloc 256) (capHeader 8) 16 ⟨exMalloc 256 + 8, 16⟩ (by decide) (by decide) hcopy).2.1,
   (ReAlloc_alloc_then_free (exLedger [⟨16, 248⟩]) (exLedger [⟨32, 232⟩]) exMalloc 8
     (exMalloc 256) (capHeader 8) 16 ⟨exMalloc 256 + 8, 16⟩ (by decide) (by decide) hcopy).2.2
     8 (by decide) (by decide)
     (by
       intro e he
       have he2 : e = ⟨16, 248⟩ := by simpa [exLedger] using he
       subst he2
       refine ⟨by decide, ?_⟩
       intro x hx
       have h1 := hx.1
       have h2 := hx.2
       simp only [Int.toNat_ofNat] at h2
       have h3 : (((248 : Int).toNat : Nat) : Int) = 248 := by decide
       simp only at h1 h2
       omega)⟩

/-! ## C18: reset to baseline -/

/-- C18, as stated, fails on the code at two inputs.  In `exEmptySlab` baseline
is the end offset of the first slab: `FreeAll` rebuilds the rows `(264, 0)` and
`(264, 528)`, `IsAllFree` looks the second slab up by its start 264, finds the
empty row first and answers false, so the closing assertion fires, for the
no-remap value and for `filesize = 264` alike.  With two ordinary slabs and
`filesize = 1000`, a host mapping that returns null trips the assertion of
`ReMap`. -/
theorem FreeAll_reset_counterexample :
    ((FreeAll.rebuild exEmptySlab).m_freeSpace = [⟨264, 0⟩, ⟨264, 528⟩] ∧
      IsAllFree (FreeAll.rebuild exEmptySlab) = false ∧
      FreeAll exEmptySlab exMmap no_remap = none ∧
      FreeAll exEmptySlab exMmap 264 = none) ∧
    FreeAll (exTwoSlabs [⟨16, 8⟩]) (fun _ => 0) 1000 = none := by
  decide

/-- C18 (amended): for every state whose slab end offsets are strictly
increasing, the first above baseline, and every `filesize >= baseline` that is
the no-remap value or a multiple of 8, the host mapping of a remap not being
null: `FreeAll(filesize)` returns; after it the read-only ledger is empty, the
mutable ledger has exactly one row per slab in slab order, row `i` being
`(start_i, end_i - start_i)` with `start_0 = baseline` and `start_{i+1} = end_i`,
every slab has the size it had before the call, and `IsAllFree` holds. -/
theorem FreeAll_reset (a : SlabAlloc) (mmap : Int → Int) (filesize : Nat)
    (hsorted : (a.m_baseline :: offsets a.m_slabs).Pairwise (· < ·))
    (hlo : a.m_baseline ≤ (filesize : Int))
    (hal : filesize = no_remap ∨ filesize % 8 = 0)
    (hmap : filesize ≠ no_remap → (filesize : Int) ≠ a.m_baseline → mmap filesize ≠ 0) :
    ∃ a1, FreeAll a mmap filesize = some a1 ∧
      a1.m_freeReadOnly = [] ∧
      a1.m_freeSpace.length = a1.m_slabs.length ∧
      (∀ i : Nat, a1.m_freeSpace[i]? =
        (a1.m_slabs[i]?).map fun s =>
          (⟨slabStart a1 i, s.offset - slabStart a1 i⟩ : FreeEntry)) ∧
      a1.m_slabs.length = a.m_slabs.length ∧
      (∀ i, i < a.m_slabs.length → slabSize a1 i = slabSize a i) ∧
      IsAllFree a1 = true := by
  obtain ⟨a1, h⟩ := FreeAll_isSome a mmap filesize hsorted hlo hal hmap
  obtain ⟨_, _, hro, hrows, hall, _, _, d, hb, hs⟩ := FreeAll_some a a1 mmap filesize h
  refine ⟨a1, h, hro, ?_, ?_, ?_, ?_, hall⟩
  · rw [hrows, slabRows_length]
  · intro i
    rw [hrows]
    exact slabRows_getElem? a1.m_slabs a1.m_baseline i
  · rw [hs, List.length_map]
  · intro i hi
    exact slabSize_shift a a1 d hb hs i hi

/-- C18 (witness): with two 256-byte slabs after baseline 8 and one free row,
`FreeAll(1000)` leaves baseline 1000, slabs ending at 1256 and 1512, and the rows
`(1000, 256)` and `(1256, 256)`. -/
theorem FreeAll_reset_witness :
    FreeAll (exTwoSlabs [⟨16, 8⟩]) exMmap 1000 =
      some { exTwoSlabs [] with
        m_shared := exMmap 1000
        m_baseline := 1000
        m_slabs := [⟨1256, 4096⟩, ⟨1512, 8192⟩]
        m_freeSpace := [⟨1000, 256⟩, ⟨1256, 256⟩] } ∧
    ∃ a1, FreeAll (exTwoSlabs [⟨16, 8⟩]) exMmap 1000 = some a1 ∧
      a1.m_freeReadOnly = [] ∧
      a1.m_freeSpace.length = a1.m_slabs.length ∧
      (∀ i : Nat, a1.m_freeSpace[i]? =
        (a1.m_slabs[i]?).map fun s =>
          (⟨slabStart a1 i, s.offset - slabStart a1 i⟩ : FreeEntry)) ∧
      a1.m_slabs.length = (exTwoSlabs [⟨16, 8⟩]).m_slabs.length ∧
      (∀ i, i < (exTwoSlabs [⟨16, 8⟩]).m_slabs.length →
        slabSize a1 i = slabSize (exTwoSlabs [⟨16, 8⟩]) i) ∧
      IsAllFree a1 = true :=
  ⟨by decide,
   FreeAll_reset (exTwoSlabs [⟨16, 8⟩]) exMmap 1000 (by decide) (by decide)
     (Or.inr (by decide)) (fun _ _ => by decide)⟩

/-! ## C19: reset idempotence -/

/-- C19: for every state and every size for which `FreeAll(size)` returns, a
second `FreeAll(size)` right after it returns the very state the first call
left (same baseline, slab table and ledgers): rebuilding the ledger changes
nothing, and, unless `size` is the no-remap value (no `ReMap` is invoked then),
the `ReMap` invoked by the second call returns false and changes nothing,
because `size` is now baseline.  The second call asks nothing of the host. -/
theorem FreeAll_idempotent (a a1 : SlabAlloc) (mmap mmap2 : Int → Int) (filesize : Nat)
    (h1 : FreeAll a mmap filesize = some a1) :
    FreeAll a1 mmap2 filesize = some a1 ∧
    FreeAll.rebuild a1 = a1 ∧
    (filesize ≠ no_remap → (filesize : Int) = a1.m_baseline ∧
      ReMap (FreeAll.rebuild a1) mmap2 filesize = some (false, a1)) := by
  obtain ⟨hlo, hal, hro, hrows, hall, hbase, hkeep, _⟩ := FreeAll_some a a1 mmap filesize h1
  have hreb : FreeAll.rebuild a1 = a1 := by
    cases a1
    simp only at hro hrows
    simp only [FreeAll.rebuild, SlabAlloc.mk.injEq, true_and]
    exact ⟨hrows.symm, hro.symm⟩
  have hremap : filesize ≠ no_remap → (filesize : Int) = a1.m_baseline ∧
      ReMap (FreeAll.rebuild a1) mmap2 filesize = some (false, a1) := by
    intro hnr
    have hbe := hbase hnr
    refine ⟨hbe.symm, ?_⟩
    rw [ReMap_rebuild, if_pos hbe.symm, hreb]
  refine ⟨?_, hreb, hremap⟩
  unfold FreeAll
  by_cases hnr : filesize = no_remap
  · have hd := hkeep hnr
    have hlo2 : ¬ (filesize : Int) < a1.m_baseline := by omega
    subst hnr
    simp [hlo2, hreb, hall]
  · have hbe := hbase hnr
    have hlo2 : ¬ (filesize : Int) < a1.m_baseline := by omega
    have hr := (hremap hnr).2
    have h7 : filesize &&& 0x7 = 0 := by
      rcases hal with h | h
      · exact h
      · exact absurd h hnr
    simp [hlo2, h7, hnr, hr, hall]

/-- C19 (witness): with two 256-byte slabs after baseline 8, `FreeAll(1000)`
leaves baseline 1000 and the rows `(1000, 256)`, `(1256, 256)`; a second
`FreeAll(1000)`, here against a host that would fail, returns the same state and
its `ReMap` returns false. -/
theorem FreeAll_idempotent_witness :
    FreeAll (exTwoSlabs [⟨16, 8⟩]) exMmap 1000 =
      some { exTwoSlabs [] with
        m_shared := exMmap 1000
        m_baseline := 1000
        m_slabs := [⟨1256, 4096⟩, ⟨1512, 8192⟩]
        m_freeSpace := [⟨1000, 256⟩, ⟨1256, 256⟩] } ∧
    FreeAll { exTwoSlabs [] with
        m_shared := exMmap 1000
        m_baseline := 1000
        m_slabs := [⟨1256, 4096⟩, ⟨1512, 8192⟩]
        m_freeSpace := [⟨1000, 256⟩, ⟨1256, 256⟩] } (fun _ => 0) 1000 =
      some { exTwoSlabs [] with
        m_shared := exMmap 1000
        m_baseline := 1000
        m_slabs := [⟨1256, 4096⟩, ⟨1512, 8192⟩]
        m_freeSpace := [⟨1000, 256⟩, ⟨1256, 256⟩] } :=
  ⟨by decide,
   (FreeAll_idempotent (exTwoSlabs [⟨16, 8⟩]) _ exMmap (fun _ => 0) 1000 (by decide)).1⟩

/-! ## C20: remap rebases by the size delta -/

/-- C20, as stated, fails on the code at a state that satisfies the asserted
preconditions of `ReMap` (read-only ledger empty, one free row for one slab): a
256-byte slab after baseline 8 whose first 8 bytes are in use, free row
`(16, 248)`.  `ReMap(1000)` returns true and sets baseline to 1000, but the row
becomes `(1000, 248)` and the slab end 1248: both moved by 984, not by the delta
992, and the slab is now 248 bytes, not 256. -/
theorem ReMap_rebases_counterexample :
    (exLedger [⟨16, 248⟩]).m_freeReadOnly = [] ∧
    (exLedger [⟨16, 248⟩]).m_freeSpace.length = (exLedger [⟨16, 248⟩]).m_slabs.length ∧
    ReMap (exLedger [⟨16, 248⟩]) exMmap 1000 =
      some (true,
        { exLedger [⟨1000, 248⟩] with
          m_shared := exMmap 1000
          m_baseline := 1000
          m_slabs := [⟨1248, exMalloc 256⟩] }) ∧
    (1000 : Int) ≠ 16 + (1000 - 8) ∧ (1248 : Int) ≠ 264 + (1000 - 8) ∧
    slabSize (exLedger [⟨16, 248⟩]) 0 = 256 ∧
    slabSize { exLedger [⟨1000, 248⟩] with
      m_shared := exMmap 1000
      m_baseline := 1000
      m_slabs := [⟨1248, exMalloc 256⟩] } 0 = 248 := by
  decide

/-- C20 (amended): for every state whose read-only ledger is empty and whose
mutable ledger is the all-free tiling in slab order (row `i` is slab `i`, as
`FreeAll` rebuilds it, so there are as many rows as slabs), every
`new_size > baseline` that is a multiple of 8 and a host mapping that is not
null: `ReMap(new_size)` returns true, the shared base becomes the new mapping,
baseline becomes `new_size`, the ref of every free row and the end offset of
every slab increase by exactly `new_size - old_baseline`, and every row size,
every slab base pointer and every slab size are unchanged. -/
theorem ReMap_rebases (a : SlabAlloc) (mmap : Int → Int) (filesize : Nat)
    (hro : a.m_freeReadOnly = []) (hrows : a.m_freeSpace = slabRows a.m_baseline a.m_slabs)
    (hgt : a.m_baseline < (filesize : Int)) (h8 : filesize % 8 = 0)
    (hmap : mmap filesize ≠ 0) :
    ∃ a1, ReMap a mmap filesize = some (true, a1) ∧
      a1 = { a with
        m_shared := mmap filesize
        m_baseline := filesize
        m_slabs := a.m_slabs.map
          (fun s => { s with offset := s.offset + ((filesize : Int) - a.m_baseline) })
        m_freeSpace := a.m_freeSpace.map
          (fun e => { e with ref := e.ref + ((filesize : Int) - a.m_baseline) }) } ∧
      ∀ i, i < a.m_slabs.length → slabSize a1 i = slabSize a i := by
  have hreb : FreeAll.rebuild a = a := by
    cases a
    simp only at hro hrows
    simp only [FreeAll.rebuild, SlabAlloc.mk.injEq, true_and]
    exact ⟨hrows.symm, hro.symm⟩
  have h := ReMap_rebuild a mmap filesize
  rw [hreb] at h
  have hne : ¬ (filesize : Int) = a.m_baseline := by omega
  have hlo : ¬ (filesize : Int) < a.m_baseline := by omega
  have h7 := and_seven_eq_zero h8
  have hsh := slabRows_shift ((filesize : Int) - a.m_baseline) a.m_slabs a.m_baseline
  have hbd : a.m_baseline + ((filesize : Int) - a.m_baseline) = filesize := by omega
  rw [hbd, ← hrows] at hsh
  simp only [hne, hlo, h7, hmap, if_false, ne_eq, not_true_eq_false, ← hsh, hro] at h
  refine ⟨_, h, ?_, ?_⟩
  · cases a
    simp only at hro
    simp only [SlabAlloc.mk.injEq, true_and, and_true]
    exact hro.symm
  · intro i hi
    exact slabSize_shift a _ ((filesize : Int) - a.m_baseline) (by simp) rfl i hi

/-- C20 (witness): with a fully free 256-byte slab after baseline 8 (row
`(8, 256)`), `ReMap(1000)` returns true, sets baseline to 1000 and moves row and
slab end by 992, to `(1000, 256)` and 1256. -/
theorem ReMap_rebases_witness :
    ReMap (exLedger [⟨8, 256⟩]) exMmap 1000 =
      some (true,
        { exLedger [⟨1000, 256⟩] with
          m_shared := exMmap 1000
          m_baseline := 1000
          m_slabs := [⟨1256, exMalloc 256⟩] }) ∧
    ∃ a1, ReMap (exLedger [⟨8, 256⟩]) exMmap 1000 = some (true, a1) ∧
      a1 = { exLedger [⟨8, 256⟩] with
        m_shared := exMmap 1000
        m_baseline := ((1000 : Nat) : Int)
        m_slabs := (exLedger [⟨8, 256⟩]).m_slabs.map
          (fun s => { s with offset := s.offset + (((1000 : Nat) : Int) - (exLedger [⟨8, 256⟩]).m_baseline) })
        m_freeSpace := (exLedger [⟨8, 256⟩]).m_freeSpace.map
          (fun e => { e with ref := e.ref + (((1000 : Nat) : Int) - (exLedger [⟨8, 256⟩]).m_baseline) }) } ∧
      ∀ i, i < (exLedger [⟨8, 256⟩]).m_slabs.length →
        slabSize a1 i = slabSize (exLedger [⟨8, 256⟩]) i :=
  ⟨by decide,
   ReMap_rebases (exLedger [⟨8, 256⟩]) exMmap 1000 (by decide) (by decide) (by decide)
     (by decide) (by decide)⟩

/-! ## C21: buffer open validates the top ref -/

/-- C21 fails on the code at a buffer of 24 bytes whose top ref (bytes 0..7) is
24, the length itself: the top ref does not lie within the buffer, yet
`SetSharedBuffer` returns true and installs the buffer with baseline 24, because
it rejects only `ref > len`.  The following `GetTopRef` then trips its assertion
`ref < m_baseline`. -/
theorem SetSharedBuffer_accepts_end_ref :
    read_u64 (exHeader 24 0 exSignature 0 0 0) 0 = 24 ∧
    SetSharedBuffer SlabAlloc.new 65536 (exHeader 24 0 exSignature 0 0 0) 24 false =
      (true, { SlabAlloc.new with m_shared := 65536, m_baseline := 24, m_owned := false }) ∧
    GetTopRef { SlabAlloc.new with m_shared := 65536, m_baseline := 24, m_owned := false }
      (exHeader 24 0 exSignature 0 0 0) = none := by
  decide

/-! ## C22: format rejection for buffers -/

/-- C22, as stated, fails on the code: a buffer of 24 bytes whose bytes 16..19
are zero, and one with the signature but version byte 1, are both accepted by
`SetSharedBuffer`, which installs them as shared base (`CanPersist` is true). -/
theorem SetSharedBuffer_ignores_format_counterexample :
    (SetSharedBuffer SlabAlloc.new 65536 (exHeader 0 0 [0, 0, 0, 0] 0 0 0) 24 false =
        (true, { SlabAlloc.new with m_shared := 65536, m_baseline := 24, m_owned := false }) ∧
      SetSharedBuffer SlabAlloc.new 65536 (exHeader 0 0 exSignature 1 0 0) 24 false =
        (true, { SlabAlloc.new with m_shared := 65536, m_baseline := 24, m_owned := false })) ∧
    CanPersist { SlabAlloc.new with m_shared := 65536, m_baseline := 24, m_owned := false } =
      true := by
  decide

/-- C22 (amended): `SetSharedBuffer` does not examine the signature or the
version byte: its result is the same for two buffers that agree on bytes 0..7;
it fails when the 8-byte value in bytes 0..7 exceeds the length; and whenever it
fails it leaves no mapping installed: the state, its shared base and `CanPersist`
included, is as before the call. -/
theorem SetSharedBuffer_ignores_format (a : SlabAlloc) (buffer : Int) (mem : Mem) (len : Nat)
    (own : Bool) :
    (∀ mem2 : Mem, (∀ i, i < 8 → byteAt mem2 i = byteAt mem i) →
      SetSharedBuffer a buffer mem2 len own = SetSharedBuffer a buffer mem len own) ∧
    (len < read_u64 mem 0 → (SetSharedBuffer a buffer mem len own).1 = false) ∧
    ((SetSharedBuffer a buffer mem len own).1 = false →
      (SetSharedBuffer a buffer mem len own).2 = a ∧
      CanPersist (SetSharedBuffer a buffer mem len own).2 = CanPersist a) := by
  refine ⟨?_, ?_, ?_⟩
  · intro mem2 h
    have hr : read_u64 mem2 0 = read_u64 mem 0 :=
      read_u64_congr mem mem2 0 (fun i hi => by simpa using h i hi)
    simp only [SetSharedBuffer, hr]
  · intro hlt
    have h : ¬ read_u64 mem 0 ≤ len := by omega
    rw [SetSharedBuffer_eq]
    simp only [h, if_false]
  · rw [SetSharedBuffer_eq]
    by_cases h : read_u64 mem 0 ≤ len
    · simp [h]
    · simp [h]

/-- C22 (witness): a buffer without the signature and one with it have the same
result when their first 8 bytes agree, here success; a buffer whose first 8 bytes
hold 25 is rejected for a length of 24, and the state stays fresh. -/
theorem SetSharedBuffer_ignores_format_witness :
    SetSharedBuffer SlabAlloc.new 65536 (exHeader 0 0 [0, 0, 0, 0] 0 0 0) 24 false =
      SetSharedBuffer SlabAlloc.new 65536 (exHeader 0 0 exSignature 0 0 0) 24 false ∧
    (SetSharedBuffer SlabAlloc.new 65536 (exHeader 25 0 exSignature 0 0 0) 24 false).1 = false ∧
    ((SetSharedBuffer SlabAlloc.new 65536 (exHeader 25 0 exSignature 0 0 0) 24 false).2 =
        SlabAlloc.new ∧
      CanPersist (SetSharedBuffer SlabAlloc.new 65536 (exHeader 25 0 exSignature 0 0 0) 24
        false).2 = CanPersist SlabAlloc.new) :=
  ⟨(SetSharedBuffer_ignores_format SlabAlloc.new 65536 (exHeader 0 0 exSignature 0 0 0) 24
      false).1 (exHeader 0 0 [0, 0, 0, 0] 0 0 0) (by decide),
   (SetSharedBuffer_ignores_format SlabAlloc.new 65536 (exHeader 25 0 exSignature 0 0 0) 24
      false).2.1 (by decide),
   (SetSharedBuffer_ignores_format SlabAlloc.new 65536 (exHeader 25 0 exSignature 0 0 0) 24
      false).2.2 (by decide)⟩

/-! ## C23: file open validation -/

/-- C23: `SetShared` returns true only if the file length, after the
first-creation initialisation, is a multiple of 8 (it becomes baseline), bytes
16..19 of the mapped header are 'T', '-', 'D', 'B', and the version byte is 0,
the version byte being byte 20 when the low bit of byte 23 is 0 and byte 21 when
it is 1.  A zero-length file opened read-only is rejected.  A zero-length file
opened writable, the host calls succeeding (lock, second `fstat` still reporting
an empty file, `write`, `ftruncate`), is given the default header and a length
of 1 MiB, which is the length the call goes on with. -/
theorem SetShared_validates (a : SlabAlloc) (h : Host) (dh : Mem) (hl : Nat) (ro : Bool) :
    ((SetShared a h dh hl ro).ok = true →
      ∃ len0 len, h.st_size = some len0 ∧ SetShared.len h ro len0 = some len ∧ len % 8 = 0 ∧
        (SetShared a h dh hl ro).alloc.m_baseline = len ∧
        byteAt (SetShared.file_header h dh hl ro) 16 = 84 ∧
        byteAt (SetShared.file_header h dh hl ro) 17 = 45 ∧
        byteAt (SetShared.file_header h dh hl ro) 18 = 68 ∧
        byteAt (SetShared.file_header h dh hl ro) 19 = 66 ∧
        (byteAt (SetShared.file_header h dh hl ro) 23 % 2 = 0 →
          byteAt (SetShared.file_header h dh hl ro) 20 = 0) ∧
        (byteAt (SetShared.file_header h dh hl ro) 23 % 2 = 1 →
          byteAt (SetShared.file_header h dh hl ro) 21 = 0)) ∧
    (h.st_size = some 0 → ro = true → (SetShared a h dh hl ro).ok = false) ∧
    (0 ≤ h.fd → h.st_size = some 0 → ro = false → h.flock_ex = true → h.st_size2 = some 0 →
      h.write = true → h.ftruncate = true →
      (SetShared a h dh hl ro).initialised = true ∧
      (h.flock_un = true → SetShared.len h ro 0 = some 1048576) ∧
      ((SetShared a h dh hl ro).ok = true →
        (SetShared a h dh hl ro).alloc.m_baseline = 1048576)) := by
  refine ⟨?_, ?_, ?_⟩
  · intro ht
    rcases SetShared_cases a h dh hl ro with ⟨h2, _⟩ | ⟨h2, _⟩ |
      ⟨_, len0, len, hs, hlen, hmod, hal, h16, h17, h18, h19, hv⟩
    · rw [ht] at h2
      cases h2
    · rw [ht] at h2
      cases h2
    · refine ⟨len0, len, hs, hlen, hmod, by rw [hal], h16, h17, h18, h19, ?_, ?_⟩
      · intro hb
        have hne : ¬ byteAt (SetShared.file_header h dh hl ro) 23 % 2 = 1 := by omega
        simpa [hne] using hv
      · intro hb
        simpa [hb] using hv
  · intro hs hro
    subst hro
    unfold SetShared
    by_cases h1 : h.fd < 0
    · simp [h1]
    · simp [h1, hs, SetShared.len]
  · intro hfd hs hro hex hs2 hw hft
    subst hro
    have hlen : SetShared.len h false 0 = if h.flock_un then some 1048576 else none := by
      simp only [SetShared.len, hex, hs2, hw, hft]
      cases h.flock_un <;> simp
    have hinit : SetShared.initialised h false = true := by
      simp [SetShared.initialised, hfd, hs, hex, hs2, hw, hft]
    refine ⟨?_, ?_, ?_⟩
    · have h1 : ¬ h.fd < 0 := by omega
      unfold SetShared
      simp only [h1, if_false, hs, hinit]
      repeat' split
      all_goals rfl
    · intro hun
      rw [hlen, hun]
      rfl
    · intro ht
      rcases SetShared_cases a h dh hl false with ⟨h2, _⟩ | ⟨h2, _⟩ |
        ⟨_, len0, len, hs0, hl0, _, hal, _⟩
      · rw [ht] at h2
        cases h2
      · rw [ht] at h2
        cases h2
      · rw [hs] at hs0
        have h0 : len0 = 0 := (Option.some.inj hs0).symm
        subst h0
        rw [hlen] at hl0
        rw [hal]
        split at hl0
        · have := Option.some.inj hl0
          simp only
          omega
        · cases hl0

/-- C23 (witness): a 24-byte file with the signature and version 0 is opened with
baseline 24; an empty file opened read-only is rejected; an empty file opened
writable is initialised and opened with baseline 1 MiB. -/
theorem SetShared_validates_witness :
    (∃ len0 len, (exHost 24 (exHeader 0 0 exSignature 0 0 0)).st_size = some len0 ∧
      SetShared.len (exHost 24 (exHeader 0 0 exSignature 0 0 0)) true len0 = some len ∧
      len % 8 = 0 ∧
      (SetShared SlabAlloc.new (exHost 24 (exHeader 0 0 exSignature 0 0 0))
        (exHeader 0 0 exSignature 0 0 0) 24 true).alloc.m_baseline = len ∧
      byteAt (SetShared.file_header (exHost 24 (exHeader 0 0 exSignature 0 0 0))
        (exHeader 0 0 exSignature 0 0 0) 24 true) 16 = 84 ∧
      byteAt (SetShared.file_header (exHost 24 (exHeader 0 0 exSignature 0 0 0))
        (exHeader 0 0 exSignature 0 0 0) 24 true) 17 = 45 ∧
      byteAt (SetShared.file_header (exHost 24 (exHeader 0 0 exSignature 0 0 0))
        (exHeader 0 0 exSignature 0 0 0) 24 true) 18 = 68 ∧
      byteAt (SetShared.file_header (exHost 24 (exHeader 0 0 exSignature 0 0 0))
        (exHeader 0 0 exSignature 0 0 0) 24 true) 19 = 66 ∧
      (byteAt (SetShared.file_header (exHost 24 (exHeader 0 0 exSignature 0 0 0))
          (exHeader 0 0 exSignature 0 0 0) 24 true) 23 % 2 = 0 →
        byteAt (SetShared.file_header (exHost 24 (exHeader 0 0 exSignature 0 0 0))
          (exHeader 0 0 exSignature 0 0 0) 24 true) 20 = 0) ∧
      (byteAt (SetShared.file_header (exHost 24 (exHeader 0 0 exSignature 0 0 0))
          (exHeader 0 0 exSignature 0 0 0) 24 true) 23 % 2 = 1 →
        byteAt (SetShared.file_header (exHost 24 (exHeader 0 0 exSignature 0 0 0))
          (exHeader 0 0 exSignature 0 0 0) 24 true) 21 = 0)) ∧
    (SetShared SlabAlloc.new (exHost 0 (fun _ => 0)) (exHeader 0 0 exSignature 0 0 0) 24
      true).ok = false ∧
    ((SetShared SlabAlloc.new (exHost 0 (fun _ => 0)) (exHeader 0 0 exSignature 0 0 0) 24
        false).initialised = true ∧
      SetShared.len (exHost 0 (fun _ => 0)) false 0 = some 1048576 ∧
      (SetShared SlabAlloc.new (exHost 0 (fun _ => 0)) (exHeader 0 0 exSignature 0 0 0) 24
        false).alloc.m_baseline = 1048576) :=
  ⟨(SetShared_validates SlabAlloc.new (exHost 24 (exHeader 0 0 exSignature 0 0 0))
      (exHeader 0 0 exSignature 0 0 0) 24 true).1 (by decide),
   (SetShared_validates SlabAlloc.new (exHost 0 (fun _ => 0)) (exHeader 0 0 exSignature 0 0 0)
      24 true).2.1 (by decide) rfl,
   ((SetShared_validates SlabAlloc.new (exHost 0 (fun _ => 0)) (exHeader 0 0 exSignature 0 0 0)
      24 false).2.2 (by decide) (by decide) rfl rfl (by decide) rfl rfl).1,
   ((SetShared_validates SlabAlloc.new (exHost 0 (fun _ => 0)) (exHeader 0 0 exSignature 0 0 0)
      24 false).2.2 (by decide) (by decide) rfl rfl (by decide) rfl rfl).2.1 rfl,
   ((SetShared_validates SlabAlloc.new (exHost 0 (fun _ => 0)) (exHeader 0 0 exSignature 0 0 0)
      24 false).2.2 (by decide) (by decide) rfl rfl (by decide) rfl rfl).2.2 (by decide)⟩

/-! ## C24: distinguishable open errors -/

/-- C24, as stated, fails on the code: opening a 24-byte file whose bytes 16..19
are zero and opening one with the signature but version byte 1 give the same
result with `SetShared`, false with the allocator untouched, down to every
effect of the call; `SetSharedBuffer` accepts both buffers with the same
result. -/
theorem open_errors_alike_counterexample :
    SetShared SlabAlloc.new (exHost 24 (exHeader 0 0 [0, 0, 0, 0] 0 0 0))
        (exHeader 0 0 exSignature 0 0 0) 24 true =
      SetShared SlabAlloc.new (exHost 24 (exHeader 0 0 exSignature 1 0 0))
        (exHeader 0 0 exSignature 0 0 0) 24 true ∧
    (SetShared SlabAlloc.new (exHost 24 (exHeader 0 0 [0, 0, 0, 0] 0 0 0))
      (exHeader 0 0 exSignature 0 0 0) 24 true).ok = false ∧
    SetSharedBuffer SlabAlloc.new 65536 (exHeader 0 0 [0, 0, 0, 0] 0 0 0) 24 false =
      SetSharedBuffer SlabAlloc.new 65536 (exHeader 0 0 exSignature 1 0 0) 24 false := by
  decide

/-- C24 (amended): the result of opening on a header with a wrong signature is
the same as on a header with the signature but a nonzero version byte: for two
files whose mapped headers are of these two kinds, `SetShared` returns false for
both and leaves the allocator as it was for both; and `SetSharedBuffer` gives one
result for two buffers that agree on bytes 0..7, whatever their signature and
version bytes.  A caller cannot tell the two errors apart. -/
theorem open_errors_alike (a : SlabAlloc) (h1 h2 : Host) (dh : Mem) (hl : Nat) (ro : Bool)
    (hsig : ¬ (byteAt (SetShared.file_header h1 dh hl ro) 16 = 84 ∧
      byteAt (SetShared.file_header h1 dh hl ro) 17 = 45 ∧
      byteAt (SetShared.file_header h1 dh hl ro) 18 = 68 ∧
      byteAt (SetShared.file_header h1 dh hl ro) 19 = 66))
    (hver : byteAt (SetShared.file_header h2 dh hl ro)
      (if byteAt (SetShared.file_header h2 dh hl ro) 23 % 2 = 1 then 21 else 20) ≠ 0) :
    ((SetShared a h1 dh hl ro).ok = false ∧ (SetShared a h2 dh hl ro).ok = false ∧
      (SetShared a h1 dh hl ro).alloc = a ∧ (SetShared a h2 dh hl ro).alloc = a) ∧
    ∀ (buffer : Int) (len : Nat) (own : Bool) (mem1 mem2 : Mem),
      (∀ i, i < 8 → byteAt mem1 i = byteAt mem2 i) →
      SetSharedBuffer a buffer mem1 len own = SetSharedBuffer a buffer mem2 len own := by
  have hf1 : (SetShared a h1 dh hl ro).ok = false := by
    rcases SetShared_cases a h1 dh hl ro with ⟨h, _⟩ | ⟨h, _⟩ |
      ⟨_, _, _, _, _, _, _, h16, h17, h18, h19, _⟩
    · exact h
    · exact h
    · exact absurd ⟨h16, h17, h18, h19⟩ hsig
  have hf2 : (SetShared a h2 dh hl ro).ok = false := by
    rcases SetShared_cases a h2 dh hl ro with ⟨h, _⟩ | ⟨h, _⟩ |
      ⟨_, _, _, _, _, _, _, _, _, _, _, hv⟩
    · exact h
    · exact h
    · exact absurd hv hver
  refine ⟨⟨hf1, hf2, SetShared_false a h1 dh hl ro hf1, SetShared_false a h2 dh hl ro hf2⟩, ?_⟩
  intro buffer len own mem1 mem2 h
  have hr : read_u64 mem1 0 = read_u64 mem2 0 :=
    read_u64_congr mem2 mem1 0 (fun i hi => by simpa using h i hi)
  simp only [SetSharedBuffer, hr]

/-- C24 (witness): a 24-byte file without the signature and one with the
signature but version 1 are both rejected by `SetShared` with the allocator left
fresh, and `SetSharedBuffer` has one result for the two buffers. -/
theorem open_errors_alike_witness :
    ((SetShared SlabAlloc.new (exHost 24 (exHeader 0 0 [0, 0, 0, 0] 0 0 0))
        (exHeader 0 0 exSignature 0 0 0) 24 true).ok = false ∧
      (SetShared SlabAlloc.new (exHost 24 (exHeader 0 0 exSignature 1 0 0))
        (exHeader 0 0 exSignature 0 0 0) 24 true).ok = false ∧
      (SetShared SlabAlloc.new (exHost 24 (exHeader 0 0 [0, 0, 0, 0] 0 0 0))
        (exHeader 0 0 exSignature 0 0 0) 24 true).alloc = SlabAlloc.new ∧
      (SetShared SlabAlloc.new (exHost 24 (exHeader 0 0 exSignature 1 0 0))
        (exHeader 0 0 exSignature 0 0 0) 24 true).alloc = SlabAlloc.new) ∧
    SetSharedBuffer SlabAlloc.new 65536 (exHeader 0 0 [0, 0, 0, 0] 0 0 0) 24 false =
      SetSharedBuffer SlabAlloc.new 65536 (exHeader 0 0 exSignature 1 0 0) 24 false :=
  ⟨(open_errors_alike SlabAlloc.new (exHost 24 (exHeader 0 0 [0, 0, 0, 0] 0 0 0))
      (exHost 24 (exHeader 0 0 exSignature 1 0 0)) (exHeader 0 0 exSignature 0 0 0) 24 true
      (by decide) (by decide)).1,
   (open_errors_alike SlabAlloc.new (exHost 24 (exHeader 0 0 [0, 0, 0, 0] 0 0 0))
      (exHost 24 (exHeader 0 0 exSignature 1 0 0)) (exHeader 0 0 exSignature 0 0 0) 24 true
      (by decide) (by decide)).2 65536 24 false _ _ (by decide)⟩

/-! ## C25: a failed open is not partially applied -/

/-- For every state, whenever `SetSharedBuffer` or `SetShared` returns false, the
allocator is the one before the call: shared base pointer, baseline and
ownership flag are unchanged.  What becomes of the mapping and of the descriptor
that `SetShared` made is not part of the allocator record; it is in `Opened`. -/
theorem open_failure_keeps_state (a : SlabAlloc) (buffer : Int) (mem : Mem) (len : Nat)
    (own : Bool) (h : Host) (dh : Mem) (hl : Nat) (ro : Bool) :
    ((SetSharedBuffer a buffer mem len own).1 = false →
      (SetSharedBuffer a buffer mem len own).2 = a ∧
      (SetSharedBuffer a buffer mem len own).2.m_shared = a.m_shared ∧
      (SetSharedBuffer a buffer mem len own).2.m_baseline = a.m_baseline ∧
      (SetSharedBuffer a buffer mem len own).2.m_owned = a.m_owned) ∧
    ((SetShared a h dh hl ro).ok = false →
      (SetShared a h dh hl ro).alloc = a ∧
      (SetShared a h dh hl ro).alloc.m_shared = a.m_shared ∧
      (SetShared a h dh hl ro).alloc.m_baseline = a.m_baseline ∧
      (SetShared a h dh hl ro).alloc.m_owned = a.m_owned) := by
  constructor
  · intro hf
    have h2 : (SetSharedBuffer a buffer mem len own).2 = a := by
      rw [SetSharedBuffer_eq] at hf ⊢
      by_cases hle : read_u64 mem 0 ≤ len
      · simp [hle] at hf
      · simp [hle]
    rw [h2]
    exact ⟨rfl, rfl, rfl, rfl⟩
  · intro hf
    have h2 := SetShared_false a h dh hl ro hf
    rw [h2]
    exact ⟨rfl, rfl, rfl, rfl⟩

/-- C25 fails on the code when `SetShared` rejects the format of a file.  A file
of 32 bytes without the signature is opened with descriptor 3 and mapped at
65536; `SetShared` then leaves through `return false` (source lines 383-397),
not through `goto error`: it returns false with shared base, baseline and
ownership flag as before, but the mapping made by the call is still mapped, the
descriptor is still open, and the member `m_fd` holds it.  A file of 20 bytes,
rejected before it is mapped, leaves through `goto error`, which closes the
descriptor and leaves nothing mapped. -/
theorem SetShared_rejection_leaks :
    SetShared SlabAlloc.new (exHost 32 (exHeader 0 0 [0, 0, 0, 0] 0 0 0))
        (exHeader 0 0 exSignature 0 0 0) 24 false =
      { ok := false, alloc := SlabAlloc.new, m_fd := 3, closed := false, initialised := false,
        mapped := true } ∧
    SetShared SlabAlloc.new (exHost 20 (exHeader 0 0 exSignature 0 0 0))
        (exHeader 0 0 exSignature 0 0 0) 24 false =
      { ok := false, alloc := SlabAlloc.new, m_fd := 3, closed := true, initialised := false,
        mapped := false } := by
  decide

/-! ## C26: top-ref selection -/

/-- C26, as stated, fails on the code at a bound header: the buffer of 24 bytes
with slot A = 16, slot B = 200 and byte 23 = 1 is accepted by `SetSharedBuffer`
and bound with baseline 24, yet `GetTopRef` does not return slot B: its assertion
`ref < m_baseline` fires. -/
theorem GetTopRef_selects_counterexample :
    SetSharedBuffer SlabAlloc.new 65536 (exHeader 16 200 exSignature 0 0 1) 24 false =
      (true, { SlabAlloc.new with m_shared := 65536, m_baseline := 24, m_owned := false }) ∧
    read_u64 (exHeader 16 200 exSignature 0 0 1) 8 = 200 ∧
    GetTopRef { SlabAlloc.new with m_shared := 65536, m_baseline := 24, m_owned := false }
      (exHeader 16 200 exSignature 0 0 1) = none := by
  decide

/-- C26 (amended): for every bound header (shared base set, baseline above 0),
`GetTopRef` selects the 8-byte value in slot A (bytes 0..7) when the low bit of
header byte 23 is 0 and the one in slot B (bytes 8..15) when that bit is 1, and
returns it when it is below baseline; otherwise its assertion fires.  The other
bits of byte 23 and the bytes outside the selected slot do not influence the
outcome. -/
theorem GetTopRef_selects (a : SlabAlloc) (shared : Mem) (hs : a.m_shared ≠ 0)
    (hb : 0 < a.m_baseline) :
    GetTopRef a shared =
      (if ((read_u64 shared (if byteAt shared 23 % 2 = 0 then 0 else 8) : Nat) : Int) <
          a.m_baseline
        then some (read_u64 shared (if byteAt shared 23 % 2 = 0 then 0 else 8)) else none) ∧
    ∀ shared2 : Mem, byteAt shared2 23 % 2 = byteAt shared 23 % 2 →
      (∀ i, i < 8 → byteAt shared2 ((if byteAt shared 23 % 2 = 0 then 0 else 8) + i) =
        byteAt shared ((if byteAt shared 23 % 2 = 0 then 0 else 8) + i)) →
      GetTopRef a shared2 = GetTopRef a shared := by
  have hsel : ∀ m : Mem, 8 * (byteAt m 23 &&& 1) = if byteAt m 23 % 2 = 0 then 0 else 8 := by
    intro m
    have hbit : byteAt m 23 &&& 1 = byteAt m 23 % 2 :=
      Nat.and_pow_two_sub_one_eq_mod (byteAt m 23) 1
    rw [hbit]
    have hlt : byteAt m 23 % 2 < 2 := Nat.mod_lt _ (by omega)
    by_cases h0 : byteAt m 23 % 2 = 0
    · simp [h0]
    · have h1 : byteAt m 23 % 2 = 1 := by omega
      simp [h1]
  have heq : ∀ m : Mem, GetTopRef a m =
      (if ((read_u64 m (if byteAt m 23 % 2 = 0 then 0 else 8) : Nat) : Int) < a.m_baseline
        then some (read_u64 m (if byteAt m 23 % 2 = 0 then 0 else 8)) else none) := by
    intro m
    unfold GetTopRef
    simp only [hsel, hs, hb, ne_eq, not_false_eq_true, and_self, not_true_eq_false, if_false]
    by_cases hlt : ((read_u64 m (if byteAt m 23 % 2 = 0 then 0 else 8) : Nat) : Int) <
        a.m_baseline
    · simp [hlt]
    · simp [hlt]
  refine ⟨heq shared, ?_⟩
  intro shared2 hbit hbytes
  rw [heq shared2, heq shared, hbit]
  rw [read_u64_congr shared shared2 _ hbytes]

/-- C26 (witness): bound with baseline 24, a header with slot A = 16, slot B = 8
gives 16 when byte 23 is 0 or 2 and 8 when byte 23 is 1 or 3, whatever the other
slot holds. -/
theorem GetTopRef_selects_witness :
    GetTopRef { SlabAlloc.new with m_shared := 65536, m_baseline := 24 }
      (exHeader 16 8 exSignature 0 0 0) = some 16 ∧
    GetTopRef { SlabAlloc.new with m_shared := 65536, m_baseline := 24 }
      (exHeader 16 8 exSignature 0 0 1) = some 8 ∧
    GetTopRef { SlabAlloc.new with m_shared := 65536, m_baseline := 24 }
        (exHeader 16 200 exSignature 0 0 2) =
      GetTopRef { SlabAlloc.new with m_shared := 65536, m_baseline := 24 }
        (exHeader 16 8 exSignature 0 0 0) :=
  ⟨((GetTopRef_selects { SlabAlloc.new with m_shared := 65536, m_baseline := 24 }
      (exHeader 16 8 exSignature 0 0 0) (by decide) (by decide)).1).trans (by decide),
   ((GetTopRef_selects { SlabAlloc.new with m_shared := 65536, m_baseline := 24 }
      (exHeader 16 8 exSignature 0 0 1) (by decide) (by decide)).1).trans (by decide),
   (GetTopRef_selects { SlabAlloc.new with m_shared := 65536, m_baseline := 24 }
      (exHeader 16 8 exSignature 0 0 0) (by decide) (by decide)).2
      (exHeader 16 200 exSignature 0 0 2) (by decide) (by decide)⟩

/-! ## C27: logical block size -/

/-- C27: for every block header whose width type is 0, 1 or 2,
`GetSizeFromHeader` returns `8 + round_up(payload, 8)`, where the width is 0 for
selector 0 and `2^(selector - 1)` otherwise, the count is the 24-bit big-endian
value of bytes 1..3, and the payload is `ceil(count * width / 8)` for width type
0, `count * width` for width type 1 and `count` for width type 2.  The result is
a multiple of 8 and at least 8. -/
theorem GetSizeFromHeader_logical (p : Mem) (hwt : headerWidthType p ≤ 2) :
    GetSizeFromHeader p = some (8 + round_up (headerPayload p) 8) ∧
    (8 + round_up (headerPayload p) 8) % 8 = 0 ∧ 8 ≤ 8 + round_up (headerPayload p) 8 := by
  have hb : byteAt p 0 < 256 := Nat.mod_lt _ (by omega)
  obtain ⟨hw, ht⟩ := header_byte_fields (byteAt p 0) hb
  have hc := header_count_eq p
  have hround : ∀ n, round_up n 8 % 8 = 0 := by
    intro n
    unfold round_up
    omega
  refine ⟨?_, by have := hround (headerPayload p); omega, by omega⟩
  unfold GetSizeFromHeader
  simp only [hw, ht, hc]
  unfold headerWidthType at hwt
  have hwidth : (if byteAt p 0 % 8 = 0 then 0 else 2 ^ (byteAt p 0 % 8 - 1)) = headerWidth p :=
    rfl
  rw [hwidth]
  by_cases h0 : byteAt p 0 / 8 % 4 = 0
  · have hpay : headerPayload p = (headerCount p * headerWidth p + 7) / 8 := by
      simp [headerPayload, headerWidthType, h0]
    have hand : headerCount p * headerWidth p &&& 0x7 = headerCount p * headerWidth p % 8 :=
      Nat.and_pow_two_sub_one_eq_mod _ 3
    simp only [h0, if_true, hand, Option.map_some', pad_eq_round_up, Option.some.injEq, hpay]
    have hceil : (if headerCount p * headerWidth p % 8 ≠ 0 then
        headerCount p * headerWidth p / 8 + 1 else headerCount p * headerWidth p / 8) =
        (headerCount p * headerWidth p + 7) / 8 := by
      split <;> omega
    rw [hceil]
    omega
  · by_cases h1 : byteAt p 0 / 8 % 4 = 1
    · have hpay : headerPayload p = headerCount p * headerWidth p := by
        simp [headerPayload, headerWidthType, h1]
      have hne0 : ¬ ((1 : Nat) = 0) := by decide
      simp only [h1, hne0, if_true, if_false, Option.map_some', pad_eq_round_up,
        Option.some.injEq, hpay]
      omega
    · have h2 : byteAt p 0 / 8 % 4 = 2 := by omega
      have hpay : headerPayload p = headerCount p := by
        simp [headerPayload, headerWidthType, h2]
      have hne0 : ¬ ((2 : Nat) = 0) := by decide
      have hne1 : ¬ ((2 : Nat) = 1) := by decide
      simp only [h2, hne0, hne1, if_false, if_true, Option.map_some', pad_eq_round_up,
        Option.some.injEq, hpay]
      omega

/-- C27 (witness): a header with selector 4 (width 8), width type 0 and count 9
holds 72 bits, 9 bytes, padded to 16: the logical size is 24. -/
theorem GetSizeFromHeader_logical_witness :
    GetSizeFromHeader (fun i => if i = 0 then 4 else if i = 3 then 9 else 0) = some 24 ∧
    (8 + round_up (headerPayload (fun i => if i = 0 then 4 else if i = 3 then 9 else 0)) 8) % 8
      = 0 ∧
    8 ≤ 8 + round_up (headerPayload (fun i => if i = 0 then 4 else if i = 3 then 9 else 0)) 8 :=
  ⟨((GetSizeFromHeader_logical (fun i => if i = 0 then 4 else if i = 3 then 9 else 0)
      (by decide)).1).trans (by decide),
   (GetSizeFromHeader_logical (fun i => if i = 0 then 4 else if i = 3 then 9 else 0)
      (by decide)).2⟩

/-! ## C28: ledger selection on free -/

/-- C28: `IsReadOnly(ref)` is true exactly when `ref < baseline`.  `Free(ref, p)`
with `ref < baseline` takes the size from `GetSizeFromHeader` (and aborts with
it on width type 3) and replaces only the read-only ledger, by the outcome of the
merge on it; with `ref >= baseline` it takes the capacity stored in header bytes
4..6, always returns, and replaces only the mutable ledger.  In both cases the
other ledger, the slab table and baseline are unchanged. -/
theorem Free_selects_ledger (a : SlabAlloc) (ref : Int) (p : Mem) :
    (IsReadOnly a ref = true ↔ ref < a.m_baseline) ∧
    (ref < a.m_baseline →
      Free a ref p = (GetSizeFromHeader p).map fun size =>
        { a with
          m_freeReadOnly := Free.merge (offsets a.m_slabs) a.m_freeReadOnly ref size }) ∧
    (a.m_baseline ≤ ref →
      GetCapacityFromHeader p = byteAt p 4 * 65536 + byteAt p 5 * 256 + byteAt p 6 ∧
      Free a ref p =
        some { a with
          m_freeSpace :=
            Free.merge (offsets a.m_slabs) a.m_freeSpace ref (GetCapacityFromHeader p) }) ∧
    (∀ a1, Free a ref p = some a1 →
      a1.m_slabs = a.m_slabs ∧ a1.m_baseline = a.m_baseline ∧
      (ref < a.m_baseline → a1.m_freeSpace = a.m_freeSpace) ∧
      (a.m_baseline ≤ ref → a1.m_freeReadOnly = a.m_freeReadOnly)) := by
  have hro : ref < a.m_baseline →
      Free a ref p = (GetSizeFromHeader p).map fun size =>
        { a with
          m_freeReadOnly := Free.merge (offsets a.m_slabs) a.m_freeReadOnly ref size } := by
    intro h
    have h1 : IsReadOnly a ref = true := by simp [IsReadOnly, h]
    simp [Free, Free.size, Free.store, Free.selected, h1]
  refine ⟨by simp [IsReadOnly], hro, ?_, ?_⟩
  · intro h
    refine ⟨?_, Free_mutable a ref p h⟩
    simp only [GetCapacityFromHeader, Nat.shiftLeft_eq]
  · intro a1 h1
    by_cases h : ref < a.m_baseline
    · rw [hro h] at h1
      simp only [Option.map_eq_some'] at h1
      obtain ⟨size, _, ha⟩ := h1
      subst ha
      exact ⟨rfl, rfl, fun _ => rfl, fun h2 => by omega⟩
    · rw [Free_mutable a ref p (by omega)] at h1
      have ha := Option.some.inj h1
      subst ha
      exact ⟨rfl, rfl, fun h2 => absurd h2 h, fun _ => rfl⟩

/-- C28 (witness): with one slab after baseline 8, freeing ref 0 with a header of
logical size 24 appends `(0, 24)` to the read-only ledger, and freeing ref 8 with
capacity 8 appends `(8, 8)` to the mutable ledger. -/
theorem Free_selects_ledger_witness :
    Free (exLedger []) 0 (fun i => if i = 0 then 4 else if i = 3 then 9 else 0) =
      some { exLedger [] with m_freeReadOnly := [⟨0, 24⟩] } ∧
    Free (exLedger []) 8 (capHeader 8) = some (exLedger [⟨8, 8⟩]) ∧
    (({ exLedger [] with m_freeReadOnly := [⟨0, 24⟩] } : SlabAlloc).m_slabs =
        (exLedger []).m_slabs ∧
      ({ exLedger [] with m_freeReadOnly := [⟨0, 24⟩] } : SlabAlloc).m_baseline =
        (exLedger []).m_baseline ∧
      ({ exLedger [] with m_freeReadOnly := [⟨0, 24⟩] } : SlabAlloc).m_freeSpace =
        (exLedger []).m_freeSpace) :=
  ⟨((Free_selects_ledger (exLedger []) 0
      (fun i => if i = 0 then 4 else if i = 3 then 9 else 0)).2.1 (by decide)).trans (by decide),
   ((Free_selects_ledger (exLedger []) 8 (capHeader 8)).2.2.1 (by decide)).2.trans (by decide),
   ((Free_selects_ledger (exLedger []) 0
      (fun i => if i = 0 then 4 else if i = 3 then 9 else 0)).2.2.2 _ (by decide)).1,
   ((Free_selects_ledger (exLedger []) 0
      (fun i => if i = 0 then 4 else if i = 3 then 9 else 0)).2.2.2 _ (by decide)).2.1,
   ((Free_selects_ledger (exLedger []) 0
      (fun i => if i = 0 then 4 else if i = 3 then 9 else 0)).2.2.2 _ (by decide)).2.2.1
      (by decide)⟩

/-! ## C29: slab-boundary invariant -/

/-- C29 fails on the code in two ways.  After `Alloc(8)` and `Alloc(248)` on a
fresh allocator and `SetSharedBuffer` with length 1000, the only slab ends at
264, below baseline 1000; `Alloc(8)` and `Alloc(520)` then open and fill a second
slab, ending at 792.  The mutable ledger is empty, so the predicate of `Verify`
holds; `FreeAll` rebuilds the rows `(1000, -736)` and `(264, 528)` from the slab
table and returns, and the ref 1000 of the first row lies in no slab: `Verify`
no longer holds.  From a fresh allocator, `Alloc(8)` leaves a state on which
`Verify` holds, and a following `Alloc(2147483648)` passes the first-fit test
through the 32-bit cast and leaves the row `(2147483664, -2147483400)`, which no
slab covers. -/
theorem Verify_invariant_counterexample :
    ((Alloc SlabAlloc.new exMalloc 8).bind (fun r1 =>
        (Alloc r1.2 exMalloc 248).map (fun r2 =>
          SetSharedBuffer r2.2 65536 (exHeader 16 0 exSignature 0 0 0) 1000 false)) =
        some (true, exRebound) ∧
      (Alloc exRebound exMalloc 8).bind (fun r1 =>
        (Alloc r1.2 exMalloc 520).bind (fun r2 =>
          (FreeAll r2.2 exMmap no_remap).map (fun a3 =>
            (r2.2.m_freeSpace, Verify r2.2, a3.m_freeSpace, offsets a3.m_slabs, Verify a3)))) =
        some ([], true, [⟨1000, -736⟩, ⟨264, 528⟩], [264, 792], false)) ∧
    (Alloc SlabAlloc.new exMalloc 8).bind (fun r =>
      (Alloc r.2 exMalloc 2147483648).map (fun r1 =>
        (Verify r.2, r1.2.m_freeSpace, offsets r1.2.m_slabs, Verify r1.2))) =
      some (true, [⟨2147483664, -2147483400⟩], [264], false) :=
  ⟨⟨by decide, by decide⟩, by decide⟩

/-- C29 (amended): among the states whose values are in range (baseline, slab
ends, refs and sizes at least 0 and below 2^61, so that no `size_t` sum of
`Verify` wraps), the predicate of `Verify` together with slab end offsets that
increase strictly from baseline holds for a fresh allocator and is preserved by
`Alloc` of a request below 2^31, by `Free` of a block that itself lies inside one
slab, by a `FreeAll` that returns and by the `ReMap` that `FreeAll` invokes. -/
theorem Verify_invariant :
    (InRange SlabAlloc.new ∧ Verify SlabAlloc.new = true ∧ Ascending SlabAlloc.new) ∧
    (∀ (a a1 : SlabAlloc) (malloc : Int → Int) (size : Nat) (r : MemRef),
      InRange a → InRange a1 → Ascending a → Verify a = true → size < 2 ^ 31 →
      Alloc a malloc size = some (r, a1) → Verify a1 = true ∧ Ascending a1) ∧
    (∀ (a a1 : SlabAlloc) (ref : Int) (p : Mem),
      InRange a → InRange a1 → Ascending a → Verify a = true →
      inSlab (offsets a.m_slabs) ref (GetCapacityFromHeader p) →
      Free a ref p = some a1 → Verify a1 = true ∧ Ascending a1) ∧
    (∀ (a a1 : SlabAlloc) (mmap : Int → Int) (filesize : Nat),
      InRange a → InRange a1 → Ascending a → FreeAll a mmap filesize = some a1 →
      Verify a1 = true ∧ Ascending a1) ∧
    (∀ (a a1 : SlabAlloc) (mmap : Int → Int) (filesize : Nat) (b : Bool),
      InRange a → InRange a1 → Ascending a →
      ReMap (FreeAll.rebuild a) mmap filesize = some (b, a1) →
      Verify a1 = true ∧ Ascending a1) := by
  refine ⟨⟨⟨by decide, by decide, by decide⟩, by decide, by unfold Ascending; decide⟩,
    ?_, ?_, ?_, ?_⟩
  · intro a a1 malloc size r hr hr1 hs hv h31 h
    have := Alloc_fits a a1 malloc size r hs ((Verify_iff a hr).1 hv) h31 h
    exact ⟨(Verify_iff a1 hr1).2 this.1, this.2⟩
  · intro a a1 ref p hr hr1 hs hv hb h
    have := Free_fits a a1 ref p hs ((Verify_iff a hr).1 hv) hb h
    exact ⟨(Verify_iff a1 hr1).2 this.1, this.2⟩
  · intro a a1 mmap filesize _ hr1 hs h
    have := FreeAll_fits a a1 mmap filesize hs h
    exact ⟨(Verify_iff a1 hr1).2 this.1, this.2⟩
  · intro a a1 mmap filesize b _ hr1 hs h
    have := ReMap_fits a a1 mmap filesize b hs h
    exact ⟨(Verify_iff a1 hr1).2 this.1, this.2⟩

/-- C29 (witness): on one 256-byte slab after baseline 8 with the free row
`(16, 248)`, `Alloc(8)` leaves the row `(24, 240)`, `Free` of the 8-byte block at
8 leaves the row `(8, 256)`, and `FreeAll(1000)` with its `ReMap(1000)` leaves the
row `(1000, 256)` in the slab ending at 1256; all values are in range, `Verify`
holds and the slab ends increase in each of these states. -/
theorem Verify_invariant_witness :
    (InRange (exLedger [⟨16, 248⟩]) ∧ Ascending (exLedger [⟨16, 248⟩]) ∧
      Verify (exLedger [⟨16, 248⟩]) = true) ∧
    (Alloc (exLedger [⟨16, 248⟩]) exMalloc 8 =
        some (⟨exMalloc 256 + 8, 16⟩, exLedger [⟨24, 240⟩]) ∧
      InRange (exLedger [⟨24, 240⟩]) ∧
      Verify (exLedger [⟨24, 240⟩]) = true ∧ Ascending (exLedger [⟨24, 240⟩])) ∧
    (inSlab (offsets (exLedger [⟨16, 248⟩]).m_slabs) 8 (GetCapacityFromHeader (capHeader 8)) ∧
      Free (exLedger [⟨16, 248⟩]) 8 (capHeader 8) = some (exLedger [⟨8, 256⟩]) ∧
      InRange (exLedger [⟨8, 256⟩]) ∧
      Verify (exLedger [⟨8, 256⟩]) = true ∧ Ascending (exLedger [⟨8, 256⟩])) ∧
    (∃ a1, FreeAll (exLedger [⟨16, 248⟩]) exMmap 1000 = some a1 ∧
      a1.m_freeSpace = [⟨1000, 256⟩] ∧ InRange a1 ∧ Verify a1 = true ∧ Ascending a1) ∧
    (∃ a1, ReMap (FreeAll.rebuild (exLedger [⟨16, 248⟩])) exMmap 1000 = some (true, a1) ∧
      a1.m_freeSpace = [⟨1000, 256⟩] ∧ InRange a1 ∧ Verify a1 = true ∧ Ascending a1) :=
  have hr : InRange (exLedger [⟨16, 248⟩]) := ⟨by decide, by decide, by decide⟩
  have hr1 : InRange (exLedger [⟨24, 240⟩]) := ⟨by decide, by decide, by decide⟩
  have hr2 : InRange (exLedger [⟨8, 256⟩]) := ⟨by decide, by decide, by decide⟩
  have hr3 : InRange { exLedger [⟨1000, 256⟩] with
      m_shared := exMmap 1000, m_baseline := 1000, m_slabs := [⟨1256, exMalloc 256⟩] } :=
    ⟨by decide, by decide, by decide⟩
  have hs : Ascending (exLedger [⟨16, 248⟩]) := by unfold Ascending; decide
  have hv : Verify (exLedger [⟨16, 248⟩]) = true := by decide
  have hA : Alloc (exLedger [⟨16, 248⟩]) exMalloc 8 =
      some (⟨exMalloc 256 + 8, 16⟩, exLedger [⟨24, 240⟩]) := by decide
  have hb : inSlab (offsets (exLedger [⟨16, 248⟩]).m_slabs) 8
      (GetCapacityFromHeader (capHeader 8)) := ⟨0, 264, by decide, by decide, by decide⟩
  have hF : Free (exLedger [⟨16, 248⟩]) 8 (capHeader 8) = some (exLedger [⟨8, 256⟩]) := by
    decide
  have hFA : FreeAll (exLedger [⟨16, 248⟩]) exMmap 1000 =
      some { exLedger [⟨1000, 256⟩] with
        m_shared := exMmap 1000, m_baseline := 1000, m_slabs := [⟨1256, exMalloc 256⟩] } := by
    decide
  have hR : ReMap (FreeAll.rebuild (exLedger [⟨16, 248⟩])) exMmap 1000 =
      some (true, { exLedger [⟨1000, 256⟩] with
        m_shared := exMmap 1000, m_baseline := 1000, m_slabs := [⟨1256, exMalloc 256⟩] }) := by
    decide
  ⟨⟨hr, hs, hv⟩,
   ⟨hA, hr1, Verify_invariant.2.1 _ _ exMalloc 8 _ hr hr1 hs hv (by decide) hA⟩,
   ⟨hb, hF, hr2, Verify_invariant.2.2.1 _ _ 8 (capHeader 8) hr hr2 hs hv hb hF⟩,
   ⟨_, hFA, rfl, hr3, Verify_invariant.2.2.2.1 _ _ exMmap 1000 hr hr3 hs hFA⟩,
   ⟨_, hR, rfl, hr3, Verify_invariant.2.2.2.2 _ _ exMmap 1000 true hr hr3 hs hR⟩⟩

/-! ## C30: alignment invariant -/

/-- C30: if baseline, every slab end offset and every ref and size in both
ledgers are multiples of 8, then they still are after `Alloc(size)` with `size` a
multiple of 8, after `Free` of a block whose ref and header-derived size are
multiples of 8, after `FreeAll(filesize)` and after `ReMap(filesize)` with
`filesize` a multiple of 8; and every ref `Alloc` returns in such a state is a
multiple of 8. -/
theorem Aligned_invariant :
    (∀ (a a1 : SlabAlloc) (malloc : Int → Int) (size : Nat) (r : MemRef),
      Aligned a → size % 8 = 0 → Alloc a malloc size = some (r, a1) → Aligned a1) ∧
    (∀ (a a1 : SlabAlloc) (ref : Int) (p : Mem) (s : Nat),
      Aligned a → ref % 8 = 0 → Free.size a ref p = some s → s % 8 = 0 →
      Free a ref p = some a1 → Aligned a1) ∧
    (∀ (a a1 : SlabAlloc) (mmap : Int → Int) (filesize : Nat),
      Aligned a → FreeAll a mmap filesize = some a1 → Aligned a1) ∧
    (∀ (a a1 : SlabAlloc) (mmap : Int → Int) (filesize : Nat) (b : Bool),
      Aligned a → filesize % 8 = 0 → ReMap a mmap filesize = some (b, a1) → Aligned a1) ∧
    (∀ (a a1 : SlabAlloc) (malloc : Int → Int) (size : Nat) (r : MemRef),
      Aligned a → Alloc a malloc size = some (r, a1) → r.ref % 8 = 0) :=
  ⟨fun a a1 malloc size r ha _ h => (Alloc_keeps_aligned a a1 malloc size r ha h).1,
   fun a a1 ref p s ha hr hsz hs h => Free_keeps_aligned a a1 ref p s ha hr hsz hs h,
   fun a a1 mmap filesize ha h => FreeAll_keeps_aligned a a1 mmap filesize ha h,
   fun a a1 mmap filesize b ha _ h => ReMap_keeps_aligned a a1 mmap filesize b ha h,
   fun a a1 malloc size r ha h => (Alloc_keeps_aligned a a1 malloc size r ha h).2⟩

/-- C30 (witness): one 256-byte slab after baseline 8 with the free row
`(16, 248)` is aligned; `Alloc(8)` returns ref 16 and leaves the row `(24, 240)`,
`Free` of the 8-byte block at 8 leaves the row `(8, 256)`, `FreeAll(1000)` leaves
baseline 1000 with the row `(1000, 256)`, and `ReMap(1000)` on the fully free slab
does the same; each of these states is aligned. -/
theorem Aligned_invariant_witness :
    Aligned (exLedger [⟨16, 248⟩]) ∧
    (Alloc (exLedger [⟨16, 248⟩]) exMalloc 8 =
        some (⟨exMalloc 256 + 8, 16⟩, exLedger [⟨24, 240⟩]) ∧
      Aligned (exLedger [⟨24, 240⟩]) ∧ (16 : Int) % 8 = 0) ∧
    (Free.size (exLedger [⟨16, 248⟩]) 8 (capHeader 8) = some 8 ∧
      Free (exLedger [⟨16, 248⟩]) 8 (capHeader 8) = some (exLedger [⟨8, 256⟩]) ∧
      Aligned (exLedger [⟨8, 256⟩])) ∧
    (∃ a1, FreeAll (exLedger [⟨16, 248⟩]) exMmap 1000 = some a1 ∧
      a1.m_baseline = 1000 ∧ a1.m_freeSpace = [⟨1000, 256⟩] ∧ Aligned a1) ∧
    (∃ a1, ReMap (exLedger [⟨8, 256⟩]) exMmap 1000 = some (true, a1) ∧
      a1.m_baseline = 1000 ∧ a1.m_freeSpace = [⟨1000, 256⟩] ∧ Aligned a1) :=
  have ha : Aligned (exLedger [⟨16, 248⟩]) := ⟨by decide, by decide, by decide, by decide⟩
  have hf : Aligned (exLedger [⟨8, 256⟩]) := ⟨by decide, by decide, by decide, by decide⟩
  have hA : Alloc (exLedger [⟨16, 248⟩]) exMalloc 8 =
      some (⟨exMalloc 256 + 8, 16⟩, exLedger [⟨24, 240⟩]) := by decide
  have hsz : Free.size (exLedger [⟨16, 248⟩]) 8 (capHeader 8) = some 8 := by decide
  have hF : Free (exLedger [⟨16, 248⟩]) 8 (capHeader 8) = some (exLedger [⟨8, 256⟩]) := by
    decide
  have hFA : FreeAll (exLedger [⟨16, 248⟩]) exMmap 1000 =
      some { exLedger [⟨1000, 256⟩] with
        m_shared := exMmap 1000, m_baseline := 1000, m_slabs := [⟨1256, exMalloc 256⟩] } := by
    decide
  have hR : ReMap (exLedger [⟨8, 256⟩]) exMmap 1000 =
      some (true, { exLedger [⟨1000, 256⟩] with
        m_shared := exMmap 1000, m_baseline := 1000, m_slabs := [⟨1256, exMalloc 256⟩] }) := by
    decide
  ⟨ha,
   ⟨hA, Aligned_invariant.1 _ _ exMalloc 8 _ ha (by decide) hA,
     Aligned_invariant.2.2.2.2 _ _ exMalloc 8 _ ha hA⟩,
   ⟨hsz, hF, Aligned_invariant.2.1 _ _ 8 (capHeader 8) 8 ha (by decide) hsz (by decide) hF⟩,
   ⟨_, hFA, rfl, rfl, Aligned_invariant.2.2.1 _ _ exMmap 1000 ha hFA⟩,
   ⟨_, hR, rfl, rfl, Aligned_invariant.2.2.2.1 _ _ exMmap 1000 true hf (by decide) hR⟩⟩

/-! ## C31: ledger range invariant -/

/-- C31, as stated, fails on the code in four ways.  After `Alloc(8)` and
`Alloc(248)` on a fresh allocator and `SetSharedBuffer` with length 1000 the
ledgers are empty, so the predicate holds, and the only slab ends at 264, below
baseline 1000: `Alloc(8)` then returns ref 264, below baseline, and leaves the
mutable row `(272, 520)`.  After a further `Alloc(520)` the ledgers are empty
again, and `FreeAll` rebuilds the rows `(1000, -736)` and `(264, 528)`, the second
below baseline.  In the state that `Alloc(8)`, `Alloc(2^31)`, `Alloc(8)` leave on
a fresh allocator the predicate holds and the asserted preconditions of `ReMap`
are met, and `ReMap(16)` leaves the rows `(16, -2147483400)` and
`(-2147483384, 520)` with baseline 16: the first row has a negative size, left by
the 32-bit comparison of the second request.  After `Alloc(8)`, `Alloc(248)` and
`SetSharedBuffer` with length 256 the ledgers are empty and the only slab ends at
264, above baseline 256, so the predicate holds and the slab ends increase from
baseline; a request of 2^64 - 16 bytes then wraps `multible` to 0, opens a slab
of 528 bytes and registers the row `(248, 544)`, below baseline. -/
theorem Ranged_invariant_counterexample :
    ((Alloc SlabAlloc.new exMalloc 8).bind (fun r1 =>
        (Alloc r1.2 exMalloc 248).map (fun r2 =>
          SetSharedBuffer r2.2 65536 (exHeader 16 0 exSignature 0 0 0) 1000 false)) =
        some (true, exRebound) ∧
      Ranged exRebound ∧
      (Alloc exRebound exMalloc 8).map (fun r =>
          (r.1, r.2.m_baseline, r.2.m_freeSpace, decide (Ranged r.2))) =
        some (⟨exMalloc 528, 264⟩, 1000, [⟨272, 520⟩], false)) ∧
    (Alloc exRebound exMalloc 8).bind (fun r1 =>
        (Alloc r1.2 exMalloc 520).bind (fun r2 =>
          (FreeAll r2.2 exMmap no_remap).map (fun a3 =>
            (decide (Ranged r2.2), a3.m_baseline, a3.m_freeSpace, decide (Ranged a3))))) =
      some (true, 1000, [⟨1000, -736⟩, ⟨264, 528⟩], false) ∧
    (replay SlabAlloc.new [] exHugeHistory =
        Replayed.done exTruncated [(8, 8), (16, 2147483648), (264, 8)] ∧
      Ranged exTruncated ∧
      (ReMap exTruncated exMmap 16).map (fun r =>
          (r.2.m_baseline, r.2.m_freeSpace, decide (Ranged r.2))) =
        some (16, [⟨16, -2147483400⟩, ⟨-2147483384, 520⟩], false)) ∧
    ((Alloc SlabAlloc.new exMalloc 8).bind (fun r1 =>
        (Alloc r1.2 exMalloc 248).map (fun r2 =>
          SetSharedBuffer r2.2 65536 (exHeader 16 0 exSignature 0 0 0) 256 false)) =
        some (true, { exRebound with m_baseline := 256 }) ∧
      (Ranged { exRebound with m_baseline := 256 } ∧
        Ascending { exRebound with m_baseline := 256 }) ∧
      (Alloc64 { exRebound with m_baseline := 256 } exMalloc 18446744073709551600).map (fun r =>
          (r.1, r.2.m_baseline, r.2.m_freeSpace, decide (Ranged r.2))) =
        some (⟨exMalloc 528, 264⟩, 256, [⟨248, 544⟩], false)) :=
  ⟨by decide, by decide, by decide,
   by decide, ⟨by decide, by unfold Ascending; decide⟩, by decide⟩

/-- C31 (amended): the ledger range predicate together with slab end offsets that
increase strictly from baseline holds for a fresh allocator and is preserved by
`Alloc` of a request below 2^31, by `Free` and by a `FreeAll` that returns;
`ReMap`, when it returns, preserves the predicate in a state in which no row of
the mutable ledger has a negative size.  In such a state every ref that `Alloc`
returns with a non-null pointer for a request below 2^31 is at or above baseline,
and in every state the read-only ledger is no input of `Alloc`: the result and
the state left do not depend on it, and it is left as it was. -/
theorem Ranged_invariant :
    (Ranged SlabAlloc.new ∧ Ascending SlabAlloc.new) ∧
    (∀ (a a1 : SlabAlloc) (malloc : Int → Int) (size : Nat) (r : MemRef),
      Ranged a → Ascending a → size < 2 ^ 31 → Alloc a malloc size = some (r, a1) →
      (Ranged a1 ∧ Ascending a1) ∧ (r.pointer ≠ 0 → a.m_baseline ≤ r.ref)) ∧
    (∀ (a a1 : SlabAlloc) (ref : Int) (p : Mem),
      Ranged a → Ascending a → Free a ref p = some a1 → Ranged a1 ∧ Ascending a1) ∧
    (∀ (a a1 : SlabAlloc) (mmap : Int → Int) (filesize : Nat),
      Ascending a → FreeAll a mmap filesize = some a1 → Ranged a1 ∧ Ascending a1) ∧
    (∀ (a a1 : SlabAlloc) (mmap : Int → Int) (filesize : Nat) (b : Bool),
      Ranged a → (∀ e ∈ a.m_freeSpace, 0 ≤ e.size) →
      ReMap a mmap filesize = some (b, a1) → Ranged a1) ∧
    (∀ (a : SlabAlloc) (L : List FreeEntry) (malloc : Int → Int) (size : Nat),
      Alloc { a with m_freeReadOnly := L } malloc size =
        (Alloc a malloc size).map fun res => (res.1, { res.2 with m_freeReadOnly := L })) :=
  ⟨⟨Ranged.fresh_ok, by unfold Ascending; decide⟩,
   fun a a1 malloc size r hr hs _ h =>
     ⟨⟨(Alloc_ranged a a1 malloc size r hr (Ascending.base_le hs) h).1,
       Alloc_ascending a a1 malloc size r hs h⟩,
      (Alloc_ranged a a1 malloc size r hr (Ascending.base_le hs) h).2⟩,
   fun a a1 ref p hr hs h => ⟨Free_ranged a a1 ref p hr h, Free_ascending a a1 ref p hs h⟩,
   fun a a1 mmap filesize hs h =>
     ⟨FreeAll_ranged a a1 mmap filesize hs h, (FreeAll_fits a a1 mmap filesize hs h).2⟩,
   fun a a1 mmap filesize b hr hpos h => ReMap_ranged a a1 mmap filesize b hr hpos h,
   fun a L malloc size => Alloc_readOnly_independent a L malloc size⟩

/-- C31 (witness): on one 256-byte slab after baseline 8 with the free row
`(16, 248)`, `Alloc(8)` returns ref 16 and leaves the row `(24, 240)`, `Free` of
the 8-byte block at 8 leaves the row `(8, 256)`, `FreeAll(1000)` leaves baseline
1000 with the row `(1000, 256)`, and `ReMap(1000)` on the fully free slab does
the same; the predicate holds in each of these states. -/
theorem Ranged_invariant_witness :
    (Ranged (exLedger [⟨16, 248⟩]) ∧ Ascending (exLedger [⟨16, 248⟩])) ∧
    (Alloc (exLedger [⟨16, 248⟩]) exMalloc 8 =
        some (⟨exMalloc 256 + 8, 16⟩, exLedger [⟨24, 240⟩]) ∧
      (Ranged (exLedger [⟨24, 240⟩]) ∧ Ascending (exLedger [⟨24, 240⟩])) ∧
      (exLedger [⟨16, 248⟩]).m_baseline ≤ 16) ∧
    (Free (exLedger [⟨16, 248⟩]) 8 (capHeader 8) = some (exLedger [⟨8, 256⟩]) ∧
      Ranged (exLedger [⟨8, 256⟩]) ∧ Ascending (exLedger [⟨8, 256⟩])) ∧
    (∃ a1, FreeAll (exLedger [⟨16, 248⟩]) exMmap 1000 = some a1 ∧
      a1.m_baseline = 1000 ∧ a1.m_freeSpace = [⟨1000, 256⟩] ∧ Ranged a1 ∧ Ascending a1) ∧
    (∃ a1, ReMap (exLedger [⟨8, 256⟩]) exMmap 1000 = some (true, a1) ∧
      a1.m_baseline = 1000 ∧ a1.m_freeSpace = [⟨1000, 256⟩] ∧ Ranged a1) :=
  have hr : Ranged (exLedger [⟨16, 248⟩]) := by decide
  have hs : Ascending (exLedger [⟨16, 248⟩]) := by unfold Ascending; decide
  have hA : Alloc (exLedger [⟨16, 248⟩]) exMalloc 8 =
      some (⟨exMalloc 256 + 8, 16⟩, exLedger [⟨24, 240⟩]) := by decide
  have hF : Free (exLedger [⟨16, 248⟩]) 8 (capHeader 8) = some (exLedger [⟨8, 256⟩]) := by
    decide
  have hFA : FreeAll (exLedger [⟨16, 248⟩]) exMmap 1000 =
      some { exLedger [⟨1000, 256⟩] with
        m_shared := exMmap 1000, m_baseline := 1000, m_slabs := [⟨1256, exMalloc 256⟩] } := by
    decide
  have hR : ReMap (exLedger [⟨8, 256⟩]) exMmap 1000 =
      some (true, { exLedger [⟨1000, 256⟩] with
        m_shared := exMmap 1000, m_baseline := 1000, m_slabs := [⟨1256, exMalloc 256⟩] }) := by
    decide
  ⟨⟨hr, hs⟩,
   ⟨hA, (Ranged_invariant.2.1 _ _ exMalloc 8 _ hr hs (by decide) hA).1,
     (Ranged_invariant.2.1 _ _ exMalloc 8 _ hr hs (by decide) hA).2 (by decide)⟩,
   ⟨hF, Ranged_invariant.2.2.1 _ _ 8 (capHeader 8) hr hs hF⟩,
   ⟨_, hFA, rfl, rfl, Ranged_invariant.2.2.2.1 _ _ exMmap 1000 hs hFA⟩,
   ⟨_, hR, rfl, rfl,
     Ranged_invariant.2.2.2.2.1 _ _ exMmap 1000 true (by decide) (by decide) hR⟩⟩

/-! ## C32: slabs are append-only -/

/-- C32, as stated, fails on the code in its last part.  A fresh allocator is
bound by `SetShared` to a file of 24 bytes; two blocks of 256 bytes fill a first
slab, an empty block opens a second slab at 536 and is freed, which leaves the
rows `(536, 1072)` and `(536, 0)` for the two slabs.  `RefreshMapping`, finding
that the file has grown to 1000 bytes, calls `ReMap(1000)`, whose loop recomputes
the slab end offsets from the row sizes: both slabs end at 2072 afterwards. -/
theorem slabs_append_only_counterexample :
    SetShared SlabAlloc.new (exHost 24 (exHeader 0 0 exSignature 0 0 0))
        (exHeader 0 0 exSignature 0 0 0) 24 true =
      { ok := true, alloc := exBound, m_fd := 3, closed := false, initialised := false,
        mapped := true } ∧
    replay exBound [] exZeroRowHistory = Replayed.done exZeroRow [(24, 256), (280, 256)] ∧
    (RefreshMapping exZeroRow true (some 1000) exMmap true).map (fun res =>
        (res.1, res.2.m_baseline, offsets res.2.m_slabs, res.2.m_freeSpace)) =
      some (true, 1000, [2072, 2072], [⟨1000, 1072⟩, ⟨2072, 0⟩]) ∧
    (ReMap exZeroRow exMmap 1000).map (fun res => offsets res.2.m_slabs) =
      some [2072, 2072] := by
  decide

/-- C32 (amended): for every state, `Free` and the free step of `ReAlloc` never
change the slab table; `Alloc` either leaves it unchanged or appends exactly one
entry after the existing ones without modifying them; `FreeAll` and `ReMap` keep
the number of slabs, their order and their base pointers.  Slab end offsets are
strictly increasing in every state reachable from a fresh allocator by `Alloc`,
`Free`, `ReAlloc`, `FreeAll`, `SetSharedBuffer` and `SetShared`; and `ReMap`
keeps them strictly increasing when every row of the mutable ledger has a
positive size. -/
theorem slabs_append_only :
    (∀ (a a1 : SlabAlloc) (ref : Int) (p : Mem), Free a ref p = some a1 →
      a1.m_slabs = a.m_slabs) ∧
    (∀ (a a2 : SlabAlloc) (malloc : Int → Int) (ref : Int) (addr : Int) (p : Mem) (size : Nat)
        (r : MemRef),
      ReAlloc a malloc ref addr p size = some (r, a2) →
      ∃ a1, Alloc a malloc size = some (r, a1) ∧ a2.m_slabs = a1.m_slabs) ∧
    (∀ (a a1 : SlabAlloc) (malloc : Int → Int) (size : Nat) (r : MemRef),
      Alloc a malloc size = some (r, a1) →
      a1.m_slabs = a.m_slabs ∨ ∃ s, a1.m_slabs = a.m_slabs ++ [s]) ∧
    (∀ (a a1 : SlabAlloc) (mmap : Int → Int) (filesize : Nat),
      FreeAll a mmap filesize = some a1 →
      a1.m_slabs.length = a.m_slabs.length ∧
        a1.m_slabs.map Slab.pointer = a.m_slabs.map Slab.pointer) ∧
    (∀ (a a1 : SlabAlloc) (mmap : Int → Int) (filesize : Nat) (b : Bool),
      ReMap a mmap filesize = some (b, a1) →
      a1.m_slabs.length = a.m_slabs.length ∧
        a1.m_slabs.map Slab.pointer = a.m_slabs.map Slab.pointer) ∧
    (∀ a : SlabAlloc, Reachable a → (offsets a.m_slabs).Pairwise (· < ·)) ∧
    (∀ (a a1 : SlabAlloc) (mmap : Int → Int) (filesize : Nat) (b : Bool),
      (offsets a.m_slabs).Pairwise (· < ·) → (∀ e ∈ a.m_freeSpace, 0 < e.size) →
      ReMap a mmap filesize = some (b, a1) → (offsets a1.m_slabs).Pairwise (· < ·)) := by
  refine ⟨?_, ?_, ?_, ?_, ?_, ?_, ?_⟩
  · intro a a1 ref p h
    exact (Free_frame a a1 ref p h).1
  · intro a a2 malloc ref addr p size r h
    obtain ⟨a1, hA, h2⟩ := ReAlloc_steps a a2 malloc ref addr p size r h
    refine ⟨a1, hA, ?_⟩
    rcases h2 with h2 | ⟨q, h2⟩
    · rw [h2]
    · exact (Free_frame a1 a2 ref q h2).1
  · intro a a1 malloc size r h
    exact Alloc_slabs a a1 malloc size r h
  · intro a a1 mmap filesize h
    exact FreeAll_pointers a a1 mmap filesize h
  · intro a a1 mmap filesize b h
    exact ReMap_pointers a a1 mmap filesize b h
  · intro a h
    exact Reachable.sorted h
  · intro a a1 mmap filesize b hs hpos h
    exact ReMap_sorted a a1 mmap filesize b hs hpos h

/-- C32 (witness): on one 256-byte slab after baseline 8 with the free row
`(16, 248)`, `Free` of the block at 8 and `ReAlloc` of it to 8 bytes leave the
slab table as it is; `Alloc(8)` on a fresh allocator appends the first slab, and
the state it leaves is reachable, with the single end offset 264; `FreeAll(1000)`
and `ReMap(1000)` move the slab's end offset to 1256 and keep its base
pointer. -/
theorem slabs_append_only_witness :
    (exLedger [⟨8, 256⟩]).m_slabs = (exLedger [⟨16, 248⟩]).m_slabs ∧
    (∃ a1, Alloc (exLedger [⟨16, 248⟩]) exMalloc 8 =
        some (⟨exMalloc 256 + 8, 16⟩, a1) ∧
      (exLedger [⟨24, 240⟩, ⟨8, 8⟩]).m_slabs = a1.m_slabs) ∧
    (({ SlabAlloc.new with
        m_slabs := [⟨264, exMalloc 256⟩], m_freeSpace := [⟨16, 248⟩] } : SlabAlloc).m_slabs =
        SlabAlloc.new.m_slabs ∨
      ∃ s, ({ SlabAlloc.new with
          m_slabs := [⟨264, exMalloc 256⟩], m_freeSpace := [⟨16, 248⟩] } : SlabAlloc).m_slabs =
          SlabAlloc.new.m_slabs ++ [s]) ∧
    (offsets (exLedger [⟨16, 248⟩]).m_slabs).Pairwise (· < ·) ∧
    (∃ a1, FreeAll (exLedger [⟨16, 248⟩]) exMmap 1000 = some a1 ∧
      a1.m_slabs = [⟨1256, exMalloc 256⟩] ∧
      a1.m_slabs.length = (exLedger [⟨16, 248⟩]).m_slabs.length ∧
      a1.m_slabs.map Slab.pointer = (exLedger [⟨16, 248⟩]).m_slabs.map Slab.pointer) ∧
    (∃ a1, ReMap (exLedger [⟨8, 256⟩]) exMmap 1000 = some (true, a1) ∧
      a1.m_slabs = [⟨1256, exMalloc 256⟩] ∧
      (a1.m_slabs.length = (exLedger [⟨8, 256⟩]).m_slabs.length ∧
        a1.m_slabs.map Slab.pointer = (exLedger [⟨8, 256⟩]).m_slabs.map Slab.pointer) ∧
      (offsets a1.m_slabs).Pairwise (· < ·)) :=
  have hF : Free (exLedger [⟨16, 248⟩]) 8 (capHeader 8) = some (exLedger [⟨8, 256⟩]) := by
    decide
  have hRA : ReAlloc (exLedger [⟨16, 248⟩]) exMalloc 8 (exMalloc 256) (capHeader 8) 8 =
      some (⟨exMalloc 256 + 8, 16⟩, exLedger [⟨24, 240⟩, ⟨8, 8⟩]) := by decide
  have hA : Alloc SlabAlloc.new exMalloc 8 =
      some (⟨exMalloc 256, 8⟩,
        { SlabAlloc.new with m_slabs := [⟨264, exMalloc 256⟩], m_freeSpace := [⟨16, 248⟩] }) := by
    decide
  have hFA : FreeAll (exLedger [⟨16, 248⟩]) exMmap 1000 =
      some { exLedger [⟨1000, 256⟩] with
        m_shared := exMmap 1000, m_baseline := 1000, m_slabs := [⟨1256, exMalloc 256⟩] } := by
    decide
  have hR : ReMap (exLedger [⟨8, 256⟩]) exMmap 1000 =
      some (true, { exLedger [⟨1000, 256⟩] with
        m_shared := exMmap 1000, m_baseline := 1000, m_slabs := [⟨1256, exMalloc 256⟩] }) := by
    decide
  ⟨slabs_append_only.1 _ _ 8 (capHeader 8) hF,
   slabs_append_only.2.1 _ _ exMalloc 8 (exMalloc 256) (capHeader 8) 8 _ hRA,
   slabs_append_only.2.2.1 _ _ exMalloc 8 _ hA,
   slabs_append_only.2.2.2.2.2.1 _ (Reachable.alloc _ _ exMalloc 8 _ Reachable.fresh hA),
   ⟨_, hFA, rfl, slabs_append_only.2.2.2.1 _ _ exMmap 1000 hFA⟩,
   ⟨_, hR, rfl, slabs_append_only.2.2.2.2.1 _ _ exMmap 1000 true hR,
     slabs_append_only.2.2.2.2.2.2 _ _ exMmap 1000 true (by unfold exLedger offsets; decide)
       (by decide) hR⟩⟩

/-! ## C33: free-space accounting -/

/-- Free-space accounting.  For every state, `Free` of a block whose size it reads
as `s` increases the sum of the row sizes of the selected ledger by exactly `s`,
in every branch (append, backward merge, forward merge, double merge), and
changes the number of rows by +1, 0 or -1.  On every state whose values are in
range and whose slab ends do not decrease, and for every request below 2^61,
`Alloc` in 64-bit arithmetic, when served from the ledger, decreases the sum of
the mutable ledger by exactly the request size, and when served by a new slab of
`newsize` bytes increases it by exactly `newsize - size`, the total size growing
by `newsize`.  In every state that a history of `Alloc` and `Free` calls reaches
from a fresh allocator, each request below 2^31, each `Free` applied to a live
block with its allocated size and the host answering with non-negative
addresses, the free bytes of the mutable ledger plus the bytes of the live
blocks equal the total size of all slabs, the sum of their spans, which is the
total size minus baseline; and after a `FreeAll` that returns, the free bytes
alone do. -/
theorem free_space_accounting :
    (∀ (a a1 : SlabAlloc) (ref : Int) (p : Mem) (s : Nat),
      Free.size a ref p = some s → Free a ref p = some a1 →
      freeBytes (Free.selected a1 ref) = freeBytes (Free.selected a ref) + s ∧
      ((Free.selected a1 ref).length = (Free.selected a ref).length + 1 ∨
        (Free.selected a1 ref).length = (Free.selected a ref).length ∨
        (Free.selected a1 ref).length + 1 = (Free.selected a ref).length)) ∧
    (∀ (a a1 : SlabAlloc) (malloc : Int → Int) (size : Nat) (r : MemRef),
      InRange a → (offsets a.m_slabs).Pairwise (· ≤ ·) → size < 2 ^ 61 →
      Alloc64 a malloc size = some (r, a1) →
      (Alloc64.reuse size a.m_freeSpace ≠ none →
        freeBytes a1.m_freeSpace = freeBytes a.m_freeSpace - size) ∧
      (Alloc64.reuse size a.m_freeSpace = none → r.pointer ≠ 0 →
        freeBytes a1.m_freeSpace =
          freeBytes a.m_freeSpace + (Alloc64.newsize a size - size) ∧
        GetTotalSize a1 = GetTotalSize a + Alloc64.newsize a size)) ∧
    (∀ (ops : List Op) (a : SlabAlloc) (live : List Block),
      (∀ op ∈ ops, op.unsigned ∧ op.small) →
      replay SlabAlloc.new [] ops = Replayed.done a live →
      freeBytes a.m_freeSpace + liveBytes live = freeBytes (slabRows a.m_baseline a.m_slabs) ∧
      freeBytes (slabRows a.m_baseline a.m_slabs) = GetTotalSize a - a.m_baseline) ∧
    (∀ (a a1 : SlabAlloc) (mmap : Int → Int) (filesize : Nat),
      FreeAll a mmap filesize = some a1 →
      freeBytes a1.m_freeSpace = freeBytes (slabRows a1.m_baseline a1.m_slabs)) := by
  refine ⟨?_, ?_, ?_, ?_⟩
  · intro a a1 ref p s hs h
    rw [Free_eq a ref p s hs] at h
    have ha := (Option.some.inj h).symm
    have hsel : Free.selected a1 ref =
        Free.merge (offsets a.m_slabs) (Free.selected a ref) ref s := by
      rw [ha]
      unfold Free.store Free.selected IsReadOnly
      by_cases hro : ref < a.m_baseline
      · simp [hro]
      · simp [hro]
    rw [hsel]
    exact Free.merge_bytes _ _ _ _
  · intro a a1 malloc size r hr hs h61 h
    rw [Alloc64_eq_Alloc a malloc size hr hs h61] at h
    rw [Alloc64.reuse_agrees size h61 a.m_freeSpace hr.rows, (Alloc64.newsize_agrees a size hr hs h61).1]
    have := Alloc_bytes a a1 malloc size r h
    refine ⟨this.1, fun hn hp => ?_⟩
    rw [GetTotalSize_eq, GetTotalSize_eq]
    exact this.2 hn hp
  · intro ops a live hu h
    have hb := replay_balanced ops SlabAlloc.new [] Balanced.initial (fun op hop => (hu op hop).1)
      a live h
    have hspan : freeBytes (slabRows a.m_baseline a.m_slabs) = GetTotalSize a - a.m_baseline := by
      rw [slabRows_bytes, GetTotalSize_eq, slabsBack_eq]
    exact ⟨by rw [hspan, GetTotalSize_eq]; exact hb.sum, hspan⟩
  · intro a a1 mmap filesize h
    obtain ⟨_, _, _, hrows, _⟩ := FreeAll_some a a1 mmap filesize h
    rw [← hrows]

/-- C33 fails on the code at a request that passes the first-fit test through the
32-bit cast and wraps `rest`.  After `Alloc(8)` on a fresh allocator the mutable
ledger is the row `(16, 248)`, 248 free bytes.  A request of 2^64 - 8 bytes
passes `r.size >= (int)size`, the cast being -8, and is served from the row:
`rest = (size_t)r.size - size` wraps to 256 and the row becomes
`(4294967304, 256)`.  The sum of the ledger rises by 8; it does not fall by the
request size. -/
theorem Alloc64_reuse_wraps :
    Alloc SlabAlloc.new exMalloc 8 = some (⟨exMalloc 256, 8⟩, exLedger [⟨16, 248⟩]) ∧
    freeBytes (exLedger [⟨16, 248⟩]).m_freeSpace = 248 ∧
    int_cast 18446744073709551608 = -8 ∧
    Alloc64 (exLedger [⟨16, 248⟩]) exMalloc 18446744073709551608 =
      some (⟨exMalloc 256 + 8, 16⟩, exLedger [⟨4294967304, 256⟩]) ∧
    freeBytes (exLedger [⟨4294967304, 256⟩]).m_freeSpace = 248 + 8 := by
  decide

/-! ## C34: maximal coalescing -/

/-- C34 fails on the code at `exAdjacentHistory`, a history of strictly positive
sizes, multiples of 8, in which each `Free` is applied to a live block with its
allocated size.  Before the last call the ledger holds `(8, 8)`,
`(2147483688, 224)` and `(2147483656, 16)`.  The request of 2^31 + 16 bytes is
compared as a negative number and is served from the 8-byte row at 8, whose ref
advances by the request to 2147483672: the row `(2147483656, 16)` now ends where
the row `(2147483672, -2147483656)` starts, and 2147483672 is not a slab end
offset (the slabs end at 264 and 2147483912). -/
theorem replay_huge_size_adjacent :
    replay SlabAlloc.new [] exAdjacentHistory =
      Replayed.done
        { SlabAlloc.new with
          m_slabs := [⟨264, exMalloc 256⟩, ⟨2147483912, exMalloc 2147483648⟩]
          m_freeSpace := [⟨2147483672, -2147483656⟩, ⟨2147483688, 224⟩, ⟨2147483656, 16⟩] }
        [(16, 248), (264, 2147483392), (2147483672, 16), (8, 2147483664)] ∧
    (2147483656 : Int) + 16 = 2147483672 ∧
    (2147483672 : Int) ∉ offsets [⟨264, exMalloc 256⟩, ⟨2147483912, exMalloc 2147483648⟩] := by
  decide

/-! ## C35: the top ref accepted at opening and the assertion of `GetTopRef` -/

/-- C35 fails on the code at two buffers that `SetSharedBuffer` accepts.  A
32-byte buffer whose slot A holds 32, the length itself, is installed with
baseline 32, and `GetTopRef` then selects 32 and trips `ref < m_baseline`.  A
32-byte buffer with slot A = 16, slot B = 40 and byte 23 = 1 is installed because
only slot A is tested, and `GetTopRef` selects slot B and trips the same
assertion. -/
theorem GetTopRef_after_open_aborts :
    (SetSharedBuffer SlabAlloc.new 65536 (exHeader 32 0 exSignature 0 0 0) 32 false =
        (true, { SlabAlloc.new with m_shared := 65536, m_baseline := 32, m_owned := false }) ∧
      GetTopRef { SlabAlloc.new with m_shared := 65536, m_baseline := 32, m_owned := false }
        (exHeader 32 0 exSignature 0 0 0) = none) ∧
    (SetSharedBuffer SlabAlloc.new 65536 (exHeader 16 40 exSignature 0 0 1) 32 false =
        (true, { SlabAlloc.new with m_shared := 65536, m_baseline := 32, m_owned := false }) ∧
      GetTopRef { SlabAlloc.new with m_shared := 65536, m_baseline := 32, m_owned := false }
        (exHeader 16 40 exSignature 0 0 1) = none) := by
  decide

/-! ## C36: the copy of `ReAlloc` -/

/-- C36 fails on the code when the new size is smaller than the old capacity.
After blocks of 16, 8 and 232 bytes are allocated at 8, 24 and 32 and the middle
one is freed, `ReAlloc(8, p, 8)` on the 16-byte block, `p` being the address of
ref 8 and the header holding capacity 16, is served the 8-byte row at ref 24; its
`memcpy` copies 16 bytes to the address of ref 24, 8 bytes more than the new
block holds, and these land on the address of ref 32, the start of the live
block `(32, 232)`. -/
theorem ReAlloc_copy_overruns :
    replay SlabAlloc.new [] exShrinkHistory =
      Replayed.done (exLedger [⟨24, 8⟩]) [(8, 16), (32, 232)] ∧
    Translate (exLedger [⟨24, 8⟩]) 8 = some (exMalloc 256) ∧
    ReAlloc (exLedger [⟨24, 8⟩]) exMalloc 8 (exMalloc 256) (capHeader 16) 8 =
      some (⟨exMalloc 256 + 16, 24⟩, exLedger [⟨8, 16⟩]) ∧
    ReAlloc.memcpy (exLedger [⟨24, 8⟩]) exMalloc (capHeader 16) 8 =
      some (exMalloc 256 + 16, 16) ∧
    Translate (exLedger [⟨24, 8⟩]) 32 = some (exMalloc 256 + 24) := by
  decide

/-! ## C37: the first-fit comparison at large sizes -/

/-- C37 fails on the code.  With the free row `(16, 248)`, a request of 2^31
bytes passes `r.size >= (int)size`, the cast being negative: the 248-byte row is
selected and becomes `(16 + 2^31, 248 - 2^31)`.  A request of 2^32 + 8 bytes is
compared as 8: the row is selected too, and `r.ref += (unsigned int)size`
advances its ref by 8 only, leaving `(24, 248 - (2^32 + 8))` and not
`(16 + 2^32 + 8, 248 - (2^32 + 8))`. -/
theorem Alloc_first_fit_truncates :
    Alloc (exLedger [⟨16, 248⟩]) exMalloc 2147483648 =
      some (⟨exMalloc 256 + 8, 16⟩, exLedger [⟨2147483664, -2147483400⟩]) ∧
    Alloc (exLedger [⟨16, 248⟩]) exMalloc 4294967304 =
      some (⟨exMalloc 256 + 8, 16⟩, exLedger [⟨24, -4294967056⟩]) := by
  decide

/-! ## C38: `Alloc` and `Translate` agree -/

/-- C38, as stated, fails on the code when the slab table lies below baseline.
After `Alloc(8)` and `Alloc(248)` on a fresh allocator the first slab, ending at
264, is fully allocated; a 24-byte buffer is then bound with `SetSharedBuffer`
and length 1000, which moves baseline to 1000.  The slab end offsets, 264 alone,
increase strictly, and `Alloc(8)` opens a second slab and returns its base with
ref 264; but 264 is below baseline, and `Translate(264)` in the state after the
call is the address `m_shared + 264` in the shared buffer. -/
theorem Alloc_Translate_agree_counterexample :
    (Alloc SlabAlloc.new exMalloc 8).bind (fun r1 =>
      (Alloc r1.2 exMalloc 248).map (fun r2 =>
        SetSharedBuffer r2.2 65536 (exHeader 16 0 exSignature 0 0 0) 1000 false)) =
      some (true, exRebound) ∧
    (offsets exRebound.m_slabs).Pairwise (· < ·) ∧
    (Alloc exRebound exMalloc 8).map (fun r => (r.1, Translate r.2 r.1.ref)) =
      some (⟨exMalloc 528, 264⟩, some (65536 + 264)) ∧
    exMalloc 528 ≠ 65536 + 264 := by
  refine ⟨by decide, by unfold exRebound offsets; decide, by decide, by decide⟩

/-- C38 (amended): for every state whose slab end offsets increase strictly and
whose total size is not below baseline, and every `Alloc` that returns a
non-null pointer, the pointer returned with the ref equals `Translate(ref)`
evaluated in the state after the call, both when the block is served from the
free ledger (the slab table is then unchanged) and when it is the first block of
a newly created slab, where it is the new slab's base: `Translate` resolves the
ref to the new slab at offset 0. -/
theorem Alloc_Translate_agree (a a1 : SlabAlloc) (malloc : Int → Int) (size : Nat) (r : MemRef)
    (hs : (offsets a.m_slabs).Pairwise (· < ·)) (hb : a.m_baseline ≤ GetTotalSize a)
    (h : Alloc a malloc size = some (r, a1)) (hp : r.pointer ≠ 0) :
    Translate a1 r.ref = some r.pointer ∧
    (a1.m_slabs = a.m_slabs ∨
      ∃ s, a1.m_slabs = a.m_slabs ++ [s] ∧ r.pointer = s.pointer ∧
        Translate.slab a1 r.ref = some (a.m_slabs.length, 0)) := by
  rw [GetTotalSize_eq] at hb
  have hn := Alloc.newsize_gt a size
  rcases Alloc_outcome a a1 malloc size r h with ⟨i, e, _, _, hr, hT, ha⟩ | ⟨_, _, hr, _⟩ |
    ⟨_, hptr, _, hr, ha⟩
  · subst ha
    refine ⟨?_, Or.inl rfl⟩
    rw [hr]
    exact hT
  · rw [hr] at hp
    exact absurd rfl hp
  · subst ha
    rw [hr, hptr]
    refine ⟨Translate_new_slab a _ _ _ hs hb (by omega), Or.inr ⟨_, rfl, rfl, ?_⟩⟩
    exact Translate.slab_new a _ _ _ hs (by omega)

/-- C38 (witness): on one 256-byte slab after baseline 8, `Alloc(8)` served from
the free row `(16, 248)` returns ref 16 with the address of offset 8 in the slab,
and `Alloc(8)` with an empty ledger opens a second slab and returns its base with
ref 264; both addresses are what `Translate` gives after the call. -/
theorem Alloc_Translate_agree_witness :
    (Translate (exLedger [⟨24, 240⟩]) 16 = some (exMalloc 256 + 8) ∧
      ((exLedger [⟨24, 240⟩]).m_slabs = (exLedger [⟨16, 248⟩]).m_slabs ∨
        ∃ s, (exLedger [⟨24, 240⟩]).m_slabs = (exLedger [⟨16, 248⟩]).m_slabs ++ [s] ∧
          exMalloc 256 + 8 = s.pointer ∧
          Translate.slab (exLedger [⟨24, 240⟩]) 16 =
            some ((exLedger [⟨16, 248⟩]).m_slabs.length, 0))) ∧
    (Translate
        { exLedger [⟨272, 520⟩] with
          m_slabs := [⟨264, exMalloc 256⟩, ⟨792, exMalloc 528⟩] } 264 = some (exMalloc 528) ∧
      (({ exLedger [⟨272, 520⟩] with
          m_slabs := [⟨264, exMalloc 256⟩, ⟨792, exMalloc 528⟩] } : SlabAlloc).m_slabs =
          (exLedger []).m_slabs ∨
        ∃ s, ({ exLedger [⟨272, 520⟩] with
            m_slabs := [⟨264, exMalloc 256⟩, ⟨792, exMalloc 528⟩] } : SlabAlloc).m_slabs =
            (exLedger []).m_slabs ++ [s] ∧
          exMalloc 528 = s.pointer ∧
          Translate.slab
            { exLedger [⟨272, 520⟩] with
              m_slabs := [⟨264, exMalloc 256⟩, ⟨792, exMalloc 528⟩] } 264 =
            some ((exLedger []).m_slabs.length, 0))) :=
  ⟨Alloc_Translate_agree (exLedger [⟨16, 248⟩]) (exLedger [⟨24, 240⟩]) exMalloc 8
      ⟨exMalloc 256 + 8, 16⟩ (by unfold exLedger offsets; decide) (by decide) (by decide)
      (by decide),
   Alloc_Translate_agree (exLedger [])
      { exLedger [⟨272, 520⟩] with m_slabs := [⟨264, exMalloc 256⟩, ⟨792, exMalloc 528⟩] }
      exMalloc 8 ⟨exMalloc 528, 264⟩ (by unfold exLedger offsets; decide) (by decide)
      (by decide) (by decide)⟩

/-! ## C39: translation commutes with the commit shift -/

/-- C39: for every state, every `filesize` above baseline that is a multiple of
8, and every ref with `old_baseline <= ref < old total size`: `Translate(ref)`
resolves to some slab `i` at some offset `o` before the call; whenever
`FreeAll(filesize)` returns, `Translate(ref + (filesize - old_baseline))`
resolves in the state it leaves to the same slab `i` at the same offset `o`, and
to the same address, and `GetTotalSize` has grown by exactly
`filesize - old_baseline`.  `FreeAll(filesize)` does return when the slab end
offsets increase strictly from baseline and the host mapping is not null. -/
theorem Translate_commutes_FreeAll (a : SlabAlloc) (mmap : Int → Int) (filesize : Nat)
    (ref : Int) (h8 : filesize % 8 = 0) (hgt : a.m_baseline < (filesize : Int))
    (hlo : a.m_baseline ≤ ref) (hhi : ref < GetTotalSize a) :
    (∃ i o, Translate.slab a ref = some (i, o)) ∧
    (∀ a1, FreeAll a mmap filesize = some a1 →
      (∀ i o, Translate.slab a ref = some (i, o) →
        Translate.slab a1 (ref + ((filesize : Int) - a.m_baseline)) = some (i, o) ∧
        (a1.m_slabs[i]?).map Slab.pointer = (a.m_slabs[i]?).map Slab.pointer) ∧
      Translate a1 (ref + ((filesize : Int) - a.m_baseline)) = Translate a ref ∧
      GetTotalSize a1 = GetTotalSize a + ((filesize : Int) - a.m_baseline)) ∧
    (Ascending a → mmap filesize ≠ 0 → ∃ a1, FreeAll a mmap filesize = some a1) := by
  refine ⟨Translate.slab_isSome a ref hhi hlo, ?_, ?_⟩
  · intro a1 h
    obtain ⟨_, _, _, _, _, hne, _, d, hb, hs⟩ := FreeAll_some a a1 mmap filesize h
    have hnr : filesize ≠ no_remap := by
      intro hc
      rw [hc] at h8
      simp [no_remap] at h8
    have hd : d = (filesize : Int) - a.m_baseline := by
      have := hne hnr
      omega
    subst hd
    refine ⟨?_, Translate_shift a a1 _ ref hb hs hlo, GetTotalSize_shift a a1 _ hb hs⟩
    intro i o hio
    refine ⟨by rw [Translate.slab_shift a a1 _ ref hb hs, hio], ?_⟩
    rw [hs, List.getElem?_map]
    cases a.m_slabs[i]? <;> rfl
  · intro hs hm
    exact FreeAll_isSome a mmap filesize hs (by omega) (Or.inr h8) (fun _ _ => hm)

/-- C39 (witness): with two 256-byte slabs ending at 264 and 520 after baseline
8, ref 300 lies in slab 1 at offset 36; after `FreeAll(1000)` baseline is 1000,
ref 1292 lies in slab 1 at offset 36 and translates to the same address, and the
total size has grown from 520 to 1512. -/
theorem Translate_commutes_FreeAll_witness :
    Translate.slab (exTwoSlabs []) 300 = some (1, 36) ∧
    (∃ a1, FreeAll (exTwoSlabs []) exMmap 1000 = some a1) ∧
    (∃ a1, FreeAll (exTwoSlabs []) exMmap 1000 = some a1 ∧
      Translate.slab a1 1292 = some (1, 36) ∧
      (a1.m_slabs[1]?).map Slab.pointer = ((exTwoSlabs []).m_slabs[1]?).map Slab.pointer ∧
      Translate a1 1292 = Translate (exTwoSlabs []) 300 ∧
      GetTotalSize a1 = 520 + 992) :=
  have hF : FreeAll (exTwoSlabs []) exMmap 1000 =
      some { exTwoSlabs [⟨1000, 256⟩, ⟨1256, 256⟩] with
        m_shared := exMmap 1000, m_baseline := 1000
        m_slabs := [⟨1256, 4096⟩, ⟨1512, 8192⟩] } := by decide
  have hT := Translate_commutes_FreeAll (exTwoSlabs []) exMmap 1000 300 (by decide) (by decide)
    (by decide) (by decide)
  ⟨by decide,
   hT.2.2 (by unfold Ascending; decide) (by decide),
   _, hF, ((hT.2.1 _ hF).1 1 36 (by decide)).1, ((hT.2.1 _ hF).1 1 36 (by decide)).2,
   (hT.2.1 _ hF).2.1, (hT.2.1 _ hF).2.2⟩

end tightdb
